import Mathlib

set_option linter.unusedSectionVars false

namespace kanec1994

section

/-!
Threaded red-black tree map (`src/Map.hpp`)

Shallow embedding of `kanec1994::Map<Key_T, Mapped_T>`.

* A node pointer is `Option Nat`; `none` is `nullptr`.
* The node store is kept field-wise: one map per field of `struct RBNode`,
  indexed by address.  `cell a` holds the key and the value objects owned by
  the node at address `a`; it is `none` while that address is not allocated,
  and every dereference checks it.
* `new RBNode()` takes the address `brk` and advances `brk`.
* Every `while` loop carries a fuel argument; running out of fuel is reported
  as `Fault.outOfFuel`, distinct from the faults of the program itself.
* The comparisons the code applies to keys (`<`, `==`, `!=`) are a parameter
  `KeyOps`; `KeyOps.std` takes them from a linear order.
-/


/-- Ways an operation can stop without a result. -/
inductive Fault where
  | nullDeref
  | outOfRange
  | assertFail
  | outOfFuel
  deriving DecidableEq

/-- A node pointer: `none` is `nullptr`. -/
abbrev Ptr := Option Nat

/-- The operators of `Key_T` used by the container. -/
structure KeyOps (K : Type) where
  lt : K → K → Bool
  eq : K → K → Bool
  ne : K → K → Bool

/-- Key operators of a linearly ordered key type. -/
def KeyOps.std (K : Type) [LinearOrder K] : KeyOps K where
  lt := fun a b => decide (a < b)
  eq := fun a b => decide (a = b)
  ne := fun a b => decide (a ≠ b)

/-- Colour constants of `RBTree`: `int black = 0, red = 1`. -/
def black : Nat := 0

/-- Colour constant `red`. -/
def red : Nat := 1

/-- Point update of a field map. -/
def upd {α : Type} (f : Nat → α) (a : Nat) (v : α) : Nat → α :=
  fun b => if b = a then v else f b

/-- The container: `struct RBNode` field maps, the allocation frontier, the
members of `RBTree` (`root`, `num_nodes`) and of `Map` (`first`, `last`,
`mapped`). -/
structure Map (K V : Type) where
  cell : Nat → Option (K × V)
  color : Nat → Nat
  parent : Nat → Ptr
  left : Nat → Ptr
  right : Nat → Ptr
  next : Nat → Ptr
  prev : Nat → Ptr
  brk : Nat
  root : Ptr
  num_nodes : Nat
  first : Ptr
  last : Ptr
  mapped : V

variable {K V : Type}

/-- The constructor `Map()` together with `RBTree(Map*)`: `root = nullptr` and
`num_nodes = 0` are set, while `first`, `last` are left as they happen to be
(`f`, `l`), and `mapped` is default-initialised (`m`). -/
def Map.ctor (f l : Ptr) (m : V) : Map K V where
  cell := fun _ => none
  color := fun _ => 0
  parent := fun _ => none
  left := fun _ => none
  right := fun _ => none
  next := fun _ => none
  prev := fun _ => none
  brk := 0
  root := none
  num_nodes := 0
  first := f
  last := l
  mapped := m

/-- Dereference a node pointer: the address of a live node. -/
def Map.node (s : Map K V) (p : Ptr) : Except Fault Nat :=
  match p with
  | none => .error .nullDeref
  | some a => if (s.cell a).isSome then .ok a else .error .nullDeref

/-- Read `*p->key`. -/
def Map.key (s : Map K V) (p : Ptr) : Except Fault K :=
  match p with
  | none => .error .nullDeref
  | some a =>
    match s.cell a with
    | some c => .ok c.1
    | none => .error .nullDeref

/-- Read `*p->value`. -/
def Map.value (s : Map K V) (p : Ptr) : Except Fault V :=
  match p with
  | none => .error .nullDeref
  | some a =>
    match s.cell a with
    | some c => .ok c.2
    | none => .error .nullDeref

/-- The test `q != nullptr && *p->key == *q->key` with `kp = *p->key`. -/
def Map.sameKey (o : KeyOps K) (s : Map K V) (kp : K) (q : Ptr) : Except Fault Bool :=
  match q with
  | none => pure false
  | some b => do
    let kq ← s.key (some b)
    pure (o.eq kp kq)

/-- The test `q != nullptr && q->color == red`. -/
def Map.isRed (s : Map K V) (q : Ptr) : Except Fault Bool :=
  match q with
  | none => pure false
  | some b => do
    let b ← s.node (some b)
    pure (s.color b == red)

/-- The part shared by both rotations, `if(*pivot->key == *root->key) ... else
...`: `swap_node` (at `sw`) takes the place of `pivot` (at `pv`) under the parent of
`pivot`, or becomes `root`. -/
def relink_parent (o : KeyOps K) (s : Map K V) (pv sw : Nat) : Except Fault (Map K V) := do
  let kp ← s.key (some pv)
  let kr ← s.key s.root
  if o.eq kp kr then
    pure { s with parent := upd s.parent sw none, root := some sw }
  else do
    let s := { s with parent := upd s.parent sw (s.parent pv) }
    let pp ← s.node (s.parent pv)
    if (← s.sameKey o kp (s.left pp)) then
      pure { s with left := upd s.left pp (some sw) }
    else
      pure { s with right := upd s.right pp (some sw) }

/-- First step of `rotate_left`: the left subtree of `swap_node` (at `sw`), if
any, becomes the right subtree of `pivot` (at `pv`). -/
def rotate_left_child (s : Map K V) (pv sw : Nat) : Except Fault (Map K V) :=
  match s.left sw with
  | some c => do
    let c ← s.node (some c)
    pure { s with right := upd s.right pv (some c), parent := upd s.parent c (some pv) }
  | none => pure { s with right := upd s.right pv none }

/-- Model of `RBTree::rotate_left(root, pivot)`. -/
def rotate_left (o : KeyOps K) (s : Map K V) (pivot : Ptr) : Except Fault (Map K V) := do
  let pv ← s.node pivot
  let sw ← s.node (s.right pv)
  let s ← rotate_left_child s pv sw
  let s ← relink_parent o s pv sw
  pure { s with parent := upd s.parent pv (some sw), left := upd s.left sw (some pv) }

/-- First step of `rotate_right`: the right subtree of `swap_node` (at `sw`), if
any, becomes the left subtree of `pivot` (at `pv`). -/
def rotate_right_child (s : Map K V) (pv sw : Nat) : Except Fault (Map K V) :=
  match s.right sw with
  | some c => do
    let c ← s.node (some c)
    pure { s with left := upd s.left pv (some c), parent := upd s.parent c (some pv) }
  | none => pure { s with left := upd s.left pv none }

/-- Model of `RBTree::rotate_right(root, pivot)`. -/
def rotate_right (o : KeyOps K) (s : Map K V) (pivot : Ptr) : Except Fault (Map K V) := do
  let pv ← s.node pivot
  let sw ← s.node (s.left pv)
  let s ← rotate_right_child s pv sw
  let s ← relink_parent o s pv sw
  pure { s with parent := upd s.parent pv (some sw), right := upd s.right sw (some pv) }

/-- The loop condition of `fix_insert`:
`*node->key != *root->key && node->color != black && node->parent->color == red`. -/
def fix_cond (o : KeyOps K) (s : Map K V) (node : Ptr) : Except Fault Bool := do
  let kn ← s.key node
  let kr ← s.key s.root
  if o.ne kn kr then
    let n ← s.node node
    if s.color n != black then
      let p ← s.node (s.parent n)
      pure (s.color p == red)
    else pure false
  else pure false

/-- The left-right case inside the loop body: when `node` is the right child of
`parent`, `rotate_left(root, parent); node = parent; parent = node->parent`.
Returns the state and the new `parent`. -/
def fix_left_inner (o : KeyOps K) (s : Map K V) (node parent : Ptr) :
    Except Fault (Map K V × Ptr) := do
  let p ← s.node parent
  let kn ← s.key node
  if (← s.sameKey o kn (s.right p)) then do
    let s ← rotate_left o s parent
    let node := parent
    let n ← s.node node
    pure (s, s.parent n)
  else pure (s, parent)

/-- The right-left case inside the loop body, mirror image of `fix_left_inner`. -/
def fix_right_inner (o : KeyOps K) (s : Map K V) (node parent : Ptr) :
    Except Fault (Map K V × Ptr) := do
  let p ← s.node parent
  let kn ← s.key node
  if (← s.sameKey o kn (s.left p)) then do
    let s ← rotate_right o s parent
    let node := parent
    let n ← s.node node
    pure (s, s.parent n)
  else pure (s, parent)

/-- The colour swap `temp_color = grand_parent->color; grand_parent->color =
parent->color; parent->color = temp_color`. -/
def swap_colors (s : Map K V) (parent grand_parent : Ptr) : Except Fault (Map K V) := do
  let g ← s.node grand_parent
  let temp_color := s.color g
  let p ← s.node parent
  let s := { s with color := upd s.color g (s.color p) }
  pure { s with color := upd s.color p temp_color }

/-- The uncle-is-black part of the loop body for a parent hanging left of the
grandparent: optional `rotate_left(parent)`, `rotate_right(grand_parent)`,
colour swap, `node = parent`. -/
def fix_left_black (o : KeyOps K) (s : Map K V) (node parent grand_parent : Ptr) :
    Except Fault (Map K V × Ptr) := do
  let (s, parent) ← fix_left_inner o s node parent
  let s ← rotate_right o s grand_parent
  let s ← swap_colors s parent grand_parent
  pure (s, parent)

/-- The uncle-is-black part of the loop body for a parent hanging right of the
grandparent. -/
def fix_right_black (o : KeyOps K) (s : Map K V) (node parent grand_parent : Ptr) :
    Except Fault (Map K V × Ptr) := do
  let (s, parent) ← fix_right_inner o s node parent
  let s ← rotate_left o s grand_parent
  let s ← swap_colors s parent grand_parent
  pure (s, parent)

/-- The uncle-is-red part of the loop body: `parent->color = black;
uncle->color = black; grand_parent->color = red; node = grand_parent`. -/
def fix_recolor (s : Map K V) (p g : Nat) (uncle grand_parent : Ptr) :
    Except Fault (Map K V × Ptr) := do
  let u ← s.node uncle
  let s := { s with color := upd s.color p black }
  let s := { s with color := upd s.color u black }
  let s := { s with color := upd s.color g red }
  pure (s, grand_parent)

/-- The case analysis of the loop body of `fix_insert` (all but the final
root test); returns the state and the new `node`. -/
def fix_cases (o : KeyOps K) (s : Map K V) (node : Ptr) : Except Fault (Map K V × Ptr) := do
  let n ← s.node node
  let parent := s.parent n
  let p ← s.node parent
  let grand_parent := s.parent p
  let g ← s.node grand_parent
  let kp ← s.key parent
  if (← s.sameKey o kp (s.left g)) then
    if (← s.isRed (s.right g)) then fix_recolor s p g (s.right g) grand_parent
    else fix_left_black o s node parent grand_parent
  else
    if (← s.isRed (s.left g)) then fix_recolor s p g (s.left g) grand_parent
    else fix_right_black o s node parent grand_parent

/-- One pass of the loop body of `fix_insert`: the case analysis, then
`if(*node->key == *root->key) node->color = black`. -/
def fix_body (o : KeyOps K) (s : Map K V) (node : Ptr) : Except Fault (Map K V × Ptr) := do
  let (s, node) ← fix_cases o s node
  let kn ← s.key node
  let kr ← s.key s.root
  if o.eq kn kr then do
    let n ← s.node node
    pure ({ s with color := upd s.color n black }, node)
  else pure (s, node)

/-- Model of `RBTree::fix_insert(root, node)`. -/
def fix_insert (o : KeyOps K) : Nat → Map K V → Ptr → Except Fault (Map K V)
  | 0, _, _ => .error .outOfFuel
  | fuel + 1, s, node => do
    if (← fix_cond o s node) then
      let (s, node) ← fix_body o s node
      fix_insert o fuel s node
    else pure s

/-- The search loop of `insert_node`: `Sum.inl c` when a node `c` with an
equivalent key is met (`return {curr, false}`), `Sum.inr curr_parent` when
`curr` became `nullptr`. -/
def insert_search (o : KeyOps K) : Nat → Map K V → K → Ptr → Ptr → Except Fault (Nat ⊕ Ptr)
  | 0, _, _, _, _ => .error .outOfFuel
  | fuel + 1, s, key, curr, curr_parent =>
    match curr with
    | none => pure (.inr curr_parent)
    | some c => do
      let kc ← s.key (some c)
      if o.lt key kc then insert_search o fuel s key (s.left c) curr
      else if o.lt kc key then insert_search o fuel s key (s.right c) curr
      else pure (.inl c)

/-- Linking `curr` under `curr_parent` and splicing it into the thread (the two
branches after the search loop of `insert_node`). -/
def insert_link (o : KeyOps K) (s : Map K V) (key : K) (curr curr_parent : Ptr) :
    Except Fault (Map K V) := do
  let cp ← s.node curr_parent
  let kcp ← s.key curr_parent
  let c ← s.node curr
  if o.lt key kcp then
    let s := { s with left := upd s.left cp curr }
    let s := { s with parent := upd s.parent c curr_parent }
    let s := { s with next := upd s.next c curr_parent }
    let s := { s with prev := upd s.prev c (s.prev cp) }
    match s.prev cp with
    | none =>
      pure { s with prev := upd s.prev cp curr, first := curr }
    | some q => do
      let q ← s.node (some q)
      let s := { s with next := upd s.next q curr }
      pure { s with prev := upd s.prev cp curr }
  else if o.lt kcp key then
    let s := { s with right := upd s.right cp curr }
    let s := { s with parent := upd s.parent c curr_parent }
    let s := { s with prev := upd s.prev c curr_parent }
    let s := { s with next := upd s.next c (s.next cp) }
    match s.next cp with
    | none =>
      pure { s with next := upd s.next cp curr, last := curr }
    | some q => do
      let q ← s.node (some q)
      let s := { s with prev := upd s.prev q curr }
      pure { s with next := upd s.next cp curr }
  else pure s

/-- The first lines of `insert_node`: `new RBNode()` at address `brk` with its
own copies of `key` and `value`, all links `nullptr`, colour `red`. -/
def Map.new_node (s : Map K V) (key : K) (value : V) : Map K V :=
  { s with
    brk := s.brk + 1
    cell := upd s.cell s.brk (some (key, value))
    left := upd s.left s.brk none
    right := upd s.right s.brk none
    parent := upd s.parent s.brk none
    next := upd s.next s.brk none
    prev := upd s.prev s.brk none
    color := upd s.color s.brk red }

/-- Model of `RBTree::insert_node(key, value)`: the returned pair and the new state. -/
def insert_node (o : KeyOps K) (fuel : Nat) (s : Map K V) (key : K) (value : V) :
    Except Fault ((Ptr × Bool) × Map K V) := do
  let a := s.brk
  let new_node : Ptr := some a
  let s := s.new_node key value
  match s.root with
  | none =>
    let s := { s with root := new_node }
    let s := { s with color := upd s.color a black }
    let s := { s with first := new_node, last := new_node }
    pure ((new_node, true), { s with num_nodes := s.num_nodes + 1 })
  | some r => do
    match (← insert_search o fuel s key (some r) none) with
    | .inl c => pure ((some c, false), s)
    | .inr curr_parent =>
      let curr := new_node
      let s ← insert_link o s key curr curr_parent
      let s ← fix_insert o fuel s curr
      pure ((new_node, true), { s with num_nodes := s.num_nodes + 1 })

/-- The search loop of `delete_node`: `(curr, curr_parent, left)` at loop exit. -/
def delete_search (o : KeyOps K) :
    Nat → Map K V → K → Ptr → Ptr → Bool → Except Fault (Ptr × Ptr × Bool)
  | 0, _, _, _, _, _ => .error .outOfFuel
  | fuel + 1, s, key, curr, curr_parent, left =>
    match curr with
    | none => pure (none, curr_parent, left)
    | some c => do
      let kc ← s.key (some c)
      if o.eq kc key then pure (some c, curr_parent, left)
      else if o.lt key kc then delete_search o fuel s key (s.left c) curr true
      else delete_search o fuel s key (s.right c) curr false

/-- Case 1 of `delete_node`: `curr` has no children. -/
def delete_leaf (s : Map K V) (curr_parent : Ptr) (left : Bool) : Except Fault (Map K V) :=
  match curr_parent with
  | none => pure { s with root := none }
  | some cp => do
    let cp ← s.node (some cp)
    if left then pure { s with left := upd s.left cp none }
    else pure { s with right := upd s.right cp none }

/-- Case 2 of `delete_node`: `curr` (at address `c`) has exactly one child. -/
def delete_one_child (s : Map K V) (c : Nat) (curr_parent : Ptr) (left : Bool) :
    Except Fault (Map K V) :=
  match curr_parent with
  | none =>
    if s.left c = none then do
      let r ← s.node (s.right c)
      let s := { s with parent := upd s.parent r none }
      pure { s with root := s.right c }
    else do
      let l ← s.node (s.left c)
      let s := { s with parent := upd s.parent l none }
      pure { s with root := s.left c }
  | some cp =>
    if s.left c = none then do
      let r ← s.node (s.right c)
      let s := { s with parent := upd s.parent r curr_parent }
      let cp ← s.node (some cp)
      if left then pure { s with left := upd s.left cp (s.right c) }
      else pure { s with right := upd s.right cp (s.right c) }
    else do
      let l ← s.node (s.left c)
      let s := { s with parent := upd s.parent l curr_parent }
      let cp ← s.node (some cp)
      if left then pure { s with left := upd s.left cp (s.left c) }
      else pure { s with right := upd s.right cp (s.left c) }

/-- The loop `while(replacement->right != nullptr) replacement = replacement->right`. -/
def rightmost : Nat → Map K V → Ptr → Except Fault Nat
  | 0, _, _ => .error .outOfFuel
  | fuel + 1, s, replacement => do
    let r ← s.node replacement
    match s.right r with
    | none => pure r
    | some q => rightmost fuel s (some q)

/-- Case 3 of `delete_node`, when the replacement (at `rp`) is not the left child
of `curr`: its left subtree is hung in its place under its parent. -/
def unhook_replacement (s : Map K V) (rp : Nat) : Except Fault (Map K V) :=
  match s.left rp with
  | some l => do
    let l ← s.node (some l)
    let s := { s with parent := upd s.parent l (s.parent rp) }
    let q ← s.node (s.parent rp)
    pure { s with right := upd s.right q (s.left rp) }
  | none => do
    let q ← s.node (s.parent rp)
    pure { s with right := upd s.right q none }

/-- Case 3 of `delete_node`, first half: the replacement (at `rp`) is unhooked
from the left subtree of `curr` (at `c`) and takes over the children of `curr`. -/
def splice_replacement (s : Map K V) (c rp : Nat) : Except Fault (Map K V) :=
  if s.parent rp != some c then do
    let s ← unhook_replacement s rp
    let s := { s with left := upd s.left rp (s.left c) }
    let s := { s with right := upd s.right rp (s.right c) }
    let l ← s.node (s.left c)
    let s := { s with parent := upd s.parent l (some rp) }
    let r ← s.node (s.right c)
    pure { s with parent := upd s.parent r (some rp) }
  else do
    let s := { s with right := upd s.right rp (s.right c) }
    let r ← s.node (s.right c)
    pure { s with parent := upd s.parent r (some rp) }

/-- Case 3 of `delete_node`, second half: the replacement (at `rp`) is hung
where `curr` (at `c`) hung. -/
def hang_replacement (s : Map K V) (c rp : Nat) (curr_parent : Ptr) (left : Bool) :
    Except Fault (Map K V) :=
  match curr_parent with
  | none =>
    let s := { s with parent := upd s.parent rp none }
    pure { s with root := some rp }
  | some cp => do
    let s := { s with parent := upd s.parent rp curr_parent }
    if left then do
      let cp ← s.node (some cp)
      pure { s with left := upd s.left cp (some rp) }
    else do
      let q ← s.node (s.parent c)
      pure { s with right := upd s.right q (some rp) }

/-- Case 3 of `delete_node`: `curr` (at address `c`) has two children; the
largest node of the left subtree is moved into its place. -/
def delete_two_children (fuel : Nat) (s : Map K V) (c : Nat) (curr_parent : Ptr)
    (left : Bool) : Except Fault (Map K V) := do
  let rp ← rightmost fuel s (s.left c)
  let s ← splice_replacement s c rp
  hang_replacement s c rp curr_parent left

/-- The thread splice at the end of `delete_node`. -/
def delete_unthread (s : Map K V) (c : Nat) : Except Fault (Map K V) :=
  if s.root = none then
    pure { s with first := none, last := none }
  else if s.prev c = none then do
    let n ← s.node (s.next c)
    let s := { s with prev := upd s.prev n none }
    pure { s with first := s.next c }
  else if s.next c = none then do
    let p ← s.node (s.prev c)
    let s := { s with next := upd s.next p none }
    pure { s with last := s.prev c }
  else do
    let n ← s.node (s.next c)
    let s := { s with prev := upd s.prev n (s.prev c) }
    let p ← s.node (s.prev c)
    pure { s with next := upd s.next p (s.next c) }

/-- The three structural cases of `delete_node` for the node `curr` (at `c`). -/
def delete_unlink (fuel : Nat) (s : Map K V) (c : Nat) (curr_parent : Ptr) (left : Bool) :
    Except Fault (Map K V) :=
  if s.left c = none ∧ s.right c = none then delete_leaf s curr_parent left
  else if s.left c = none ∨ s.right c = none then delete_one_child s c curr_parent left
  else delete_two_children fuel s c curr_parent left

/-- Model of `RBTree::delete_node(key)`: the returned flag and the new state.  The local
`left` is read only after the search loop assigned it. -/
def delete_node (o : KeyOps K) (fuel : Nat) (s : Map K V) (key : K) :
    Except Fault (Bool × Map K V) := do
  let (curr, curr_parent, left) ← delete_search o fuel s key s.root none false
  match curr with
  | none => pure (false, s)
  | some c => do
    let s ← delete_unlink fuel s c curr_parent left
    let s ← delete_unthread s c
    let c ← s.node (some c)
    let s := { s with cell := upd s.cell c none }
    pure (true, { s with num_nodes := s.num_nodes - 1 })

/-- Model of `RBTree::find_node(key)`. -/
def find_node (o : KeyOps K) : Nat → Map K V → K → Ptr → Except Fault Ptr
  | 0, _, _, _ => .error .outOfFuel
  | fuel + 1, s, key, curr =>
    match curr with
    | none => pure none
    | some c => do
      let kc ← s.key (some c)
      if o.eq kc key then pure (some c)
      else if o.lt key kc then find_node o fuel s key (s.left c)
      else find_node o fuel s key (s.right c)

/-- A `Mapped_T&`: the value object of a node, or the member `mapped`. -/
inductive Ref where
  | value (a : Nat)
  | mapped
  deriving DecidableEq

/-- Model of `RBTree::find_val(key)`. -/
def find_val (o : KeyOps K) : Nat → Map K V → K → Ptr → Except Fault Ref
  | 0, _, _, _ => .error .outOfFuel
  | fuel + 1, s, key, curr =>
    match curr with
    | none => .error .outOfRange
    | some c => do
      let kc ← s.key (some c)
      if o.eq kc key then do
        let _ ← s.value (some c)
        pure (.value c)
      else if o.lt key kc then find_val o fuel s key (s.left c)
      else find_val o fuel s key (s.right c)

/-- Read through a `Mapped_T&`. -/
def Map.read (s : Map K V) : Ref → Except Fault V
  | .value a => s.value (some a)
  | .mapped => pure s.mapped

/-- Assign through a `Mapped_T&`. -/
def Map.write (s : Map K V) (r : Ref) (v : V) : Except Fault (Map K V) :=
  match r with
  | .value a =>
    match s.cell a with
    | some c => pure { s with cell := upd s.cell a (some (c.1, v)) }
    | none => .error .nullDeref
  | .mapped => pure { s with mapped := v }

/-- Model of `Map::Iterator`: the node it stands at and its own copy `val` of that
node's pair (`nullptr` until a node was visited). -/
structure Iterator (K V : Type) where
  target : Ptr
  val : Option (K × V)

/-- Model of `Iterator(node, owned_by)`. -/
def Iterator.ctor (s : Map K V) (node : Ptr) : Except Fault (Iterator K V) :=
  match node with
  | none => pure ⟨none, none⟩
  | some a => do
    let k ← s.key (some a)
    let v ← s.value (some a)
    pure ⟨some a, some (k, v)⟩

/-- Model of `Iterator::operator++()`. -/
def Iterator.incr (s : Map K V) (it : Iterator K V) : Except Fault (Iterator K V) :=
  match it.target with
  | none => .error .assertFail
  | some a => do
    let a ← s.node (some a)
    match s.next a with
    | none => pure { it with target := none }
    | some b => do
      let k ← s.key (some b)
      let v ← s.value (some b)
      pure ⟨some b, some (k, v)⟩

/-- Model of `Iterator::operator--()`. -/
def Iterator.decr (s : Map K V) (it : Iterator K V) : Except Fault (Iterator K V) := do
  let target ← (match it.target with
    | none => pure s.last
    | some a => do
      let a ← s.node (some a)
      pure (s.prev a))
  match target with
  | none => pure { it with target := none }
  | some b => do
    let k ← s.key (some b)
    let v ← s.value (some b)
    pure ⟨some b, some (k, v)⟩

/-- Model of `Iterator::operator*()`. -/
def Iterator.deref (it : Iterator K V) : Except Fault (K × V) :=
  match it.val with
  | some kv => pure kv
  | none => .error .nullDeref

/-- Model of `Map::size()`. -/
def Map.size (s : Map K V) : Nat := s.num_nodes

/-- Model of `Map::empty()`. -/
def Map.empty (s : Map K V) : Bool := s.num_nodes == 0

/-- Model of `Map::begin()`. -/
def Map.begin (s : Map K V) : Except Fault (Iterator K V) := Iterator.ctor s s.first

/-- Model of `Map::end()`. -/
def Map.end (s : Map K V) : Except Fault (Iterator K V) := Iterator.ctor s none

/-- Model of `Map::find(key)`. -/
def Map.find (o : KeyOps K) (fuel : Nat) (s : Map K V) (key : K) :
    Except Fault (Iterator K V) := do
  let temp ← find_node o fuel s key s.root
  Iterator.ctor s temp

/-- Model of `Map::at(key)`. -/
def Map.at (o : KeyOps K) (fuel : Nat) (s : Map K V) (key : K) : Except Fault Ref :=
  find_val o fuel s key s.root

/-- Model of `Map::operator[](key)`; `dflt` is `Mapped_T()`. -/
def Map.index (o : KeyOps K) (fuel : Nat) (dflt : V) (s : Map K V) (key : K) :
    Except Fault (Ref × Map K V) := do
  let temp ← find_node o fuel s key s.root
  match temp with
  | some a => do
    let _ ← s.value (some a)
    pure (.value a, s)
  | none => pure (.mapped, { s with mapped := dflt })

/-- Model of `Map::insert(const ValueType&)`. -/
def Map.insert (o : KeyOps K) (fuel : Nat) (s : Map K V) (value : K × V) :
    Except Fault ((Iterator K V × Bool) × Map K V) := do
  let (ret, s) ← insert_node o fuel s value.1 value.2
  let it ← Iterator.ctor s ret.1
  pure ((it, ret.2), s)

/-- Model of `Map::erase(const Key_T&)`. -/
def Map.erase (o : KeyOps K) (fuel : Nat) (s : Map K V) (key : K) :
    Except Fault (Map K V) := do
  let (_, s) ← delete_node o fuel s key
  pure s

/-- Model of `Map::erase(Iterator pos)`. -/
def Map.erase_at (o : KeyOps K) (fuel : Nat) (s : Map K V) (pos : Iterator K V) :
    Except Fault (Map K V) := do
  let kv ← pos.deref
  let (_, s) ← delete_node o fuel s kv.1
  pure s

/-- Forward iteration `for(it = ...; it != end(); it++)`, collecting `*it`. -/
def Map.forward : Nat → Map K V → Iterator K V → Except Fault (List (K × V))
  | 0, _, _ => .error .outOfFuel
  | fuel + 1, s, it =>
    if it.target = none then pure []
    else do
      let kv ← it.deref
      let it ← it.incr s
      let rest ← Map.forward fuel s it
      pure (kv :: rest)

/-- The pairs met by forward iteration from `begin()`. -/
def Map.to_list (fuel : Nat) (s : Map K V) : Except Fault (List (K × V)) := do
  let it ← s.begin
  Map.forward fuel s it

/-- The nodes met by following `next` from `p` until `nullptr`. -/
def thread_walk : Nat → Map K V → Ptr → Except Fault (List Nat)
  | 0, _, _ => .error .outOfFuel
  | fuel + 1, s, p =>
    match p with
    | none => pure []
    | some a => do
      let a ← s.node (some a)
      let rest ← thread_walk fuel s (s.next a)
      pure (a :: rest)

/-- The nodes met by following `prev` from `p` until `nullptr`. -/
def thread_walk_back : Nat → Map K V → Ptr → Except Fault (List Nat)
  | 0, _, _ => .error .outOfFuel
  | fuel + 1, s, p =>
    match p with
    | none => pure []
    | some a => do
      let a ← s.node (some a)
      let rest ← thread_walk_back fuel s (s.prev a)
      pure (a :: rest)

/-- In-order walk of the tree hanging from `p`: left subtree, node, right
subtree. -/
def inorder_walk : Nat → Map K V → Ptr → Except Fault (List Nat)
  | 0, _, _ => .error .outOfFuel
  | fuel + 1, s, p =>
    match p with
    | none => pure []
    | some a => do
      let a ← s.node (some a)
      let l ← inorder_walk fuel s (s.left a)
      let r ← inorder_walk fuel s (s.right a)
      pure (l ++ a :: r)

/-- Keys of a list of nodes. -/
def Map.keys (s : Map K V) (as : List Nat) : List (Option K) :=
  as.map fun a => (s.cell a).map Prod.fst

/-- Pairs of a list of nodes. -/
def Map.pairs (s : Map K V) (as : List Nat) : List (Option (K × V)) :=
  as.map s.cell

/-- An operation of a test sequence. -/
inductive Op (K V : Type) where
  | insert (kv : K × V)
  | erase (k : K)

/-- Run one operation. -/
def Map.step (o : KeyOps K) (fuel : Nat) (s : Map K V) : Op K V → Except Fault (Map K V)
  | .insert kv => do
    let (_, s) ← s.insert o fuel kv
    pure s
  | .erase k => s.erase o fuel k

/-- Run a sequence of operations, left to right. -/
def Map.run (o : KeyOps K) (fuel : Nat) : Map K V → List (Op K V) → Except Fault (Map K V)
  | s, [] => pure s
  | s, op :: ops => do
    let s ← s.step o fuel op
    Map.run o fuel s ops

/-!
Abstract shapes

The pointer structure is described by a binary tree of addresses (`BTree`), a
one-hole context of such a tree (`Ctx`), and predicates saying that the field
maps of a state realise them.
-/


variable {K V : Type}

/-- A binary tree of node addresses. -/
inductive BTree where
  | nil
  | node (l : BTree) (a : Nat) (r : BTree)

/-- The pointer to the root of a tree. -/
def BTree.ptr : BTree → Ptr
  | .nil => none
  | .node _ a _ => some a

/-- In-order list of addresses. -/
def BTree.toList : BTree → List Nat
  | .nil => []
  | .node l a r => l.toList ++ a :: r.toList

/-- Number of nodes on the longest path from the root to an absent child. -/
def BTree.height : BTree → Nat
  | .nil => 0
  | .node l _ r => max l.height r.height + 1

/-- A path from a hole up to the root: for each ancestor its address, the
sibling subtree, and on which side the hole hangs. -/
inductive Ctx where
  | top
  | left (a : Nat) (r : BTree) (up : Ctx)
  | right (l : BTree) (a : Nat) (up : Ctx)

/-- Fill the hole. -/
def Ctx.plug : Ctx → BTree → BTree
  | .top, t => t
  | .left a r up, t => up.plug (.node t a r)
  | .right l a up, t => up.plug (.node l a t)

/-- Address of the node right above the hole. -/
def Ctx.par : Ctx → Ptr
  | .top => none
  | .left a _ _ => some a
  | .right _ a _ => some a

/-- Addresses that precede the hole in the in-order list. -/
def Ctx.before : Ctx → List Nat
  | .top => []
  | .left _ _ up => up.before
  | .right l a up => up.before ++ (l.toList ++ [a])

/-- Addresses that follow the hole in the in-order list. -/
def Ctx.after : Ctx → List Nat
  | .top => []
  | .left a r up => a :: r.toList ++ up.after
  | .right _ _ up => up.after

/-- Number of ancestors of the hole. -/
def Ctx.depth : Ctx → Nat
  | .top => 0
  | .left _ _ up => up.depth + 1
  | .right _ _ up => up.depth + 1

/-- Whether the hole is a left child. -/
def Ctx.isLeft : Ctx → Bool
  | .left _ _ _ => true
  | _ => false

/-- The fields `left`, `right`, `parent` of a state realise the tree `t`, whose
root has parent pointer `par`; all its nodes are allocated. -/
def Rep (s : Map K V) : BTree → Ptr → Prop
  | .nil, _ => True
  | .node l a r, par =>
    (s.cell a).isSome = true ∧ s.left a = l.ptr ∧ s.right a = r.ptr ∧ s.parent a = par ∧
      Rep s l (some a) ∧ Rep s r (some a)

/-- The fields of a state realise the context `c` when its hole holds the
pointer `p`; at the top the hole is `root`. -/
def RepCtx (s : Map K V) : Ctx → Ptr → Prop
  | .top, p => s.root = p
  | .left a r up, p =>
    (s.cell a).isSome = true ∧ s.left a = p ∧ s.right a = r.ptr ∧ s.parent a = up.par ∧
      Rep s r (some a) ∧ RepCtx s up (some a)
  | .right l a up, p =>
    (s.cell a).isSome = true ∧ s.left a = l.ptr ∧ s.right a = p ∧ s.parent a = up.par ∧
      Rep s l (some a) ∧ RepCtx s up (some a)

/-- The fields `prev`, `next` chain the addresses of `l` in this order; `p` is
the `prev` of the first one and `q` the `next` of the last one. -/
def Seg (s : Map K V) : Ptr → List Nat → Ptr → Prop
  | _, [], _ => True
  | p, a :: l, q => s.prev a = p ∧ s.next a = l.head?.or q ∧ Seg s (some a) l q

/-- Strict order of the keys stored at two addresses. -/
def Map.klt [LinearOrder K] (s : Map K V) (a b : Nat) : Prop :=
  ∃ ca cb, s.cell a = some ca ∧ s.cell b = some cb ∧ ca.1 < cb.1

/-- The key stored at an address. -/
def Map.keyOf (s : Map K V) (a : Nat) : Option K := (s.cell a).map Prod.fst

/-- The key stored at `a` is below `k`. -/
def Map.keyBelow [LinearOrder K] (s : Map K V) (k : K) (a : Nat) : Prop :=
  ∃ ca, s.cell a = some ca ∧ ca.1 < k

/-- The key stored at `a` is above `k`. -/
def Map.keyAbove [LinearOrder K] (s : Map K V) (k : K) (a : Nat) : Prop :=
  ∃ ca, s.cell a = some ca ∧ k < ca.1

/-- The structural links realise the tree `c.plug X`, seen as the subtree `X`
inside the context `c`, with keys strictly ascending in order. -/
structure Shape [LinearOrder K] (s : Map K V) (c : Ctx) (X : BTree) : Prop where
  ctx : RepCtx s c X.ptr
  sub : Rep s X c.par
  sorted : (c.before ++ X.toList ++ c.after).Pairwise s.klt

/-- Everything but the structural links and `root` is the same in two states. -/
structure SameRest (s s' : Map K V) : Prop where
  cell : s'.cell = s.cell
  color : s'.color = s.color
  next : s'.next = s.next
  prev : s'.prev = s.prev
  brk : s'.brk = s.brk
  num_nodes : s'.num_nodes = s.num_nodes
  first : s'.first = s.first
  last : s'.last = s.last
  mapped : s'.mapped = s.mapped

/-- Everything but the structural links, `root` and the colours is the same in
two states. -/
structure SameData (s s' : Map K V) : Prop where
  cell : s'.cell = s.cell
  next : s'.next = s.next
  prev : s'.prev = s.prev
  brk : s'.brk = s.brk
  num_nodes : s'.num_nodes = s.num_nodes
  first : s'.first = s.first
  last : s'.last = s.last
  mapped : s'.mapped = s.mapped

/-- The root node, if there is one, is black. -/
def Map.rootBlack (s : Map K V) : Prop := ∀ r, s.root = some r → s.color r = black

/-- The state after the final test of the loop body of `fix_insert`, when `x` is
the root of the subtree in the context `up`: `x` is blackened iff it is the
root of the tree. -/
def rootFix (s : Map K V) (up : Ctx) (x : Nat) : Map K V :=
  match up with
  | .top => { s with color := upd s.color x black }
  | _ => s

/-- Address of the root of the tree around a hole, if the hole is not itself
the root. -/
def Ctx.rootAddr : Ctx → Ptr
  | .top => none
  | .left a _ .top => some a
  | .right _ a .top => some a
  | .left _ _ up => up.rootAddr
  | .right _ _ up => up.rootAddr

/-- Whether a pointer leads to a red node (`nullptr` counts as not red). -/
def redPtr (s : Map K V) (t : Ptr) : Bool :=
  match t with
  | none => false
  | some u => s.color u == red

/-- The state after re-seating the parent pointer of the node `t` points to, if
any. -/
def reparent (s : Map K V) (t : Ptr) (par : Ptr) : Map K V :=
  match t with
  | none => s
  | some b => { s with parent := upd s.parent b par }

/-- The state after storing `y` in the hole of a context: in `root`, or in the
`left` or `right` field of the node above the hole. -/
def setHole (s : Map K V) (c : Ctx) (y : Ptr) : Map K V :=
  match c with
  | .top => { s with root := y }
  | .left a _ _ => { s with left := upd s.left a y }
  | .right _ a _ => { s with right := upd s.right a y }

/-- Two states have the same structural fields at every address outside `D`. -/
def Off (D : List Nat) (s s' : Map K V) : Prop :=
  ∀ x, x ∉ D → s'.cell x = s.cell x ∧ s'.left x = s.left x ∧ s'.right x = s.right x ∧
    s'.parent x = s.parent x

/-- The tree part of well-formedness: `root` and the structural links realise
`t` (BST shape with consistent parent links), the keys are strictly ascending
along the in-order list, `num_nodes` is the number of nodes, and all nodes lie
below the allocation frontier. -/
structure TreeOK [LinearOrder K] (s : Map K V) (t : BTree) : Prop where
  root : s.root = t.ptr
  rep : Rep s t none
  sorted : t.toList.Pairwise s.klt
  count : s.num_nodes = t.toList.length
  below : ∀ a ∈ t.toList, a < s.brk

/-- Threading consistency for the in-order list `l`: `first` and `last` are its
ends (both `nullptr` iff it is empty) and `next`/`prev` chain it. -/
structure ThreadOK (s : Map K V) (l : List Nat) : Prop where
  first : s.first = l.head?
  last : s.last = l.getLast?
  seg : Seg s none l none

/-- Well-formed states: BST ordering, parent-link consistency, threading
consistency and node count, for some tree shape. -/
def Map.WF [LinearOrder K] (s : Map K V) : Prop :=
  ∃ t, TreeOK s t ∧ ThreadOK s t.toList

/-- Well-formedness up to the thread of an empty map: the tree part holds, and
the thread part holds whenever the tree has a node. -/
def Map.Inv [LinearOrder K] (s : Map K V) : Prop :=
  ∃ t, TreeOK s t ∧ (t.toList ≠ [] → ThreadOK s t.toList)

/-- The map holds an entry with key `k`. -/
def Map.Has [LinearOrder K] (s : Map K V) (k : K) : Prop :=
  ∃ t, TreeOK s t ∧ ∃ a ∈ t.toList, s.keyOf a = some k

/-- The map holds the entry `(k, v)`. -/
def Map.HasPair [LinearOrder K] (s : Map K V) (k : K) (v : V) : Prop :=
  ∃ t, TreeOK s t ∧ ∃ a ∈ t.toList, s.cell a = some (k, v)

/-- States reached from a freshly constructed map by completed `insert` and
`erase` calls. -/
inductive Reachable [LinearOrder K] : Map K V → Prop where
  | ctor (f l : Ptr) (m : V) : Reachable (Map.ctor f l m)
  | insert {s s' : Map K V} {fuel : Nat} {kv : K × V} {r : Iterator K V × Bool} :
      Reachable s → s.insert (KeyOps.std K) fuel kv = .ok (r, s') → Reachable s'
  | erase {s s' : Map K V} {fuel : Nat} {k : K} :
      Reachable s → s.erase (KeyOps.std K) fuel k = .ok s' → Reachable s'

/-- Two field maps agree on the addresses of a list. -/
def Fix {α : Type} (l : List Nat) (f g : Nat → α) : Prop := ∀ a ∈ l, g a = f a

/-- Everything but the thread (`next`, `prev`, `first`, `last`) is the same in
two states. -/
structure SameTree (s s' : Map K V) : Prop where
  cell : s'.cell = s.cell
  color : s'.color = s.color
  parent : s'.parent = s.parent
  left : s'.left = s.left
  right : s'.right = s.right
  brk : s'.brk = s.brk
  root : s'.root = s.root
  num_nodes : s'.num_nodes = s.num_nodes
  mapped : s'.mapped = s.mapped

/-- The state after the node `y` took a place in the tree: its children are
`lp` and `rp`, which get `y` as parent, and it hangs in the hole of `d`. -/
def seat (s : Map K V) (d : Ctx) (lp rp : Ptr) (y : Nat) : Map K V :=
  let s := { s with left := upd s.left y lp }
  let s := { s with right := upd s.right y rp }
  let s := reparent s lp (some y)
  let s := reparent s rp (some y)
  let s := { s with parent := upd s.parent y d.par }
  setHole s d (some y)

/-- The pairs stored at a list of addresses. -/
def Map.entries (s : Map K V) (l : List Nat) : List (K × V) := l.filterMap s.cell

/-- The state after running `ops` on a map constructed with `first` and `last`
null, for concrete instances. -/
def demo (ops : List (Op Nat Nat)) : Map Nat Nat :=
  match Map.run (KeyOps.std Nat) 20 (Map.ctor none none 0) ops with
  | .ok s => s
  | .error _ => Map.ctor none none 0

/-- The operators of `Mapped_T` used by `operator==` and `operator<` of `Map`. -/
structure ValOps (V : Type) where
  lt : V → V → Bool
  ne : V → V → Bool

/-- Value operators of a linearly ordered value type. -/
def ValOps.std (V : Type) [LinearOrder V] : ValOps V where
  lt := fun a b => decide (a < b)
  ne := fun a b => decide (a ≠ b)

/-- Model of `Iterator(const Iterator &it)`, and likewise `ConstIterator(const
ConstIterator &it)`: the pair is read anew from the node `it.target`.
(`ConstIterator` has the members and operators of `Iterator` that are used
here, with the same bodies; both are modelled by `Iterator`.) -/
def Iterator.copy (s : Map K V) (it : Iterator K V) : Except Fault (Iterator K V) :=
  match it.target with
  | none => pure ⟨none, none⟩
  | some a => do
    let k ← s.key (some a)
    let v ← s.value (some a)
    pure ⟨some a, some (k, v)⟩

/-- Model of `Iterator::operator++(int)` in a statement `it++`: the copy `Iterator
it(*this)` is made, `operator++()` runs on `*this`, and the returned copy is
dropped.  The result is the new `*this`. -/
def Iterator.post_incr (s : Map K V) (it : Iterator K V) : Except Fault (Iterator K V) := do
  let _ ← Iterator.copy s it
  it.incr s

/-- Model of `Map::ReverseIterator`. -/
structure ReverseIterator (K V : Type) where
  target : Ptr
  val : Option (K × V)

/-- Model of `ReverseIterator(node, owned_by)`. -/
def ReverseIterator.ctor (s : Map K V) (node : Ptr) : Except Fault (ReverseIterator K V) :=
  match node with
  | none => pure ⟨none, none⟩
  | some a => do
    let k ← s.key (some a)
    let v ← s.value (some a)
    pure ⟨some a, some (k, v)⟩

/-- Model of `ReverseIterator::operator++()`: one step along `prev`. -/
def ReverseIterator.incr (s : Map K V) (it : ReverseIterator K V) :
    Except Fault (ReverseIterator K V) :=
  match it.target with
  | none => .error .assertFail
  | some a => do
    let a ← s.node (some a)
    match s.prev a with
    | none => pure { it with target := none }
    | some b => do
      let k ← s.key (some b)
      let v ← s.value (some b)
      pure ⟨some b, some (k, v)⟩

/-- Model of `ReverseIterator::operator*()`. -/
def ReverseIterator.deref (it : ReverseIterator K V) : Except Fault (K × V) :=
  match it.val with
  | some kv => pure kv
  | none => .error .nullDeref

/-- Model of `Map::rbegin()`. -/
def Map.rbegin (s : Map K V) : Except Fault (ReverseIterator K V) :=
  ReverseIterator.ctor s s.last

/-- Model of `Map::rend()`. -/
def Map.rend (s : Map K V) : Except Fault (ReverseIterator K V) :=
  ReverseIterator.ctor s none

/-- Reverse iteration `for(it = ...; it != rend(); ++it)`, collecting `*it`. -/
def Map.backward : Nat → Map K V → ReverseIterator K V → Except Fault (List (K × V))
  | 0, _, _ => .error .outOfFuel
  | fuel + 1, s, it =>
    if it.target = none then pure []
    else do
      let kv ← it.deref
      let it ← it.incr s
      let rest ← Map.backward fuel s it
      pure (kv :: rest)

/-- The pairs met by reverse iteration from `rbegin()`. -/
def Map.to_list_rev (fuel : Nat) (s : Map K V) : Except Fault (List (K × V)) := do
  let it ← s.rbegin
  Map.backward fuel s it

/-- Model of `RBTree::delete_map()`: `while(root != nullptr) delete_node(*root->key);`.
The first number bounds the searches inside `delete_node`, the second the
passes of the loop. -/
def delete_map (o : KeyOps K) (fuel : Nat) : Nat → Map K V → Except Fault (Map K V)
  | 0, _ => .error .outOfFuel
  | n + 1, s =>
    match s.root with
    | none => pure s
    | some r => do
      let k ← s.key (some r)
      let (_, s) ← delete_node o fuel s k
      delete_map o fuel n s

/-- Model of `Map::clear()`. -/
def Map.clear (o : KeyOps K) (fuel n : Nat) (s : Map K V) : Except Fault (Map K V) :=
  delete_map o fuel n s

/-- The loop of `Map::operator==`: `for(; iter != this->end(); iter++)` with
the body comparing `(*iter).second != (*iter2).second`; the value after the
loop is `true`. -/
def eq_loop (vo : ValOps V) : Nat → Map K V → Map K V → Iterator K V → Iterator K V →
    Except Fault Bool
  | 0, _, _, _, _ => .error .outOfFuel
  | fuel + 1, a, b, iter, iter2 => do
    let e ← a.end
    if iter.target = e.target then pure true
    else do
      let x ← iter.deref
      let y ← iter2.deref
      if vo.ne x.2 y.2 then pure false
      else do
        let iter2 ← iter2.post_incr b
        let iter ← iter.post_incr a
        eq_loop vo fuel a b iter iter2

/-- Model of `Map::operator==(const Map &Map2)`, with `a` for `*this` and `b` for
`Map2`.  Both `begin()` calls come before the comparison of the sizes. -/
def Map.eq (vo : ValOps V) (fuel : Nat) (a b : Map K V) : Except Fault Bool := do
  let iter ← a.begin
  let iter2 ← b.begin
  if a.size = b.size then eq_loop vo fuel a b iter iter2
  else pure false

/-- Model of `Map::operator!=(const Map &Map2)`. -/
def Map.ne (vo : ValOps V) (fuel : Nat) (a b : Map K V) : Except Fault Bool := do
  let r ← Map.eq vo fuel a b
  pure (!r)

/-- The loop in the first and in the third branch of `Map::operator<`:
`for(; iter != this->end(); iter++)`, the body comparing the values at `iter`
and `iter2` and then stepping `iter2`; `after` is the value returned after the
loop (`true` in the first branch, `false` in the third). -/
def lt_loop (vo : ValOps V) (after : Bool) : Nat → Map K V → Map K V → Iterator K V →
    Iterator K V → Except Fault Bool
  | 0, _, _, _, _ => .error .outOfFuel
  | fuel + 1, a, b, iter, iter2 => do
    let e ← a.end
    if iter.target = e.target then pure after
    else do
      let x ← iter.deref
      let y ← iter2.deref
      if vo.lt x.2 y.2 then pure true
      else if vo.lt y.2 x.2 then pure false
      else do
        let iter2 ← iter2.post_incr b
        let iter ← iter.post_incr a
        lt_loop vo after fuel a b iter iter2

/-- The loop in the second branch of `Map::operator<`: `for(; iter2 !=
Map2.end(); iter2++)`, the body stepping `iter`; the value after the loop is
`false`. -/
def lt_loop2 (vo : ValOps V) : Nat → Map K V → Map K V → Iterator K V → Iterator K V →
    Except Fault Bool
  | 0, _, _, _, _ => .error .outOfFuel
  | fuel + 1, a, b, iter, iter2 => do
    let e ← b.end
    if iter2.target = e.target then pure false
    else do
      let x ← iter.deref
      let y ← iter2.deref
      if vo.lt x.2 y.2 then pure true
      else if vo.lt y.2 x.2 then pure false
      else do
        let iter ← iter.post_incr a
        let iter2 ← iter2.post_incr b
        lt_loop2 vo fuel a b iter iter2

/-- Model of `Map::operator<(const Map &Map2)`, with `a` for `*this` and `b` for
`Map2`. -/
def Map.lt (vo : ValOps V) (fuel : Nat) (a b : Map K V) : Except Fault Bool := do
  let iter ← a.begin
  let iter2 ← b.begin
  if a.size < b.size then lt_loop vo true fuel a b iter iter2
  else if b.size < a.size then lt_loop2 vo fuel a b iter iter2
  else lt_loop vo false fuel a b iter iter2

/-- The loop of `Map::insert(IT_T range_beg, IT_T range_end)`:
`for(; it != range_end; it++) Curr_Map.insert_node((*it).first, (*it).second);`.
The iterators walk nodes of the store of `s`. -/
def insert_range_loop (o : KeyOps K) (fuel : Nat) : Nat → Map K V → Iterator K V →
    Iterator K V → Except Fault (Map K V)
  | 0, _, _, _ => .error .outOfFuel
  | n + 1, s, it, range_end =>
    if it.target = range_end.target then pure s
    else do
      let kv ← it.deref
      let (_, s) ← insert_node o fuel s kv.1 kv.2
      let it ← it.post_incr s
      insert_range_loop o fuel n s it range_end

/-- Model of `Map::insert(IT_T range_beg, IT_T range_end)`; the two arguments are passed
by value, and `IT_T it(range_beg)` is one more copy. -/
def Map.insert_range (o : KeyOps K) (fuel n : Nat) (s : Map K V)
    (range_beg range_end : Iterator K V) : Except Fault (Map K V) := do
  let range_beg ← Iterator.copy s range_beg
  let range_end ← Iterator.copy s range_end
  let it ← Iterator.copy s range_beg
  insert_range_loop o fuel n s it range_end

/-- The object `m` seen in the store `h`: the node fields and the allocation
frontier of `h` with the members `root`, `num_nodes`, `first`, `last`, `mapped`
of `m`.  Two `Map` objects of one program share the store and differ in their
members. -/
def Map.within (m h : Map K V) : Map K V :=
  { h with root := m.root, num_nodes := m.num_nodes, first := m.first, last := m.last,
           mapped := m.mapped }

/-- Model of `Map(const Map &Map2)`.  The new object is built in the store of `Map2`; as
for `Map()`, `RBTree(Map*)` sets `root = nullptr` and `num_nodes = 0`, while
`first`, `last` start as they happen to be (`f`, `l`) and `mapped` is
default-initialised (`m`). -/
def Map.copy_ctor (o : KeyOps K) (fuel n : Nat) (f l : Ptr) (m : V) (Map2 : Map K V) :
    Except Fault (Map K V) := do
  let it ← Map2.begin
  let it2 ← Map2.end
  let c : Map K V :=
    { Map2 with root := none, num_nodes := 0, first := f, last := l, mapped := m }
  c.insert_range o fuel n it it2

/-- The loop of `Map(std::initializer_list)`: `for(auto element : values)
insert(element);`. -/
def init_list_loop (o : KeyOps K) (fuel : Nat) : Map K V → List (K × V) →
    Except Fault (Map K V)
  | s, [] => pure s
  | s, element :: values => do
    let (_, s) ← s.insert o fuel element
    init_list_loop o fuel s values

/-- Model of `Map(std::initializer_list<std::pair<const Key_T, Mapped_T>> values)`: the
members start as for `Map()`. -/
def Map.init_list (o : KeyOps K) (fuel : Nat) (f l : Ptr) (m : V) (values : List (K × V)) :
    Except Fault (Map K V) :=
  init_list_loop o fuel (Map.ctor f l m) values

/-- States reached from a newly constructed map by completed `insert` and
`erase` calls of which at least one is an `insert`. -/
inductive Inserted [LinearOrder K] : Map K V → Prop where
  | first {s s' : Map K V} {fuel : Nat} {kv : K × V} {r : Iterator K V × Bool} :
      Reachable s → s.insert (KeyOps.std K) fuel kv = .ok (r, s') → Inserted s'
  | insert {s s' : Map K V} {fuel : Nat} {kv : K × V} {r : Iterator K V × Bool} :
      Inserted s → s.insert (KeyOps.std K) fuel kv = .ok (r, s') → Inserted s'
  | erase {s s' : Map K V} {fuel : Nat} {k : K} :
      Inserted s → s.erase (KeyOps.std K) fuel k = .ok s' → Inserted s'

/-- Lexicographic less-than of two sequences under the element test `lt`: the
first position where one element is less than the other decides; a proper
prefix is less; equal sequences are not less. -/
def lexLt {α : Type} (lt : α → α → Bool) : List α → List α → Bool
  | [], [] => false
  | [], _ :: _ => true
  | _ :: _, [] => false
  | x :: xs, y :: ys => if lt x y then true else if lt y x then false else lexLt lt xs ys

/-- The iterator stands at the first node of `l`, or past the end if `l` is
empty, and holds the pair of that node. -/
def Iterator.At (s : Map K V) (it : Iterator K V) (l : List Nat) : Prop :=
  it.target = l.head? ∧ ∀ x, l.head? = some x → it.val = s.cell x

/-- The reverse iterator stands at the last node of `l`, or past the end if `l`
is empty, and holds the pair of that node. -/
def ReverseIterator.At (s : Map K V) (it : ReverseIterator K V) (l : List Nat) : Prop :=
  it.target = l.getLast? ∧ ∀ x, l.getLast? = some x → it.val = s.cell x

/-- Key operators of a key type on the natural numbers whose `<` compares the
tens only (a strict weak order: `10` and `11` are equivalent under it), while
its `==` and `!=` compare the whole numbers. -/
def tensOps : KeyOps Nat where
  lt := fun a b => decide (a / 10 < b / 10)
  eq := fun a b => decide (a = b)
  ne := fun a b => decide (a ≠ b)

/-- The root of the tree is not a red node (an absent child is not red). -/
def BTree.notRed (col : Nat → Nat) : BTree → Prop
  | .nil => True
  | .node _ a _ => col a ≠ red

/-- No red node of the tree has a red child. -/
def BTree.noRedRed (col : Nat → Nat) : BTree → Prop
  | .nil => True
  | .node l a r =>
    (col a = red → l.notRed col ∧ r.notRed col) ∧ l.noRedRed col ∧ r.noRedRed col

/-- The numbers of black nodes on the paths from the root of the tree to an
absent child, one entry for each such path. -/
def BTree.blackCounts (col : Nat → Nat) : BTree → List Nat
  | .nil => [0]
  | .node l a r =>
    (l.blackCounts col ++ r.blackCounts col).map fun n => if col a = black then n + 1 else n

/-- Red-black colouring with black height `n`: every node is black or red, no
red node has a red child, and every path from the root to an absent child has
`n` black nodes. -/
def RB (col : Nat → Nat) : BTree → Nat → Prop
  | .nil, n => n = 0
  | .node l a r, n =>
    (col a = black ∧ ∃ m, n = m + 1 ∧ RB col l m ∧ RB col r m) ∨
    (col a = red ∧ l.notRed col ∧ r.notRed col ∧ RB col l n ∧ RB col r n)

/-- The node right above the hole, if any, is black. -/
def Ctx.parBlack (col : Nat → Nat) : Ctx → Prop
  | .top => True
  | .left a _ _ => col a = black
  | .right _ a _ => col a = black

/-- Red-black colouring of a context whose hole takes a subtree of black height
`n` with a root that is not red: the sibling subtrees are coloured with the
matching black heights, and a red ancestor has a black parent and no red
child beside the hole. -/
def CtxRB (col : Nat → Nat) : Ctx → Nat → Prop
  | .top, _ => True
  | .left a r up, n =>
    RB col r n ∧ ((col a = black ∧ CtxRB col up (n + 1)) ∨
      (col a = red ∧ r.notRed col ∧ up.parBlack col ∧ CtxRB col up n))
  | .right l a up, n =>
    RB col l n ∧ ((col a = black ∧ CtxRB col up (n + 1)) ∨
      (col a = red ∧ l.notRed col ∧ up.parBlack col ∧ CtxRB col up n))

/-- Every field of every node outside `D` is the same in two states. -/
def Frame (D : List Nat) (s s' : Map K V) : Prop :=
  ∀ x, x ∉ D → s'.cell x = s.cell x ∧ s'.color x = s.color x ∧ s'.parent x = s.parent x ∧
    s'.left x = s.left x ∧ s'.right x = s.right x ∧ s'.next x = s.next x ∧
    s'.prev x = s.prev x

/-- Every field of every node below the address `b` is the same in two
states. -/
def SameBelow (b : Nat) (s s' : Map K V) : Prop :=
  ∀ x, x < b → s'.cell x = s.cell x ∧ s'.color x = s.color x ∧ s'.parent x = s.parent x ∧
    s'.left x = s.left x ∧ s'.right x = s.right x ∧ s'.next x = s.next x ∧
    s'.prev x = s.prev x

/-- Model of `ReverseIterator::operator--()`: from the `rend` sentinel to `owner->first`,
otherwise one step along `next`; the pair is read anew when a node is reached. -/
def ReverseIterator.decr (s : Map K V) (it : ReverseIterator K V) :
    Except Fault (ReverseIterator K V) := do
  let target ← (match it.target with
    | none => pure s.first
    | some a => do
      let a ← s.node (some a)
      pure (s.next a))
  match target with
  | none => pure { it with target := none }
  | some b => do
    let k ← s.key (some b)
    let v ← s.value (some b)
    pure ⟨some b, some (k, v)⟩

/-- The statement `(*it).second = v`: `operator*` returns a reference to the
pair `*val` that the iterator allocated for itself, and the assignment writes
the second member of that pair. -/
def Iterator.assign (it : Iterator K V) (v : V) : Except Fault (Iterator K V) :=
  match it.val with
  | some kv => pure { it with val := some (kv.1, v) }
  | none => .error .nullDeref

/-- Spec-side measure, not a function of the source: the number of nodes on the
longest path that follows `left`/`right` from `p` down to an absent child. -/
def height_walk : Nat → Map K V → Ptr → Except Fault Nat
  | 0, _, _ => .error .outOfFuel
  | fuel + 1, s, p =>
    match p with
    | none => pure 0
    | some a => do
      let a ← s.node (some a)
      let l ← height_walk fuel s (s.left a)
      let r ← height_walk fuel s (s.right a)
      pure (max l r + 1)

end

/-! Theorems -/

section

variable {K V : Type}

/-! ### Field maps -/

theorem upd_same {α : Type} (f : Nat → α) (a : Nat) (v : α) : upd f a v a = v := by
  simp [upd]

theorem upd_ne {α : Type} (f : Nat → α) {a b : Nat} (v : α) (h : b ≠ a) : upd f a v b = f b := by
  simp [upd, h]

theorem Fix.rfl {α : Type} {l : List Nat} {f : Nat → α} : Fix l f f := fun _ _ => Eq.refl _

theorem Fix.upd {α : Type} {l : List Nat} {f g : Nat → α} {x : Nat} {v : α}
    (h : Fix l f g) (hx : x ∉ l) : Fix l f (upd g x v) := by
  intro a ha
  have : a ≠ x := fun e => hx (e ▸ ha)
  rw [upd_ne _ _ this]
  exact h a ha

theorem Fix.mono {α : Type} {l l' : List Nat} {f g : Nat → α}
    (h : Fix l f g) (hl : ∀ a ∈ l', a ∈ l) : Fix l' f g :=
  fun a ha => h a (hl a ha)

theorem Fix.trans_fix {α : Type} {l : List Nat} {f g k : Nat → α}
    (h1 : Fix l f g) (h2 : Fix l g k) : Fix l f k :=
  fun a ha => (h2 a ha).trans (h1 a ha)

/-! ### Trees and contexts -/

@[simp] theorem BTree.toList_nil : BTree.nil.toList = [] := rfl

@[simp] theorem BTree.toList_node (l : BTree) (a : Nat) (r : BTree) :
    (BTree.node l a r).toList = l.toList ++ a :: r.toList := rfl

@[simp] theorem BTree.ptr_nil : BTree.nil.ptr = none := rfl

@[simp] theorem BTree.ptr_node (l : BTree) (a : Nat) (r : BTree) :
    (BTree.node l a r).ptr = some a := rfl

theorem BTree.ptr_eq_none {t : BTree} : t.ptr = none ↔ t = .nil := by
  cases t <;> simp

theorem BTree.ptr_eq_some {t : BTree} {a : Nat} :
    t.ptr = some a ↔ ∃ l r, t = .node l a r := by
  cases t <;> simp

theorem BTree.ptr_mem {t : BTree} {a : Nat} (h : t.ptr = some a) : a ∈ t.toList := by
  obtain ⟨l, r, rfl⟩ := BTree.ptr_eq_some.1 h
  simp

theorem BTree.length_le_height (t : BTree) : t.height ≤ t.toList.length := by
  induction t with
  | nil => simp [BTree.height]
  | node l a r ihl ihr =>
    simp only [BTree.height, BTree.toList_node, List.length_append, List.length_cons]
    omega

theorem Ctx.toList_plug (c : Ctx) (t : BTree) :
    (c.plug t).toList = c.before ++ t.toList ++ c.after := by
  induction c generalizing t with
  | top => simp [Ctx.plug, Ctx.before, Ctx.after]
  | left a r up ih => simp [Ctx.plug, Ctx.before, Ctx.after, ih]
  | right l a up ih => simp [Ctx.plug, Ctx.before, Ctx.after, ih]

theorem Ctx.plug_ptr_top (t : BTree) : (Ctx.top.plug t).ptr = t.ptr := rfl

/-! ### Frame rules -/

theorem Rep.frame {s s' : Map K V} {t : BTree} {par : Ptr} (h : Rep s t par)
    (hc : Fix t.toList s.cell s'.cell) (hl : Fix t.toList s.left s'.left)
    (hr : Fix t.toList s.right s'.right) (hp : Fix t.toList s.parent s'.parent) :
    Rep s' t par := by
  induction t generalizing par with
  | nil => trivial
  | node l a r ihl ihr =>
    obtain ⟨h1, h2, h3, h4, h5, h6⟩ := h
    have ha : a ∈ (BTree.node l a r).toList := by simp
    have hsub1 : ∀ x ∈ l.toList, x ∈ (BTree.node l a r).toList := by
      intro x hx; simp [hx]
    have hsub2 : ∀ x ∈ r.toList, x ∈ (BTree.node l a r).toList := by
      intro x hx; simp [hx]
    refine ⟨?_, ?_, ?_, ?_, ?_, ?_⟩
    · rw [hc a ha]; exact h1
    · rw [hl a ha]; exact h2
    · rw [hr a ha]; exact h3
    · rw [hp a ha]; exact h4
    · exact ihl h5 (hc.mono hsub1) (hl.mono hsub1) (hr.mono hsub1) (hp.mono hsub1)
    · exact ihr h6 (hc.mono hsub2) (hl.mono hsub2) (hr.mono hsub2) (hp.mono hsub2)

theorem RepCtx.frame_ctx {s s' : Map K V} {c : Ctx} {p : Ptr} (h : RepCtx s c p)
    (hroot : s'.root = s.root)
    (hc : Fix (c.before ++ c.after) s.cell s'.cell)
    (hl : Fix (c.before ++ c.after) s.left s'.left)
    (hr : Fix (c.before ++ c.after) s.right s'.right)
    (hp : Fix (c.before ++ c.after) s.parent s'.parent) :
    RepCtx s' c p := by
  induction c generalizing p with
  | top => simpa [RepCtx, hroot] using h
  | left a r up ih =>
    obtain ⟨h1, h2, h3, h4, h5, h6⟩ := h
    have ha : a ∈ (Ctx.left a r up).before ++ (Ctx.left a r up).after := by
      simp [Ctx.before, Ctx.after]
    have hsub1 : ∀ x ∈ r.toList, x ∈ (Ctx.left a r up).before ++ (Ctx.left a r up).after := by
      intro x hx; simp [Ctx.before, Ctx.after, hx]
    have hsub2 : ∀ x ∈ up.before ++ up.after,
        x ∈ (Ctx.left a r up).before ++ (Ctx.left a r up).after := by
      intro x hx
      simp only [List.mem_append] at hx
      rcases hx with hx | hx <;> simp [Ctx.before, Ctx.after, hx]
    refine ⟨?_, ?_, ?_, ?_, ?_, ?_⟩
    · rw [hc a ha]; exact h1
    · rw [hl a ha]; exact h2
    · rw [hr a ha]; exact h3
    · rw [hp a ha]; exact h4
    · exact h5.frame (hc.mono hsub1) (hl.mono hsub1) (hr.mono hsub1) (hp.mono hsub1)
    · exact ih h6 (hc.mono hsub2) (hl.mono hsub2) (hr.mono hsub2) (hp.mono hsub2)
  | right l a up ih =>
    obtain ⟨h1, h2, h3, h4, h5, h6⟩ := h
    have ha : a ∈ (Ctx.right l a up).before ++ (Ctx.right l a up).after := by
      simp [Ctx.before, Ctx.after]
    have hsub1 : ∀ x ∈ l.toList, x ∈ (Ctx.right l a up).before ++ (Ctx.right l a up).after := by
      intro x hx; simp [Ctx.before, Ctx.after, hx]
    have hsub2 : ∀ x ∈ up.before ++ up.after,
        x ∈ (Ctx.right l a up).before ++ (Ctx.right l a up).after := by
      intro x hx
      simp only [List.mem_append] at hx
      rcases hx with hx | hx <;> simp [Ctx.before, Ctx.after, hx]
    refine ⟨?_, ?_, ?_, ?_, ?_, ?_⟩
    · rw [hc a ha]; exact h1
    · rw [hl a ha]; exact h2
    · rw [hr a ha]; exact h3
    · rw [hp a ha]; exact h4
    · exact h5.frame (hc.mono hsub1) (hl.mono hsub1) (hr.mono hsub1) (hp.mono hsub1)
    · exact ih h6 (hc.mono hsub2) (hl.mono hsub2) (hr.mono hsub2) (hp.mono hsub2)

/-- Plugging a tree into a context is realised exactly when both parts are. -/
theorem rep_plug {s : Map K V} (c : Ctx) (t : BTree) :
    (s.root = (c.plug t).ptr ∧ Rep s (c.plug t) none) ↔ (RepCtx s c t.ptr ∧ Rep s t c.par) := by
  induction c generalizing t with
  | top => simp [Ctx.plug, RepCtx, Ctx.par]
  | left a r up ih =>
    rw [Ctx.plug, ih]
    simp only [RepCtx, Rep, BTree.ptr_node, Ctx.par]
    tauto
  | right l a up ih =>
    rw [Ctx.plug, ih]
    simp only [RepCtx, Rep, BTree.ptr_node, Ctx.par]
    tauto

end

section

variable {K V : Type} [LinearOrder K]

theorem klt_irrefl (s : Map K V) (a : Nat) : ¬ s.klt a a := by
  rintro ⟨ca, cb, h1, h2, h3⟩
  rw [h1] at h2
  cases h2
  exact lt_irrefl _ h3

theorem Pairwise_klt_nodup {s : Map K V} {l : List Nat} (h : l.Pairwise s.klt) : l.Nodup := by
  refine List.Pairwise.imp ?_ h
  intro a b hab e
  subst e
  exact klt_irrefl s a hab

theorem klt_total_of_mem {s : Map K V} {l : List Nat} (h : l.Pairwise s.klt) {a b : Nat}
    (ha : a ∈ l) (hb : b ∈ l) (hne : a ≠ b) : s.klt a b ∨ s.klt b a := by
  have key := List.Pairwise.forall_of_forall (R := fun x y => x ≠ y → s.klt x y ∨ s.klt y x)
    (fun x y h hxy => (h (Ne.symm hxy)).symm) (fun x _ hxx => absurd rfl hxx)
    (h.imp fun h _ => Or.inl h)
  exact key ha hb hne

/-- Distinct nodes of a sorted list carry distinct keys. -/
theorem key_inj {s : Map K V} {l : List Nat} (h : l.Pairwise s.klt) {a b : Nat}
    (ha : a ∈ l) (hb : b ∈ l) {ka kb : K × V} (hka : s.cell a = some ka)
    (hkb : s.cell b = some kb) (hk : ka.1 = kb.1) : a = b := by
  by_contra hne
  rcases klt_total_of_mem h ha hb hne with ⟨x, y, hx, hy, hlt⟩ | ⟨x, y, hx, hy, hlt⟩
  · rw [hka] at hx; rw [hkb] at hy; cases hx; cases hy
    rw [hk] at hlt; exact lt_irrefl _ hlt
  · rw [hkb] at hx; rw [hka] at hy; cases hx; cases hy
    rw [hk] at hlt; exact lt_irrefl _ hlt

end

section

variable {K V : Type}

/-! ### Running the monad -/

@[simp] theorem ok_bind {α β : Type} (a : α) (f : α → Except Fault β) :
    (Except.ok a >>= f) = f a := rfl

@[simp] theorem error_bind {α β : Type} (e : Fault) (f : α → Except Fault β) :
    ((Except.error e : Except Fault α) >>= f) = Except.error e := rfl

@[simp] theorem pure_eq_ok {α : Type} (a : α) : (pure a : Except Fault α) = Except.ok a := rfl

theorem Map.node_live {s : Map K V} {a : Nat} (h : (s.cell a).isSome = true) :
    s.node (some a) = .ok a := by
  simp [Map.node, h]

theorem Map.key_cell {s : Map K V} {a : Nat} {c : K × V} (h : s.cell a = some c) :
    s.key (some a) = .ok c.1 := by
  simp [Map.key, h]

theorem Map.value_cell {s : Map K V} {a : Nat} {c : K × V} (h : s.cell a = some c) :
    s.value (some a) = .ok c.2 := by
  simp [Map.value, h]

/-! ### Disjointness from `Nodup` by counting -/

theorem nd_split {L : List Nat} (hnd : L.Nodup) {A B : List Nat}
    (h : ∀ x, List.count x A + List.count x B ≤ List.count x L) : ∀ x ∈ A, x ∉ B := by
  intro x h1 h2
  have h0 := List.nodup_iff_count_le_one.1 hnd x
  have h1' := List.count_pos_iff.2 h1
  have h2' := List.count_pos_iff.2 h2
  have h3 := h x
  omega

theorem nd_sub {L : List Nat} (hnd : L.Nodup) {A : List Nat}
    (h : ∀ x, List.count x A ≤ List.count x L) : A.Nodup := by
  refine List.nodup_iff_count_le_one.2 fun x => ?_
  have h0 := List.nodup_iff_count_le_one.1 hnd x
  have h3 := h x
  omega

theorem BTree.count_ptr_le (t : BTree) (x : Nat) :
    List.count x t.ptr.toList ≤ List.count x t.toList := by
  cases t with
  | nil => simp
  | node l a r =>
    simp only [BTree.ptr_node, Option.toList_some, BTree.toList_node, List.count_append,
      List.count_cons, List.count_nil]
    omega

theorem Ctx.count_par_le (c : Ctx) (x : Nat) :
    List.count x c.par.toList ≤ List.count x c.before + List.count x c.after := by
  cases c with
  | top => simp [Ctx.par]
  | left a r up =>
    simp only [Ctx.par, Option.toList_some, Ctx.after, Ctx.before, List.count_append,
      List.count_cons, List.count_nil]
    omega
  | right l a up =>
    simp only [Ctx.par, Option.toList_some, Ctx.after, Ctx.before, List.count_append,
      List.count_cons, List.count_nil]
    omega

/-! ### Frames by a set of touched addresses -/

theorem Off.refl_off (D : List Nat) (s : Map K V) : Off D s s :=
  fun _ _ => ⟨rfl, rfl, rfl, rfl⟩

theorem Off.trans_off {D : List Nat} {s1 s2 s3 : Map K V} (h1 : Off D s1 s2) (h2 : Off D s2 s3) :
    Off D s1 s3 := by
  intro x hx
  obtain ⟨a1, a2, a3, a4⟩ := h1 x hx
  obtain ⟨b1, b2, b3, b4⟩ := h2 x hx
  exact ⟨b1.trans a1, b2.trans a2, b3.trans a3, b4.trans a4⟩

theorem Off.mono_off {D D' : List Nat} {s s' : Map K V} (h : Off D s s') (hD : ∀ x ∈ D, x ∈ D') :
    Off D' s s' :=
  fun x hx => h x fun hxD => hx (hD x hxD)

theorem Rep.off {s s' : Map K V} {t : BTree} {par : Ptr} {D : List Nat} (h : Rep s t par)
    (hoff : Off D s s') (hd : ∀ x ∈ t.toList, x ∉ D) : Rep s' t par := by
  refine h.frame ?_ ?_ ?_ ?_
  · exact fun x hx => (hoff x (hd x hx)).1
  · exact fun x hx => (hoff x (hd x hx)).2.1
  · exact fun x hx => (hoff x (hd x hx)).2.2.1
  · exact fun x hx => (hoff x (hd x hx)).2.2.2

theorem RepCtx.off_ctx {s s' : Map K V} {c : Ctx} {p : Ptr} {D : List Nat} (h : RepCtx s c p)
    (hroot : s'.root = s.root) (hoff : Off D s s')
    (hd : ∀ x ∈ c.before ++ c.after, x ∉ D) : RepCtx s' c p := by
  refine h.frame_ctx hroot ?_ ?_ ?_ ?_
  · exact fun x hx => (hoff x (hd x hx)).1
  · exact fun x hx => (hoff x (hd x hx)).2.1
  · exact fun x hx => (hoff x (hd x hx)).2.2.1
  · exact fun x hx => (hoff x (hd x hx)).2.2.2

/-! ### `reparent` -/

@[simp] theorem reparent_cell (s : Map K V) (t par : Ptr) : (reparent s t par).cell = s.cell := by
  cases t <;> rfl

@[simp] theorem reparent_left (s : Map K V) (t par : Ptr) : (reparent s t par).left = s.left := by
  cases t <;> rfl

@[simp] theorem reparent_right (s : Map K V) (t par : Ptr) :
    (reparent s t par).right = s.right := by
  cases t <;> rfl

@[simp] theorem reparent_root (s : Map K V) (t par : Ptr) : (reparent s t par).root = s.root := by
  cases t <;> rfl

@[simp] theorem reparent_color (s : Map K V) (t par : Ptr) :
    (reparent s t par).color = s.color := by
  cases t <;> rfl

@[simp] theorem reparent_next (s : Map K V) (t par : Ptr) : (reparent s t par).next = s.next := by
  cases t <;> rfl

@[simp] theorem reparent_prev (s : Map K V) (t par : Ptr) : (reparent s t par).prev = s.prev := by
  cases t <;> rfl

@[simp] theorem reparent_brk (s : Map K V) (t par : Ptr) : (reparent s t par).brk = s.brk := by
  cases t <;> rfl

@[simp] theorem reparent_num_nodes (s : Map K V) (t par : Ptr) :
    (reparent s t par).num_nodes = s.num_nodes := by
  cases t <;> rfl

@[simp] theorem reparent_first (s : Map K V) (t par : Ptr) :
    (reparent s t par).first = s.first := by
  cases t <;> rfl

@[simp] theorem reparent_last (s : Map K V) (t par : Ptr) : (reparent s t par).last = s.last := by
  cases t <;> rfl

@[simp] theorem reparent_mapped (s : Map K V) (t par : Ptr) :
    (reparent s t par).mapped = s.mapped := by
  cases t <;> rfl

theorem reparent_parent_ne (s : Map K V) {t : Ptr} (par : Ptr) {x : Nat} (h : t ≠ some x) :
    (reparent s t par).parent x = s.parent x := by
  cases t with
  | none => rfl
  | some b =>
    have : x ≠ b := fun e => h (by rw [e])
    simp [reparent, upd, this]

theorem reparent_off (s : Map K V) (t par : Ptr) : Off t.toList s (reparent s t par) := by
  intro x hx
  refine ⟨by simp, by simp, by simp, reparent_parent_ne s par ?_⟩
  intro e
  exact hx (by simp [e])

theorem Rep.reparent_ptr {s : Map K V} {t : BTree} {par : Ptr} (h : Rep s t par) (par' : Ptr)
    (hnd : t.toList.Nodup) : Rep (reparent s t.ptr par') t par' := by
  cases t with
  | nil => trivial
  | node l a r =>
    obtain ⟨h1, h2, h3, _, h5, h6⟩ := h
    have hoff : Off [a] s (reparent s (BTree.node l a r).ptr par') := by
      simpa using reparent_off s (BTree.node l a r).ptr par'
    refine ⟨by simpa using h1, by simpa using h2, by simpa using h3, by simp [reparent, upd],
      h5.off hoff ?_, h6.off hoff ?_⟩
    · refine nd_split hnd ?_
      intro x
      simp only [BTree.toList_node, List.count_append, List.count_cons, List.count_nil]
      omega
    · refine nd_split hnd ?_
      intro x
      simp only [BTree.toList_node, List.count_append, List.count_cons, List.count_nil]
      omega

/-! ### `setHole` -/

@[simp] theorem setHole_cell (s : Map K V) (c : Ctx) (y : Ptr) : (setHole s c y).cell = s.cell := by
  cases c <;> rfl

@[simp] theorem setHole_parent (s : Map K V) (c : Ctx) (y : Ptr) :
    (setHole s c y).parent = s.parent := by
  cases c <;> rfl

@[simp] theorem setHole_color (s : Map K V) (c : Ctx) (y : Ptr) :
    (setHole s c y).color = s.color := by
  cases c <;> rfl

@[simp] theorem setHole_next (s : Map K V) (c : Ctx) (y : Ptr) : (setHole s c y).next = s.next := by
  cases c <;> rfl

@[simp] theorem setHole_prev (s : Map K V) (c : Ctx) (y : Ptr) : (setHole s c y).prev = s.prev := by
  cases c <;> rfl

@[simp] theorem setHole_brk (s : Map K V) (c : Ctx) (y : Ptr) : (setHole s c y).brk = s.brk := by
  cases c <;> rfl

@[simp] theorem setHole_num_nodes (s : Map K V) (c : Ctx) (y : Ptr) :
    (setHole s c y).num_nodes = s.num_nodes := by
  cases c <;> rfl

@[simp] theorem setHole_first (s : Map K V) (c : Ctx) (y : Ptr) :
    (setHole s c y).first = s.first := by
  cases c <;> rfl

@[simp] theorem setHole_last (s : Map K V) (c : Ctx) (y : Ptr) : (setHole s c y).last = s.last := by
  cases c <;> rfl

@[simp] theorem setHole_mapped (s : Map K V) (c : Ctx) (y : Ptr) :
    (setHole s c y).mapped = s.mapped := by
  cases c <;> rfl

theorem setHole_left_ne (s : Map K V) {c : Ctx} (y : Ptr) {x : Nat} (h : c.par ≠ some x) :
    (setHole s c y).left x = s.left x := by
  cases c with
  | top => rfl
  | left a r up =>
    have : x ≠ a := fun e => h (by rw [e]; rfl)
    simp [setHole, upd, this]
  | right l a up => rfl

theorem setHole_right_ne (s : Map K V) {c : Ctx} (y : Ptr) {x : Nat} (h : c.par ≠ some x) :
    (setHole s c y).right x = s.right x := by
  cases c with
  | top => rfl
  | left a r up => rfl
  | right l a up =>
    have : x ≠ a := fun e => h (by rw [e]; rfl)
    simp [setHole, upd, this]

theorem setHole_off (s : Map K V) (c : Ctx) (y : Ptr) : Off c.par.toList s (setHole s c y) := by
  intro x hx
  have : c.par ≠ some x := fun e => hx (by simp [e])
  exact ⟨by simp, setHole_left_ne s y this, setHole_right_ne s y this, by simp⟩

theorem RepCtx.set_hole {s : Map K V} {c : Ctx} {x : Ptr} (y : Ptr) (h : RepCtx s c x)
    (hnd : (c.before ++ c.after).Nodup) : RepCtx (setHole s c y) c y := by
  cases c with
  | top => rfl
  | left a r up =>
    obtain ⟨h1, _, h3, h4, h5, h6⟩ := h
    have hoff : Off [a] s (setHole s (Ctx.left a r up) y) := by
      simpa [Ctx.par] using setHole_off s (Ctx.left a r up) y
    refine ⟨by simpa using h1, by simp [setHole, upd], ?_, by simpa using h4,
      h5.off hoff ?_, h6.off_ctx rfl hoff ?_⟩
    · simpa [setHole] using h3
    · refine nd_split hnd ?_
      intro x
      simp only [Ctx.before, Ctx.after, List.count_append, List.count_cons, List.count_nil]
      omega
    · refine nd_split hnd ?_
      intro x
      simp only [Ctx.before, Ctx.after, List.count_append, List.count_cons, List.count_nil]
      omega
  | right l a up =>
    obtain ⟨h1, h2, _, h4, h5, h6⟩ := h
    have hoff : Off [a] s (setHole s (Ctx.right l a up) y) := by
      simpa [Ctx.par] using setHole_off s (Ctx.right l a up) y
    refine ⟨by simpa using h1, ?_, by simp [setHole, upd], by simpa using h4,
      h5.off hoff ?_, h6.off_ctx rfl hoff ?_⟩
    · simpa [setHole] using h2
    · refine nd_split hnd ?_
      intro x
      simp only [Ctx.before, Ctx.after, List.count_append, List.count_cons, List.count_nil]
      omega
    · refine nd_split hnd ?_
      intro x
      simp only [Ctx.before, Ctx.after, List.count_append, List.count_cons, List.count_nil]
      omega

end

section

variable {K V : Type}

/-! ### Rotations -/

theorem Rep.live_ptr {s : Map K V} {t : BTree} {par : Ptr} (h : Rep s t par) {a : Nat}
    (ha : t.ptr = some a) : (s.cell a).isSome = true := by
  cases t with
  | nil => simp at ha
  | node l b r =>
    simp only [BTree.ptr_node, Option.some.injEq] at ha
    subst ha
    exact h.1

theorem Rep.live {s : Map K V} {t : BTree} {par : Ptr} (h : Rep s t par) :
    ∀ a ∈ t.toList, (s.cell a).isSome = true := by
  induction t generalizing par with
  | nil => simp
  | node l b r ihl ihr =>
    obtain ⟨h1, _, _, _, h5, h6⟩ := h
    intro a ha
    simp only [BTree.toList_node, List.mem_append, List.mem_cons] at ha
    rcases ha with ha | rfl | ha
    · exact ihl h5 a ha
    · exact h1
    · exact ihr h6 a ha

theorem RepCtx.live_ctx {s : Map K V} {c : Ctx} {p : Ptr} (h : RepCtx s c p) :
    ∀ a ∈ c.before ++ c.after, (s.cell a).isSome = true := by
  induction c generalizing p with
  | top => simp [Ctx.before, Ctx.after]
  | left b r up ih =>
    obtain ⟨h1, _, _, _, h5, h6⟩ := h
    intro a ha
    simp only [Ctx.before, Ctx.after, List.mem_append, List.mem_cons] at ha
    rcases ha with ha | (rfl | ha) | ha
    · exact ih h6 a (by simp [ha])
    · exact h1
    · exact h5.live a ha
    · exact ih h6 a (by simp [ha])
  | right l b up ih =>
    obtain ⟨h1, _, _, _, h5, h6⟩ := h
    intro a ha
    simp only [Ctx.before, Ctx.after, List.mem_append, List.mem_cons, List.mem_singleton,
      List.not_mem_nil, or_false] at ha
    rcases ha with (ha | ha | rfl) | ha
    · exact ih h6 a (by simp [ha])
    · exact h5.live a ha
    · exact h1
    · exact ih h6 a (by simp [ha])

/-- The root seen from a context that is not empty lies in the context. -/
theorem RepCtx.root_mem {s : Map K V} {c : Ctx} {p : Ptr} (h : RepCtx s c p) (hc : c ≠ .top) :
    ∃ r, s.root = some r ∧ r ∈ c.before ++ c.after := by
  induction c generalizing p with
  | top => exact absurd rfl hc
  | left b r up ih =>
    obtain ⟨_, _, _, _, _, h6⟩ := h
    by_cases hup : up = .top
    · subst hup
      exact ⟨b, h6, by simp [Ctx.before, Ctx.after]⟩
    · obtain ⟨x, hx, hm⟩ := ih h6 hup
      refine ⟨x, hx, ?_⟩
      simp only [List.mem_append] at hm
      rcases hm with hm | hm <;> simp [Ctx.before, Ctx.after, hm]
  | right l b up ih =>
    obtain ⟨_, _, _, _, _, h6⟩ := h
    by_cases hup : up = .top
    · subst hup
      exact ⟨b, h6, by simp [Ctx.before, Ctx.after]⟩
    · obtain ⟨x, hx, hm⟩ := ih h6 hup
      refine ⟨x, hx, ?_⟩
      simp only [List.mem_append] at hm
      rcases hm with hm | hm <;> simp [Ctx.before, Ctx.after, hm]

variable [LinearOrder K]

/-- Keys of two different nodes of a sorted list differ. -/
theorem key_ne {s : Map K V} {l : List Nat} (h : l.Pairwise s.klt) {a b : Nat}
    (ha : a ∈ l) (hb : b ∈ l) (hab : a ≠ b) {ka kb : K × V} (hka : s.cell a = some ka)
    (hkb : s.cell b = some kb) : ka.1 ≠ kb.1 :=
  fun hk => hab (key_inj h ha hb hka hkb hk)

theorem relink_parent_ok {s : Map K V} {c : Ctx} {p : Nat} (q : Nat)
    (hctx : RepCtx s c (some p)) (hpar : s.parent p = c.par)
    (hpl : (s.cell p).isSome = true) (hpq : p ≠ q)
    {L : List Nat} (hsort : L.Pairwise s.klt) (hpm : p ∈ L)
    (hmem : ∀ x ∈ c.before ++ c.after, x ∈ L ∧ x ≠ p) :
    relink_parent (KeyOps.std K) s p q =
      .ok (setHole { s with parent := upd s.parent q c.par } c (some q)) := by
  obtain ⟨cp, hcp⟩ := Option.isSome_iff_exists.1 hpl
  cases c with
  | top =>
    simp only [RepCtx] at hctx
    simp [relink_parent, Map.key, hctx, hcp, KeyOps.std, setHole, Ctx.par]
  | left a R up =>
    obtain ⟨r, hr, hrm⟩ := hctx.root_mem (by simp)
    obtain ⟨cr, hcr⟩ := Option.isSome_iff_exists.1 (hctx.live_ctx r hrm)
    have hne := key_ne hsort hpm (hmem r hrm).1 (hmem r hrm).2.symm hcp hcr
    obtain ⟨ha1, ha2, _⟩ := hctx
    simp only [Ctx.par] at hpar
    simp [relink_parent, Map.key, Map.node, Map.sameKey, hr, hcp, hcr, KeyOps.std, hne, hpar,
      ha1, ha2, setHole, Ctx.par, upd, hpq]
  | right L a up =>
    obtain ⟨r, hr, hrm⟩ := hctx.root_mem (by simp)
    obtain ⟨cr, hcr⟩ := Option.isSome_iff_exists.1 (hctx.live_ctx r hrm)
    have hne := key_ne hsort hpm (hmem r hrm).1 (hmem r hrm).2.symm hcp hcr
    obtain ⟨ha1, ha2, _, _, hL, _⟩ := hctx
    simp only [Ctx.par] at hpar
    cases L with
    | nil =>
      simp [relink_parent, Map.key, Map.node, Map.sameKey, hr, hcp, hcr, KeyOps.std, hne, hpar,
        ha1, ha2, setHole, Ctx.par, upd, hpq]
    | node L1 l L2 =>
      have hlm : l ∈ (Ctx.right (BTree.node L1 l L2) a up).before ++
          (Ctx.right (BTree.node L1 l L2) a up).after := by
        simp [Ctx.before]
      obtain ⟨cl, hcl⟩ := Option.isSome_iff_exists.1 hL.1
      have hne2 := key_ne hsort hpm (hmem l hlm).1 (hmem l hlm).2.symm hcp hcl
      simp [relink_parent, Map.key, Map.node, Map.sameKey, hr, hcp, hcr, KeyOps.std, hne, hpar,
        ha1, ha2, setHole, Ctx.par, hcl, hne2, upd, hpq]

end

section

variable {K V : Type} [LinearOrder K]

theorem klt_congr {s s' : Map K V} (h : s'.cell = s.cell) : s'.klt = s.klt := by
  funext a b
  simp [Map.klt, h]

theorem rotate_left_off {s : Map K V} {c : Ctx} {A B C : BTree} {p q : Nat}
    (h : Shape s c (.node A p (.node B q C))) :
    ∃ s', rotate_left (KeyOps.std K) s (some p) = .ok s' ∧
      Shape s' c (.node (.node A p B) q C) ∧ SameRest s s' ∧
      Off (c.before ++ (BTree.node A p (.node B q C)).toList ++ c.after) s s' := by
  obtain ⟨hctx, ⟨hpl, hpL, hpR, hpP, hA, hql, hqL, hqR, hqP, hB, hC⟩, hsort⟩ := h
  simp only [BTree.ptr_node] at hpR hctx
  have hnd := Pairwise_klt_nodup hsort
  simp only [BTree.toList_node] at hnd
  -- disjointness facts
  have hcount : ∀ x, List.count x B.ptr.toList ≤ List.count x B.toList := B.count_ptr_le
  have hcount2 := c.count_par_le
  have hpq : p ≠ q := by
    have := nd_split hnd (A := [p]) (B := [q]) (by
      intro x
      simp only [List.count_append, List.count_cons, List.count_nil]
      omega) p (by simp)
    simpa using this
  have hpB : B.ptr ≠ some p := by
    have := nd_split hnd (A := [p]) (B := B.ptr.toList) (by
      intro x
      have := hcount x
      simp only [List.count_append, List.count_cons, List.count_nil]
      omega) p (by simp)
    intro e; rw [e] at this; simp at this
  have hqB : B.ptr ≠ some q := by
    have := nd_split hnd (A := [q]) (B := B.ptr.toList) (by
      intro x
      have := hcount x
      simp only [List.count_append, List.count_cons, List.count_nil]
      omega) q (by simp)
    intro e; rw [e] at this; simp at this
  have hpc : c.par ≠ some p := by
    have := nd_split hnd (A := [p]) (B := c.par.toList) (by
      intro x
      have := hcount2 x
      simp only [List.count_append, List.count_cons, List.count_nil]
      omega) p (by simp)
    intro e; rw [e] at this; simp at this
  have hqc : c.par ≠ some q := by
    have := nd_split hnd (A := [q]) (B := c.par.toList) (by
      intro x
      have := hcount2 x
      simp only [List.count_append, List.count_cons, List.count_nil]
      omega) q (by simp)
    intro e; rw [e] at this; simp at this
  -- the three stages
  let s1 : Map K V := { reparent s B.ptr (some p) with right := upd s.right p B.ptr }
  let s2 : Map K V := setHole { s1 with parent := upd s1.parent q c.par } c (some q)
  let s3 : Map K V := { s2 with parent := upd s2.parent p (some q), left := upd s2.left q (some p) }
  have hoff1 : Off (p :: B.ptr.toList) s s1 := by
    intro x hx
    simp only [List.mem_cons, not_or] at hx
    have hxB : B.ptr ≠ some x := fun e => hx.2 (by simp [e])
    exact ⟨by simp [s1], by simp [s1], by simp [s1, upd, hx.1], by
      simp [s1, reparent_parent_ne s _ hxB]⟩
  have hctx1 : RepCtx s1 c (some p) := by
    refine hctx.off_ctx (by simp [s1]) hoff1 ?_
    refine nd_split hnd ?_
    intro x
    have := hcount x
    simp only [List.count_append, List.count_cons, List.count_nil]
    omega
  have hrel : relink_parent (KeyOps.std K) s1 p q = .ok s2 := by
    refine relink_parent_ok q hctx1 ?_ (by simpa [s1] using hpl) hpq
      (L := c.before ++ (BTree.node A p (.node B q C)).toList ++ c.after) ?_ ?_ ?_
    · simp only [s1]
      rw [reparent_parent_ne s _ hpB]
      exact hpP
    · rw [klt_congr (s := s) (by simp [s1])]
      exact hsort
    · simp
    · intro x hx
      refine ⟨?_, ?_⟩
      · simp only [List.mem_append] at hx ⊢
        tauto
      · have := nd_split hnd (A := c.before ++ c.after) (B := [p]) (by
          intro y
          simp only [List.count_append, List.count_cons, List.count_nil]
          omega) x hx
        simpa using this
  have heval : rotate_left (KeyOps.std K) s (some p) = .ok s3 := by
    have hstage1 : rotate_left_child s p q = Except.ok s1 := by
      cases B with
      | nil => simp [rotate_left_child, hqL, s1, reparent]
      | node Bl b Br =>
        simp [rotate_left_child, hqL, s1, reparent, Map.node, hB.1]
    simp only [rotate_left, Map.node_live hpl, hpR, Map.node_live hql, ok_bind, hstage1, hrel]
    rfl
  have hoff3 : Off (p :: q :: (B.ptr.toList ++ c.par.toList)) s s3 := by
    intro x hx
    simp only [List.mem_cons, List.mem_append, not_or] at hx
    obtain ⟨hxp, hxq, hxB, hxc⟩ := hx
    have hxB : B.ptr ≠ some x := fun e => hxB (by simp [e])
    have hxc : c.par ≠ some x := fun e => hxc (by simp [e])
    refine ⟨by simp [s3, s2, s1], ?_, ?_, ?_⟩
    · simp [s3, s2, s1, upd, hxq, setHole_left_ne _ _ hxc]
    · simp [s3, s2, s1, upd, hxp, setHole_right_ne _ _ hxc]
    · simp [s3, s2, s1, upd, hxp, hxq, reparent_parent_ne _ _ hxB]
  have hoffB : Off (p :: q :: c.par.toList) (reparent s B.ptr (some p)) s3 := by
    intro x hx
    simp only [List.mem_cons, not_or] at hx
    obtain ⟨hxp, hxq, hxc⟩ := hx
    have hxc : c.par ≠ some x := fun e => hxc (by simp [e])
    refine ⟨by simp [s3, s2, s1], ?_, ?_, ?_⟩
    · simp [s3, s2, s1, upd, hxq, setHole_left_ne _ _ hxc]
    · simp [s3, s2, s1, upd, hxp, setHole_right_ne _ _ hxc]
    · simp [s3, s2, s1, upd, hxp, hxq]
  have hoffL : Off (c.before ++ (BTree.node A p (.node B q C)).toList ++ c.after) s s3 := by
    refine hoff3.mono_off ?_
    intro x hx
    have h1 := hcount x
    have h2 := hcount2 x
    have h3 : 0 < List.count x (p :: q :: (B.ptr.toList ++ c.par.toList)) :=
      List.count_pos_iff.2 hx
    refine List.count_pos_iff.1 ?_
    simp only [BTree.toList_node, List.count_append, List.count_cons, List.count_nil] at h3 h2 ⊢
    omega
  refine ⟨s3, heval, ⟨?_, ?_, ?_⟩, ?_, hoffL⟩
  · -- the context
    have h1 : RepCtx { s1 with parent := upd s1.parent q c.par } c (some p) := by
      refine hctx1.off_ctx (D := [q]) rfl ?_ ?_
      · intro x hx
        simp only [List.mem_singleton] at hx
        exact ⟨rfl, rfl, rfl, by simp [upd, hx]⟩
      · refine nd_split hnd ?_
        intro x
        simp only [List.count_append, List.count_cons, List.count_nil]
        omega
    have h2 : RepCtx s2 c (some q) := by
      refine h1.set_hole (some q) (nd_sub hnd ?_)
      intro x
      simp only [List.count_append, List.count_cons, List.count_nil]
      omega
    refine h2.off_ctx (D := [p, q]) rfl ?_ ?_
    · intro x hx
      simp only [List.mem_cons, List.mem_singleton, List.not_mem_nil, or_false, not_or] at hx
      exact ⟨rfl, by simp [s3, upd, hx.2], rfl, by simp [s3, upd, hx.1]⟩
    · refine nd_split hnd ?_
      intro x
      simp only [List.count_append, List.count_cons, List.count_nil]
      omega
  · -- the subtree
    refine ⟨by simpa [s3, s2, s1] using hql, by simp [s3, upd], ?_, ?_,
      ⟨by simpa [s3, s2, s1] using hpl, ?_, ?_, by simp [s3, upd], ?_, ?_⟩, ?_⟩
    · simp [s3, s2, s1, upd, hpq.symm, setHole_right_ne _ _ hqc, hqR]
    · simp [s3, s2, s1, upd, hpq.symm]
    · simp [s3, s2, s1, upd, hpq, setHole_left_ne _ _ hpc, hpL]
    · simp [s3, s2, s1, upd, setHole_right_ne _ _ hpc]
    · refine hA.off hoff3 (nd_split hnd ?_)
      intro x
      have := hcount x
      have := hcount2 x
      simp only [List.count_append, List.count_cons, List.count_nil]
      omega
    · have hndB : B.toList.Nodup := by
        refine nd_sub hnd ?_
        intro x
        simp only [List.count_append, List.count_cons, List.count_nil]
        omega
      refine (hB.reparent_ptr (some p) hndB).off hoffB (nd_split hnd ?_)
      intro x
      have := hcount2 x
      simp only [List.count_append, List.count_cons, List.count_nil]
      omega
    · refine hC.off hoff3 (nd_split hnd ?_)
      intro x
      have := hcount x
      have := hcount2 x
      simp only [List.count_append, List.count_cons, List.count_nil]
      omega
  · rw [klt_congr (s := s) (by simp [s3, s2, s1])]
    simpa [List.append_assoc] using hsort
  · exact ⟨by simp [s3, s2, s1], by simp [s3, s2, s1], by simp [s3, s2, s1],
      by simp [s3, s2, s1], by simp [s3, s2, s1], by simp [s3, s2, s1], by simp [s3, s2, s1],
      by simp [s3, s2, s1], by simp [s3, s2, s1]⟩

theorem rotate_left_spec {s : Map K V} {c : Ctx} {A B C : BTree} {p q : Nat}
    (h : Shape s c (.node A p (.node B q C))) :
    ∃ s', rotate_left (KeyOps.std K) s (some p) = .ok s' ∧
      Shape s' c (.node (.node A p B) q C) ∧ SameRest s s' := by
  obtain ⟨s', h1, h2, h3, _⟩ := rotate_left_off h
  exact ⟨s', h1, h2, h3⟩

end

section

variable {K V : Type} [LinearOrder K]

theorem rotate_right_off {s : Map K V} {c : Ctx} {A B C : BTree} {p q : Nat}
    (h : Shape s c (.node (.node A q B) p C)) :
    ∃ s', rotate_right (KeyOps.std K) s (some p) = .ok s' ∧
      Shape s' c (.node A q (.node B p C)) ∧ SameRest s s' ∧
      Off (c.before ++ (BTree.node (.node A q B) p C).toList ++ c.after) s s' := by
  obtain ⟨hctx, ⟨hpl, hpL, hpR, hpP, ⟨hql, hqL, hqR, hqP, hA, hB⟩, hC⟩, hsort⟩ := h
  simp only [BTree.ptr_node] at hpL hctx
  have hnd := Pairwise_klt_nodup hsort
  simp only [BTree.toList_node] at hnd
  -- disjointness facts
  have hcount : ∀ x, List.count x B.ptr.toList ≤ List.count x B.toList := B.count_ptr_le
  have hcount2 := c.count_par_le
  have hpq : p ≠ q := by
    have := nd_split hnd (A := [p]) (B := [q]) (by
      intro x
      simp only [List.count_append, List.count_cons, List.count_nil]
      omega) p (by simp)
    simpa using this
  have hpB : B.ptr ≠ some p := by
    have := nd_split hnd (A := [p]) (B := B.ptr.toList) (by
      intro x
      have := hcount x
      simp only [List.count_append, List.count_cons, List.count_nil]
      omega) p (by simp)
    intro e; rw [e] at this; simp at this
  have hqB : B.ptr ≠ some q := by
    have := nd_split hnd (A := [q]) (B := B.ptr.toList) (by
      intro x
      have := hcount x
      simp only [List.count_append, List.count_cons, List.count_nil]
      omega) q (by simp)
    intro e; rw [e] at this; simp at this
  have hpc : c.par ≠ some p := by
    have := nd_split hnd (A := [p]) (B := c.par.toList) (by
      intro x
      have := hcount2 x
      simp only [List.count_append, List.count_cons, List.count_nil]
      omega) p (by simp)
    intro e; rw [e] at this; simp at this
  have hqc : c.par ≠ some q := by
    have := nd_split hnd (A := [q]) (B := c.par.toList) (by
      intro x
      have := hcount2 x
      simp only [List.count_append, List.count_cons, List.count_nil]
      omega) q (by simp)
    intro e; rw [e] at this; simp at this
  -- the three stages
  let s1 : Map K V := { reparent s B.ptr (some p) with left := upd s.left p B.ptr }
  let s2 : Map K V := setHole { s1 with parent := upd s1.parent q c.par } c (some q)
  let s3 : Map K V :=
    { s2 with parent := upd s2.parent p (some q), right := upd s2.right q (some p) }
  have hoff1 : Off (p :: B.ptr.toList) s s1 := by
    intro x hx
    simp only [List.mem_cons, not_or] at hx
    have hxB : B.ptr ≠ some x := fun e => hx.2 (by simp [e])
    exact ⟨by simp [s1], by simp [s1, upd, hx.1], by simp [s1], by
      simp [s1, reparent_parent_ne s _ hxB]⟩
  have hctx1 : RepCtx s1 c (some p) := by
    refine hctx.off_ctx (by simp [s1]) hoff1 ?_
    refine nd_split hnd ?_
    intro x
    have := hcount x
    simp only [List.count_append, List.count_cons, List.count_nil]
    omega
  have hrel : relink_parent (KeyOps.std K) s1 p q = .ok s2 := by
    refine relink_parent_ok q hctx1 ?_ (by simpa [s1] using hpl) hpq
      (L := c.before ++ (BTree.node (.node A q B) p C).toList ++ c.after) ?_ ?_ ?_
    · simp only [s1]
      rw [reparent_parent_ne s _ hpB]
      exact hpP
    · rw [klt_congr (s := s) (by simp [s1])]
      exact hsort
    · simp
    · intro x hx
      refine ⟨?_, ?_⟩
      · simp only [List.mem_append] at hx ⊢
        tauto
      · have := nd_split hnd (A := c.before ++ c.after) (B := [p]) (by
          intro y
          simp only [List.count_append, List.count_cons, List.count_nil]
          omega) x hx
        simpa using this
  have heval : rotate_right (KeyOps.std K) s (some p) = .ok s3 := by
    have hstage1 : rotate_right_child s p q = Except.ok s1 := by
      cases B with
      | nil => simp [rotate_right_child, hqR, s1, reparent]
      | node Bl b Br =>
        simp [rotate_right_child, hqR, s1, reparent, Map.node, hB.1]
    simp only [rotate_right, Map.node_live hpl, hpL, Map.node_live hql, ok_bind, hstage1, hrel]
    rfl
  have hoff3 : Off (p :: q :: (B.ptr.toList ++ c.par.toList)) s s3 := by
    intro x hx
    simp only [List.mem_cons, List.mem_append, not_or] at hx
    obtain ⟨hxp, hxq, hxB, hxc⟩ := hx
    have hxB : B.ptr ≠ some x := fun e => hxB (by simp [e])
    have hxc : c.par ≠ some x := fun e => hxc (by simp [e])
    refine ⟨by simp [s3, s2, s1], ?_, ?_, ?_⟩
    · simp [s3, s2, s1, upd, hxp, setHole_left_ne _ _ hxc]
    · simp [s3, s2, s1, upd, hxq, setHole_right_ne _ _ hxc]
    · simp [s3, s2, s1, upd, hxp, hxq, reparent_parent_ne _ _ hxB]
  have hoffB : Off (p :: q :: c.par.toList) (reparent s B.ptr (some p)) s3 := by
    intro x hx
    simp only [List.mem_cons, not_or] at hx
    obtain ⟨hxp, hxq, hxc⟩ := hx
    have hxc : c.par ≠ some x := fun e => hxc (by simp [e])
    refine ⟨by simp [s3, s2, s1], ?_, ?_, ?_⟩
    · simp [s3, s2, s1, upd, hxp, setHole_left_ne _ _ hxc]
    · simp [s3, s2, s1, upd, hxq, setHole_right_ne _ _ hxc]
    · simp [s3, s2, s1, upd, hxp, hxq]
  have hoffL : Off (c.before ++ (BTree.node (.node A q B) p C).toList ++ c.after) s s3 := by
    refine hoff3.mono_off ?_
    intro x hx
    have h1 := hcount x
    have h2 := hcount2 x
    have h3 : 0 < List.count x (p :: q :: (B.ptr.toList ++ c.par.toList)) :=
      List.count_pos_iff.2 hx
    refine List.count_pos_iff.1 ?_
    simp only [BTree.toList_node, List.count_append, List.count_cons, List.count_nil] at h3 h2 ⊢
    omega
  refine ⟨s3, heval, ⟨?_, ?_, ?_⟩, ?_, hoffL⟩
  · -- the context
    have h1 : RepCtx { s1 with parent := upd s1.parent q c.par } c (some p) := by
      refine hctx1.off_ctx (D := [q]) rfl ?_ ?_
      · intro x hx
        simp only [List.mem_singleton] at hx
        exact ⟨rfl, rfl, rfl, by simp [upd, hx]⟩
      · refine nd_split hnd ?_
        intro x
        simp only [List.count_append, List.count_cons, List.count_nil]
        omega
    have h2 : RepCtx s2 c (some q) := by
      refine h1.set_hole (some q) (nd_sub hnd ?_)
      intro x
      simp only [List.count_append, List.count_cons, List.count_nil]
      omega
    refine h2.off_ctx (D := [p, q]) rfl ?_ ?_
    · intro x hx
      simp only [List.mem_cons, List.mem_singleton, List.not_mem_nil, or_false, not_or] at hx
      exact ⟨rfl, rfl, by simp [s3, upd, hx.2], by simp [s3, upd, hx.1]⟩
    · refine nd_split hnd ?_
      intro x
      simp only [List.count_append, List.count_cons, List.count_nil]
      omega
  · -- the subtree
    refine ⟨by simpa [s3, s2, s1] using hql, ?_, by simp [s3, upd], ?_, ?_,
      ⟨by simpa [s3, s2, s1] using hpl, ?_, ?_, by simp [s3, upd], ?_, ?_⟩⟩
    · simp [s3, s2, s1, upd, hpq.symm, setHole_left_ne _ _ hqc, hqL]
    · simp [s3, s2, s1, upd, hpq.symm]
    · refine hA.off hoff3 (nd_split hnd ?_)
      intro x
      have := hcount x
      have := hcount2 x
      simp only [List.count_append, List.count_cons, List.count_nil]
      omega
    · simp [s3, s2, s1, upd, setHole_left_ne _ _ hpc]
    · simp [s3, s2, s1, upd, hpq, setHole_right_ne _ _ hpc, hpR]
    · have hndB : B.toList.Nodup := by
        refine nd_sub hnd ?_
        intro x
        simp only [List.count_append, List.count_cons, List.count_nil]
        omega
      refine (hB.reparent_ptr (some p) hndB).off hoffB (nd_split hnd ?_)
      intro x
      have := hcount2 x
      simp only [List.count_append, List.count_cons, List.count_nil]
      omega
    · refine hC.off hoff3 (nd_split hnd ?_)
      intro x
      have := hcount x
      have := hcount2 x
      simp only [List.count_append, List.count_cons, List.count_nil]
      omega
  · rw [klt_congr (s := s) (by simp [s3, s2, s1])]
    simpa [List.append_assoc] using hsort
  · exact ⟨by simp [s3, s2, s1], by simp [s3, s2, s1], by simp [s3, s2, s1],
      by simp [s3, s2, s1], by simp [s3, s2, s1], by simp [s3, s2, s1], by simp [s3, s2, s1],
      by simp [s3, s2, s1], by simp [s3, s2, s1]⟩

theorem rotate_right_spec {s : Map K V} {c : Ctx} {A B C : BTree} {p q : Nat}
    (h : Shape s c (.node (.node A q B) p C)) :
    ∃ s', rotate_right (KeyOps.std K) s (some p) = .ok s' ∧
      Shape s' c (.node A q (.node B p C)) ∧ SameRest s s' := by
  obtain ⟨s', h1, h2, h3, _⟩ := rotate_right_off h
  exact ⟨s', h1, h2, h3⟩

end

section

variable {K V : Type}

/-! ### The loop of `fix_insert` -/

theorem SameRest.toData {s s' : Map K V} (h : SameRest s s') : SameData s s' :=
  ⟨h.cell, h.next, h.prev, h.brk, h.num_nodes, h.first, h.last, h.mapped⟩

theorem SameData.refl (s : Map K V) : SameData s s :=
  ⟨rfl, rfl, rfl, rfl, rfl, rfl, rfl, rfl⟩

theorem SameData.trans {s1 s2 s3 : Map K V} (h1 : SameData s1 s2) (h2 : SameData s2 s3) :
    SameData s1 s3 :=
  ⟨h2.cell.trans h1.cell, h2.next.trans h1.next, h2.prev.trans h1.prev, h2.brk.trans h1.brk,
    h2.num_nodes.trans h1.num_nodes, h2.first.trans h1.first, h2.last.trans h1.last,
    h2.mapped.trans h1.mapped⟩

theorem isRed_rep {s : Map K V} {U : BTree} {par : Ptr} (h : Rep s U par) :
    s.isRed U.ptr = .ok (redPtr s U.ptr) := by
  cases U with
  | nil => simp [Map.isRed, redPtr]
  | node l u r => simp [Map.isRed, redPtr, Map.node, h.1]

variable [LinearOrder K]

theorem shape_up_left {s : Map K V} {a : Nat} {r : BTree} {up : Ctx} {X : BTree} :
    Shape s (.left a r up) X ↔ Shape s up (.node X a r) := by
  constructor
  · rintro ⟨⟨h1, h2, h3, h4, h5, h6⟩, hsub, hsort⟩
    exact ⟨h6, ⟨h1, h2, h3, h4, hsub, h5⟩, by
      simpa [Ctx.before, Ctx.after, List.append_assoc] using hsort⟩
  · rintro ⟨hctx, ⟨h1, h2, h3, h4, h5, h6⟩, hsort⟩
    exact ⟨⟨h1, h2, h3, h4, h6, hctx⟩, h5, by
      simpa [Ctx.before, Ctx.after, List.append_assoc] using hsort⟩

theorem shape_up_right {s : Map K V} {a : Nat} {l : BTree} {up : Ctx} {X : BTree} :
    Shape s (.right l a up) X ↔ Shape s up (.node l a X) := by
  constructor
  · rintro ⟨⟨h1, h2, h3, h4, h5, h6⟩, hsub, hsort⟩
    exact ⟨h6, ⟨h1, h2, h3, h4, h5, hsub⟩, by
      simpa [Ctx.before, Ctx.after, List.append_assoc] using hsort⟩
  · rintro ⟨hctx, ⟨h1, h2, h3, h4, h5, h6⟩, hsort⟩
    exact ⟨⟨h1, h2, h3, h4, h5, hctx⟩, h6, by
      simpa [Ctx.before, Ctx.after, List.append_assoc] using hsort⟩

/-- Colours play no part in the shape. -/
theorem Shape.recolor {s : Map K V} {c : Ctx} {X : BTree} (h : Shape s c X) (f : Nat → Nat) :
    Shape { s with color := f } c X := by
  have hoff : Off [] s { s with color := f } := fun _ _ => ⟨rfl, rfl, rfl, rfl⟩
  refine ⟨h.ctx.off_ctx rfl hoff (by simp), h.sub.off hoff (by simp), ?_⟩
  rw [klt_congr (show ({ s with color := f } : Map K V).cell = s.cell from rfl)]
  exact h.sorted

theorem Shape.congr_shape {s s' : Map K V} {c : Ctx} {X : BTree} (h : Shape s c X)
    (hc : s'.cell = s.cell) (hl : s'.left = s.left) (hr : s'.right = s.right)
    (hp : s'.parent = s.parent) (hroot : s'.root = s.root) : Shape s' c X := by
  have hoff : Off [] s s' := fun x _ => by simp [hc, hl, hr, hp]
  refine ⟨h.ctx.off_ctx hroot hoff (by simp), h.sub.off hoff (by simp), ?_⟩
  rw [klt_congr hc]
  exact h.sorted

theorem Shape.nodup {s : Map K V} {c : Ctx} {X : BTree} (h : Shape s c X) :
    (c.before ++ X.toList ++ c.after).Nodup :=
  Pairwise_klt_nodup h.sorted

/-- The test `q != nullptr && *p->key == *q->key` fails when `q` is the root of
a subtree that does not hold the node of that key. -/
theorem sameKey_other {s : Map K V} {L : List Nat} (hsort : L.Pairwise s.klt) {x : Nat}
    {cx : K × V} (hx : x ∈ L) (hcx : s.cell x = some cx) {B : BTree} {par : Ptr}
    (hB : Rep s B par) (hBL : ∀ b ∈ B.toList, b ∈ L ∧ b ≠ x) :
    s.sameKey (KeyOps.std K) cx.1 B.ptr = .ok false := by
  cases B with
  | nil => simp [Map.sameKey]
  | node l b r =>
    obtain ⟨cb, hcb⟩ := Option.isSome_iff_exists.1 hB.1
    have hb := hBL b (by simp)
    have hne := key_ne hsort hx hb.1 hb.2.symm hcx hcb
    simp [Map.sameKey, Map.key, hcb, KeyOps.std, hne]

theorem sameKey_self {s : Map K V} {x : Nat} {cx : K × V} (hcx : s.cell x = some cx) :
    s.sameKey (KeyOps.std K) cx.1 (some x) = .ok true := by
  simp [Map.sameKey, Map.key, hcx, KeyOps.std]

theorem fix_cond_top {s : Map K V} {l r : BTree} {x : Nat} (h : Shape s .top (.node l x r)) :
    fix_cond (KeyOps.std K) s (some x) = .ok false := by
  obtain ⟨cx, hcx⟩ := Option.isSome_iff_exists.1 h.sub.1
  have hroot : s.root = some x := h.ctx
  simp [fix_cond, Map.key, hcx, hroot, KeyOps.std]

theorem Ctx.par_mem {c : Ctx} {p : Nat} (h : c.par = some p) : p ∈ c.before ++ c.after := by
  cases c with
  | top => simp [Ctx.par] at h
  | left a r up =>
    simp only [Ctx.par, Option.some.injEq] at h
    subst h
    simp [Ctx.after]
  | right l a up =>
    simp only [Ctx.par, Option.some.injEq] at h
    subst h
    simp [Ctx.before]

theorem fix_cond_sub {s : Map K V} {c : Ctx} {l r : BTree} {x p : Nat}
    (h : Shape s c (.node l x r)) (hp : c.par = some p) :
    fix_cond (KeyOps.std K) s (some x) = .ok (s.color x != black && s.color p == red) := by
  obtain ⟨cx, hcx⟩ := Option.isSome_iff_exists.1 h.sub.1
  have hc : c ≠ .top := by
    rintro rfl
    simp [Ctx.par] at hp
  obtain ⟨rt, hrt, hrm⟩ := h.ctx.root_mem hc
  obtain ⟨cr, hcr⟩ := Option.isSome_iff_exists.1 (h.ctx.live_ctx rt hrm)
  have hnd := h.nodup
  have hxr : x ≠ rt := by
    have := nd_split hnd (A := c.before ++ c.after) (B := [x]) (by
      intro y
      simp only [BTree.toList_node, List.count_append, List.count_cons, List.count_nil]
      omega) rt hrm
    simpa [eq_comm] using this
  have hne := key_ne h.sorted (a := x) (b := rt) (by simp)
    (by simp only [List.mem_append] at hrm ⊢; tauto) hxr hcx hcr
  have hpl := h.ctx.live_ctx p (Ctx.par_mem hp)
  have hpar : s.parent x = some p := by rw [← hp]; exact h.sub.2.2.2.1
  by_cases hcol : s.color x = black
  · simp [fix_cond, Map.key, Map.node, hcx, hrt, hcr, KeyOps.std, hne, hcol]
  · simp [fix_cond, Map.key, Map.node, hcx, hrt, hcr, KeyOps.std, hne, hcol, hpar, hpl]

end

section

variable {K V : Type} [LinearOrder K]

/-! ### The cases of the loop body -/

theorem swap_colors_ok {s : Map K V} {p g : Nat} (hp : (s.cell p).isSome = true)
    (hg : (s.cell g).isSome = true) :
    swap_colors s (some p) (some g) =
      .ok { s with color := upd (upd s.color g (s.color p)) p (s.color g) } := by
  simp [swap_colors, Map.node, hp, hg]

theorem fix_cases_left_red {s : Map K V} {up : Ctx} {Pl Pr Ul Ur : BTree} {x p g u : Nat}
    (h : Shape s up (.node (.node Pl p Pr) g (.node Ul u Ur)))
    (hx : (s.cell x).isSome = true) (hxp : s.parent x = some p) (hu : s.color u = red) :
    fix_cases (KeyOps.std K) s (some x) =
      .ok ({ s with color := upd (upd (upd s.color p black) u black) g red }, some g) := by
  obtain ⟨_, ⟨hgl, hgL, hgR, _, ⟨hpl, _, _, hpP, _, _⟩, ⟨hul, _⟩⟩, _⟩ := h
  obtain ⟨cp, hcp⟩ := Option.isSome_iff_exists.1 hpl
  simp only [BTree.ptr_node] at hgL hgR
  simp [fix_cases, Map.node, hx, hxp, hpl, hpP, hgl, Map.key, hcp, hgL, Map.sameKey,
    KeyOps.std, Map.isRed, hgR, hul, hu, fix_recolor]

theorem fix_cases_right_red {s : Map K V} {up : Ctx} {Pl Pr Ul Ur : BTree} {x p g u : Nat}
    (h : Shape s up (.node (.node Ul u Ur) g (.node Pl p Pr)))
    (hx : (s.cell x).isSome = true) (hxp : s.parent x = some p) (hu : s.color u = red) :
    fix_cases (KeyOps.std K) s (some x) =
      .ok ({ s with color := upd (upd (upd s.color p black) u black) g red }, some g) := by
  have hnd := h.nodup
  obtain ⟨_, ⟨hgl, hgL, hgR, _, ⟨hul, _⟩, ⟨hpl, _, _, hpP, _, _⟩⟩, hsort⟩ := h
  obtain ⟨cp, hcp⟩ := Option.isSome_iff_exists.1 hpl
  obtain ⟨cu, hcu⟩ := Option.isSome_iff_exists.1 hul
  simp only [BTree.ptr_node] at hgL hgR
  have hpu : p ≠ u := by
    have := nd_split hnd (A := [p]) (B := [u]) (by
      intro y
      simp only [BTree.toList_node, List.count_append, List.count_cons, List.count_nil]
      omega) p (by simp)
    simpa using this
  have hne := key_ne hsort (a := p) (b := u) (by simp) (by simp) hpu hcp hcu
  simp [fix_cases, Map.node, hx, hxp, hpl, hpP, hgl, Map.key, hcp, hgL, Map.sameKey,
    KeyOps.std, Map.isRed, hgR, hul, hu, fix_recolor, hcu, hne]

theorem fix_cases_LL_off {s : Map K V} {up : Ctx} {l r B U : BTree} {x p g : Nat}
    (h : Shape s up (.node (.node (.node l x r) p B) g U)) (hU : redPtr s U.ptr = false) :
    ∃ s', fix_cases (KeyOps.std K) s (some x) = .ok (s', some p) ∧
      Shape s' up (.node (.node l x r) p (.node B g U)) ∧ SameData s s' ∧
      s'.color = upd (upd s.color g (s.color p)) p (s.color g) ∧
      Off (up.before ++ (BTree.node (.node (.node l x r) p B) g U).toList ++ up.after) s s' := by
  have hnd := h.nodup
  obtain ⟨s1, hrot, hsh1, hsame, hoff⟩ := rotate_right_off h
  obtain ⟨_, ⟨hgl, hgL, hgR, _, ⟨hpl, hpL, hpR, hpP, ⟨hxl, _, _, hxP, _, _⟩, hB⟩, hUr⟩, hsort⟩ := h
  obtain ⟨cp, hcp⟩ := Option.isSome_iff_exists.1 hpl
  obtain ⟨cx, hcx⟩ := Option.isSome_iff_exists.1 hxl
  simp only [BTree.ptr_node] at hgL hpL
  have hin : s.sameKey (KeyOps.std K) cx.1 B.ptr = .ok false := by
    refine sameKey_other hsort (x := x) (by simp) hcx hB ?_
    intro b hb
    refine ⟨by simp [hb], ?_⟩
    have := nd_split hnd (A := B.toList) (B := [x]) (by
      intro y
      simp only [BTree.toList_node, List.count_append, List.count_cons, List.count_nil]
      omega) b hb
    simpa using this
  have hred := isRed_rep hUr
  rw [hU] at hred
  have hp1 : (s1.cell p).isSome = true := by rw [hsame.cell]; exact hpl
  have hg1 : (s1.cell g).isSome = true := by rw [hsame.cell]; exact hgl
  refine ⟨{ s1 with color := upd (upd s1.color g (s1.color p)) p (s1.color g) }, ?_,
    hsh1.recolor _, ?_, ?_, fun y hy => hoff y hy⟩
  · simp [fix_cases, Map.node, hxl, hxP, hpl, hpP, hgl, Map.key, hcp, hgL, sameKey_self hcp,
      hgR, hred, fix_left_black, fix_left_inner, hcx, hpR, hin, hrot, swap_colors_ok hp1 hg1]
  · exact ⟨hsame.cell, hsame.next, hsame.prev, hsame.brk, hsame.num_nodes, hsame.first,
      hsame.last, hsame.mapped⟩
  · simp [hsame.color]

theorem fix_cases_LL {s : Map K V} {up : Ctx} {l r B U : BTree} {x p g : Nat}
    (h : Shape s up (.node (.node (.node l x r) p B) g U)) (hU : redPtr s U.ptr = false) :
    ∃ s', fix_cases (KeyOps.std K) s (some x) = .ok (s', some p) ∧
      Shape s' up (.node (.node l x r) p (.node B g U)) ∧ SameData s s' ∧
      s'.color = upd (upd s.color g (s.color p)) p (s.color g) := by
  obtain ⟨s', h1, h2, h3, h4, _⟩ := fix_cases_LL_off h hU
  exact ⟨s', h1, h2, h3, h4⟩

theorem fix_cases_RR_off {s : Map K V} {up : Ctx} {l r B U : BTree} {x p g : Nat}
    (h : Shape s up (.node U g (.node B p (.node l x r)))) (hU : redPtr s U.ptr = false) :
    ∃ s', fix_cases (KeyOps.std K) s (some x) = .ok (s', some p) ∧
      Shape s' up (.node (.node U g B) p (.node l x r)) ∧ SameData s s' ∧
      s'.color = upd (upd s.color g (s.color p)) p (s.color g) ∧
      Off (up.before ++ (BTree.node U g (.node B p (.node l x r))).toList ++ up.after) s s' := by
  have hnd := h.nodup
  obtain ⟨s1, hrot, hsh1, hsame, hoff⟩ := rotate_left_off h
  obtain ⟨_, ⟨hgl, hgL, hgR, _, hUr, ⟨hpl, hpL, hpR, hpP, hB, ⟨hxl, _, _, hxP, _, _⟩⟩⟩, hsort⟩ := h
  obtain ⟨cp, hcp⟩ := Option.isSome_iff_exists.1 hpl
  obtain ⟨cx, hcx⟩ := Option.isSome_iff_exists.1 hxl
  simp only [BTree.ptr_node] at hgR hpR
  have hin : s.sameKey (KeyOps.std K) cx.1 B.ptr = .ok false := by
    refine sameKey_other hsort (x := x) (by simp) hcx hB ?_
    intro b hb
    refine ⟨by simp [hb], ?_⟩
    have := nd_split hnd (A := B.toList) (B := [x]) (by
      intro y
      simp only [BTree.toList_node, List.count_append, List.count_cons, List.count_nil]
      omega) b hb
    simpa using this
  have hout : s.sameKey (KeyOps.std K) cp.1 U.ptr = .ok false := by
    refine sameKey_other hsort (x := p) (by simp) hcp hUr ?_
    intro b hb
    refine ⟨by simp [hb], ?_⟩
    have := nd_split hnd (A := U.toList) (B := [p]) (by
      intro y
      simp only [BTree.toList_node, List.count_append, List.count_cons, List.count_nil]
      omega) b hb
    simpa using this
  have hred := isRed_rep hUr
  rw [hU] at hred
  have hp1 : (s1.cell p).isSome = true := by rw [hsame.cell]; exact hpl
  have hg1 : (s1.cell g).isSome = true := by rw [hsame.cell]; exact hgl
  refine ⟨{ s1 with color := upd (upd s1.color g (s1.color p)) p (s1.color g) }, ?_,
    hsh1.recolor _, ?_, ?_, fun y hy => hoff y hy⟩
  · simp [fix_cases, Map.node, hxl, hxP, hpl, hpP, hgl, Map.key, hcp, hgL, hout,
      hred, fix_right_black, fix_right_inner, hcx, hpL, hin, hrot, swap_colors_ok hp1 hg1]
  · exact ⟨hsame.cell, hsame.next, hsame.prev, hsame.brk, hsame.num_nodes, hsame.first,
      hsame.last, hsame.mapped⟩
  · simp [hsame.color]

theorem fix_cases_RR {s : Map K V} {up : Ctx} {l r B U : BTree} {x p g : Nat}
    (h : Shape s up (.node U g (.node B p (.node l x r)))) (hU : redPtr s U.ptr = false) :
    ∃ s', fix_cases (KeyOps.std K) s (some x) = .ok (s', some p) ∧
      Shape s' up (.node (.node U g B) p (.node l x r)) ∧ SameData s s' ∧
      s'.color = upd (upd s.color g (s.color p)) p (s.color g) := by
  obtain ⟨s', h1, h2, h3, h4, _⟩ := fix_cases_RR_off h hU
  exact ⟨s', h1, h2, h3, h4⟩

theorem fix_cases_LR_off {s : Map K V} {up : Ctx} {l r A U : BTree} {x p g : Nat}
    (h : Shape s up (.node (.node A p (.node l x r)) g U)) (hU : redPtr s U.ptr = false) :
    ∃ s', fix_cases (KeyOps.std K) s (some x) = .ok (s', some x) ∧
      Shape s' up (.node (.node A p l) x (.node r g U)) ∧ SameData s s' ∧
      s'.color = upd (upd s.color g (s.color x)) x (s.color g) ∧
      Off (up.before ++ (BTree.node (.node A p (.node l x r)) g U).toList ++ up.after) s s' := by
  obtain ⟨s1, hrot1, hsh1, hsame1, hoff1⟩ := rotate_left_off (shape_up_left.2 h)
  have hsh1' := shape_up_left.1 hsh1
  obtain ⟨s2, hrot2, hsh2, hsame2, hoff2⟩ := rotate_right_off hsh1'
  have hoff : Off (up.before ++ (BTree.node (.node A p (.node l x r)) g U).toList ++ up.after)
      s s2 := by
    refine Off.trans_off (hoff1.mono_off ?_) (hoff2.mono_off ?_)
    · intro y hy
      simp only [Ctx.before, Ctx.after, BTree.toList_node, List.mem_append, List.mem_cons] at hy ⊢
      tauto
    · intro y hy
      simp only [Ctx.before, Ctx.after, BTree.toList_node, List.mem_append, List.mem_cons] at hy ⊢
      tauto
  have hp1P : s1.parent p = some x := hsh1.sub.2.2.2.2.1.2.2.2.1
  obtain ⟨_, ⟨hgl, hgL, hgR, _, ⟨hpl, hpL, hpR, hpP, _, ⟨hxl, _, _, hxP, _, _⟩⟩, hUr⟩, hsort⟩ := h
  obtain ⟨cp, hcp⟩ := Option.isSome_iff_exists.1 hpl
  obtain ⟨cx, hcx⟩ := Option.isSome_iff_exists.1 hxl
  simp only [BTree.ptr_node] at hgL hpR
  have hred := isRed_rep hUr
  rw [hU] at hred
  have hp1 : (s1.cell p).isSome = true := by rw [hsame1.cell]; exact hpl
  have hx2 : (s2.cell x).isSome = true := by rw [hsame2.cell, hsame1.cell]; exact hxl
  have hg2 : (s2.cell g).isSome = true := by rw [hsame2.cell, hsame1.cell]; exact hgl
  refine ⟨{ s2 with color := upd (upd s2.color g (s2.color x)) x (s2.color g) }, ?_,
    hsh2.recolor _, ?_, ?_, fun y hy => hoff y hy⟩
  · simp [fix_cases, Map.node, hxl, hxP, hpl, hpP, hgl, Map.key, hcp, hgL, sameKey_self hcp,
      hgR, hred, fix_left_black, fix_left_inner, hcx, hpR, sameKey_self hcx, hrot1, hp1, hp1P,
      hrot2, swap_colors_ok hx2 hg2]
  · exact ⟨hsame2.cell.trans hsame1.cell, hsame2.next.trans hsame1.next,
      hsame2.prev.trans hsame1.prev, hsame2.brk.trans hsame1.brk,
      hsame2.num_nodes.trans hsame1.num_nodes, hsame2.first.trans hsame1.first,
      hsame2.last.trans hsame1.last, hsame2.mapped.trans hsame1.mapped⟩
  · simp [hsame2.color, hsame1.color]

theorem fix_cases_LR {s : Map K V} {up : Ctx} {l r A U : BTree} {x p g : Nat}
    (h : Shape s up (.node (.node A p (.node l x r)) g U)) (hU : redPtr s U.ptr = false) :
    ∃ s', fix_cases (KeyOps.std K) s (some x) = .ok (s', some x) ∧
      Shape s' up (.node (.node A p l) x (.node r g U)) ∧ SameData s s' ∧
      s'.color = upd (upd s.color g (s.color x)) x (s.color g) := by
  obtain ⟨s', h1, h2, h3, h4, _⟩ := fix_cases_LR_off h hU
  exact ⟨s', h1, h2, h3, h4⟩

theorem fix_cases_RL_off {s : Map K V} {up : Ctx} {l r A U : BTree} {x p g : Nat}
    (h : Shape s up (.node U g (.node (.node l x r) p A))) (hU : redPtr s U.ptr = false) :
    ∃ s', fix_cases (KeyOps.std K) s (some x) = .ok (s', some x) ∧
      Shape s' up (.node (.node U g l) x (.node r p A)) ∧ SameData s s' ∧
      s'.color = upd (upd s.color g (s.color x)) x (s.color g) ∧
      Off (up.before ++ (BTree.node U g (.node (.node l x r) p A)).toList ++ up.after) s s' := by
  have hnd := h.nodup
  obtain ⟨s1, hrot1, hsh1, hsame1, hoff1⟩ := rotate_right_off (shape_up_right.2 h)
  have hsh1' := shape_up_right.1 hsh1
  obtain ⟨s2, hrot2, hsh2, hsame2, hoff2⟩ := rotate_left_off hsh1'
  have hoff : Off (up.before ++ (BTree.node U g (.node (.node l x r) p A)).toList ++ up.after)
      s s2 := by
    refine Off.trans_off (hoff1.mono_off ?_) (hoff2.mono_off ?_)
    · intro y hy
      simp only [Ctx.before, Ctx.after, BTree.toList_node, List.mem_append, List.mem_cons] at hy ⊢
      tauto
    · intro y hy
      simp only [Ctx.before, Ctx.after, BTree.toList_node, List.mem_append, List.mem_cons] at hy ⊢
      tauto
  have hp1P : s1.parent p = some x := hsh1.sub.2.2.2.2.2.2.2.2.1
  obtain ⟨_, ⟨hgl, hgL, hgR, _, hUr, ⟨hpl, hpL, hpR, hpP, ⟨hxl, _, _, hxP, _, _⟩, _⟩⟩, hsort⟩ := h
  obtain ⟨cp, hcp⟩ := Option.isSome_iff_exists.1 hpl
  obtain ⟨cx, hcx⟩ := Option.isSome_iff_exists.1 hxl
  simp only [BTree.ptr_node] at hgR hpL
  have hout : s.sameKey (KeyOps.std K) cp.1 U.ptr = .ok false := by
    refine sameKey_other hsort (x := p) (by simp) hcp hUr ?_
    intro b hb
    refine ⟨by simp [hb], ?_⟩
    have := nd_split hnd (A := U.toList) (B := [p]) (by
      intro y
      simp only [BTree.toList_node, List.count_append, List.count_cons, List.count_nil]
      omega) b hb
    simpa using this
  have hred := isRed_rep hUr
  rw [hU] at hred
  have hp1 : (s1.cell p).isSome = true := by rw [hsame1.cell]; exact hpl
  have hx2 : (s2.cell x).isSome = true := by rw [hsame2.cell, hsame1.cell]; exact hxl
  have hg2 : (s2.cell g).isSome = true := by rw [hsame2.cell, hsame1.cell]; exact hgl
  refine ⟨{ s2 with color := upd (upd s2.color g (s2.color x)) x (s2.color g) }, ?_,
    hsh2.recolor _, ?_, ?_, fun y hy => hoff y hy⟩
  · simp [fix_cases, Map.node, hxl, hxP, hpl, hpP, hgl, Map.key, hcp, hgL, hout,
      hred, fix_right_black, fix_right_inner, hcx, hpL, sameKey_self hcx, hrot1, hp1, hp1P,
      hrot2, swap_colors_ok hx2 hg2]
  · exact ⟨hsame2.cell.trans hsame1.cell, hsame2.next.trans hsame1.next,
      hsame2.prev.trans hsame1.prev, hsame2.brk.trans hsame1.brk,
      hsame2.num_nodes.trans hsame1.num_nodes, hsame2.first.trans hsame1.first,
      hsame2.last.trans hsame1.last, hsame2.mapped.trans hsame1.mapped⟩
  · simp [hsame2.color, hsame1.color]

theorem fix_cases_RL {s : Map K V} {up : Ctx} {l r A U : BTree} {x p g : Nat}
    (h : Shape s up (.node U g (.node (.node l x r) p A))) (hU : redPtr s U.ptr = false) :
    ∃ s', fix_cases (KeyOps.std K) s (some x) = .ok (s', some x) ∧
      Shape s' up (.node (.node U g l) x (.node r p A)) ∧ SameData s s' ∧
      s'.color = upd (upd s.color g (s.color x)) x (s.color g) := by
  obtain ⟨s', h1, h2, h3, h4, _⟩ := fix_cases_RL_off h hU
  exact ⟨s', h1, h2, h3, h4⟩

end

section

variable {K V : Type}

theorem RepCtx.root_eq {s : Map K V} {c : Ctx} {p : Ptr} (h : RepCtx s c p) (hc : c ≠ .top) :
    s.root = c.rootAddr ∧ ∃ r, c.rootAddr = some r ∧ r ∈ c.before ++ c.after := by
  induction c generalizing p with
  | top => exact absurd rfl hc
  | left b r up ih =>
    obtain ⟨_, _, _, _, _, h6⟩ := h
    cases up with
    | top => exact ⟨h6, b, rfl, by simp [Ctx.before, Ctx.after]⟩
    | left b2 r2 up2 =>
      obtain ⟨e, x, hx, hm⟩ := ih h6 (by simp)
      refine ⟨e, x, hx, ?_⟩
      simp only [List.mem_append] at hm
      rcases hm with hm | hm
      · exact List.mem_append_left _ hm
      · exact List.mem_append_right _ (by simp [Ctx.after] at hm ⊢; tauto)
    | right l2 b2 up2 =>
      obtain ⟨e, x, hx, hm⟩ := ih h6 (by simp)
      refine ⟨e, x, hx, ?_⟩
      simp only [List.mem_append] at hm
      rcases hm with hm | hm
      · exact List.mem_append_left _ hm
      · exact List.mem_append_right _ (by simp [Ctx.after] at hm ⊢; tauto)
  | right l b up ih =>
    obtain ⟨_, _, _, _, _, h6⟩ := h
    cases up with
    | top => exact ⟨h6, b, rfl, by simp [Ctx.before, Ctx.after]⟩
    | left b2 r2 up2 =>
      obtain ⟨e, x, hx, hm⟩ := ih h6 (by simp)
      refine ⟨e, x, hx, ?_⟩
      simp only [List.mem_append] at hm
      rcases hm with hm | hm
      · exact List.mem_append_left _ (by simp [Ctx.before] at hm ⊢; tauto)
      · exact List.mem_append_right _ hm
    | right l2 b2 up2 =>
      obtain ⟨e, x, hx, hm⟩ := ih h6 (by simp)
      refine ⟨e, x, hx, ?_⟩
      simp only [List.mem_append] at hm
      rcases hm with hm | hm
      · exact List.mem_append_left _ (by simp [Ctx.before] at hm ⊢; tauto)
      · exact List.mem_append_right _ hm

@[simp] theorem rootFix_cell (s : Map K V) (up : Ctx) (x : Nat) :
    (rootFix s up x).cell = s.cell := by
  cases up <;> rfl

theorem rootFix_sameData (s : Map K V) (up : Ctx) (x : Nat) : SameData s (rootFix s up x) := by
  cases up <;> exact ⟨rfl, rfl, rfl, rfl, rfl, rfl, rfl, rfl⟩

theorem rootFix_color_ne (s : Map K V) (up : Ctx) {x y : Nat} (h : y ≠ x) :
    (rootFix s up x).color y = s.color y := by
  cases up <;> simp [rootFix, upd, h]

variable [LinearOrder K]

theorem rootFix_shape {s : Map K V} {up : Ctx} {X : BTree} (h : Shape s up X) (x : Nat) :
    Shape (rootFix s up x) up X := by
  cases up with
  | top => exact h.recolor _
  | left a r up => exact h
  | right l a up => exact h

theorem fix_body_of_cases {s s1 : Map K V} {up : Ctx} {l r : BTree} {x y : Nat}
    (hc : fix_cases (KeyOps.std K) s (some x) = .ok (s1, some y))
    (hsh : Shape s1 up (.node l y r)) :
    fix_body (KeyOps.std K) s (some x) = .ok (rootFix s1 up y, some y) := by
  obtain ⟨cy, hcy⟩ := Option.isSome_iff_exists.1 hsh.sub.1
  cases up with
  | top =>
    have hroot : s1.root = some y := hsh.ctx
    simp only [fix_body, hc, ok_bind]
    simp [Map.key, hcy, hroot, KeyOps.std, Map.node, rootFix]
  | left a R up =>
    obtain ⟨rt, hrt, hrm⟩ := hsh.ctx.root_mem (by simp)
    obtain ⟨cr, hcr⟩ := Option.isSome_iff_exists.1 (hsh.ctx.live_ctx rt hrm)
    have hyr : y ≠ rt := by
      have := nd_split hsh.nodup (A := (Ctx.left a R up).before ++ (Ctx.left a R up).after)
        (B := [y]) (by
          intro z
          simp only [BTree.toList_node, List.count_append, List.count_cons, List.count_nil]
          omega) rt hrm
      simpa [eq_comm] using this
    have hne := key_ne hsh.sorted (a := y) (b := rt) (by simp)
      (by simp only [List.mem_append] at hrm ⊢; tauto) hyr hcy hcr
    simp only [fix_body, hc, ok_bind]
    simp [Map.key, hcy, hrt, hcr, KeyOps.std, hne, rootFix]
  | right L a up =>
    obtain ⟨rt, hrt, hrm⟩ := hsh.ctx.root_mem (by simp)
    obtain ⟨cr, hcr⟩ := Option.isSome_iff_exists.1 (hsh.ctx.live_ctx rt hrm)
    have hyr : y ≠ rt := by
      have := nd_split hsh.nodup (A := (Ctx.right L a up).before ++ (Ctx.right L a up).after)
        (B := [y]) (by
          intro z
          simp only [BTree.toList_node, List.count_append, List.count_cons, List.count_nil]
          omega) rt hrm
      simpa [eq_comm] using this
    have hne := key_ne hsh.sorted (a := y) (b := rt) (by simp)
      (by simp only [List.mem_append] at hrm ⊢; tauto) hyr hcy hcr
    simp only [fix_body, hc, ok_bind]
    simp [Map.key, hcy, hrt, hcr, KeyOps.std, hne, rootFix]

theorem redPtr_true {s : Map K V} {U : BTree} (h : redPtr s U.ptr = true) :
    ∃ Ul u Ur, U = .node Ul u Ur ∧ s.color u = red := by
  cases U with
  | nil => simp [redPtr] at h
  | node Ul u Ur => exact ⟨Ul, u, Ur, rfl, by simpa [redPtr] using h⟩

/-- The case analysis of the loop body, for a node with a parent and a
grandparent: it succeeds, the new `node` is the root of the subtree two levels
up, the in-order list is the same, and colours change inside that subtree
only. -/
theorem fix_cases_step_off {s : Map K V} {c : Ctx} {l r : BTree} {x : Nat}
    (h : Shape s c (.node l x r)) (hd : 2 ≤ c.depth) :
    ∃ s1 up l1 x1 r1, fix_cases (KeyOps.std K) s (some x) = .ok (s1, some x1) ∧
      Shape s1 up (.node l1 x1 r1) ∧ up.depth + 2 = c.depth ∧
      up.before ++ (BTree.node l1 x1 r1).toList ++ up.after =
        c.before ++ (BTree.node l x r).toList ++ c.after ∧
      SameData s s1 ∧ (∀ y, y ∉ (BTree.node l1 x1 r1).toList → s1.color y = s.color y) ∧
      (up ≠ .top → s1.root = s.root) ∧
      Off (c.before ++ (BTree.node l x r).toList ++ c.after) s s1 := by
  have hroot : ∀ {s1 : Map K V} {up : Ctx} {Y Y1 : BTree}, Shape s up Y → Shape s1 up Y1 →
      up ≠ .top → s1.root = s.root := by
    intro s1 up Y Y1 h1 h2 hup
    rw [(h1.ctx.root_eq hup).1, (h2.ctx.root_eq hup).1]
  have hxl : (s.cell x).isSome = true := h.sub.1
  have hxP : s.parent x = c.par := h.sub.2.2.2.1
  have hup0 := hd
  cases c with
  | top => simp [Ctx.depth] at hup0
  | left p B c' =>
    cases c' with
    | top => simp [Ctx.depth] at hup0
    | left g U up =>
      have h2 := shape_up_left.1 (shape_up_left.1 h)
      by_cases hU : redPtr s U.ptr = true
      · obtain ⟨Ul, u, Ur, rfl, hu⟩ := redPtr_true hU
        refine ⟨_, up, _, g, _, fix_cases_left_red h2 hxl hxP hu, h2.recolor _, by simp [Ctx.depth],
          by simp [Ctx.before, Ctx.after], ⟨rfl, rfl, rfl, rfl, rfl, rfl, rfl, rfl⟩, ?_⟩
        refine ⟨?_, fun _ => rfl, fun _ _ => ⟨rfl, rfl, rfl, rfl⟩⟩
        intro y hy
        simp only [BTree.toList_node, List.mem_append, List.mem_cons, not_or] at hy
        simp [upd, hy.1.2.1, hy.2.1, hy.2.2.2.1]
      · obtain ⟨s1, he, hsh, hsame, hcol, hoff⟩ := fix_cases_LL_off h2 (by simpa using hU)
        refine ⟨s1, up, _, p, _, he, hsh, by simp [Ctx.depth],
          by simp [Ctx.before, Ctx.after], hsame, ?_, hroot h2 hsh, hoff.mono_off ?_⟩
        intro y hy
        simp only [BTree.toList_node, List.mem_append, List.mem_cons, not_or] at hy
        simp [hcol, upd, hy.2.1, hy.2.2.2.1]
        intro y hy
        simp only [Ctx.before, Ctx.after, BTree.toList_node, List.mem_append, List.mem_cons] at hy ⊢
        tauto
    | right U g up =>
      have h2 := shape_up_right.1 (shape_up_left.1 h)
      by_cases hU : redPtr s U.ptr = true
      · obtain ⟨Ul, u, Ur, rfl, hu⟩ := redPtr_true hU
        refine ⟨_, up, _, g, _, fix_cases_right_red h2 hxl hxP hu, h2.recolor _,
          by simp [Ctx.depth], by simp [Ctx.before, Ctx.after],
          ⟨rfl, rfl, rfl, rfl, rfl, rfl, rfl, rfl⟩, ?_⟩
        refine ⟨?_, fun _ => rfl, fun _ _ => ⟨rfl, rfl, rfl, rfl⟩⟩
        intro y hy
        simp only [BTree.toList_node, List.mem_append, List.mem_cons, not_or] at hy
        simp [upd, hy.1.2.1, hy.2.1, hy.2.2.2.1]
      · obtain ⟨s1, he, hsh, hsame, hcol, hoff⟩ := fix_cases_RL_off h2 (by simpa using hU)
        refine ⟨s1, up, _, x, _, he, hsh, by simp [Ctx.depth],
          by simp [Ctx.before, Ctx.after], hsame, ?_, hroot h2 hsh, hoff.mono_off ?_⟩
        intro y hy
        simp only [BTree.toList_node, List.mem_append, List.mem_cons, not_or] at hy
        simp [hcol, upd, hy.1.2.1, hy.2.1]
        intro y hy
        simp only [Ctx.before, Ctx.after, BTree.toList_node, List.mem_append, List.mem_cons] at hy ⊢
        tauto
  | right A p c' =>
    cases c' with
    | top => simp [Ctx.depth] at hup0
    | left g U up =>
      have h2 := shape_up_left.1 (shape_up_right.1 h)
      by_cases hU : redPtr s U.ptr = true
      · obtain ⟨Ul, u, Ur, rfl, hu⟩ := redPtr_true hU
        refine ⟨_, up, _, g, _, fix_cases_left_red h2 hxl hxP hu, h2.recolor _, by simp [Ctx.depth],
          by simp [Ctx.before, Ctx.after], ⟨rfl, rfl, rfl, rfl, rfl, rfl, rfl, rfl⟩, ?_⟩
        refine ⟨?_, fun _ => rfl, fun _ _ => ⟨rfl, rfl, rfl, rfl⟩⟩
        intro y hy
        simp only [BTree.toList_node, List.mem_append, List.mem_cons, not_or] at hy
        simp [upd, hy.1.2.1, hy.2.1, hy.2.2.2.1]
      · obtain ⟨s1, he, hsh, hsame, hcol, hoff⟩ := fix_cases_LR_off h2 (by simpa using hU)
        refine ⟨s1, up, _, x, _, he, hsh, by simp [Ctx.depth],
          by simp [Ctx.before, Ctx.after], hsame, ?_, hroot h2 hsh, hoff.mono_off ?_⟩
        intro y hy
        simp only [BTree.toList_node, List.mem_append, List.mem_cons, not_or] at hy
        simp [hcol, upd, hy.2.1, hy.2.2.2.1]
        intro y hy
        simp only [Ctx.before, Ctx.after, BTree.toList_node, List.mem_append, List.mem_cons] at hy ⊢
        tauto
    | right U g up =>
      have h2 := shape_up_right.1 (shape_up_right.1 h)
      by_cases hU : redPtr s U.ptr = true
      · obtain ⟨Ul, u, Ur, rfl, hu⟩ := redPtr_true hU
        refine ⟨_, up, _, g, _, fix_cases_right_red h2 hxl hxP hu, h2.recolor _,
          by simp [Ctx.depth], by simp [Ctx.before, Ctx.after],
          ⟨rfl, rfl, rfl, rfl, rfl, rfl, rfl, rfl⟩, ?_⟩
        refine ⟨?_, fun _ => rfl, fun _ _ => ⟨rfl, rfl, rfl, rfl⟩⟩
        intro y hy
        simp only [BTree.toList_node, List.mem_append, List.mem_cons, not_or] at hy
        simp [upd, hy.1.2.1, hy.2.1, hy.2.2.2.1]
      · obtain ⟨s1, he, hsh, hsame, hcol, hoff⟩ := fix_cases_RR_off h2 (by simpa using hU)
        refine ⟨s1, up, _, p, _, he, hsh, by simp [Ctx.depth],
          by simp [Ctx.before, Ctx.after], hsame, ?_, hroot h2 hsh, hoff.mono_off ?_⟩
        intro y hy
        simp only [BTree.toList_node, List.mem_append, List.mem_cons, not_or] at hy
        simp [hcol, upd, hy.1.2.1, hy.2.1]
        intro y hy
        simp only [Ctx.before, Ctx.after, BTree.toList_node, List.mem_append, List.mem_cons] at hy ⊢
        tauto

/-- The case analysis of the loop body, for a node with a parent and a
grandparent: it succeeds, the new `node` is the root of the subtree two levels
up, the in-order list is the same, and colours change inside that subtree
only. -/
theorem fix_cases_step {s : Map K V} {c : Ctx} {l r : BTree} {x : Nat}
    (h : Shape s c (.node l x r)) (hd : 2 ≤ c.depth) :
    ∃ s1 up l1 x1 r1, fix_cases (KeyOps.std K) s (some x) = .ok (s1, some x1) ∧
      Shape s1 up (.node l1 x1 r1) ∧ up.depth + 2 = c.depth ∧
      up.before ++ (BTree.node l1 x1 r1).toList ++ up.after =
        c.before ++ (BTree.node l x r).toList ++ c.after ∧
      SameData s s1 ∧ (∀ y, y ∉ (BTree.node l1 x1 r1).toList → s1.color y = s.color y) ∧
      (up ≠ .top → s1.root = s.root) := by
  obtain ⟨s1, up, l1, x1, r1, h1, h2, h3, h4, h5, h6, h7, _⟩ := fix_cases_step_off h hd
  exact ⟨s1, up, l1, x1, r1, h1, h2, h3, h4, h5, h6, h7⟩

end

section

variable {K V : Type} [LinearOrder K]

theorem shape_plug {s : Map K V} {c : Ctx} {X : BTree} :
    Shape s c X ↔ Shape s .top (c.plug X) := by
  induction c generalizing X with
  | top => rfl
  | left a r up ih => rw [shape_up_left, ih]; rfl
  | right l a up ih => rw [shape_up_right, ih]; rfl

/-- With a red parent that is the root there is no grandparent: the loop body
dereferences `nullptr`. -/
theorem fix_body_no_grandparent {s : Map K V} {c : Ctx} {l r : BTree} {x : Nat}
    (h : Shape s c (.node l x r)) (hd : c.depth = 1) :
    fix_body (KeyOps.std K) s (some x) = .error .nullDeref := by
  have hxl : (s.cell x).isSome = true := h.sub.1
  have hxP : s.parent x = c.par := h.sub.2.2.2.1
  cases c with
  | top => simp [Ctx.depth] at hd
  | left p B c' =>
    cases c' with
    | top =>
      obtain ⟨hpl, _, _, hpP, _, _⟩ := h.ctx
      simp only [Ctx.par] at hxP hpP
      simp [fix_body, fix_cases, Map.node, hxl, hxP, hpl, hpP]
    | left g U up => simp [Ctx.depth] at hd
    | right U g up => simp [Ctx.depth] at hd
  | right A p c' =>
    cases c' with
    | top =>
      obtain ⟨hpl, _, _, hpP, _, _⟩ := h.ctx
      simp only [Ctx.par] at hxP hpP
      simp [fix_body, fix_cases, Map.node, hxl, hxP, hpl, hpP]
    | left g U up => simp [Ctx.depth] at hd
    | right U g up => simp [Ctx.depth] at hd

theorem Ctx.par_of_depth {c : Ctx} (h : 1 ≤ c.depth) : ∃ p, c.par = some p := by
  cases c with
  | top => simp [Ctx.depth] at h
  | left p B c' => exact ⟨p, rfl⟩
  | right A p c' => exact ⟨p, rfl⟩

theorem Ctx.depth_eq_zero {c : Ctx} (h : c.depth = 0) : c = .top := by
  cases c <;> simp [Ctx.depth] at h ⊢

/-- When the parent is the root, it is the node `root` points to. -/
theorem Shape.par_root {s : Map K V} {c : Ctx} {X : BTree} {p : Nat} (h : Shape s c X)
    (hd : c.depth = 1) (hp : c.par = some p) : s.root = some p := by
  cases c with
  | top => simp [Ctx.depth] at hd
  | left q B c' =>
    have : c' = .top := Ctx.depth_eq_zero (by simpa [Ctx.depth] using hd)
    subst this
    simp only [Ctx.par, Option.some.injEq] at hp
    subst hp
    exact h.ctx.2.2.2.2.2
  | right A q c' =>
    have : c' = .top := Ctx.depth_eq_zero (by simpa [Ctx.depth] using hd)
    subst this
    simp only [Ctx.par, Option.some.injEq] at hp
    subst hp
    exact h.ctx.2.2.2.2.2

theorem fix_insert_succ (o : KeyOps K) (fuel : Nat) (s : Map K V) (node : Ptr) :
    fix_insert o (fuel + 1) s node =
      (fix_cond o s node >>= fun b =>
        if b = true then fix_body o s node >>= fun r => fix_insert o fuel r.1 r.2
        else pure s) := by
  rw [fix_insert]

/-- Whenever `fix_insert` returns, the links realise a tree with the same
in-order list, and nothing but links, `root` and colours has changed. -/
theorem fix_insert_inv (fuel : Nat) {s : Map K V} {c : Ctx} {l r : BTree} {x : Nat}
    (h : Shape s c (.node l x r)) {s' : Map K V}
    (hrun : fix_insert (KeyOps.std K) fuel s (some x) = .ok s') :
    ∃ t, Shape s' .top t ∧
      t.toList = c.before ++ (BTree.node l x r).toList ++ c.after ∧ SameData s s' := by
  induction fuel generalizing s c l r x with
  | zero => simp [fix_insert] at hrun
  | succ n ih =>
    have hdone : s' = s → ∃ t, Shape s' .top t ∧
        t.toList = c.before ++ (BTree.node l x r).toList ++ c.after ∧ SameData s s' := by
      rintro rfl
      exact ⟨_, shape_plug.1 h, Ctx.toList_plug _ _, SameData.refl _⟩
    rw [fix_insert_succ] at hrun
    rcases Nat.eq_zero_or_pos c.depth with h0 | hpos
    · have hc := Ctx.depth_eq_zero h0
      subst hc
      rw [fix_cond_top h] at hrun
      simp only [ok_bind, Bool.false_eq_true, if_false, pure_eq_ok, Except.ok.injEq] at hrun
      exact hdone hrun.symm
    · obtain ⟨p, hp⟩ := Ctx.par_of_depth hpos
      rw [fix_cond_sub h hp] at hrun
      simp only [ok_bind] at hrun
      split at hrun
      · rcases Nat.lt_or_ge c.depth 2 with h1 | h2
        · rw [fix_body_no_grandparent h (by omega)] at hrun
          simp at hrun
        · obtain ⟨s1, up, l1, x1, r1, he, hsh, _, hlist, hsame, _, _⟩ := fix_cases_step h h2
          rw [fix_body_of_cases he hsh] at hrun
          simp only [ok_bind] at hrun
          obtain ⟨t, ht, htl, hts⟩ := ih (rootFix_shape hsh x1) hrun
          exact ⟨t, ht, htl.trans hlist, (hsame.trans (rootFix_sameData _ _ _)).trans hts⟩
      · simp only [pure_eq_ok, Except.ok.injEq] at hrun
        exact hdone hrun.symm

/-- With a black root and enough fuel, `fix_insert` returns, and the root is
black afterwards. -/
theorem fix_insert_ok (fuel : Nat) {s : Map K V} {c : Ctx} {l r : BTree} {x : Nat}
    (h : Shape s c (.node l x r)) (hb : s.rootBlack) (hf : c.depth < fuel) :
    ∃ s', fix_insert (KeyOps.std K) fuel s (some x) = .ok s' ∧ s'.rootBlack := by
  induction fuel generalizing s c l r x with
  | zero => omega
  | succ n ih =>
    rw [fix_insert_succ]
    rcases Nat.eq_zero_or_pos c.depth with h0 | hpos
    · have hc := Ctx.depth_eq_zero h0
      subst hc
      rw [fix_cond_top h]
      exact ⟨s, by simp, hb⟩
    · obtain ⟨p, hp⟩ := Ctx.par_of_depth hpos
      rw [fix_cond_sub h hp]
      simp only [ok_bind]
      split
      · rename_i hcond
        simp only [Bool.and_eq_true, beq_iff_eq] at hcond
        rcases Nat.lt_or_ge c.depth 2 with h1 | h2
        · have hroot := h.par_root (by omega) hp
          have := hb p hroot
          rw [hcond.2] at this
          simp [red, black] at this
        · obtain ⟨s1, up, l1, x1, r1, he, hsh, hdep, _, _, hcol, hrt⟩ := fix_cases_step h h2
          rw [fix_body_of_cases he hsh]
          simp only [ok_bind]
          refine ih (rootFix_shape hsh x1) ?_ (by omega)
          intro rt hrt'
          cases up with
          | top =>
            have hx1 : s1.root = some x1 := hsh.ctx
            simp only [rootFix] at hrt' ⊢
            rw [hx1] at hrt'
            cases hrt'
            simp [upd]
          | left a R up' =>
            simp only [rootFix] at hrt' ⊢
            obtain ⟨r0, hr0, hrm⟩ := hsh.ctx.root_mem (by simp)
            rw [hr0] at hrt'
            cases hrt'
            have hnot : rt ∉ (BTree.node l1 x1 r1).toList := by
              have := nd_split hsh.nodup
                (A := (Ctx.left a R up').before ++ (Ctx.left a R up').after)
                (B := (BTree.node l1 x1 r1).toList) (by
                  intro z
                  simp only [List.count_append]
                  omega) rt hrm
              exact this
            rw [hcol rt hnot]
            exact hb rt (by rw [← hrt (by simp)]; exact hr0)
          | right L a up' =>
            simp only [rootFix] at hrt' ⊢
            obtain ⟨r0, hr0, hrm⟩ := hsh.ctx.root_mem (by simp)
            rw [hr0] at hrt'
            cases hrt'
            have hnot : rt ∉ (BTree.node l1 x1 r1).toList := by
              have := nd_split hsh.nodup
                (A := (Ctx.right L a up').before ++ (Ctx.right L a up').after)
                (B := (BTree.node l1 x1 r1).toList) (by
                  intro z
                  simp only [List.count_append]
                  omega) rt hrm
              exact this
            rw [hcol rt hnot]
            exact hb rt (by rw [← hrt (by simp)]; exact hr0)
      · exact ⟨s, rfl, hb⟩

end

section

variable {K V : Type}

/-! ### The thread -/

theorem getLast?_cons_or (a : Nat) (l : List Nat) :
    (a :: l).getLast? = l.getLast?.or (some a) := by
  cases l with
  | nil => simp
  | cons b l =>
    rw [List.getLast?_cons_cons]
    cases h : (b :: l).getLast? with
    | none => simp at h
    | some x => simp

@[simp] theorem Seg_nil (s : Map K V) (p q : Ptr) : Seg s p [] q = True := rfl

theorem Seg_cons (s : Map K V) (p q : Ptr) (a : Nat) (l : List Nat) :
    Seg s p (a :: l) q = (s.prev a = p ∧ s.next a = l.head?.or q ∧ Seg s (some a) l q) := rfl

theorem Seg_append (s : Map K V) (p q : Ptr) (A B : List Nat) :
    Seg s p (A ++ B) q ↔ Seg s p A (B.head?.or q) ∧ Seg s (A.getLast?.or p) B q := by
  induction A generalizing p with
  | nil => simp
  | cons a A ih =>
    simp only [List.cons_append, Seg_cons, ih, List.head?_append, getLast?_cons_or]
    have e1 : (A.head?.or B.head?).or q = A.head?.or (B.head?.or q) := by
      cases A.head? <;> simp
    have e2 : (A.getLast?.or (some a)).or p = A.getLast?.or (some a) := by
      cases A.getLast? <;> simp
    rw [e1, e2]
    tauto

theorem Seg.frame_seg {s s' : Map K V} {p q : Ptr} {l : List Nat} (h : Seg s p l q)
    (hn : ∀ x ∈ l, s'.next x = s.next x) (hp : ∀ x ∈ l, s'.prev x = s.prev x) :
    Seg s' p l q := by
  induction l generalizing p with
  | nil => trivial
  | cons a l ih =>
    obtain ⟨h1, h2, h3⟩ := h
    refine ⟨?_, ?_, ih h3 (fun x hx => hn x (by simp [hx])) (fun x hx => hp x (by simp [hx]))⟩
    · rw [hp a (by simp)]; exact h1
    · rw [hn a (by simp)]; exact h2

/-- Redirecting the `next` of the last node of a chain. -/
theorem Seg.set_last {s s' : Map K V} {p q q' : Ptr} {l : List Nat} {z : Nat}
    (h : Seg s p (l ++ [z]) q)
    (hn : ∀ x ∈ l, s'.next x = s.next x) (hp : ∀ x ∈ l ++ [z], s'.prev x = s.prev x)
    (hz : s'.next z = q') : Seg s' p (l ++ [z]) q' := by
  rw [Seg_append] at h ⊢
  obtain ⟨h1, h2, _, _⟩ := h
  refine ⟨?_, ?_, ?_, trivial⟩
  · exact h1.frame_seg hn (fun x hx => hp x (by simp [hx]))
  · rw [hp z (by simp)]; exact h2
  · simpa using hz

/-- Redirecting the `prev` of the first node of a chain. -/
theorem Seg.set_first {s s' : Map K V} {p p' q : Ptr} {l : List Nat} {z : Nat}
    (h : Seg s p (z :: l) q)
    (hn : ∀ x ∈ z :: l, s'.next x = s.next x) (hp : ∀ x ∈ l, s'.prev x = s.prev x)
    (hz : s'.prev z = p') : Seg s' p' (z :: l) q := by
  obtain ⟨_, h2, h3⟩ := h
  refine ⟨hz, ?_, ?_⟩
  · rw [hn z (by simp)]; exact h2
  · exact h3.frame_seg (fun x hx => hn x (by simp [hx])) hp

theorem Seg.head_prev {s : Map K V} {p q : Ptr} {a : Nat} {l : List Nat}
    (h : Seg s p (a :: l) q) : s.prev a = p := h.1

/-- The `next` of the last node of a chain. -/
theorem Seg.last_next {s : Map K V} {p q : Ptr} {l : List Nat} {z : Nat}
    (h : Seg s p (l ++ [z]) q) : s.next z = q := by
  rw [Seg_append] at h
  simpa using h.2.2.1

/-- The `prev` pointer in the middle of a chain. -/
theorem Seg.mid_prev {s : Map K V} {p q : Ptr} {A B : List Nat} {x : Nat}
    (h : Seg s p (A ++ x :: B) q) : s.prev x = A.getLast?.or p := by
  rw [Seg_append] at h
  exact h.2.1

/-- The `next` pointer in the middle of a chain. -/
theorem Seg.mid_next {s : Map K V} {p q : Ptr} {A B : List Nat} {x : Nat}
    (h : Seg s p (A ++ x :: B) q) : s.next x = B.head?.or q := by
  rw [Seg_append] at h
  exact h.2.2.1

/-- Walking `next` along a chain yields the chain. -/
theorem thread_walk_seg {s : Map K V} {p : Ptr} {l : List Nat} (h : Seg s p l none)
    (hlive : ∀ a ∈ l, (s.cell a).isSome = true) (fuel : Nat) (hf : l.length < fuel) :
    thread_walk fuel s l.head? = .ok l := by
  induction l generalizing p fuel with
  | nil =>
    cases fuel with
    | zero => simp at hf
    | succ n => simp [thread_walk]
  | cons a l ih =>
    cases fuel with
    | zero => simp at hf
    | succ n =>
      obtain ⟨_, h2, h3⟩ := h
      simp only [Option.or_none] at h2
      have := ih h3 (fun x hx => hlive x (by simp [hx])) n (by simpa using hf)
      simp [thread_walk, Map.node, hlive a (by simp), h2, this]

end

section

variable {K V : Type} [LinearOrder K]

/-! ### The search loop of `insert_node` -/

theorem pw_node {R : Nat → Nat → Prop} {A L M B : List Nat} {x : Nat}
    (h : (A ++ (L ++ x :: M) ++ B).Pairwise R) : (∀ a ∈ L, R a x) ∧ (∀ a ∈ M, R x a) := by
  have h1 := (List.pairwise_append.1 (List.pairwise_append.1 h).1).2.1
  have h2 := List.pairwise_append.1 h1
  exact ⟨fun a ha => h2.2.2 a ha x (by simp), fun a ha => (List.pairwise_cons.1 h2.2.1).1 a ha⟩

theorem insert_search_spec {s : Map K V} {k : K} (t : BTree) :
    ∀ (c : Ctx) (fuel : Nat), Shape s c t → (∀ a ∈ c.before, s.keyBelow k a) →
      (∀ a ∈ c.after, s.keyAbove k a) → t.height < fuel →
      (∃ x cx, insert_search (KeyOps.std K) fuel s k t.ptr c.par = .ok (.inl x) ∧
          x ∈ t.toList ∧ s.cell x = some cx ∧ cx.1 = k) ∨
      (∃ d : Ctx, insert_search (KeyOps.std K) fuel s k t.ptr c.par = .ok (.inr d.par) ∧
          Shape s d .nil ∧ d.before ++ d.after = c.before ++ t.toList ++ c.after ∧
          (∀ a ∈ d.before, s.keyBelow k a) ∧ (∀ a ∈ d.after, s.keyAbove k a) ∧
          d.depth ≤ c.depth + t.height ∧ (∀ a ∈ t.toList, s.keyOf a ≠ some k)) := by
  induction t with
  | nil =>
    intro c fuel h hlo hhi hf
    cases fuel with
    | zero => simp at hf
    | succ n =>
      right
      exact ⟨c, by simp [insert_search], h, by simp, hlo, hhi, by simp, by simp⟩
  | node l x r ihl ihr =>
    intro c fuel h hlo hhi hf
    cases fuel with
    | zero => simp at hf
    | succ n =>
      obtain ⟨cx, hcx⟩ := Option.isSome_iff_exists.1 h.sub.1
      have hxL : s.left x = l.ptr := h.sub.2.1
      have hxR : s.right x = r.ptr := h.sub.2.2.1
      obtain ⟨hpl, hpr⟩ := pw_node (by simpa using h.sorted)
      simp only [BTree.height] at hf
      rcases lt_trichotomy k cx.1 with hlt | heq | hgt
      · have hrun : insert_search (KeyOps.std K) (n + 1) s k (BTree.node l x r).ptr c.par =
            insert_search (KeyOps.std K) n s k l.ptr (Ctx.left x r c).par := by
          simp [insert_search, Map.key, hcx, KeyOps.std, hlt, hxL, Ctx.par]
        rw [hrun]
        have hhi' : ∀ a ∈ (Ctx.left x r c).after, s.keyAbove k a := by
          intro a ha
          simp only [Ctx.after, List.cons_append, List.mem_cons, List.mem_append] at ha
          rcases ha with rfl | ha | ha
          · exact ⟨cx, hcx, hlt⟩
          · obtain ⟨c1, c2, e1, e2, e3⟩ := hpr a ha
            rw [hcx] at e1
            cases e1
            exact ⟨c2, e2, lt_trans hlt e3⟩
          · exact hhi a ha
        rcases ihl (Ctx.left x r c) n (shape_up_left.2 h) hlo hhi' (by omega) with
          ⟨y, cy, e1, e2, e3, e4⟩ | ⟨d, e1, e2, e3, e4, e5, e6, e7⟩
        · left
          exact ⟨y, cy, e1, by simp [e2], e3, e4⟩
        · right
          refine ⟨d, e1, e2, ?_, e4, e5, ?_, ?_⟩
          · rw [e3]
            simp [Ctx.before, Ctx.after]
          · simp only [Ctx.depth, BTree.height] at e6 ⊢
            omega
          · intro a ha
            simp only [BTree.toList_node, List.mem_append, List.mem_cons] at ha
            rcases ha with ha | rfl | ha
            · exact e7 a ha
            · simp [Map.keyOf, hcx, ne_of_gt hlt]
            · obtain ⟨c1, c2, e1, e2, e3⟩ := hpr a ha
              rw [hcx] at e1
              cases e1
              simp [Map.keyOf, e2, ne_of_gt (lt_trans hlt e3)]
      · left
        refine ⟨x, cx, ?_, by simp, hcx, heq.symm⟩
        simp [insert_search, Map.key, hcx, KeyOps.std, heq]
      · have hrun : insert_search (KeyOps.std K) (n + 1) s k (BTree.node l x r).ptr c.par =
            insert_search (KeyOps.std K) n s k r.ptr (Ctx.right l x c).par := by
          simp [insert_search, Map.key, hcx, KeyOps.std, hgt, not_lt_of_gt hgt, hxR, Ctx.par]
        rw [hrun]
        have hlo' : ∀ a ∈ (Ctx.right l x c).before, s.keyBelow k a := by
          intro a ha
          simp only [Ctx.before, List.mem_append, List.mem_singleton] at ha
          rcases ha with ha | ha | rfl
          · exact hlo a ha
          · obtain ⟨c1, c2, e1, e2, e3⟩ := hpl a ha
            rw [hcx] at e2
            cases e2
            exact ⟨c1, e1, lt_trans e3 hgt⟩
          · exact ⟨cx, hcx, hgt⟩
        rcases ihr (Ctx.right l x c) n (shape_up_right.2 h) hlo' hhi (by omega) with
          ⟨y, cy, e1, e2, e3, e4⟩ | ⟨d, e1, e2, e3, e4, e5, e6, e7⟩
        · left
          exact ⟨y, cy, e1, by simp [e2], e3, e4⟩
        · right
          refine ⟨d, e1, e2, ?_, e4, e5, ?_, ?_⟩
          · rw [e3]
            simp [Ctx.before, Ctx.after]
          · simp only [Ctx.depth, BTree.height] at e6 ⊢
            omega
          · intro a ha
            simp only [BTree.toList_node, List.mem_append, List.mem_cons] at ha
            rcases ha with ha | rfl | ha
            · obtain ⟨c1, c2, e1, e2, e3⟩ := hpl a ha
              rw [hcx] at e2
              cases e2
              simp [Map.keyOf, e1, ne_of_lt (lt_trans e3 hgt)]
            · simp [Map.keyOf, hcx, ne_of_lt hgt]
            · exact e7 a ha

end

section

variable {K V : Type}

/-! ### Splicing the thread -/

theorem count_head?_le (x : Nat) (l : List Nat) :
    List.count x l.head?.toList ≤ List.count x l := by
  cases l with
  | nil => simp
  | cons a l =>
    simp only [List.head?_cons, Option.toList_some, List.count_cons, List.count_nil]
    omega

theorem count_getLast?_le (x : Nat) (l : List Nat) :
    List.count x l.getLast?.toList ≤ List.count x l := by
  rcases List.eq_nil_or_concat l with rfl | ⟨l', z, rfl⟩
  · simp
  · simp only [List.concat_eq_append, List.getLast?_concat, Option.toList_some,
      List.count_append, List.count_cons, List.count_nil]
    omega

theorem not_head?_of_count {L A B : List Nat} (hnd : L.Nodup)
    (h : ∀ x, List.count x A + List.count x B ≤ List.count x L) :
    ∀ y ∈ A, B.head? ≠ some y := by
  intro y hy e
  have h0 := List.nodup_iff_count_le_one.1 hnd y
  have h1 := List.count_pos_iff.2 hy
  have h2 := count_head?_le y B
  rw [e] at h2
  have h3 := h y
  simp only [Option.toList_some, List.count_cons, List.count_nil, beq_self_eq_true, if_true]
    at h2
  omega

theorem not_getLast?_of_count {L A B : List Nat} (hnd : L.Nodup)
    (h : ∀ x, List.count x A + List.count x B ≤ List.count x L) :
    ∀ y ∈ A, B.getLast? ≠ some y := by
  intro y hy e
  have h0 := List.nodup_iff_count_le_one.1 hnd y
  have h1 := List.count_pos_iff.2 hy
  have h2 := count_getLast?_le y B
  rw [e] at h2
  have h3 := h y
  simp only [Option.toList_some, List.count_cons, List.count_nil, beq_self_eq_true, if_true]
    at h2
  omega

/-- Splicing a new node `a` into the thread right before `cp`. -/
theorem thread_insert_before {s s1 : Map K V} {A B : List Nat} {a cp : Nat}
    (h : ThreadOK s (A ++ cp :: B)) (hnd : (a :: (A ++ cp :: B)).Nodup)
    (hna : s1.next a = some cp) (hpa : s1.prev a = A.getLast?) (hpc : s1.prev cp = some a)
    (hnz : ∀ z, A.getLast? = some z → s1.next z = some a)
    (hn : ∀ x ∈ A ++ cp :: B, A.getLast? ≠ some x → s1.next x = s.next x)
    (hp : ∀ x ∈ A ++ cp :: B, x ≠ cp → s1.prev x = s.prev x)
    (hfirst : s1.first = (A ++ [a]).head?) (hlast : s1.last = s.last) :
    ThreadOK s1 (A ++ a :: cp :: B) := by
  obtain ⟨_, hl, hseg⟩ := h
  have hseg' := (Seg_append s none none A (cp :: B)).1 hseg
  obtain ⟨hsA, hsB⟩ := hseg'
  have hndL : (A ++ cp :: B).Nodup := (List.nodup_cons.1 hnd).2
  have hcpA : ∀ y ∈ A, y ≠ cp := by
    intro y hy
    have := nd_split hndL (A := A) (B := [cp]) (by
      intro x
      simp only [List.count_append, List.count_cons, List.count_nil]
      omega) y hy
    simpa using this
  have hcpB : ∀ y ∈ B, y ≠ cp := by
    intro y hy
    have := nd_split hndL (A := B) (B := [cp]) (by
      intro x
      simp only [List.count_append, List.count_cons, List.count_nil]
      omega) y hy
    simpa using this
  have hBA : ∀ y ∈ cp :: B, A.getLast? ≠ some y :=
    not_getLast?_of_count hndL (by
      intro x
      simp only [List.count_append, List.count_cons, List.count_nil]
      omega)
  -- the part from `cp` on
  have hB1 : Seg s1 (some a) (cp :: B) none := by
    refine hsB.set_first (fun x hx => hn x (by simp at hx ⊢; tauto) (hBA x hx))
      (fun x hx => hp x (by simp [hx]) (hcpB x hx)) hpc
  refine ⟨?_, ?_, ?_⟩
  · rw [hfirst]
    simp [List.head?_append]
  · rw [hlast, hl]
    simp [List.getLast?_append, List.getLast?_cons_cons]
  · rw [Seg_append]
    refine ⟨?_, ?_, ?_, ?_⟩
    · rcases List.eq_nil_or_concat A with rfl | ⟨A', z, rfl⟩
      · trivial
      · simp only [List.concat_eq_append] at *
        have hzA : ∀ y ∈ A', (A' ++ [z]).getLast? ≠ some y := by
          intro y hy e
          simp only [List.getLast?_concat, Option.some.injEq] at e
          subst e
          have := nd_split hndL (A := A') (B := [z]) (by
            intro x
            simp only [List.count_append, List.count_cons, List.count_nil]
            omega) z hy
          simp at this
        refine hsA.set_last (fun x hx => hn x (by simp [hx]) (hzA x hx))
          (fun x hx => hp x (by simp at hx ⊢; tauto) (hcpA x hx)) ?_
        simpa using hnz z (by simp)
    · rw [hpa]; simp
    · simpa using hna
    · exact hB1

/-- Splicing a new node `a` into the thread right after `cp`. -/
theorem thread_insert_after {s s1 : Map K V} {A B : List Nat} {a cp : Nat}
    (h : ThreadOK s (A ++ cp :: B)) (hnd : (a :: (A ++ cp :: B)).Nodup)
    (hpa : s1.prev a = some cp) (hna : s1.next a = B.head?) (hnc : s1.next cp = some a)
    (hpz : ∀ z, B.head? = some z → s1.prev z = some a)
    (hp : ∀ x ∈ A ++ cp :: B, B.head? ≠ some x → s1.prev x = s.prev x)
    (hn : ∀ x ∈ A ++ cp :: B, x ≠ cp → s1.next x = s.next x)
    (hfirst : s1.first = s.first) (hlast : s1.last = (a :: B).getLast?) :
    ThreadOK s1 (A ++ cp :: a :: B) := by
  obtain ⟨hf, _, hseg⟩ := h
  have hseg' : Seg s none ((A ++ [cp]) ++ B) none := by simpa using hseg
  obtain ⟨hsA, hsB⟩ := (Seg_append s none none (A ++ [cp]) B).1 hseg'
  have hndL : (A ++ cp :: B).Nodup := (List.nodup_cons.1 hnd).2
  have hcpA : ∀ y ∈ A, y ≠ cp := by
    intro y hy
    have := nd_split hndL (A := A) (B := [cp]) (by
      intro x
      simp only [List.count_append, List.count_cons, List.count_nil]
      omega) y hy
    simpa using this
  have hcpB : ∀ y ∈ B, y ≠ cp := by
    intro y hy
    have := nd_split hndL (A := B) (B := [cp]) (by
      intro x
      simp only [List.count_append, List.count_cons, List.count_nil]
      omega) y hy
    simpa using this
  have hAB : ∀ y ∈ A ++ [cp], B.head? ≠ some y :=
    not_head?_of_count hndL (by
      intro x
      simp only [List.count_append, List.count_cons, List.count_nil]
      omega)
  have hA1 : Seg s1 none (A ++ [cp]) (some a) := by
    refine hsA.set_last (fun x hx => hn x (by simp [hx]) (hcpA x hx))
      (fun x hx => hp x (by simp at hx ⊢; tauto) (hAB x hx)) hnc
  have hgoal : Seg s1 none ((A ++ [cp]) ++ a :: B) none := by
    rw [Seg_append]
    refine ⟨by simpa using hA1, ?_, ?_, ?_⟩
    · simpa using hpa
    · rw [hna]; simp
    · cases B with
      | nil => trivial
      | cons z B' =>
        have hzB : ∀ y ∈ B', (z :: B').head? ≠ some y := by
          intro y hy e
          simp only [List.head?_cons, Option.some.injEq] at e
          subst e
          have := nd_split hndL (A := B') (B := [z]) (by
            intro x
            simp only [List.count_append, List.count_cons, List.count_nil]
            omega) z hy
          simp at this
        have hsB' : Seg s (some cp) (z :: B') none := by simpa using hsB
        refine hsB'.set_first (fun x hx => hn x (by simp at hx ⊢; tauto) (hcpB x hx))
          (fun x hx => hp x (by simp [hx]) (hzB x hx)) ?_
        simpa using hpz z (by simp)
  refine ⟨?_, ?_, by simpa using hgoal⟩
  · rw [hfirst, hf]
    simp [List.head?_append]
  · rw [hlast]
    simp only [List.getLast?_append, List.getLast?_cons_cons]
    cases h : (a :: B).getLast? with
    | none => simp at h
    | some x => simp

end

section

variable {K V : Type} [LinearOrder K]

/-! ### Linking the new node -/

theorem pairwise_insert {s : Map K V} {A B : List Nat} {a : Nat} {c : K × V}
    (h : (A ++ B).Pairwise s.klt) (hcell : s.cell a = some c)
    (hlo : ∀ b ∈ A, s.keyBelow c.1 b) (hhi : ∀ b ∈ B, s.keyAbove c.1 b) :
    (A ++ a :: B).Pairwise s.klt := by
  obtain ⟨h1, h2, h3⟩ := List.pairwise_append.1 h
  refine List.pairwise_append.2 ⟨h1, List.pairwise_cons.2 ⟨?_, h2⟩, ?_⟩
  · intro y hy
    obtain ⟨cy, e1, e2⟩ := hhi y hy
    exact ⟨c, cy, hcell, e1, e2⟩
  · intro x hx y hy
    simp only [List.mem_cons] at hy
    rcases hy with rfl | hy
    · obtain ⟨cx, e1, e2⟩ := hlo x hx
      exact ⟨cx, c, e1, hcell, e2⟩
    · exact h3 x hx y hy

theorem Shape.not_top_of_root {s : Map K V} {d : Ctx} (h : Shape s d .nil) {r : Nat}
    (hr : s.root = some r) : ∃ cp, d.par = some cp := by
  cases d with
  | top =>
    have : s.root = none := h.ctx
    rw [hr] at this
    cases this
  | left cp R up => exact ⟨cp, rfl⟩
  | right L cp up => exact ⟨cp, rfl⟩

/-- Linking a fresh node into the hole found by the search, and into the
thread. -/
theorem insert_link_spec {s : Map K V} {d : Ctx} {a : Nat} {k : K} {v : V}
    (hd : Shape s d .nil) (hpar : ∃ cp, d.par = some cp)
    (hlo : ∀ b ∈ d.before, s.keyBelow k b) (hhi : ∀ b ∈ d.after, s.keyAbove k b)
    (ha : a ∉ d.before ++ d.after) (hcell : s.cell a = some (k, v))
    (haL : s.left a = none) (haR : s.right a = none)
    (hth : ThreadOK s (d.before ++ d.after)) :
    ∃ s1, insert_link (KeyOps.std K) s k (some a) d.par = .ok s1 ∧
      Shape s1 d (.node .nil a .nil) ∧ ThreadOK s1 (d.before ++ a :: d.after) ∧
      s1.cell = s.cell ∧ s1.color = s.color ∧ s1.brk = s.brk ∧
      s1.num_nodes = s.num_nodes ∧ s1.mapped = s.mapped ∧ s1.root = s.root := by
  have hnd0 : (d.before ++ d.after).Nodup := by
    have := hd.nodup
    simpa using this
  have hnd : (a :: (d.before ++ d.after)).Nodup := List.nodup_cons.2 ⟨ha, hnd0⟩
  have hal : (s.cell a).isSome = true := by simp [hcell]
  have hsort0 : (d.before ++ d.after).Pairwise s.klt := by simpa using hd.sorted
  cases d with
  | top =>
    obtain ⟨cp, hcp⟩ := hpar
    simp [Ctx.par] at hcp
  | left cp R up =>
    obtain ⟨ccp, hccp, hlt⟩ := hhi cp (by simp [Ctx.after])
    have hcpl : (s.cell cp).isSome = true := by simp [hccp]
    have hacp : a ≠ cp := by
      rintro rfl
      exact ha (by simp [Ctx.after])
    simp only [Ctx.before, Ctx.after, List.cons_append] at hth hnd ha hsort0 hlo hhi ⊢
    have hprev : s.prev cp = up.before.getLast? := by
      have := hth.seg.mid_prev
      simpa using this
    have hone : ∀ s1 : Map K V, s1.cell = s.cell → s1.left = upd s.left cp (some a) →
        s1.right = s.right → s1.parent = upd s.parent a (some cp) → s1.root = s.root →
        Shape s1 (.left cp R up) (.node .nil a .nil) := by
      intro s1 e1 e2 e3 e4 e5
      have hset := hd.ctx.set_hole (some a) hnd0
      have hoff : Off [a] (setHole s (.left cp R up) (some a)) s1 := by
        intro x hx
        simp only [List.mem_singleton] at hx
        refine ⟨by simp [e1], by simp [e2, setHole], by simp [e3, setHole], ?_⟩
        simp [e4, upd, hx]
      refine ⟨hset.off_ctx (by simp [e5, setHole]) hoff ?_, ?_, ?_⟩
      · intro x hx
        simp only [Ctx.before, Ctx.after, List.cons_append, List.mem_singleton]
        rintro rfl
        exact ha (by simpa [Ctx.before, Ctx.after] using hx)
      · exact ⟨by rw [e1]; exact hal, by simp [e2, upd, hacp, haL], by simp [e3, haR],
          by simp [e4, upd, Ctx.par], trivial, trivial⟩
      · rw [klt_congr e1]
        simp only [Ctx.before, Ctx.after, BTree.toList_node, BTree.toList_nil, List.nil_append,
          List.append_assoc, List.cons_append]
        exact pairwise_insert hsort0 hcell hlo hhi
    rcases List.eq_nil_or_concat up.before with hA | ⟨A', z, hA⟩
    · rw [hA] at hprev hth hnd
      simp only [List.getLast?_nil] at hprev
      refine ⟨{ s with
          left := upd s.left cp (some a)
          parent := upd s.parent a (some cp)
          next := upd s.next a (some cp)
          prev := upd (upd s.prev a none) cp (some a)
          first := some a }, ?_, hone _ rfl rfl rfl rfl rfl, ?_, rfl, rfl, rfl, rfl, rfl, rfl⟩
      · simp [insert_link, Map.node, Map.key, hcpl, hccp, hal, KeyOps.std, hlt, Ctx.par, upd,
          hacp.symm, hprev]
      · rw [hA]
        refine thread_insert_before hth hnd ?_ ?_ ?_ ?_ ?_ ?_ ?_ rfl
        · simp [upd]
        · simp [upd, hacp]
        · simp [upd]
        · simp
        · intro x hx _
          have : x ≠ a := by
            rintro rfl
            exact (List.nodup_cons.1 hnd).1 hx
          simp [upd, this]
        · intro x hx hxc
          have : x ≠ a := by
            rintro rfl
            exact (List.nodup_cons.1 hnd).1 hx
          simp [upd, this, hxc]
        · simp
    · simp only [List.concat_eq_append] at hA
      rw [hA] at hprev hth hnd
      simp only [List.getLast?_concat] at hprev
      have hzl : (s.cell z).isSome = true :=
        hd.ctx.live_ctx z (by simp [Ctx.before, hA])
      have hza : z ≠ a := by
        rintro rfl
        exact (List.nodup_cons.1 hnd).1 (by simp)
      refine ⟨{ s with
          left := upd s.left cp (some a)
          parent := upd s.parent a (some cp)
          next := upd (upd s.next a (some cp)) z (some a)
          prev := upd (upd s.prev a (some z)) cp (some a) }, ?_, hone _ rfl rfl rfl rfl rfl, ?_,
          rfl, rfl, rfl, rfl, rfl, rfl⟩
      · simp [insert_link, Map.node, Map.key, hcpl, hccp, hal, KeyOps.std, hlt, Ctx.par, upd,
          hacp.symm, hprev, hzl]
      · rw [hA]
        refine thread_insert_before hth hnd ?_ ?_ ?_ ?_ ?_ ?_ ?_ rfl
        · simp [upd, hza.symm]
        · simp [upd, hacp]
        · simp [upd]
        · intro z' hz'
          simp only [List.getLast?_concat, Option.some.injEq] at hz'
          subst hz'
          simp [upd]
        · intro x hx hxz
          have hxa : x ≠ a := by
            rintro rfl
            exact (List.nodup_cons.1 hnd).1 hx
          have hxz' : x ≠ z := by
            rintro rfl
            exact hxz (by simp)
          simp [upd, hxa, hxz']
        · intro x hx hxc
          have : x ≠ a := by
            rintro rfl
            exact (List.nodup_cons.1 hnd).1 hx
          simp [upd, this, hxc]
        · rw [hth.first]
          simp [List.head?_append]
  | right L cp up =>
    obtain ⟨ccp, hccp, hlt⟩ := hlo cp (by simp [Ctx.before])
    have hcpl : (s.cell cp).isSome = true := by simp [hccp]
    have hacp : a ≠ cp := by
      rintro rfl
      exact ha (by simp [Ctx.before])
    have hnlt : ¬ k < ccp.1 := not_lt_of_gt hlt
    simp only [Ctx.before, Ctx.after] at hth hnd ha hsort0 hlo hhi ⊢
    have hth' : ThreadOK s ((up.before ++ L.toList) ++ cp :: up.after) := by
      simpa [List.append_assoc] using hth
    have hnd' : (a :: ((up.before ++ L.toList) ++ cp :: up.after)).Nodup := by
      simpa [List.append_assoc] using hnd
    have hnext : s.next cp = up.after.head? := by
      have := hth'.seg.mid_next
      simpa using this
    have hone : ∀ s1 : Map K V, s1.cell = s.cell → s1.left = s.left →
        s1.right = upd s.right cp (some a) → s1.parent = upd s.parent a (some cp) →
        s1.root = s.root → Shape s1 (.right L cp up) (.node .nil a .nil) := by
      intro s1 e1 e2 e3 e4 e5
      have hset := hd.ctx.set_hole (some a) hnd0
      have hoff : Off [a] (setHole s (.right L cp up) (some a)) s1 := by
        intro x hx
        simp only [List.mem_singleton] at hx
        refine ⟨by simp [e1], by simp [e2, setHole], by simp [e3, setHole], ?_⟩
        simp [e4, upd, hx]
      refine ⟨hset.off_ctx (by simp [e5, setHole]) hoff ?_, ?_, ?_⟩
      · intro x hx
        simp only [List.mem_singleton]
        rintro rfl
        exact ha (by simpa [Ctx.before, Ctx.after] using hx)
      · exact ⟨by rw [e1]; exact hal, by simp [e2, haL], by simp [e3, upd, hacp, haR],
          by simp [e4, upd, Ctx.par], trivial, trivial⟩
      · rw [klt_congr e1]
        simp only [Ctx.before, Ctx.after, BTree.toList_node, BTree.toList_nil, List.nil_append,
          List.append_assoc, List.cons_append]
        have := pairwise_insert hsort0 hcell hlo hhi
        simpa [List.append_assoc] using this
    have hgoal : ∀ s1 : Map K V, ThreadOK s1 ((up.before ++ L.toList) ++ cp :: a :: up.after) →
        ThreadOK s1 (up.before ++ (L.toList ++ [cp]) ++ a :: up.after) := by
      intro s1 h1
      simpa [List.append_assoc] using h1
    obtain hB | ⟨z, B', hB⟩ : up.after = [] ∨ ∃ z B', up.after = z :: B' := by
      cases up.after <;> simp
    · rw [hB] at hnext hth' hnd'
      simp only [List.head?_nil] at hnext
      refine ⟨{ s with
          right := upd s.right cp (some a)
          parent := upd s.parent a (some cp)
          prev := upd s.prev a (some cp)
          next := upd (upd s.next a none) cp (some a)
          last := some a }, ?_, hone _ rfl rfl rfl rfl rfl, ?_, rfl, rfl, rfl, rfl, rfl, rfl⟩
      · simp [insert_link, Map.node, Map.key, hcpl, hccp, hal, KeyOps.std, hlt, hnlt, Ctx.par,
          upd, hacp.symm, hnext]
      · apply hgoal
        rw [hB]
        refine thread_insert_after hth' hnd' ?_ ?_ ?_ ?_ ?_ ?_ rfl ?_
        · simp [upd]
        · simp [upd, hacp]
        · simp [upd]
        · simp
        · intro x hx _
          have : x ≠ a := by
            rintro rfl
            exact (List.nodup_cons.1 hnd').1 hx
          simp [upd, this]
        · intro x hx hxc
          have : x ≠ a := by
            rintro rfl
            exact (List.nodup_cons.1 hnd').1 hx
          simp [upd, this, hxc]
        · simp
    · rw [hB] at hnext hth' hnd'
      simp only [List.head?_cons] at hnext
      have hzl : (s.cell z).isSome = true :=
        hd.ctx.live_ctx z (by simp [Ctx.after, hB])
      have hza : z ≠ a := by
        rintro rfl
        exact (List.nodup_cons.1 hnd').1 (by simp)
      have hzc : z ≠ cp := by
        have := (List.nodup_cons.1 hnd').2
        have := nd_split this (A := [z]) (B := [cp]) (by
          intro x
          simp only [List.count_append, List.count_cons, List.count_nil]
          omega) z (by simp)
        simpa using this
      refine ⟨{ s with
          right := upd s.right cp (some a)
          parent := upd s.parent a (some cp)
          prev := upd (upd s.prev a (some cp)) z (some a)
          next := upd (upd s.next a (some z)) cp (some a) }, ?_, hone _ rfl rfl rfl rfl rfl, ?_,
          rfl, rfl, rfl, rfl, rfl, rfl⟩
      · simp [insert_link, Map.node, Map.key, hcpl, hccp, hal, KeyOps.std, hlt, hnlt, Ctx.par,
          upd, hacp.symm, hnext, hzl]
      · apply hgoal
        rw [hB]
        refine thread_insert_after hth' hnd' ?_ ?_ ?_ ?_ ?_ ?_ rfl ?_
        · simp [upd, hza.symm]
        · simp [upd, hacp]
        · simp [upd]
        · intro z' hz'
          simp only [List.head?_cons, Option.some.injEq] at hz'
          subst hz'
          simp [upd]
        · intro x hx hxz
          have hxa : x ≠ a := by
            rintro rfl
            exact (List.nodup_cons.1 hnd').1 hx
          have hxz' : x ≠ z := by
            rintro rfl
            exact hxz (by simp)
          simp [upd, hxa, hxz']
        · intro x hx hxc
          have : x ≠ a := by
            rintro rfl
            exact (List.nodup_cons.1 hnd').1 hx
          simp [upd, this, hxc]
        · rw [hth'.last]
          simp only [List.getLast?_append, List.getLast?_cons_cons]
          cases h : (z :: B').getLast? with
          | none => simp at h
          | some x => simp

end

section

variable {K V : Type} [LinearOrder K]

/-! ### `insert_node` -/

theorem insert_search_mono (o : KeyOps K) {s : Map K V} {k : K} (n : Nat) :
    ∀ (fuel : Nat) (c p : Ptr) (r : Nat ⊕ Ptr), insert_search o fuel s k c p = .ok r →
      insert_search o (fuel + n) s k c p = .ok r := by
  intro fuel
  induction fuel with
  | zero => intro c p r h; simp [insert_search] at h
  | succ m ih =>
    intro c p r h
    rw [show m + 1 + n = (m + n) + 1 by omega]
    cases c with
    | none => simpa [insert_search] using h
    | some x =>
      simp only [insert_search] at h ⊢
      cases hk : s.key (some x) with
      | error e => rw [hk] at h; simp at h
      | ok kc =>
        rw [hk] at h
        simp only [ok_bind] at h ⊢
        split at h
        · rename_i h1
          simp only [h1, if_true]
          exact ih _ _ _ h
        · rename_i h1
          simp only [h1]
          split at h
          · rename_i h2
            simp only [h2, if_true]
            exact ih _ _ _ h
          · rename_i h2
            simp only [h2]
            exact h

theorem pairwise_klt_congr {s s' : Map K V} {l : List Nat}
    (hc : ∀ x ∈ l, s'.cell x = s.cell x) (h : l.Pairwise s.klt) : l.Pairwise s'.klt := by
  refine List.Pairwise.imp_of_mem ?_ h
  intro a b ha hb hab
  obtain ⟨ca, cb, e1, e2, e3⟩ := hab
  exact ⟨ca, cb, (hc a ha).trans e1, (hc b hb).trans e2, e3⟩

theorem Shape.off_shape {s s' : Map K V} {c : Ctx} {X : BTree} {D : List Nat} (h : Shape s c X)
    (hroot : s'.root = s.root) (hoff : Off D s s')
    (hd : ∀ x ∈ c.before ++ X.toList ++ c.after, x ∉ D) : Shape s' c X := by
  refine ⟨h.ctx.off_ctx hroot hoff ?_, h.sub.off hoff ?_, ?_⟩
  · intro x hx
    exact hd x (by simp only [List.mem_append] at hx ⊢; tauto)
  · intro x hx
    exact hd x (by simp only [List.mem_append] at hx ⊢; tauto)
  · exact pairwise_klt_congr (fun x hx => (hoff x (hd x hx)).1) h.sorted

theorem TreeOK.shape {s : Map K V} {t : BTree} (h : TreeOK s t) : Shape s .top t :=
  ⟨h.root, h.rep, by simpa [Ctx.before, Ctx.after] using h.sorted⟩

theorem new_node_off (s : Map K V) (k : K) (v : V) : Off [s.brk] s (s.new_node k v) := by
  intro x hx
  simp only [List.mem_singleton] at hx
  simp [Map.new_node, upd, hx]

theorem keyBelow_congr {s s' : Map K V} {k : K} {a : Nat} (h : s'.cell a = s.cell a) :
    s'.keyBelow k a ↔ s.keyBelow k a := by
  simp [Map.keyBelow, h]

theorem keyAbove_congr {s s' : Map K V} {k : K} {a : Nat} (h : s'.cell a = s.cell a) :
    s'.keyAbove k a ↔ s.keyAbove k a := by
  simp [Map.keyAbove, h]

theorem ThreadOK.congr {s s' : Map K V} {l : List Nat} (h : ThreadOK s l)
    (hn : ∀ x ∈ l, s'.next x = s.next x) (hp : ∀ x ∈ l, s'.prev x = s.prev x)
    (hf : s'.first = s.first) (hl : s'.last = s.last) : ThreadOK s' l :=
  ⟨hf.trans h.first, hl.trans h.last, h.seg.frame_seg hn hp⟩

theorem TreeOK.of_shape {s s' : Map K V} {t : BTree} (h : Shape s .top t)
    (hc : s'.cell = s.cell) (hl : s'.left = s.left) (hr : s'.right = s.right)
    (hp : s'.parent = s.parent) (hroot : s'.root = s.root)
    (hcount : s'.num_nodes = t.toList.length) (hbelow : ∀ y ∈ t.toList, y < s'.brk) :
    TreeOK s' t := by
  refine ⟨hroot.trans h.ctx, ?_, ?_, hcount, hbelow⟩
  · exact h.sub.frame (by rw [hc]; exact Fix.rfl) (by rw [hl]; exact Fix.rfl)
      (by rw [hr]; exact Fix.rfl) (by rw [hp]; exact Fix.rfl)
  · rw [klt_congr hc]
    simpa [Ctx.before, Ctx.after] using h.sorted

/-- What `insert_node` returns, whenever it returns: either the key is already
there and nothing but the allocation happened, or the new node is linked in
order into tree and thread. -/
theorem insert_node_spec {s : Map K V} {t : BTree} (ht : TreeOK s t)
    (hth : t.toList ≠ [] → ThreadOK s t.toList) {k : K} {v : V} {fuel : Nat}
    {r : Ptr × Bool} {s' : Map K V}
    (hrun : insert_node (KeyOps.std K) fuel s k v = .ok (r, s')) :
    (∃ x v0, x ∈ t.toList ∧ s.cell x = some (k, v0) ∧ r = (some x, false) ∧
        s' = s.new_node k v) ∨
    ((∀ x ∈ t.toList, s.keyOf x ≠ some k) ∧ r = (some s.brk, true) ∧
      ∃ t' A B, TreeOK s' t' ∧ ThreadOK s' t'.toList ∧ t.toList = A ++ B ∧
        t'.toList = A ++ s.brk :: B ∧ s'.cell = upd s.cell s.brk (some (k, v)) ∧
        s'.brk = s.brk + 1 ∧ s'.mapped = s.mapped) := by
  have hfresh : s.brk ∉ t.toList := fun hm => Nat.lt_irrefl _ (ht.below _ hm)
  have hoff := new_node_off s k v
  have hsh0 : Shape (s.new_node k v) .top t := by
    refine ht.shape.off_shape rfl hoff ?_
    intro x hx
    simp only [Ctx.before, Ctx.after, List.nil_append, List.append_nil] at hx
    simp only [List.mem_singleton]
    rintro rfl
    exact hfresh hx
  have hcell0 : ∀ x ∈ t.toList, (s.new_node k v).cell x = s.cell x := by
    intro x hx
    have : x ≠ s.brk := by rintro rfl; exact hfresh hx
    simp [Map.new_node, upd, this]
  cases t with
  | nil =>
    right
    have hroot : (s.new_node k v).root = none := ht.root
    simp only [insert_node, hroot, pure_eq_ok, Except.ok.injEq, Prod.mk.injEq] at hrun
    obtain ⟨rfl, rfl⟩ := hrun
    refine ⟨by simp, rfl, .node .nil s.brk .nil, [], [], ⟨rfl, ?_, by simp, ?_, ?_⟩, ⟨rfl, rfl, ?_⟩,
      rfl, rfl, rfl, rfl, rfl⟩
    · simp [Rep, Map.new_node, upd]
    · simp [Map.new_node, ht.count]
    · simp [Map.new_node]
    · simp [Seg, Map.new_node, upd]
  | node l x rr =>
    have hroot : (s.new_node k v).root = some x := ht.root
    simp only [insert_node, hroot] at hrun
    cases hs : insert_search (KeyOps.std K) fuel (s.new_node k v) k (some x) none with
    | error e => rw [hs] at hrun; simp at hrun
    | ok res =>
      rw [hs] at hrun
      simp only [ok_bind] at hrun
      have hbig := insert_search_mono (KeyOps.std K) ((BTree.node l x rr).height + 1) fuel _ _ _ hs
      rcases insert_search_spec (s := s.new_node k v) (k := k) (.node l x rr) .top
          (fuel + ((BTree.node l x rr).height + 1)) hsh0 (by simp [Ctx.before])
          (by simp [Ctx.after]) (by omega) with
        ⟨y, cy, e1, e2, e3, e4⟩ | ⟨d, e1, e2, e3, e4, e5, _, e7⟩
      · left
        have e1' : insert_search (KeyOps.std K) (fuel + ((BTree.node l x rr).height + 1))
            (s.new_node k v) k (some x) none = .ok (.inl y) := e1
        rw [e1'] at hbig
        cases hbig
        simp only [pure_eq_ok, Except.ok.injEq, Prod.mk.injEq] at hrun
        obtain ⟨rfl, rfl⟩ := hrun
        refine ⟨y, cy.2, e2, ?_, rfl, rfl⟩
        rw [← hcell0 y e2, e3, ← e4]
      · right
        have e1' : insert_search (KeyOps.std K) (fuel + ((BTree.node l x rr).height + 1))
            (s.new_node k v) k (some x) none = .ok (.inr d.par) := e1
        rw [e1'] at hbig
        cases hbig
        simp only [Ctx.before, Ctx.after, List.nil_append, List.append_nil] at e3
        have hthr : ThreadOK (s.new_node k v) (d.before ++ d.after) := by
          rw [e3]
          have h0 := hth (by simp)
          refine h0.congr ?_ ?_ rfl rfl
          · intro y hy
            have : y ≠ s.brk := by rintro rfl; exact hfresh hy
            simp [Map.new_node, upd, this]
          · intro y hy
            have : y ≠ s.brk := by rintro rfl; exact hfresh hy
            simp [Map.new_node, upd, this]
        obtain ⟨s1, hl1, hsh1, hth1, hc1, _, hb1, hn1, hm1, _⟩ :=
          insert_link_spec (a := s.brk) (v := v) e2 (e2.not_top_of_root hroot) e4 e5
            (by rw [e3]; exact hfresh) (by simp [Map.new_node, upd])
            (by simp [Map.new_node, upd]) (by simp [Map.new_node, upd]) hthr
        dsimp only at hrun
        rw [hl1] at hrun
        simp only [ok_bind] at hrun
        cases hfx : fix_insert (KeyOps.std K) fuel s1 (some s.brk) with
        | error e => rw [hfx] at hrun; simp at hrun
        | ok s2 =>
          rw [hfx] at hrun
          simp only [ok_bind, pure_eq_ok, Except.ok.injEq, Prod.mk.injEq] at hrun
          obtain ⟨rfl, rfl⟩ := hrun
          obtain ⟨t', hsh2, hl2, hsd⟩ := fix_insert_inv fuel hsh1 hfx
          simp only [BTree.toList_node, BTree.toList_nil, List.nil_append] at hl2
          have hl2' : t'.toList = d.before ++ s.brk :: d.after := by
            rw [hl2]; simp
          have hkeys : ∀ y ∈ (BTree.node l x rr).toList, s.keyOf y ≠ some k := by
            intro y hy
            have := e7 y hy
            simpa [Map.keyOf, hcell0 y hy] using this
          have hcount : s2.num_nodes + 1 = t'.toList.length := by
            rw [hsd.num_nodes, hn1, hl2']
            have := ht.count
            rw [← e3] at this
            simp only [Map.new_node, List.length_append, List.length_cons] at this ⊢
            omega
          have hbelow : ∀ y ∈ t'.toList, y < s2.brk := by
            intro y hy
            rw [hl2'] at hy
            rw [hsd.brk, hb1]
            have : y = s.brk ∨ y ∈ d.before ++ d.after := by
              simp only [List.mem_append, List.mem_cons] at hy ⊢
              tauto
            rcases this with rfl | hy
            · simp [Map.new_node]
            · rw [e3] at hy
              have := ht.below y hy
              simp only [Map.new_node]
              omega
          have hthread : ThreadOK s2 t'.toList := by
            rw [hl2']
            exact hth1.congr (fun _ _ => congrFun hsd.next _) (fun _ _ => congrFun hsd.prev _)
              hsd.first hsd.last
          refine ⟨hkeys, rfl, t', d.before, d.after, TreeOK.of_shape hsh2 rfl rfl rfl rfl rfl hcount hbelow,
            hthread.congr (fun _ _ => rfl) (fun _ _ => rfl) rfl rfl, e3.symm, hl2', ?_, ?_, ?_⟩
          · show s2.cell = _
            rw [hsd.cell, hc1]; rfl
          · show s2.brk = _
            rw [hsd.brk, hb1]; rfl
          · show s2.mapped = _
            rw [hsd.mapped, hm1]; rfl

end

section

variable {K V : Type} [LinearOrder K]

/-! ### The search loops of `delete_node`, `find_node` and `find_val` -/

theorem delete_search_mono (o : KeyOps K) {s : Map K V} {k : K} (n : Nat) :
    ∀ (fuel : Nat) (c p : Ptr) (lf : Bool) (r : Ptr × Ptr × Bool),
      delete_search o fuel s k c p lf = .ok r →
      delete_search o (fuel + n) s k c p lf = .ok r := by
  intro fuel
  induction fuel with
  | zero => intro c p lf r h; simp [delete_search] at h
  | succ m ih =>
    intro c p lf r h
    rw [show m + 1 + n = (m + n) + 1 by omega]
    cases c with
    | none => simpa [delete_search] using h
    | some x =>
      simp only [delete_search] at h ⊢
      cases hk : s.key (some x) with
      | error e => rw [hk] at h; simp at h
      | ok kc =>
        rw [hk] at h
        simp only [ok_bind] at h ⊢
        split at h
        · rename_i h1
          simp only [h1, if_true]
          exact h
        · rename_i h1
          simp only [h1]
          split at h
          · rename_i h2
            simp only [h2, if_true]
            exact ih _ _ _ _ h
          · rename_i h2
            simp only [h2]
            exact ih _ _ _ _ h

theorem find_node_eq (o : KeyOps K) (s : Map K V) (k : K) :
    ∀ (fuel : Nat) (c p : Ptr) (lf : Bool),
      find_node o fuel s k c = (do
        let r ← delete_search o fuel s k c p lf
        pure r.1) := by
  intro fuel
  induction fuel with
  | zero => intro c p lf; rfl
  | succ m ih =>
    intro c p lf
    cases c with
    | none => rfl
    | some x =>
      simp only [find_node, delete_search]
      cases hk : s.key (some x) with
      | error e => rfl
      | ok kc =>
        simp only [ok_bind]
        split
        · rfl
        · split
          · exact ih _ _ _
          · exact ih _ _ _

theorem find_val_eq (o : KeyOps K) (s : Map K V) (k : K) :
    ∀ (fuel : Nat) (c : Ptr),
      find_val o fuel s k c = (do
        let r ← find_node o fuel s k c
        match r with
        | none => .error .outOfRange
        | some a => do
          let _ ← s.value (some a)
          pure (.value a)) := by
  intro fuel
  induction fuel with
  | zero => intro c; rfl
  | succ m ih =>
    intro c
    cases c with
    | none => rfl
    | some x =>
      simp only [find_val, find_node]
      cases hk : s.key (some x) with
      | error e => rfl
      | ok kc =>
        simp only [ok_bind]
        split
        · rfl
        · split
          · exact ih _
          · exact ih _

/-- The search of `delete_node` stops at the node holding `k`, remembering its
parent and on which side it hangs, or runs off the tree if no node holds `k`. -/
theorem delete_search_spec {s : Map K V} {k : K} (t : BTree) :
    ∀ (c : Ctx) (fuel : Nat) (lf : Bool), Shape s c t → t.height < fuel →
      (c ≠ .top → lf = c.isLeft) →
      (∃ (d : Ctx) (l : BTree) (x : Nat) (r : BTree) (v : V) (lf' : Bool),
          delete_search (KeyOps.std K) fuel s k t.ptr c.par lf = .ok (some x, d.par, lf') ∧
          Shape s d (.node l x r) ∧ s.cell x = some (k, v) ∧
          d.before ++ (BTree.node l x r).toList ++ d.after = c.before ++ t.toList ++ c.after ∧
          (d ≠ .top → lf' = d.isLeft) ∧ x ∈ t.toList) ∨
      (∃ (p : Ptr) (lf' : Bool),
          delete_search (KeyOps.std K) fuel s k t.ptr c.par lf = .ok (none, p, lf') ∧
          ∀ a ∈ t.toList, s.keyOf a ≠ some k) := by
  induction t with
  | nil =>
    intro c fuel lf h hf hlf
    cases fuel with
    | zero => simp at hf
    | succ n =>
      right
      exact ⟨c.par, lf, by simp [delete_search], by simp⟩
  | node l x r ihl ihr =>
    intro c fuel lf h hf hlf
    cases fuel with
    | zero => simp at hf
    | succ n =>
      obtain ⟨cx, hcx⟩ := Option.isSome_iff_exists.1 h.sub.1
      have hxL : s.left x = l.ptr := h.sub.2.1
      have hxR : s.right x = r.ptr := h.sub.2.2.1
      obtain ⟨hpl, hpr⟩ := pw_node (by simpa using h.sorted)
      simp only [BTree.height] at hf
      rcases lt_trichotomy k cx.1 with hlt | heq | hgt
      · have hrun : delete_search (KeyOps.std K) (n + 1) s k (BTree.node l x r).ptr c.par lf =
            delete_search (KeyOps.std K) n s k l.ptr (Ctx.left x r c).par true := by
          simp [delete_search, Map.key, hcx, KeyOps.std, hlt, ne_of_gt hlt, hxL, Ctx.par]
        rw [hrun]
        rcases ihl (Ctx.left x r c) n true (shape_up_left.2 h) (by omega) (by simp [Ctx.isLeft])
          with ⟨d, l', y, r', v, lf', e1, e2, e3, e4, e5, e6⟩ | ⟨p, lf', e1, e7⟩
        · left
          refine ⟨d, l', y, r', v, lf', e1, e2, e3, ?_, e5, by simp [e6]⟩
          rw [e4]
          simp [Ctx.before, Ctx.after]
        · right
          refine ⟨p, lf', e1, ?_⟩
          intro a ha
          simp only [BTree.toList_node, List.mem_append, List.mem_cons] at ha
          rcases ha with ha | rfl | ha
          · exact e7 a ha
          · simp [Map.keyOf, hcx, ne_of_gt hlt]
          · obtain ⟨c1, c2, e1, e2, e3⟩ := hpr a ha
            rw [hcx] at e1
            cases e1
            simp [Map.keyOf, e2, ne_of_gt (lt_trans hlt e3)]
      · left
        refine ⟨c, l, x, r, cx.2, lf, ?_, h, ?_, rfl, hlf, by simp⟩
        · simp [delete_search, Map.key, hcx, KeyOps.std, heq]
        · rw [hcx, heq]
      · have hrun : delete_search (KeyOps.std K) (n + 1) s k (BTree.node l x r).ptr c.par lf =
            delete_search (KeyOps.std K) n s k r.ptr (Ctx.right l x c).par false := by
          simp [delete_search, Map.key, hcx, KeyOps.std, hgt, ne_of_lt hgt, not_lt_of_gt hgt,
            hxR, Ctx.par]
        rw [hrun]
        rcases ihr (Ctx.right l x c) n false (shape_up_right.2 h) (by omega)
          (by simp [Ctx.isLeft]) with
          ⟨d, l', y, r', v, lf', e1, e2, e3, e4, e5, e6⟩ | ⟨p, lf', e1, e7⟩
        · left
          refine ⟨d, l', y, r', v, lf', e1, e2, e3, ?_, e5, by simp [e6]⟩
          rw [e4]
          simp [Ctx.before, Ctx.after]
        · right
          refine ⟨p, lf', e1, ?_⟩
          intro a ha
          simp only [BTree.toList_node, List.mem_append, List.mem_cons] at ha
          rcases ha with ha | rfl | ha
          · obtain ⟨c1, c2, e1, e2, e3⟩ := hpl a ha
            rw [hcx] at e2
            cases e2
            simp [Map.keyOf, e1, ne_of_lt (lt_trans e3 hgt)]
          · simp [Map.keyOf, hcx, ne_of_lt hgt]
          · exact e7 a ha

theorem BTree.height_le_length (t : BTree) : t.height ≤ t.toList.length := by
  induction t with
  | nil => simp [BTree.height]
  | node l a r ihl ihr =>
    simp only [BTree.height, BTree.toList_node, List.length_append, List.length_cons]
    omega

theorem TreeOK.height_lt {s : Map K V} {t : BTree} (h : TreeOK s t) {fuel : Nat}
    (hf : s.num_nodes < fuel) : t.height < fuel := by
  have := t.height_le_length
  have := h.count
  omega

/-- The tree shape realised by a state is unique. -/
theorem Rep.unique_rep {s : Map K V} {t t' : BTree} {p p' : Ptr} (h : Rep s t p)
    (h' : Rep s t' p') (hp : t.ptr = t'.ptr) : t = t' := by
  induction t generalizing t' p p' with
  | nil =>
    cases t' with
    | nil => rfl
    | node l a r => simp [BTree.ptr] at hp
  | node l a r ihl ihr =>
    cases t' with
    | nil => simp [BTree.ptr] at hp
    | node l' a' r' =>
      simp only [BTree.ptr, Option.some.injEq] at hp
      subst hp
      obtain ⟨_, h1, h2, _, h3, h4⟩ := h
      obtain ⟨_, h1', h2', _, h3', h4'⟩ := h'
      rw [ihl h3 h3' (h1.symm.trans h1'), ihr h4 h4' (h2.symm.trans h2')]

theorem TreeOK.unique {s : Map K V} {t t' : BTree} (h : TreeOK s t) (h' : TreeOK s t') :
    t = t' :=
  h.rep.unique_rep h'.rep (h.root.symm.trans h'.root)

end

section

variable {K V : Type}

/-! ### Splicing a node out of the thread -/

/-- The thread splice at the end of `delete_node`: the node `x` leaves the
chain, whose ends are moved when `x` was one of them. -/
theorem delete_unthread_spec {s : Map K V} {A B : List Nat} {x : Nat}
    (hth : ThreadOK s (A ++ x :: B)) (hnd : (A ++ x :: B).Nodup)
    (hlive : ∀ a ∈ A ++ x :: B, (s.cell a).isSome = true)
    (hroot : s.root = none ↔ A ++ B = []) :
    ∃ s', delete_unthread s x = .ok s' ∧ ThreadOK s' (A ++ B) ∧ SameTree s s' := by
  obtain ⟨hf, hl, hseg⟩ := hth
  rcases List.eq_nil_or_concat A with rfl | ⟨A', p, rfl⟩
  · cases B with
    | nil =>
      have hr : s.root = none := hroot.2 rfl
      refine ⟨{ s with first := none, last := none }, by simp [delete_unthread, hr],
        ⟨rfl, rfl, trivial⟩, ⟨rfl, rfl, rfl, rfl, rfl, rfl, rfl, rfl, rfl⟩⟩
    | cons n B' =>
      have hr : ¬ s.root = none := by rw [hroot]; simp
      obtain ⟨hpx, hnx, hrest⟩ := hseg
      simp only [List.head?_cons, Option.or_some] at hnx
      have hn : (s.cell n).isSome = true := hlive n (by simp)
      have hnB : ∀ y ∈ B', y ≠ n := by
        intro y hy
        have := nd_split hnd (A := B') (B := [n]) (by
          intro z
          simp only [List.count_append, List.count_cons, List.count_nil]
          omega) y hy
        simpa using this
      refine ⟨{ s with prev := upd s.prev n none, first := some n }, ?_, ⟨rfl, ?_, ?_⟩,
        ⟨rfl, rfl, rfl, rfl, rfl, rfl, rfl, rfl, rfl⟩⟩
      · simp [delete_unthread, hr, hpx, hnx, Map.node, hn]
      · show s.last = _
        rw [hl]
        simp [List.getLast?_cons_cons]
      · refine hrest.set_first (fun _ _ => rfl) (fun y hy => ?_) ?_
        · show upd s.prev n none y = s.prev y
          simp [upd, hnB y hy]
        · show upd s.prev n none n = none
          simp [upd]
  · simp only [List.concat_eq_append] at *
    obtain ⟨hsA, hsx⟩ := (Seg_append s none none (A' ++ [p]) (x :: B)).1 hseg
    simp only [List.head?_cons, Option.or_some, List.getLast?_concat,
      List.getLast?_append, List.getLast?_singleton] at hsA hsx
    obtain ⟨hpx, hnx, hrest⟩ := hsx
    have hr : ¬ s.root = none := by rw [hroot]; simp
    have hp : (s.cell p).isSome = true := hlive p (by simp)
    have hpA : ∀ y ∈ A', y ≠ p := by
      intro y hy
      have := nd_split hnd (A := A') (B := [p]) (by
        intro z
        simp only [List.count_append, List.count_cons, List.count_nil]
        omega) y hy
      simpa using this
    have hpx' : ¬ s.prev x = none := by rw [hpx]; simp
    cases B with
    | nil =>
      simp only [List.head?_nil, Option.or_none] at hnx
      refine ⟨{ s with next := upd s.next p none, last := some p }, ?_, ⟨?_, ?_, ?_⟩,
        ⟨rfl, rfl, rfl, rfl, rfl, rfl, rfl, rfl, rfl⟩⟩
      · simp [delete_unthread, hr, hpx, hnx, Map.node, hp]
      · show s.first = _
        rw [hf]
        simp [List.head?_append]
      · simp
      · rw [List.append_nil]
        refine hsA.set_last (fun y hy => ?_) (fun _ _ => rfl) ?_
        · show upd s.next p none y = s.next y
          simp [upd, hpA y hy]
        · show upd s.next p none p = none
          simp [upd]
    | cons n B' =>
      simp only [List.head?_cons, Option.or_some] at hnx
      have hn : (s.cell n).isSome = true := hlive n (by simp)
      have hnx' : ¬ s.next x = none := by rw [hnx]; simp
      have hnB : ∀ y ∈ B', y ≠ n := by
        intro y hy
        have := nd_split hnd (A := B') (B := [n]) (by
          intro z
          simp only [List.count_append, List.count_cons, List.count_nil]
          omega) y hy
        simpa using this
      have hAn : ∀ y ∈ A' ++ [p], y ≠ n := by
        intro y hy
        have := nd_split hnd (A := A' ++ [p]) (B := [n]) (by
          intro z
          simp only [List.count_append, List.count_cons, List.count_nil]
          omega) y hy
        simpa using this
      have hBp : ∀ y ∈ n :: B', y ≠ p := by
        intro y hy
        have := nd_split hnd (A := n :: B') (B := [p]) (by
          intro z
          simp only [List.count_append, List.count_cons, List.count_nil]
          omega) y hy
        simpa using this
      refine ⟨{ s with prev := upd s.prev n (some p), next := upd s.next p (some n) }, ?_,
        ⟨?_, ?_, ?_⟩, ⟨rfl, rfl, rfl, rfl, rfl, rfl, rfl, rfl, rfl⟩⟩
      · have hxn : x ≠ n := by
          have := nd_split hnd (A := [x]) (B := [n]) (by
            intro z
            simp only [List.count_append, List.count_cons, List.count_nil]
            omega) x (by simp)
          simpa using this
        simp [delete_unthread, hr, hpx, hnx, Map.node, hp, hn, upd, hxn]
      · show s.first = _
        rw [hf]
        simp [List.head?_append]
      · show s.last = _
        rw [hl]
        simp [List.getLast?_append, List.getLast?_cons_cons]
      · rw [Seg_append]
        simp only [List.head?_cons, Option.or_some, List.getLast?_append,
          List.getLast?_singleton]
        constructor
        · refine hsA.set_last (fun y hy => ?_) (fun y hy => ?_) ?_
          · show upd s.next p (some n) y = s.next y
            simp [upd, hpA y hy]
          · show upd s.prev n (some p) y = s.prev y
            simp [upd, hAn y hy]
          · show upd s.next p (some n) p = some n
            simp [upd]
        · refine hrest.set_first (fun y hy => ?_) (fun y hy => ?_) ?_
          · show upd s.next p (some n) y = s.next y
            simp [upd, hBp y hy]
          · show upd s.prev n (some p) y = s.prev y
            simp [upd, hnB y hy]
          · show upd s.prev n (some p) n = some p
            simp [upd]

end

section

variable {K V : Type}

section

variable [LinearOrder K]

/-! ### Unlinking a node from the tree -/

/-- Hanging a well-formed tree `Y` in the hole of a context. -/
theorem Shape.graft {s : Map K V} {d : Ctx} {X Y : BTree} {p0 : Ptr} (h : Shape s d X)
    (hY : Rep s Y p0) (hs : (d.before ++ Y.toList ++ d.after).Pairwise s.klt) :
    Shape (setHole (reparent s Y.ptr d.par) d Y.ptr) d Y := by
  have hnd := Pairwise_klt_nodup hs
  have hctx1 : RepCtx (reparent s Y.ptr d.par) d X.ptr := by
    refine h.ctx.off_ctx (reparent_root _ _ _) (reparent_off s Y.ptr d.par) ?_
    intro z hz
    exact nd_split hnd (A := d.before ++ d.after) (B := Y.ptr.toList) (by
      intro w
      have := Y.count_ptr_le w
      simp only [List.count_append]
      omega) z hz
  refine ⟨RepCtx.set_hole Y.ptr hctx1 (nd_sub hnd (by
    intro w
    simp only [List.count_append]
    omega)), ?_, ?_⟩
  · refine (hY.reparent_ptr d.par (nd_sub hnd (by
      intro w
      simp only [List.count_append]
      omega))).off (setHole_off _ d Y.ptr) ?_
    intro z hz
    exact nd_split hnd (A := Y.toList) (B := d.par.toList) (by
      intro w
      have := d.count_par_le w
      simp only [List.count_append]
      omega) z hz
  · have : (setHole (reparent s Y.ptr d.par) d Y.ptr).klt = s.klt := klt_congr (by simp)
    rw [this]
    exact hs

theorem graft_sameRest (s : Map K V) (d : Ctx) (y p : Ptr) :
    SameRest s (setHole (reparent s y p) d y) :=
  ⟨by simp, by simp, by simp, by simp, by simp, by simp, by simp, by simp, by simp⟩

theorem delete_leaf_eq {s : Map K V} {d : Ctx} {p : Ptr} (h : RepCtx s d p) {lf : Bool}
    (hlf : d ≠ .top → lf = d.isLeft) : delete_leaf s d.par lf = .ok (setHole s d none) := by
  cases d with
  | top => rfl
  | left a r up =>
    have := hlf (by simp)
    subst this
    simp [delete_leaf, Ctx.par, Ctx.isLeft, Map.node, h.1, setHole]
  | right l a up =>
    have := hlf (by simp)
    subst this
    simp [delete_leaf, Ctx.par, Ctx.isLeft, Map.node, h.1, setHole]

theorem delete_one_child_eq {s : Map K V} {d : Ctx} {x : Nat} {Y : BTree} {p0 : Ptr}
    (h : RepCtx s d (some x)) (hY : Rep s Y p0) (hYn : Y ≠ .nil)
    (hx : (s.left x = none ∧ s.right x = Y.ptr) ∨ (s.left x = Y.ptr ∧ s.right x = none))
    {lf : Bool} (hlf : d ≠ .top → lf = d.isLeft) :
    delete_one_child s x d.par lf = .ok (setHole (reparent s Y.ptr d.par) d Y.ptr) := by
  cases Y with
  | nil => exact absurd rfl hYn
  | node yl b yr =>
    have hb : (s.cell b).isSome = true := hY.1
    rcases hx with ⟨h1, h2⟩ | ⟨h1, h2⟩
    · cases d with
      | top => simp [delete_one_child, Ctx.par, h1, h2, Map.node, hb, BTree.ptr, setHole, reparent]
      | left a r up =>
        have := hlf (by simp)
        subst this
        simp [delete_one_child, Ctx.par, Ctx.isLeft, h1, h2, Map.node, hb, h.1, BTree.ptr,
          setHole, reparent]
      | right l a up =>
        have := hlf (by simp)
        subst this
        simp [delete_one_child, Ctx.par, Ctx.isLeft, h1, h2, Map.node, hb, h.1, BTree.ptr,
          setHole, reparent]
    · cases d with
      | top => simp [delete_one_child, Ctx.par, h1, h2, Map.node, hb, BTree.ptr, setHole, reparent]
      | left a r up =>
        have := hlf (by simp)
        subst this
        simp [delete_one_child, Ctx.par, Ctx.isLeft, h1, h2, Map.node, hb, h.1, BTree.ptr,
          setHole, reparent]
      | right l a up =>
        have := hlf (by simp)
        subst this
        simp [delete_one_child, Ctx.par, Ctx.isLeft, h1, h2, Map.node, hb, h.1, BTree.ptr,
          setHole, reparent]

/-- Seating the node `y` above the trees `L` and `R` in the hole of `d`. -/
theorem Shape.seat {s : Map K V} {d : Ctx} {L R : BTree} {y : Nat} {p pL pR : Ptr}
    (hctx : RepCtx s d p) (hL : Rep s L pL) (hR : Rep s R pR)
    (hy : (s.cell y).isSome = true)
    (hs : (d.before ++ (L.toList ++ y :: R.toList) ++ d.after).Pairwise s.klt) :
    Shape (seat s d L.ptr R.ptr y) d (.node L y R) := by
  have hnd := Pairwise_klt_nodup hs
  have hyL : y ∉ L.toList := fun hm => by
    have := nd_split hnd (A := [y]) (B := L.toList) (by
      intro w
      simp only [List.count_append, List.count_cons, List.count_nil]
      omega) y (by simp)
    exact this hm
  have hyR : y ∉ R.toList := fun hm => by
    have := nd_split hnd (A := [y]) (B := R.toList) (by
      intro w
      simp only [List.count_append, List.count_cons, List.count_nil]
      omega) y (by simp)
    exact this hm
  have hyd : y ∉ d.before ++ d.after := fun hm => by
    have := nd_split hnd (A := [y]) (B := d.before ++ d.after) (by
      intro w
      simp only [List.count_append, List.count_cons, List.count_nil]
      omega) y (by simp)
    exact this hm
  have hdy : d.par ≠ some y := fun e => hyd (Ctx.par_mem e)
  -- the writes, one after the other
  let sa : Map K V := { s with left := upd s.left y L.ptr }
  let sb : Map K V := { sa with right := upd sa.right y R.ptr }
  let sc : Map K V := reparent sb L.ptr (some y)
  let sd : Map K V := reparent sc R.ptr (some y)
  let se : Map K V := { sd with parent := upd sd.parent y d.par }
  have hab : Off [y] s sb := by
    intro z hz
    simp only [List.mem_singleton] at hz
    simp [sb, sa, upd, hz]
  have hbc : Off L.ptr.toList sb sc := reparent_off sb L.ptr (some y)
  have hcd : Off R.ptr.toList sc sd := reparent_off sc R.ptr (some y)
  have hde : Off [y] sd se := by
    intro z hz
    simp only [List.mem_singleton] at hz
    simp [se, upd, hz]
  have hef : Off d.par.toList se (setHole se d (some y)) := setHole_off se d (some y)
  have hLnd : L.toList.Nodup := nd_sub hnd (by
    intro w
    simp only [List.count_append, List.count_cons]
    omega)
  have hRnd : R.toList.Nodup := nd_sub hnd (by
    intro w
    simp only [List.count_append, List.count_cons]
    omega)
  have hLR : ∀ z ∈ L.toList, z ∉ R.ptr.toList := nd_split hnd (by
    intro w
    have := R.count_ptr_le w
    simp only [List.count_append, List.count_cons]
    omega)
  have hRL : ∀ z ∈ R.toList, z ∉ L.ptr.toList := nd_split hnd (by
    intro w
    have := L.count_ptr_le w
    simp only [List.count_append, List.count_cons]
    omega)
  have hLd : ∀ z ∈ L.toList, z ∉ d.par.toList := nd_split hnd (by
    intro w
    have := d.count_par_le w
    simp only [List.count_append, List.count_cons]
    omega)
  have hRd : ∀ z ∈ R.toList, z ∉ d.par.toList := nd_split hnd (by
    intro w
    have := d.count_par_le w
    simp only [List.count_append, List.count_cons]
    omega)
  have hdL : ∀ z ∈ d.before ++ d.after, z ∉ L.ptr.toList := nd_split hnd (by
    intro w
    have := L.count_ptr_le w
    simp only [List.count_append, List.count_cons]
    omega)
  have hdR : ∀ z ∈ d.before ++ d.after, z ∉ R.ptr.toList := nd_split hnd (by
    intro w
    have := R.count_ptr_le w
    simp only [List.count_append, List.count_cons]
    omega)
  have hctx_e : RepCtx se d p := by
    have h1 : RepCtx sb d p := hctx.off_ctx rfl hab (fun z hz => by
      simp only [List.mem_singleton]; rintro rfl; exact hyd hz)
    have h2 : RepCtx sc d p := h1.off_ctx (reparent_root _ _ _) hbc hdL
    have h3 : RepCtx sd d p := h2.off_ctx (reparent_root _ _ _) hcd hdR
    exact h3.off_ctx rfl hde (fun z hz => by
      simp only [List.mem_singleton]; rintro rfl; exact hyd hz)
  have hL_e : Rep (setHole se d (some y)) L (some y) := by
    have h1 : Rep sb L pL := hL.off hab (fun z hz => by
      simp only [List.mem_singleton]; rintro rfl; exact hyL hz)
    have h2 : Rep sc L (some y) := h1.reparent_ptr (some y) hLnd
    have h3 : Rep sd L (some y) := h2.off hcd hLR
    have h4 : Rep se L (some y) := h3.off hde (fun z hz => by
      simp only [List.mem_singleton]; rintro rfl; exact hyL hz)
    exact h4.off hef hLd
  have hR_e : Rep (setHole se d (some y)) R (some y) := by
    have h1 : Rep sb R pR := hR.off hab (fun z hz => by
      simp only [List.mem_singleton]; rintro rfl; exact hyR hz)
    have h2 : Rep sc R pR := h1.off hbc hRL
    have h3 : Rep sd R (some y) := h2.reparent_ptr (some y) hRnd
    have h4 : Rep se R (some y) := h3.off hde (fun z hz => by
      simp only [List.mem_singleton]; rintro rfl; exact hyR hz)
    exact h4.off hef hRd
  have hnd2 : (d.before ++ d.after).Nodup := nd_sub hnd (by
    intro w
    simp only [List.count_append, List.count_cons]
    omega)
  show Shape (setHole se d (some y)) d (.node L y R)
  refine ⟨RepCtx.set_hole (some y) hctx_e hnd2, ⟨?_, ?_, ?_, ?_, hL_e, hR_e⟩, ?_⟩
  · simpa [se, sd, sc, sb, sa] using hy
  · rw [setHole_left_ne se (some y) hdy]
    simp [se, sd, sc, sb, sa, upd]
  · rw [setHole_right_ne se (some y) hdy]
    simp [se, sd, sc, sb, sa, upd]
  · simp [se, upd]
  · have : (setHole se d (some y)).klt = s.klt := klt_congr (by simp [se, sd, sc, sb, sa])
    rw [this]
    exact hs

theorem seat_sameRest (s : Map K V) (d : Ctx) (lp rp : Ptr) (y : Nat) :
    SameRest s (seat s d lp rp y) := by
  unfold seat
  exact ⟨by simp, by simp, by simp, by simp, by simp, by simp, by simp, by simp, by simp⟩

theorem graft_off (s : Map K V) (d : Ctx) (y p : Ptr) :
    Off (y.toList ++ d.par.toList) s (setHole (reparent s y p) d y) :=
  Off.trans_off ((reparent_off s y p).mono_off fun _ hx => List.mem_append_left _ hx)
    ((setHole_off _ d y).mono_off fun _ hx => List.mem_append_right _ hx)

theorem seat_off (s : Map K V) (d : Ctx) (lp rp : Ptr) (y : Nat) :
    Off (y :: (lp.toList ++ rp.toList ++ d.par.toList)) s (seat s d lp rp y) := by
  intro x hx
  simp only [List.mem_cons, List.mem_append, not_or] at hx
  obtain ⟨hxy, ⟨hxl, hxr⟩, hxd⟩ := hx
  have h1 : lp ≠ some x := fun e => hxl (by simp [e])
  have h2 : rp ≠ some x := fun e => hxr (by simp [e])
  have h3 : d.par ≠ some x := fun e => hxd (by simp [e])
  unfold seat
  refine ⟨by simp, ?_, ?_, ?_⟩
  · rw [setHole_left_ne _ _ h3]
    simp [upd, hxy]
  · rw [setHole_right_ne _ _ h3]
    simp [upd, hxy]
  · simp only [setHole_parent]
    simp [upd, hxy, reparent_parent_ne _ _ h1, reparent_parent_ne _ _ h2]

end

end

section

variable {K V : Type}

theorem upd_self {α : Type} {f : Nat → α} {a : Nat} {v : α} (h : f a = v) : upd f a v = f := by
  funext z
  simp only [upd]
  split
  · rename_i e
    rw [e, h]
  · rfl

theorem reparent_self {s : Map K V} {t par : Ptr} (h : ∀ b, t = some b → s.parent b = par) :
    reparent s t par = s := by
  cases t with
  | none => rfl
  | some b =>
    show { s with parent := upd s.parent b par } = s
    rw [upd_self (h b rfl)]

theorem SameRest.refl_rest (s : Map K V) : SameRest s s :=
  ⟨rfl, rfl, rfl, rfl, rfl, rfl, rfl, rfl, rfl⟩

theorem SameRest.trans_rest {s1 s2 s3 : Map K V} (h1 : SameRest s1 s2) (h2 : SameRest s2 s3) :
    SameRest s1 s3 :=
  ⟨h2.cell.trans h1.cell, h2.color.trans h1.color, h2.next.trans h1.next,
    h2.prev.trans h1.prev, h2.brk.trans h1.brk, h2.num_nodes.trans h1.num_nodes,
    h2.first.trans h1.first, h2.last.trans h1.last, h2.mapped.trans h1.mapped⟩

theorem hang_replacement_eq {s : Map K V} {d : Ctx} {x rp : Nat} {lf : Bool}
    (hlive : ∀ a, d.par = some a → (s.cell a).isSome = true) (hxp : s.parent x = d.par)
    (hne : x ≠ rp) (hlf : d ≠ .top → lf = d.isLeft) :
    hang_replacement s x rp d.par lf =
      .ok (setHole { s with parent := upd s.parent rp d.par } d (some rp)) := by
  cases d with
  | top => rfl
  | left a r up =>
    have := hlf (by simp)
    subst this
    have ha := hlive a rfl
    simp [hang_replacement, Ctx.par, Ctx.isLeft, Map.node, ha, setHole]
  | right l a up =>
    have := hlf (by simp)
    subst this
    have ha := hlive a rfl
    simp only [Ctx.par] at hxp
    simp [hang_replacement, Ctx.par, Ctx.isLeft, Map.node, ha, setHole, upd, hne, hxp]

section

variable [LinearOrder K]

/-- The walk down the right spine finds the last node `rp` of a subtree that
hangs as a right child, and `unhook_replacement` puts the left subtree of `rp`
in its place. -/
theorem unhook_off {s : Map K V} (r0 : BTree) :
    ∀ (l0 : BTree) (a0 : Nat) (up : Ctx) (fuel : Nat),
      Shape s (.right l0 a0 up) r0 → r0 ≠ .nil → r0.height ≤ fuel →
      ∃ (rp : Nat) (r0' : BTree) (s1 : Map K V) (q : Nat),
        rightmost fuel s r0.ptr = .ok rp ∧ unhook_replacement s rp = .ok s1 ∧
        Shape s1 (.right l0 a0 up) r0' ∧ r0.toList = r0'.toList ++ [rp] ∧
        s.parent rp = some q ∧ q ∈ a0 :: r0'.toList ∧ SameRest s s1 ∧
        Off ((Ctx.right l0 a0 up).before ++ r0.toList ++ (Ctx.right l0 a0 up).after) s s1 := by
  induction r0 with
  | nil => intro l0 a0 up fuel _ hne; exact absurd rfl hne
  | node m a r1 _ ihr =>
    intro l0 a0 up fuel h _ hf
    cases fuel with
    | zero => simp [BTree.height] at hf
    | succ n =>
      have ha : (s.cell a).isSome = true := h.sub.1
      have hL : s.left a = m.ptr := h.sub.2.1
      have hR : s.right a = r1.ptr := h.sub.2.2.1
      have hP : s.parent a = some a0 := h.sub.2.2.2.1
      have ha0 : (s.cell a0).isSome = true := h.ctx.1
      cases r1 with
      | nil =>
        have hm : Rep s m (some a) := h.sub.2.2.2.2.1
        have hsort : ((Ctx.right l0 a0 up).before ++ m.toList ++ (Ctx.right l0 a0 up).after).Pairwise
            s.klt := by
          refine h.sorted.sublist ?_
          simp
        refine ⟨a, m, setHole (reparent s m.ptr (Ctx.right l0 a0 up).par) (.right l0 a0 up) m.ptr,
          a0, ?_, ?_, h.graft hm hsort, by simp, hP, by simp, graft_sameRest _ _ _ _,
          (graft_off _ _ _ _).mono_off ?_⟩
        · simp [rightmost, Map.node, ha, hR]
        · cases m with
          | nil => simp [unhook_replacement, hL, hP, Map.node, ha0, setHole, reparent, Ctx.par]
          | node ml c mr =>
            have hc : (s.cell c).isSome = true := hm.1
            have hac : a ≠ c := by
              have := nd_split h.nodup (A := [a]) (B := [c]) (by
                intro w
                simp only [List.count_append, List.count_cons, List.count_nil, BTree.toList_node,
                  BTree.toList_nil]
                omega) a (by simp)
              simpa using this
            simp [unhook_replacement, hL, hP, Map.node, ha0, hc, setHole, reparent, Ctx.par, upd,
              hac]
        · intro z hz
          have c1 := m.count_ptr_le z
          have c2 : 0 < List.count z (m.ptr.toList ++ (Ctx.right l0 a0 up).par.toList) :=
            List.count_pos_iff.2 hz
          refine List.count_pos_iff.1 ?_
          simp only [Ctx.par, Ctx.before, Ctx.after, Option.toList_some, BTree.toList_node,
            BTree.toList_nil, List.count_append, List.count_cons, List.count_nil] at c2 ⊢
          omega
      | node rl b rr =>
        have hrun : rightmost (n + 1) s (BTree.node m a (.node rl b rr)).ptr =
            rightmost n s (BTree.node rl b rr).ptr := by
          simp [rightmost, Map.node, ha, hR]
        obtain ⟨rp, r1', s1, q, e1, e2, e3, e4, e5, e6, e7, e8⟩ :=
          ihr m a (.right l0 a0 up) n (shape_up_right.2 h) (by simp) (by
            simp only [BTree.height] at hf ⊢
            omega)
        refine ⟨rp, .node m a r1', s1, q, hrun.trans e1, e2, shape_up_right.1 e3, ?_, e5, ?_, e7,
          e8.mono_off ?_⟩
        · rw [BTree.toList_node, e4]
          simp
        · simp only [List.mem_cons, BTree.toList_node, List.mem_append] at e6 ⊢
          tauto
        · intro z hz
          simp only [Ctx.before, Ctx.after, BTree.toList_node, List.mem_append, List.mem_cons,
            List.mem_singleton] at hz ⊢
          tauto

/-- The walk down the right spine finds the last node `rp` of a subtree that
hangs as a right child, and `unhook_replacement` puts the left subtree of `rp`
in its place. -/
theorem unhook_spec {s : Map K V} (r0 : BTree) :
    ∀ (l0 : BTree) (a0 : Nat) (up : Ctx) (fuel : Nat),
      Shape s (.right l0 a0 up) r0 → r0 ≠ .nil → r0.height ≤ fuel →
      ∃ (rp : Nat) (r0' : BTree) (s1 : Map K V) (q : Nat),
        rightmost fuel s r0.ptr = .ok rp ∧ unhook_replacement s rp = .ok s1 ∧
        Shape s1 (.right l0 a0 up) r0' ∧ r0.toList = r0'.toList ++ [rp] ∧
        s.parent rp = some q ∧ q ∈ a0 :: r0'.toList ∧ SameRest s s1 := by
  intro l0 a0 up fuel h hne hf
  obtain ⟨rp, r0', s1, q, e1, e2, e3, e4, e5, e6, e7, _⟩ := unhook_off r0 l0 a0 up fuel h hne hf
  exact ⟨rp, r0', s1, q, e1, e2, e3, e4, e5, e6, e7⟩

/-- Case 3 of `delete_node`: the last node of the left subtree takes the place
of the node `x`. -/
theorem delete_two_children_off {s : Map K V} {d : Ctx} {m0 r0 rl rr : BTree} {a0 b x : Nat}
    (h : Shape s d (.node (.node m0 a0 r0) x (.node rl b rr))) {lf : Bool}
    (hlf : d ≠ .top → lf = d.isLeft) {fuel : Nat} (hf : (BTree.node m0 a0 r0).height < fuel) :
    ∃ (s2 : Map K V) (L : BTree) (rp : Nat),
      delete_two_children fuel s x d.par lf = .ok s2 ∧
      Shape s2 d (.node L rp (.node rl b rr)) ∧
      L.toList ++ [rp] = (BTree.node m0 a0 r0).toList ∧ SameRest s s2 ∧
      Off (d.before ++ (BTree.node (.node m0 a0 r0) x (.node rl b rr)).toList ++ d.after)
        s s2 := by
  have hx : (s.cell x).isSome = true := h.sub.1
  have hxL : s.left x = some a0 := h.sub.2.1
  have hxR : s.right x = some b := h.sub.2.2.1
  have hxP : s.parent x = d.par := h.sub.2.2.2.1
  have hl : Rep s (.node m0 a0 r0) (some x) := h.sub.2.2.2.2.1
  have hr : Rep s (.node rl b rr) (some x) := h.sub.2.2.2.2.2
  have ha0 : (s.cell a0).isSome = true := hl.1
  have hb : (s.cell b).isSome = true := hr.1
  have hnd := h.nodup
  have hdlive : ∀ a, d.par = some a → (s.cell a).isSome = true := fun a ha =>
    h.ctx.live_ctx a (Ctx.par_mem ha)
  cases fuel with
  | zero => simp at hf
  | succ n =>
    cases r0 with
    | nil =>
      have ha0R : s.right a0 = none := hl.2.2.1
      have ha0L : s.left a0 = m0.ptr := hl.2.1
      have ha0P : s.parent a0 = some x := hl.2.2.2.1
      have hm0 : Rep s m0 (some a0) := hl.2.2.2.2.1
      have hxa : x ≠ a0 := by
        have := nd_split hnd (A := [x]) (B := [a0]) (by
          intro w
          simp only [List.count_append, List.count_cons, List.count_nil, BTree.toList_node,
            BTree.toList_nil]
          omega) x (by simp)
        simpa using this
      have hba : b ≠ a0 := by
        have := nd_split hnd (A := [b]) (B := [a0]) (by
          intro w
          simp only [List.count_append, List.count_cons, List.count_nil, BTree.toList_node,
            BTree.toList_nil]
          omega) b (by simp)
        simpa using this
      have hxb : x ≠ b := by
        have := nd_split hnd (A := [x]) (B := [b]) (by
          intro w
          simp only [List.count_append, List.count_cons, List.count_nil, BTree.toList_node,
            BTree.toList_nil]
          omega) x (by simp)
        simpa using this
      have hsort : (d.before ++ (m0.toList ++ a0 :: (BTree.node rl b rr).toList) ++
          d.after).Pairwise s.klt := by
        refine h.sorted.sublist ?_
        simp
      have hseat := Shape.seat h.ctx hm0 hr ha0 hsort
      have hst : seat s d m0.ptr (BTree.node rl b rr).ptr a0 =
          setHole { s with
            right := upd s.right a0 (some b)
            parent := upd (upd s.parent b (some a0)) a0 d.par } d (some a0) := by
        unfold seat
        simp only [BTree.ptr_node]
        rw [upd_self ha0L]
        rw [reparent_self (s := { s with left := s.left, right := upd s.right a0 (some b) })
          (fun c hc => by
            have : ({ s with left := s.left, right := upd s.right a0 (some b) } : Map K V).parent c
                = s.parent c := rfl
            rw [this]
            cases m0 with
            | nil => simp at hc
            | node ml c' mr =>
              simp only [BTree.ptr_node, Option.some.injEq] at hc
              subst hc
              exact hm0.2.2.2.1)]
        rfl
      refine ⟨_, m0, a0, ?_, hst ▸ hseat, by simp, ?_, ?_⟩
      · have h1 : rightmost (n + 1) s (s.left x) = .ok a0 := by
          simp [rightmost, hxL, Map.node, ha0, ha0R]
        have h2 : splice_replacement s x a0 = .ok { s with
            right := upd s.right a0 (some b)
            parent := upd s.parent b (some a0) } := by
          simp [splice_replacement, ha0P, hxR, Map.node, hb, upd, hxa]
        simp only [delete_two_children, h1, h2, ok_bind]
        rw [hang_replacement_eq (d := d) (s := { s with
            right := upd s.right a0 (some b)
            parent := upd s.parent b (some a0) }) hdlive (by simp [upd, hxa, hxb, hxP]) hxa hlf]
      · rw [← hst]
        exact seat_sameRest _ _ _ _ _
      · rw [← hst]
        refine (seat_off _ _ _ _ _).mono_off ?_
        intro z hz
        have c1 := m0.count_ptr_le z
        have c2 := d.count_par_le z
        have c3 : 0 < List.count z (a0 :: (m0.ptr.toList ++ (BTree.node rl b rr).ptr.toList ++
            d.par.toList)) := List.count_pos_iff.2 hz
        refine List.count_pos_iff.1 ?_
        simp only [BTree.ptr_node, Option.toList_some, BTree.toList_node, BTree.toList_nil,
          List.count_append, List.count_cons, List.count_nil] at c3 ⊢
        omega
    | node r0l c r0r =>
      have ha0R : s.right a0 = some c := hl.2.2.1
      have hsh1 : Shape s (.right m0 a0 (.left x (.node rl b rr) d)) (.node r0l c r0r) :=
        shape_up_right.2 (shape_up_left.2 h)
      obtain ⟨rp, r0', s1, q, e1, e2, e3, e4, e5, e6, e7, e8⟩ :=
        unhook_off (.node r0l c r0r) m0 a0 (.left x (.node rl b rr) d) n hsh1 (by simp) (by
          simp only [BTree.height] at hf ⊢
          omega)
      have hsh2 : Shape s1 d (.node (.node m0 a0 r0') x (.node rl b rr)) :=
        shape_up_left.1 (shape_up_right.1 e3)
      have hnd2 := hsh2.nodup
      have hrpmem : rp ∈ (BTree.node r0l c r0r).toList := by rw [e4]; simp
      have hxrp : x ≠ rp := by
        rintro rfl
        have := nd_split hnd (A := [x]) (B := (BTree.node r0l c r0r).toList) (by
          intro w
          simp only [List.count_append, List.count_cons, List.count_nil, BTree.toList_node]
          omega) x (by simp)
        exact this hrpmem
      have hqx : q ≠ x := by
        rintro rfl
        have := nd_split hnd2 (A := [q]) (B := a0 :: r0'.toList) (by
          intro w
          simp only [List.count_append, List.count_cons, List.count_nil, BTree.toList_node]
          omega) q (by simp)
        exact this e6
      have h1x : (s1.cell x).isSome = true := hsh2.sub.1
      have h1xL : s1.left x = some a0 := hsh2.sub.2.1
      have h1xR : s1.right x = some b := hsh2.sub.2.2.1
      have h1xP : s1.parent x = d.par := hsh2.sub.2.2.2.1
      have h1l : Rep s1 (.node m0 a0 r0') (some x) := hsh2.sub.2.2.2.2.1
      have h1r : Rep s1 (.node rl b rr) (some x) := hsh2.sub.2.2.2.2.2
      have h1a0 : (s1.cell a0).isSome = true := h1l.1
      have h1b : (s1.cell b).isSome = true := h1r.1
      have h1rp : (s1.cell rp).isSome = true := by
        rw [e7.cell]
        exact hl.live rp (by
          rw [BTree.toList_node]
          simp only [List.mem_append, List.mem_cons]
          exact Or.inr (Or.inr hrpmem))
      have hrpa0 : rp ≠ a0 := by
        rintro rfl
        have := nd_split hnd (A := [rp]) (B := (BTree.node r0l c r0r).toList) (by
          intro w
          simp only [List.count_append, List.count_cons, List.count_nil, BTree.toList_node]
          omega) rp (by simp)
        exact this hrpmem
      have hrpb : rp ≠ b := by
        rintro rfl
        have := nd_split hnd (A := [rp]) (B := (BTree.node r0l c r0r).toList) (by
          intro w
          simp only [List.count_append, List.count_cons, List.count_nil, BTree.toList_node]
          omega) rp (by simp)
        exact this hrpmem
      have hxa0 : x ≠ a0 := by
        have := nd_split hnd (A := [x]) (B := [a0]) (by
          intro w
          simp only [List.count_append, List.count_cons, List.count_nil, BTree.toList_node]
          omega) x (by simp)
        simpa using this
      have hxb : x ≠ b := by
        have := nd_split hnd (A := [x]) (B := [b]) (by
          intro w
          simp only [List.count_append, List.count_cons, List.count_nil, BTree.toList_node]
          omega) x (by simp)
        simpa using this
      have hsort : (d.before ++ ((BTree.node m0 a0 r0').toList ++ rp ::
          (BTree.node rl b rr).toList) ++ d.after).Pairwise s1.klt := by
        rw [klt_congr e7.cell]
        have := h.sorted
        rw [BTree.toList_node, BTree.toList_node, e4] at this
        refine this.sublist ?_
        simp
      have hseat := Shape.seat hsh2.ctx h1l h1r h1rp hsort
      have hdlive1 : ∀ a, d.par = some a → (s1.cell a).isSome = true := fun a ha => by
        rw [e7.cell]; exact hdlive a ha
      refine ⟨seat s1 d (BTree.node m0 a0 r0').ptr (BTree.node rl b rr).ptr rp,
        .node m0 a0 r0', rp, ?_, hseat, ?_, e7.trans_rest (seat_sameRest _ _ _ _ _),
        Off.trans_off (e8.mono_off ?_) ((seat_off _ _ _ _ _).mono_off ?_)⟩
      · have h1 : rightmost (n + 1) s (s.left x) = .ok rp := by
          rw [← e1]
          simp [rightmost, hxL, Map.node, ha0, ha0R]
        have hne : (s.parent rp != some x) = true := by
          rw [e5]
          simpa using hqx
        have h2 : splice_replacement s x rp = .ok
            { s1 with
              left := upd s1.left rp (some a0)
              right := upd s1.right rp (some b)
              parent := upd (upd s1.parent a0 (some rp)) b (some rp) } := by
          simp only [splice_replacement, hne, if_true, e2, ok_bind]
          simp [h1xL, h1xR, Map.node, h1a0, h1b, upd, hxrp]
        simp only [delete_two_children, h1, h2, ok_bind]
        rw [hang_replacement_eq (d := d) (s := { s1 with
              left := upd s1.left rp (some a0)
              right := upd s1.right rp (some b)
              parent := upd (upd s1.parent a0 (some rp)) b (some rp) }) hdlive1
            (by simp [upd, hxrp, h1xP, hxa0, hxb]) hxrp hlf]
        rfl
      · rw [BTree.toList_node, BTree.toList_node, e4]
        simp
      · intro z hz
        have c3 := List.count_pos_iff.2 hz
        refine List.count_pos_iff.1 ?_
        simp only [Ctx.before, Ctx.after, BTree.toList_node, List.count_append, List.count_cons,
          List.count_nil] at c3 ⊢
        omega
      · intro z hz
        have c2 := d.count_par_le z
        have c4 : List.count z [rp] ≤ List.count z (BTree.node r0l c r0r).toList := by
          by_cases hzr : rp = z
          · subst hzr
            have := List.count_pos_iff.2 hrpmem
            simp only [List.count_cons, List.count_nil, beq_self_eq_true, if_true]
            omega
          · simp [List.count_cons, hzr]
        have c3 := List.count_pos_iff.2 hz
        refine List.count_pos_iff.1 ?_
        simp only [BTree.ptr_node, Option.toList_some, BTree.toList_node, List.count_append,
          List.count_cons, List.count_nil] at c3 c4 ⊢
        omega

/-- Case 3 of `delete_node`: the last node of the left subtree takes the place
of the node `x`. -/
theorem delete_two_children_spec {s : Map K V} {d : Ctx} {m0 r0 rl rr : BTree} {a0 b x : Nat}
    (h : Shape s d (.node (.node m0 a0 r0) x (.node rl b rr))) {lf : Bool}
    (hlf : d ≠ .top → lf = d.isLeft) {fuel : Nat} (hf : (BTree.node m0 a0 r0).height < fuel) :
    ∃ (s2 : Map K V) (L : BTree) (rp : Nat),
      delete_two_children fuel s x d.par lf = .ok s2 ∧
      Shape s2 d (.node L rp (.node rl b rr)) ∧
      L.toList ++ [rp] = (BTree.node m0 a0 r0).toList ∧ SameRest s s2 := by
  obtain ⟨s2, L, rp, e1, e2, e3, e4, _⟩ := delete_two_children_off h hlf hf
  exact ⟨s2, L, rp, e1, e2, e3, e4⟩

/-- The structural part of `delete_node`: the node `x` leaves the tree, the
other nodes keep their order. -/
theorem delete_unlink_off {s : Map K V} {d : Ctx} {l r : BTree} {x : Nat}
    (h : Shape s d (.node l x r)) {lf : Bool} (hlf : d ≠ .top → lf = d.isLeft) {fuel : Nat}
    (hf : l.height < fuel) :
    ∃ (s1 : Map K V) (X : BTree), delete_unlink fuel s x d.par lf = .ok s1 ∧ Shape s1 d X ∧
      X.toList = l.toList ++ r.toList ∧ SameRest s s1 ∧
      Off (d.before ++ (BTree.node l x r).toList ++ d.after) s s1 := by
  have hmono : ∀ Y : BTree, (∀ z, List.count z Y.toList ≤
      List.count z (BTree.node l x r).toList) →
      ∀ z ∈ Y.ptr.toList ++ d.par.toList,
        z ∈ d.before ++ (BTree.node l x r).toList ++ d.after := by
    intro Y hY z hz
    have c0 := hY z
    have c1 := Y.count_ptr_le z
    have c2 := d.count_par_le z
    have c3 : 0 < List.count z (Y.ptr.toList ++ d.par.toList) := List.count_pos_iff.2 hz
    refine List.count_pos_iff.1 ?_
    simp only [List.count_append] at c3 ⊢
    omega
  have hxL : s.left x = l.ptr := h.sub.2.1
  have hxR : s.right x = r.ptr := h.sub.2.2.1
  have hl : Rep s l (some x) := h.sub.2.2.2.2.1
  have hr : Rep s r (some x) := h.sub.2.2.2.2.2
  cases l with
  | nil =>
    cases r with
    | nil =>
      refine ⟨setHole (reparent s BTree.nil.ptr d.par) d BTree.nil.ptr, .nil, ?_,
        h.graft hl (h.sorted.sublist (by simp)), by simp,
        graft_sameRest _ _ _ _, (graft_off _ _ _ _).mono_off (hmono .nil (by simp))⟩
      simp only [delete_unlink, hxL, hxR, BTree.ptr_nil, and_self, if_true]
      exact delete_leaf_eq h.ctx hlf
    | node rl b rr =>
      refine ⟨setHole (reparent s (BTree.node rl b rr).ptr d.par) d (BTree.node rl b rr).ptr,
        .node rl b rr, ?_, h.graft hr (h.sorted.sublist (by simp)), by simp,
        graft_sameRest _ _ _ _, (graft_off _ _ _ _).mono_off (hmono (.node rl b rr) (by
          intro z
          simp only [BTree.toList_node, BTree.toList_nil, List.count_append, List.count_cons,
            List.count_nil]
          omega))⟩
      simp only [delete_unlink, hxL, hxR, BTree.ptr_nil, BTree.ptr_node, true_and, true_or,
        if_true, reduceCtorEq, if_false]
      exact delete_one_child_eq h.ctx hr (by simp) (Or.inl ⟨hxL, hxR⟩) hlf
  | node m0 a0 r0 =>
    cases r with
    | nil =>
      refine ⟨setHole (reparent s (BTree.node m0 a0 r0).ptr d.par) d (BTree.node m0 a0 r0).ptr,
        .node m0 a0 r0, ?_, h.graft hl (h.sorted.sublist (by simp)), by simp,
        graft_sameRest _ _ _ _, (graft_off _ _ _ _).mono_off (hmono (.node m0 a0 r0) (by
          intro z
          simp only [BTree.toList_node, BTree.toList_nil, List.count_append, List.count_cons,
            List.count_nil]
          omega))⟩
      simp only [delete_unlink, hxL, hxR, BTree.ptr_nil, BTree.ptr_node, and_true, or_true,
        if_true, reduceCtorEq, if_false]
      exact delete_one_child_eq h.ctx hl (by simp) (Or.inr ⟨hxL, hxR⟩) hlf
    | node rl b rr =>
      obtain ⟨s2, L, rp, e1, e2, e3, e4, e5⟩ := delete_two_children_off h hlf hf
      refine ⟨s2, _, ?_, e2, ?_, e4, e5⟩
      · simp only [delete_unlink, hxL, hxR, BTree.ptr_node, reduceCtorEq, and_self, or_self,
          if_false]
        exact e1
      · rw [BTree.toList_node, ← e3]
        simp

/-- The structural part of `delete_node`: the node `x` leaves the tree, the
other nodes keep their order. -/
theorem delete_unlink_spec {s : Map K V} {d : Ctx} {l r : BTree} {x : Nat}
    (h : Shape s d (.node l x r)) {lf : Bool} (hlf : d ≠ .top → lf = d.isLeft) {fuel : Nat}
    (hf : l.height < fuel) :
    ∃ (s1 : Map K V) (X : BTree), delete_unlink fuel s x d.par lf = .ok s1 ∧ Shape s1 d X ∧
      X.toList = l.toList ++ r.toList ∧ SameRest s s1 := by
  obtain ⟨s1, X, e1, e2, e3, e4, _⟩ := delete_unlink_off h hlf hf
  exact ⟨s1, X, e1, e2, e3, e4⟩

end

end

section

variable {K V : Type}

theorem BTree.toList_eq_nil {t : BTree} : t.toList = [] ↔ t = .nil := by
  cases t <;> simp

theorem rightmost_mono {s : Map K V} (n : Nat) :
    ∀ (fuel : Nat) (p : Ptr) (r : Nat), rightmost fuel s p = .ok r →
      rightmost (fuel + n) s p = .ok r := by
  intro fuel
  induction fuel with
  | zero => intro p r h; simp [rightmost] at h
  | succ m ih =>
    intro p r h
    rw [show m + 1 + n = (m + n) + 1 by omega]
    simp only [rightmost] at h ⊢
    cases hn : s.node p with
    | error e => rw [hn] at h; simp at h
    | ok a =>
      rw [hn] at h
      simp only [ok_bind] at h ⊢
      cases hr : s.right a with
      | none => rw [hr] at h; exact h
      | some q =>
        rw [hr] at h
        exact ih _ _ h

theorem delete_unlink_mono {s : Map K V} (n : Nat) {fuel : Nat} {c : Nat} {p : Ptr} {lf : Bool}
    {r : Map K V} (h : delete_unlink fuel s c p lf = .ok r) :
    delete_unlink (fuel + n) s c p lf = .ok r := by
  simp only [delete_unlink] at h ⊢
  split
  · rename_i h1
    rw [if_pos h1] at h
    exact h
  · rename_i h1
    rw [if_neg h1] at h
    split
    · rename_i h2
      rw [if_pos h2] at h
      exact h
    · rename_i h2
      rw [if_neg h2] at h
      simp only [delete_two_children] at h ⊢
      cases hr : rightmost fuel s (s.left c) with
      | error e => rw [hr] at h; simp at h
      | ok rp =>
        rw [hr] at h
        rw [rightmost_mono n fuel _ _ hr]
        exact h

section

variable [LinearOrder K]

theorem delete_node_mono (o : KeyOps K) {s : Map K V} {k : K} (n : Nat) {fuel : Nat}
    {r : Bool × Map K V} (h : delete_node o fuel s k = .ok r) :
    delete_node o (fuel + n) s k = .ok r := by
  simp only [delete_node] at h ⊢
  cases hs : delete_search o fuel s k s.root none false with
  | error e => rw [hs] at h; simp at h
  | ok res =>
    obtain ⟨curr, cp, lf⟩ := res
    rw [hs] at h
    rw [delete_search_mono o n fuel _ _ _ _ hs]
    simp only [ok_bind] at h ⊢
    cases curr with
    | none => exact h
    | some c =>
      simp only at h ⊢
      cases hu : delete_unlink fuel s c cp lf with
      | error e => rw [hu] at h; simp at h
      | ok s1 =>
        rw [hu] at h
        rw [delete_unlink_mono n hu]
        exact h

/-- Erasing a key that is present: the node leaves tree and thread, all other
nodes keep their place in the order and their contents. -/
theorem delete_node_spec {s : Map K V} {t : BTree} (ht : TreeOK s t)
    (hth : ThreadOK s t.toList) {k : K} {x : Nat} {v : V} (hx : x ∈ t.toList)
    (hcx : s.cell x = some (k, v)) {fuel : Nat} (hf : s.num_nodes < fuel) :
    ∃ (s' : Map K V) (t' : BTree) (A B : List Nat),
      delete_node (KeyOps.std K) fuel s k = .ok (true, s') ∧ TreeOK s' t' ∧
      ThreadOK s' t'.toList ∧ t.toList = A ++ x :: B ∧ t'.toList = A ++ B ∧
      s'.cell = upd s.cell x none ∧ s'.num_nodes + 1 = s.num_nodes ∧ s'.brk = s.brk ∧
      s'.mapped = s.mapped ∧ s'.color = s.color := by
  have hcount := ht.count
  rcases delete_search_spec (s := s) (k := k) t .top fuel false ht.shape (ht.height_lt hf)
      (by simp) with ⟨d, l, y, r, v', lf', e1, e2, e3, e4, e5, e6⟩ | ⟨p, lf', _, e7⟩
  · have hyx : y = x := key_inj ht.sorted e6 hx e3 hcx rfl
    subst hyx
    simp only [Ctx.before, Ctx.after, List.nil_append, List.append_nil, BTree.toList_node] at e4
    have hlist : t.toList = (d.before ++ l.toList) ++ y :: (r.toList ++ d.after) := by
      rw [← e4]; simp
    have hlf : l.height < fuel := by
      have h1 := l.height_le_length
      have h2 : l.toList.length < t.toList.length := by
        rw [hlist]
        simp only [List.length_append, List.length_cons]
        omega
      omega
    obtain ⟨s1, X, u1, u2, u3, u4⟩ := delete_unlink_spec e2 e5 hlf
    have hsh1 : Shape s1 .top (d.plug X) := shape_plug.1 u2
    have hpl : (d.plug X).toList = (d.before ++ l.toList) ++ (r.toList ++ d.after) := by
      rw [Ctx.toList_plug, u3]; simp
    have hth1 : ThreadOK s1 ((d.before ++ l.toList) ++ y :: (r.toList ++ d.after)) := by
      rw [← hlist]
      exact hth.congr (fun _ _ => congrFun u4.next _) (fun _ _ => congrFun u4.prev _) u4.first
        u4.last
    have hnd : ((d.before ++ l.toList) ++ y :: (r.toList ++ d.after)).Nodup := by
      rw [← hlist]
      exact Pairwise_klt_nodup ht.sorted
    have hlive1 : ∀ a ∈ (d.before ++ l.toList) ++ y :: (r.toList ++ d.after),
        (s1.cell a).isSome = true := by
      intro a ha
      rw [u4.cell]
      exact ht.rep.live a (by rw [hlist]; exact ha)
    have hroot1 : s1.root = none ↔ (d.before ++ l.toList) ++ (r.toList ++ d.after) = [] := by
      rw [← hpl, BTree.toList_eq_nil, ← BTree.ptr_eq_none]
      have : s1.root = (d.plug X).ptr := hsh1.ctx
      rw [this]
    obtain ⟨s2, w1, w2, w3⟩ := delete_unthread_spec hth1 hnd hlive1 hroot1
    have hyl : (s2.cell y).isSome = true := by
      rw [w3.cell]
      exact hlive1 y (by simp)
    have hynot : y ∉ (d.plug X).toList := by
      rw [hpl]
      intro hm
      have := nd_split hnd (A := [y]) (B := (d.before ++ l.toList) ++ (r.toList ++ d.after)) (by
        intro w
        simp only [List.count_append, List.count_cons, List.count_nil]
        omega) y (by simp)
      exact this hm
    have hsh2 : Shape s2 .top (d.plug X) :=
      hsh1.congr_shape w3.cell w3.left w3.right w3.parent w3.root
    refine ⟨{ s2 with cell := upd s2.cell y none, num_nodes := s2.num_nodes - 1 }, d.plug X,
      d.before ++ l.toList, r.toList ++ d.after, ?_, ⟨?_, ?_, ?_, ?_, ?_⟩, ?_, hlist, hpl, ?_,
      ?_, ?_, ?_, ?_⟩
    · have hs : delete_search (KeyOps.std K) fuel s k s.root none false =
          .ok (some y, d.par, lf') := by
        rw [ht.root]; exact e1
      simp only [delete_node, hs, ok_bind, u1, w1, Map.node_live hyl]
      rfl
    · exact hsh2.ctx
    · refine hsh2.sub.frame ?_ Fix.rfl Fix.rfl Fix.rfl
      exact Fix.upd Fix.rfl hynot
    · refine pairwise_klt_congr ?_ (by simpa [Ctx.before, Ctx.after] using hsh2.sorted)
      intro a ha
      have : a ≠ y := by rintro rfl; exact hynot ha
      simp [upd, this]
    · show s2.num_nodes - 1 = _
      rw [w3.num_nodes, u4.num_nodes, hcount, hpl, hlist]
      simp only [List.length_append, List.length_cons]
      omega
    · intro a ha
      show a < s2.brk
      rw [w3.brk, u4.brk]
      refine ht.below a ?_
      rw [hlist]
      rw [hpl] at ha
      simp only [List.mem_append, List.mem_cons] at ha ⊢
      tauto
    · rw [hpl]
      exact w2.congr (fun _ _ => rfl) (fun _ _ => rfl) rfl rfl
    · show upd s2.cell y none = _
      rw [w3.cell, u4.cell]
    · show s2.num_nodes - 1 + 1 = _
      rw [w3.num_nodes, u4.num_nodes, hcount, hlist]
      simp only [List.length_append, List.length_cons]
      omega
    · show s2.brk = _
      rw [w3.brk, u4.brk]
    · show s2.mapped = _
      rw [w3.mapped, u4.mapped]
    · show s2.color = _
      rw [w3.color, u4.color]
  · exact absurd (by simp [Map.keyOf, hcx]) (e7 x hx)

/-- Erasing a key that is absent changes nothing. -/
theorem delete_node_absent {s : Map K V} {t : BTree} (ht : TreeOK s t) {k : K}
    (hk : ∀ a ∈ t.toList, s.keyOf a ≠ some k) {fuel : Nat} (hf : s.num_nodes < fuel) :
    delete_node (KeyOps.std K) fuel s k = .ok (false, s) := by
  rcases delete_search_spec (s := s) (k := k) t .top fuel false ht.shape (ht.height_lt hf)
      (by simp) with ⟨d, l, y, r, v', lf', _, _, e3, _, _, e6⟩ | ⟨p, lf', e1, _⟩
  · exact absurd (by simp [Map.keyOf, e3]) (hk y e6)
  · have : delete_search (KeyOps.std K) fuel s k s.root none false = .ok (none, p, lf') := by
      rw [ht.root]; exact e1
    simp only [delete_node, this, ok_bind]
    rfl

end

end

section

variable {K V : Type}

/-! ### Walks -/

/-- The in-order walk of a well-formed tree lists its nodes. -/
theorem inorder_walk_spec {s : Map K V} (t : BTree) :
    ∀ (p : Ptr) (fuel : Nat), Rep s t p → t.height < fuel →
      inorder_walk fuel s t.ptr = .ok t.toList := by
  induction t with
  | nil =>
    intro p fuel _ hf
    cases fuel with
    | zero => simp at hf
    | succ n => simp [inorder_walk]
  | node l a r ihl ihr =>
    intro p fuel h hf
    cases fuel with
    | zero => simp at hf
    | succ n =>
      obtain ⟨h1, h2, h3, _, h5, h6⟩ := h
      simp only [BTree.height] at hf
      have el := ihl (some a) n h5 (by omega)
      have er := ihr (some a) n h6 (by omega)
      simp [inorder_walk, Map.node, h1, h2, h3, el, er]

theorem forward_seg {s : Map K V} :
    ∀ (l : List Nat) (a : Nat) (p : Ptr) (kv : K × V) (fuel : Nat), Seg s p (a :: l) none →
      (∀ b ∈ a :: l, (s.cell b).isSome = true) → s.cell a = some kv → l.length + 1 < fuel →
      Map.forward fuel s ⟨some a, some kv⟩ = .ok (s.entries (a :: l)) := by
  intro l
  induction l with
  | nil =>
    intro a p kv fuel hseg hlive hkv hf
    obtain ⟨_, h2, _⟩ := hseg
    simp only [List.head?_nil, Option.or_none] at h2
    match fuel, hf with
    | n + 2, _ =>
      simp [Map.forward, Iterator.deref, Iterator.incr, Map.node, hkv, h2, Map.entries]
  | cons b l ih =>
    intro a p kv fuel hseg hlive hkv hf
    obtain ⟨_, h2, h3⟩ := hseg
    simp only [List.head?_cons, Option.or_some] at h2
    obtain ⟨kvb, hkvb⟩ := Option.isSome_iff_exists.1 (hlive b (by simp))
    match fuel, hf with
    | n + 1, hf =>
      have := ih b (some a) kvb n h3 (fun c hc => hlive c (by simp [hc])) hkvb (by
        simp only [List.length_cons] at hf
        omega)
      simp only [Map.entries, List.filterMap_cons, hkv, hkvb] at this ⊢
      simp [Map.forward, Iterator.deref, Iterator.incr, Map.node, Map.key, Map.value, hkv, hkvb,
        h2, this]

/-- Forward iteration over a well-threaded map yields the pairs in thread
order. -/
theorem to_list_spec {s : Map K V} {l : List Nat} (h : ThreadOK s l)
    (hlive : ∀ b ∈ l, (s.cell b).isSome = true) {fuel : Nat} (hf : l.length + 1 < fuel) :
    s.to_list fuel = .ok (s.entries l) := by
  cases l with
  | nil =>
    match fuel, hf with
    | n + 1, _ =>
      have : s.first = none := h.first
      simp [Map.to_list, Map.begin, Iterator.ctor, this, Map.forward, Map.entries]
  | cons a l =>
    have hfirst : s.first = some a := h.first
    obtain ⟨kv, hkv⟩ := Option.isSome_iff_exists.1 (hlive a (by simp))
    have := forward_seg l a none kv fuel h.seg hlive hkv (by
      simp only [List.length_cons] at hf
      omega)
    simp [Map.to_list, Map.begin, Iterator.ctor, hfirst, Map.key, Map.value, hkv, this]

section

variable [LinearOrder K]

/-! ### Lookup -/

theorem find_node_present {s : Map K V} {t : BTree} (ht : TreeOK s t) {k : K} {x : Nat} {v : V}
    (hx : x ∈ t.toList) (hcx : s.cell x = some (k, v)) {fuel : Nat} (hf : s.num_nodes < fuel) :
    find_node (KeyOps.std K) fuel s k s.root = .ok (some x) := by
  rw [find_node_eq (KeyOps.std K) s k fuel s.root none false]
  rcases delete_search_spec (s := s) (k := k) t .top fuel false ht.shape (ht.height_lt hf)
      (by simp) with ⟨d, l, y, r, v', lf', e1, _, e3, _, _, e6⟩ | ⟨p, lf', _, e7⟩
  · have hyx : y = x := key_inj ht.sorted e6 hx e3 hcx rfl
    subst hyx
    have hs : delete_search (KeyOps.std K) fuel s k s.root none false =
        .ok (some y, d.par, lf') := by
      rw [ht.root]; exact e1
    rw [hs]
    rfl
  · exact absurd (by simp [Map.keyOf, hcx]) (e7 x hx)

theorem find_node_absent {s : Map K V} {t : BTree} (ht : TreeOK s t) {k : K}
    (hk : ∀ a ∈ t.toList, s.keyOf a ≠ some k) {fuel : Nat} (hf : s.num_nodes < fuel) :
    find_node (KeyOps.std K) fuel s k s.root = .ok none := by
  rw [find_node_eq (KeyOps.std K) s k fuel s.root none false]
  rcases delete_search_spec (s := s) (k := k) t .top fuel false ht.shape (ht.height_lt hf)
      (by simp) with ⟨d, l, y, r, v', lf', _, _, e3, _, _, e6⟩ | ⟨p, lf', e1, _⟩
  · exact absurd (by simp [Map.keyOf, e3]) (hk y e6)
  · have hs : delete_search (KeyOps.std K) fuel s k s.root none false = .ok (none, p, lf') := by
      rw [ht.root]; exact e1
    rw [hs]
    rfl

theorem find_present {s : Map K V} {t : BTree} (ht : TreeOK s t) {k : K} {x : Nat} {v : V}
    (hx : x ∈ t.toList) (hcx : s.cell x = some (k, v)) {fuel : Nat} (hf : s.num_nodes < fuel) :
    s.find (KeyOps.std K) fuel k = .ok ⟨some x, some (k, v)⟩ := by
  simp [Map.find, find_node_present ht hx hcx hf, Iterator.ctor, Map.key, Map.value, hcx]

theorem find_absent {s : Map K V} {t : BTree} (ht : TreeOK s t) {k : K}
    (hk : ∀ a ∈ t.toList, s.keyOf a ≠ some k) {fuel : Nat} (hf : s.num_nodes < fuel) :
    s.find (KeyOps.std K) fuel k = .ok ⟨none, none⟩ := by
  simp [Map.find, find_node_absent ht hk hf, Iterator.ctor]

theorem at_present {s : Map K V} {t : BTree} (ht : TreeOK s t) {k : K} {x : Nat} {v : V}
    (hx : x ∈ t.toList) (hcx : s.cell x = some (k, v)) {fuel : Nat} (hf : s.num_nodes < fuel) :
    s.at (KeyOps.std K) fuel k = .ok (.value x) := by
  simp [Map.at, find_val_eq, find_node_present ht hx hcx hf, Map.value, hcx]

theorem at_absent {s : Map K V} {t : BTree} (ht : TreeOK s t) {k : K}
    (hk : ∀ a ∈ t.toList, s.keyOf a ≠ some k) {fuel : Nat} (hf : s.num_nodes < fuel) :
    s.at (KeyOps.std K) fuel k = .error .outOfRange := by
  simp [Map.at, find_val_eq, find_node_absent ht hk hf]

theorem index_present {s : Map K V} {t : BTree} (ht : TreeOK s t) {k : K} {x : Nat} {v : V}
    (hx : x ∈ t.toList) (hcx : s.cell x = some (k, v)) {fuel : Nat} (hf : s.num_nodes < fuel)
    (dflt : V) : s.index (KeyOps.std K) fuel dflt k = .ok (.value x, s) := by
  simp [Map.index, find_node_present ht hx hcx hf, Map.value, hcx]

theorem index_absent {s : Map K V} {t : BTree} (ht : TreeOK s t) {k : K}
    (hk : ∀ a ∈ t.toList, s.keyOf a ≠ some k) {fuel : Nat} (hf : s.num_nodes < fuel)
    (dflt : V) : s.index (KeyOps.std K) fuel dflt k = .ok (.mapped, { s with mapped := dflt }) := by
  simp [Map.index, find_node_absent ht hk hf]

/-! ### `insert_node` returns -/

theorem new_node_rootBlack {s : Map K V} {t : BTree} (ht : TreeOK s t) (hb : s.rootBlack)
    (k : K) (v : V) : (s.new_node k v).rootBlack := by
  intro r hr
  have hr' : s.root = some r := hr
  have hlt : r < s.brk := ht.below r (BTree.ptr_mem (ht.root ▸ hr'))
  have : r ≠ s.brk := by omega
  simp only [Map.new_node, upd, this, if_false]
  exact hb r hr'

/-- From a state whose root is black, `insert_node` returns, and the root is
black again. -/
theorem insert_node_ok {s : Map K V} {t : BTree} (ht : TreeOK s t)
    (hth : t.toList ≠ [] → ThreadOK s t.toList) (hb : s.rootBlack) (k : K) (v : V)
    {fuel : Nat} (hf : s.num_nodes < fuel) :
    ∃ r s', insert_node (KeyOps.std K) fuel s k v = .ok (r, s') ∧ s'.rootBlack := by
  have hfresh : s.brk ∉ t.toList := fun hm => Nat.lt_irrefl _ (ht.below _ hm)
  have hoff := new_node_off s k v
  have hsh0 : Shape (s.new_node k v) .top t := by
    refine ht.shape.off_shape rfl hoff ?_
    intro x hx
    simp only [Ctx.before, Ctx.after, List.nil_append, List.append_nil] at hx
    simp only [List.mem_singleton]
    rintro rfl
    exact hfresh hx
  have hb0 := new_node_rootBlack ht hb k v
  cases t with
  | nil =>
    have hroot : (s.new_node k v).root = none := ht.root
    refine ⟨_, _, by simp only [insert_node, hroot]; rfl, ?_⟩
    intro r hr
    have : r = s.brk := by
      have h' : some s.brk = some r := hr
      exact (Option.some.inj h').symm
    subst this
    simp [Map.new_node, upd]
  | node l x rr =>
    have hroot : (s.new_node k v).root = some x := ht.root
    rcases insert_search_spec (s := s.new_node k v) (k := k) (.node l x rr) .top fuel hsh0
        (by simp [Ctx.before]) (by simp [Ctx.after]) (ht.height_lt hf) with
      ⟨y, cy, e1, _, _, _⟩ | ⟨d, e1, e2, e3, e4, e5, e6, _⟩
    · have e1' : insert_search (KeyOps.std K) fuel (s.new_node k v) k (some x) none =
          .ok (.inl y) := e1
      refine ⟨(some y, false), s.new_node k v, ?_, hb0⟩
      simp only [insert_node, hroot, e1', ok_bind]
      rfl
    · have e1' : insert_search (KeyOps.std K) fuel (s.new_node k v) k (some x) none =
          .ok (.inr d.par) := e1
      simp only [Ctx.before, Ctx.after, List.nil_append, List.append_nil] at e3
      have hthr : ThreadOK (s.new_node k v) (d.before ++ d.after) := by
        rw [e3]
        have h0 := hth (by simp)
        refine h0.congr ?_ ?_ rfl rfl
        · intro y hy
          have : y ≠ s.brk := by rintro rfl; exact hfresh hy
          simp [Map.new_node, upd, this]
        · intro y hy
          have : y ≠ s.brk := by rintro rfl; exact hfresh hy
          simp [Map.new_node, upd, this]
      obtain ⟨s1, hl1, hsh1, _, _, hc1, _, _, _, hr1⟩ :=
        insert_link_spec (a := s.brk) (v := v) e2 (e2.not_top_of_root hroot) e4 e5
          (by rw [e3]; exact hfresh) (by simp [Map.new_node, upd])
          (by simp [Map.new_node, upd]) (by simp [Map.new_node, upd]) hthr
      have hb1 : s1.rootBlack := by
        intro r hr
        rw [hc1]
        exact hb0 r (hr1 ▸ hr)
      obtain ⟨s2, hfx, hb2⟩ := fix_insert_ok fuel hsh1 hb1 (by
        have := ht.height_lt hf
        simp only [Ctx.depth] at e6
        omega)
      refine ⟨(some s.brk, true), { s2 with num_nodes := s2.num_nodes + 1 }, ?_, hb2⟩
      simp only [insert_node, hroot, e1', ok_bind, hl1, hfx]
      rfl

end

end

section

variable {K V : Type} [LinearOrder K]

/-! ### Invariants of reachable states -/

theorem TreeOK.ctor (f l : Ptr) (m : V) : TreeOK (Map.ctor f l m : Map K V) .nil :=
  ⟨rfl, trivial, List.Pairwise.nil, rfl, by simp⟩

theorem TreeOK.new_node_tree {s : Map K V} {t : BTree} (ht : TreeOK s t) (k : K) (v : V) :
    TreeOK (s.new_node k v) t := by
  have hfresh : ∀ x ∈ t.toList, x ∉ [s.brk] := by
    intro x hx
    simp only [List.mem_singleton]
    rintro rfl
    exact Nat.lt_irrefl _ (ht.below _ hx)
  refine ⟨ht.root, ht.rep.off (new_node_off s k v) hfresh, ?_, ht.count, ?_⟩
  · exact pairwise_klt_congr (fun x hx => ((new_node_off s k v) x (hfresh x hx)).1) ht.sorted
  · intro a ha
    have := ht.below a ha
    show a < s.brk + 1
    omega

theorem ThreadOK.new_node_thread {s : Map K V} {t : BTree} (ht : TreeOK s t)
    (hth : ThreadOK s t.toList) (k : K) (v : V) : ThreadOK (s.new_node k v) t.toList := by
  refine hth.congr ?_ ?_ rfl rfl
  · intro y hy
    have : y ≠ s.brk := by rintro rfl; exact Nat.lt_irrefl _ (ht.below _ hy)
    simp [Map.new_node, upd, this]
  · intro y hy
    have : y ≠ s.brk := by rintro rfl; exact Nat.lt_irrefl _ (ht.below _ hy)
    simp [Map.new_node, upd, this]

theorem insert_inv {s s' : Map K V} {fuel : Nat} {kv : K × V} {r : Iterator K V × Bool}
    (h : s.insert (KeyOps.std K) fuel kv = .ok (r, s')) :
    ∃ p, insert_node (KeyOps.std K) fuel s kv.1 kv.2 = .ok ((p, r.2), s') ∧
      Iterator.ctor s' p = .ok r.1 := by
  simp only [Map.insert] at h
  cases hn : insert_node (KeyOps.std K) fuel s kv.1 kv.2 with
  | error e => rw [hn] at h; simp at h
  | ok res =>
    obtain ⟨ret, s1⟩ := res
    rw [hn] at h
    simp only [ok_bind] at h
    cases hi : Iterator.ctor s1 ret.1 with
    | error e => rw [hi] at h; simp at h
    | ok it =>
      rw [hi] at h
      simp only [ok_bind, pure_eq_ok, Except.ok.injEq, Prod.mk.injEq] at h
      obtain ⟨h1, rfl⟩ := h
      subst h1
      exact ⟨ret.1, rfl, hi⟩

theorem erase_inv {s s' : Map K V} {fuel : Nat} {k : K}
    (h : s.erase (KeyOps.std K) fuel k = .ok s') :
    ∃ b, delete_node (KeyOps.std K) fuel s k = .ok (b, s') := by
  simp only [Map.erase] at h
  cases hn : delete_node (KeyOps.std K) fuel s k with
  | error e => rw [hn] at h; simp at h
  | ok res =>
    obtain ⟨b, s1⟩ := res
    rw [hn] at h
    simp only [ok_bind, pure_eq_ok, Except.ok.injEq] at h
    subst h
    exact ⟨b, rfl⟩

theorem Map.Inv.insert_node {s s' : Map K V} (h : s.Inv) {fuel : Nat} {k : K} {v : V}
    {r : Ptr × Bool} (hrun : insert_node (KeyOps.std K) fuel s k v = .ok (r, s')) :
    s'.WF := by
  obtain ⟨t, ht, hth⟩ := h
  rcases insert_node_spec ht hth hrun with ⟨x, v0, hx, _, _, rfl⟩ | ⟨_, _, t', _, _, h1, h2, _⟩
  · exact ⟨t, ht.new_node_tree k v, (hth (List.ne_nil_of_mem hx)).new_node_thread ht k v⟩
  · exact ⟨t', h1, h2⟩

theorem Map.WF.to_inv {s : Map K V} (h : s.WF) : s.Inv := by
  obtain ⟨t, ht, hth⟩ := h
  exact ⟨t, ht, fun _ => hth⟩

theorem classical_key (s : Map K V) (t : BTree) (k : K) :
    (∃ x v, x ∈ t.toList ∧ s.cell x = some (k, v)) ∨ ∀ a ∈ t.toList, s.keyOf a ≠ some k := by
  by_cases h : ∃ a ∈ t.toList, s.keyOf a = some k
  · left
    obtain ⟨a, ha, hk⟩ := h
    simp only [Map.keyOf, Option.map_eq_some'] at hk
    obtain ⟨c, hc, rfl⟩ := hk
    exact ⟨a, c.2, ha, hc⟩
  · right
    intro a ha hk
    exact h ⟨a, ha, hk⟩

theorem Map.Inv.delete_node {s s' : Map K V} (h : s.Inv) {fuel : Nat} {k : K} {b : Bool}
    (hrun : delete_node (KeyOps.std K) fuel s k = .ok (b, s')) : s'.Inv := by
  obtain ⟨t, ht, hth⟩ := h
  have hbig := delete_node_mono (KeyOps.std K) (s.num_nodes + 1) hrun
  rcases classical_key s t k with ⟨x, v, hx, hcx⟩ | habs
  · obtain ⟨s2, t', A, B, e1, e2, e3, _⟩ :=
      delete_node_spec ht (hth (List.ne_nil_of_mem hx)) hx hcx
        (show s.num_nodes < fuel + (s.num_nodes + 1) by omega)
    rw [e1] at hbig
    cases hbig
    exact ⟨t', e2, fun _ => e3⟩
  · have := delete_node_absent ht habs (show s.num_nodes < fuel + (s.num_nodes + 1) by omega)
    rw [this] at hbig
    cases hbig
    exact ⟨t, ht, hth⟩

/-- Every state reached by completed operations satisfies the invariant. -/
theorem Reachable.inv {s : Map K V} (h : Reachable s) : s.Inv := by
  induction h with
  | ctor f l m => exact ⟨.nil, TreeOK.ctor f l m, fun h => absurd rfl h⟩
  | insert _ hrun ih =>
    obtain ⟨p, hn, _⟩ := insert_inv hrun
    exact (ih.insert_node hn).to_inv
  | erase _ hrun ih =>
    obtain ⟨b, hn⟩ := erase_inv hrun
    exact ih.delete_node hn

theorem has_iff {s : Map K V} {t : BTree} (ht : TreeOK s t) (k : K) :
    s.Has k ↔ ∃ a ∈ t.toList, s.keyOf a = some k := by
  constructor
  · rintro ⟨t', ht', h⟩
    rw [ht.unique ht']
    exact h
  · intro h
    exact ⟨t, ht, h⟩

theorem hasPair_iff {s : Map K V} {t : BTree} (ht : TreeOK s t) (k : K) (v : V) :
    s.HasPair k v ↔ ∃ a ∈ t.toList, s.cell a = some (k, v) := by
  constructor
  · rintro ⟨t', ht', h⟩
    rw [ht.unique ht']
    exact h
  · intro h
    exact ⟨t, ht, h⟩

theorem not_has {s : Map K V} {t : BTree} (ht : TreeOK s t) {k : K} (h : ¬ s.Has k) :
    ∀ a ∈ t.toList, s.keyOf a ≠ some k :=
  fun a ha hk => h ((has_iff ht k).2 ⟨a, ha, hk⟩)

theorem Map.HasPair.has {s : Map K V} {k : K} {v : V} (h : s.HasPair k v) : s.Has k := by
  obtain ⟨t, ht, a, ha, hc⟩ := h
  exact ⟨t, ht, a, ha, by simp [Map.keyOf, hc]⟩

/-! ### `insert` -/

/-- Inserting a key that is present. -/
theorem insert_node_dup {s : Map K V} {t : BTree} (ht : TreeOK s t) {k : K} {x : Nat} {v0 : V}
    (hx : x ∈ t.toList) (hcx : s.cell x = some (k, v0)) (v : V) {fuel : Nat}
    (hf : s.num_nodes < fuel) :
    insert_node (KeyOps.std K) fuel s k v = .ok ((some x, false), s.new_node k v) := by
  have ht0 := ht.new_node_tree k v
  have hroot : (s.new_node k v).root = t.ptr := ht0.root
  have hcell0 : ∀ y ∈ t.toList, (s.new_node k v).cell y = s.cell y := by
    intro y hy
    have : y ≠ s.brk := by rintro rfl; exact Nat.lt_irrefl _ (ht.below _ hy)
    simp [Map.new_node, upd, this]
  cases t with
  | nil => simp at hx
  | node l r0 rr =>
    rcases insert_search_spec (s := s.new_node k v) (k := k) (.node l r0 rr) .top fuel ht0.shape
        (by simp [Ctx.before]) (by simp [Ctx.after]) (ht.height_lt hf) with
      ⟨y, cy, e1, e2, e3, e4⟩ | ⟨d, _, _, _, _, _, _, e7⟩
    · have e1' : insert_search (KeyOps.std K) fuel (s.new_node k v) k (some r0) none =
          .ok (.inl y) := e1
      have hyx : y = x := by
        refine key_inj ht0.sorted e2 hx e3 ((hcell0 x hx).trans hcx) ?_
        exact e4
      subst hyx
      simp only [insert_node, hroot, BTree.ptr_node, e1', ok_bind]
      rfl
    · exact absurd (by simp [Map.keyOf, hcell0 x hx, hcx]) (e7 x hx)

theorem insert_of_node {s s' : Map K V} {fuel : Nat} {k : K} {v : V} {a : Nat} {b : Bool}
    {c : K × V} (hn : insert_node (KeyOps.std K) fuel s k v = .ok ((some a, b), s'))
    (hc : s'.cell a = some c) :
    s.insert (KeyOps.std K) fuel (k, v) = .ok ((⟨some a, some c⟩, b), s') := by
  simp [Map.insert, hn, Iterator.ctor, Map.key, Map.value, hc]

/-- One `insert` from a state with a black root: it returns, and the state
stays well-formed with a black root; the key set grows by the key. -/
theorem insert_step {s : Map K V} {t : BTree} (ht : TreeOK s t)
    (hth : t.toList ≠ [] → ThreadOK s t.toList) (hb : s.rootBlack) (kv : K × V) {fuel : Nat}
    (hf : s.num_nodes < fuel) :
    ∃ (it : Iterator K V) (b : Bool) (s1 : Map K V) (t1 : BTree),
      s.insert (KeyOps.std K) fuel kv = .ok ((it, b), s1) ∧ TreeOK s1 t1 ∧
      ThreadOK s1 t1.toList ∧ s1.rootBlack ∧ t1.toList ≠ [] ∧
      s1.num_nodes ≤ s.num_nodes + 1 ∧ s1.mapped = s.mapped ∧
      (∀ k, (∃ a ∈ t1.toList, s1.keyOf a = some k) ↔
        ((∃ a ∈ t.toList, s.keyOf a = some k) ∨ k = kv.1)) ∧
      ((∀ a ∈ t.toList, s.keyOf a ≠ some kv.1) →
        b = true ∧ it = ⟨some s.brk, some kv⟩ ∧ s.brk ∈ t1.toList ∧
        s1.cell s.brk = some kv ∧ s1.num_nodes = s.num_nodes + 1) := by
  obtain ⟨r, s1, hrun, hb1⟩ := insert_node_ok ht hth hb kv.1 kv.2 hf
  rcases insert_node_spec ht hth hrun with
    ⟨x, v0, hx, hcx, rfl, rfl⟩ | ⟨habs, rfl, t', A, B, h1, h2, h3, h4, h5, h6, h7⟩
  · have hne : x ≠ s.brk := by rintro rfl; exact Nat.lt_irrefl _ (ht.below _ hx)
    have hc1 : (s.new_node kv.1 kv.2).cell x = some (kv.1, v0) := by
      simp [Map.new_node, upd, hne, hcx]
    refine ⟨_, _, _, t, insert_of_node hrun hc1, ht.new_node_tree _ _,
      (hth (List.ne_nil_of_mem hx)).new_node_thread ht _ _, hb1, List.ne_nil_of_mem hx, ?_, rfl, ?_, ?_⟩
    · show s.num_nodes ≤ s.num_nodes + 1
      omega
    · intro k
      have hkey : ∀ a ∈ t.toList, (s.new_node kv.1 kv.2).keyOf a = s.keyOf a := by
        intro a ha
        have : a ≠ s.brk := by rintro rfl; exact Nat.lt_irrefl _ (ht.below _ ha)
        simp [Map.keyOf, Map.new_node, upd, this]
      constructor
      · rintro ⟨a, ha, hk⟩
        exact Or.inl ⟨a, ha, (hkey a ha) ▸ hk⟩
      · rintro (⟨a, ha, hk⟩ | rfl)
        · exact ⟨a, ha, (hkey a ha).trans hk⟩
        · exact ⟨x, hx, (hkey x hx).trans (by simp [Map.keyOf, hcx])⟩
    · intro habs
      exact absurd (by simp [Map.keyOf, hcx]) (habs x hx)
  · have hc1 : s1.cell s.brk = some kv := by
      rw [h5]; simp [upd]
    have hmem : s.brk ∈ t'.toList := by rw [h4]; simp
    have hkey : ∀ a ∈ t.toList, s1.keyOf a = s.keyOf a := by
      intro a ha
      have : a ≠ s.brk := by rintro rfl; exact Nat.lt_irrefl _ (ht.below _ ha)
      simp [Map.keyOf, h5, upd, this]
    have hcnt : s1.num_nodes = s.num_nodes + 1 := by
      rw [h1.count, ht.count, h4, h3]
      simp only [List.length_append, List.length_cons]
      omega
    refine ⟨_, _, _, t', insert_of_node hrun hc1, h1, h2, hb1, List.ne_nil_of_mem hmem,
      by omega, h7, ?_, fun _ => ⟨rfl, rfl, hmem, hc1, hcnt⟩⟩
    intro k
    constructor
    · rintro ⟨a, ha, hk⟩
      rw [h4] at ha
      by_cases hab : a = s.brk
      · subst hab
        right
        simp only [Map.keyOf, hc1, Option.map_some', Option.some.injEq] at hk
        exact hk.symm
      · left
        have ha' : a ∈ t.toList := by
          rw [h3]
          simp only [List.mem_append, List.mem_cons] at ha ⊢
          tauto
        exact ⟨a, ha', (hkey a ha') ▸ hk⟩
    · rintro (⟨a, ha, hk⟩ | rfl)
      · refine ⟨a, ?_, (hkey a ha).trans hk⟩
        rw [h4]
        rw [h3] at ha
        simp only [List.mem_append, List.mem_cons] at ha ⊢
        tauto
      · exact ⟨s.brk, hmem, by simp [Map.keyOf, hc1]⟩

/-- A run of inserts from a state with a black root returns; the state stays
well-formed and holds the old keys and the inserted ones. -/
theorem run_inserts (kvs : List (K × V)) :
    ∀ (s : Map K V) (t : BTree), TreeOK s t → (t.toList ≠ [] → ThreadOK s t.toList) →
      s.rootBlack → ∀ (fuel : Nat), s.num_nodes + kvs.length < fuel →
      ∃ (s' : Map K V) (t' : BTree),
        Map.run (KeyOps.std K) fuel s (kvs.map Op.insert) = .ok s' ∧ TreeOK s' t' ∧
        (t'.toList ≠ [] → ThreadOK s' t'.toList) ∧ s'.rootBlack ∧
        s'.num_nodes ≤ s.num_nodes + kvs.length ∧ s'.mapped = s.mapped ∧
        (kvs ≠ [] → t'.toList ≠ []) ∧
        (∀ k, (∃ a ∈ t'.toList, s'.keyOf a = some k) ↔
          ((∃ a ∈ t.toList, s.keyOf a = some k) ∨ k ∈ kvs.map Prod.fst)) := by
  induction kvs with
  | nil =>
    intro s t ht hth hb fuel _
    exact ⟨s, t, rfl, ht, hth, hb, by simp, rfl, fun h => absurd rfl h, by simp⟩
  | cons kv kvs ih =>
    intro s t ht hth hb fuel hf
    simp only [List.length_cons] at hf
    obtain ⟨it, b, s1, t1, e1, e2, e3, e4, e5, e6, e6', e7, _⟩ :=
      insert_step ht hth hb kv (show s.num_nodes < fuel by omega)
    obtain ⟨s', t', f1, f2, f3, f4, f5, f5', _, f7⟩ :=
      ih s1 t1 e2 (fun _ => e3) e4 fuel (by omega)
    refine ⟨s', t', ?_, f2, f3, f4, ?_, f5'.trans e6', ?_, ?_⟩
    · simp only [List.map_cons, Map.run, Map.step, e1, ok_bind, pure_eq_ok]
      exact f1
    · simp only [List.length_cons]
      omega
    · intro _ h0
      have : ∃ a ∈ t'.toList, s'.keyOf a = some kv.1 :=
        (f7 kv.1).2 (Or.inl ((e7 kv.1).2 (Or.inr rfl)))
      obtain ⟨a, ha, _⟩ := this
      rw [h0] at ha
      simp at ha
    · intro k
      rw [f7 k, e7 k]
      simp only [List.map_cons, List.mem_cons]
      exact or_assoc

/-- The keys along a sorted list of live nodes ascend strictly. -/
theorem keys_sorted {s : Map K V} {l : List Nat} (h : l.Pairwise s.klt)
    (hlive : ∀ a ∈ l, (s.cell a).isSome = true) :
    ∃ ks : List K, s.keys l = ks.map some ∧ ks.Pairwise (fun a b => a < b) ∧
      ks.length = l.length ∧ ∀ k, k ∈ ks ↔ ∃ a ∈ l, s.keyOf a = some k := by
  induction l with
  | nil => exact ⟨[], rfl, List.Pairwise.nil, rfl, by simp⟩
  | cons a l ih =>
    obtain ⟨h1, h2⟩ := List.pairwise_cons.1 h
    obtain ⟨ks, e1, e2, e3, e4⟩ := ih h2 (fun b hb => hlive b (by simp [hb]))
    obtain ⟨c, hc⟩ := Option.isSome_iff_exists.1 (hlive a (by simp))
    refine ⟨c.1 :: ks, ?_, ?_, by simp [e3], ?_⟩
    · simp only [Map.keys, List.map_cons, hc, Option.map_some'] at e1 ⊢
      rw [e1]
    · refine List.pairwise_cons.2 ⟨?_, e2⟩
      intro k hk
      obtain ⟨b, hb, hkb⟩ := (e4 k).1 hk
      obtain ⟨ca, cb, ha', hb', hlt⟩ := h1 b hb
      rw [hc] at ha'
      cases ha'
      simp only [Map.keyOf, hb', Option.map_some', Option.some.injEq] at hkb
      rw [← hkb]
      exact hlt
    · intro k
      simp only [List.mem_cons, exists_eq_or_imp, e4 k, Map.keyOf, hc, Option.map_some',
        Option.some.injEq]
      constructor
      · rintro (rfl | h)
        · exact Or.inl rfl
        · exact Or.inr h
      · rintro (h | h)
        · exact Or.inl h.symm
        · exact Or.inr h

end

section

variable {K V : Type}

/-! ### Entries -/

theorem entries_append (s : Map K V) (A B : List Nat) :
    s.entries (A ++ B) = s.entries A ++ s.entries B := by
  simp [Map.entries, List.filterMap_append]

theorem entries_cons {s : Map K V} {x : Nat} {p : K × V} (h : s.cell x = some p)
    (B : List Nat) : s.entries (x :: B) = p :: s.entries B := by
  simp [Map.entries, List.filterMap_cons, h]

theorem entries_congr {s s' : Map K V} {l : List Nat} (h : ∀ a ∈ l, s'.cell a = s.cell a) :
    s'.entries l = s.entries l := by
  induction l with
  | nil => rfl
  | cons a l ih =>
    have h1 := h a (by simp)
    have h2 := ih (fun b hb => h b (by simp [hb]))
    simp only [Map.entries, List.filterMap_cons, h1] at h2 ⊢
    rw [h2]

theorem mem_entries {s : Map K V} {l : List Nat} {p : K × V} :
    p ∈ s.entries l ↔ ∃ a ∈ l, s.cell a = some p := by
  simp [Map.entries, List.mem_filterMap]

section

variable [LinearOrder K]

theorem step_insert_inv {s s' : Map K V} {fuel : Nat} {kv : K × V}
    (h : s.step (KeyOps.std K) fuel (.insert kv) = .ok s') :
    ∃ r, s.insert (KeyOps.std K) fuel kv = .ok (r, s') := by
  simp only [Map.step] at h
  cases hn : s.insert (KeyOps.std K) fuel kv with
  | error e => rw [hn] at h; simp at h
  | ok res =>
    obtain ⟨r, s1⟩ := res
    rw [hn] at h
    simp only [ok_bind, pure_eq_ok, Except.ok.injEq] at h
    subst h
    exact ⟨r, rfl⟩

/-- Running operations to completion stays within the reachable states. -/
theorem Reachable.run {fuel : Nat} (ops : List (Op K V)) :
    ∀ {s s' : Map K V}, Reachable s → Map.run (KeyOps.std K) fuel s ops = .ok s' →
      Reachable s' := by
  induction ops with
  | nil =>
    intro s s' hr h
    simp only [Map.run, pure_eq_ok, Except.ok.injEq] at h
    subst h
    exact hr
  | cons op ops ih =>
    intro s s' hr h
    simp only [Map.run] at h
    cases hs : s.step (KeyOps.std K) fuel op with
    | error e => rw [hs] at h; simp at h
    | ok s1 =>
      rw [hs] at h
      simp only [ok_bind] at h
      refine ih ?_ h
      cases op with
      | insert kv =>
        obtain ⟨r, hr1⟩ := step_insert_inv hs
        exact Reachable.insert hr hr1
      | erase k => exact Reachable.erase hr hs

/-- The in-order walk and the walk along `next` from `first` of a well-formed
state both list the nodes of its tree. -/
theorem walks_agree {s : Map K V} {t : BTree} (ht : TreeOK s t) (hth : ThreadOK s t.toList)
    {fuel : Nat} (hf : s.num_nodes < fuel) :
    inorder_walk fuel s s.root = .ok t.toList ∧ thread_walk fuel s s.first = .ok t.toList ∧
      s.first = t.toList.head? ∧ s.last = t.toList.getLast? := by
  refine ⟨?_, ?_, hth.first, hth.last⟩
  · rw [ht.root]
    exact inorder_walk_spec t none fuel ht.rep (ht.height_lt hf)
  · rw [hth.first]
    exact thread_walk_seg hth.seg ht.rep.live fuel (by rw [← ht.count]; exact hf)

/-- After a non-empty run of inserts on a newly constructed map, whatever its
`first` and `last` were, the in-order walk and the thread walk agree and the
keys ascend strictly. -/
theorem inserts_walk (f l : Ptr) (m : V) (kvs : List (K × V)) (hne : kvs ≠ []) (fuel : Nat)
    (hf : kvs.length < fuel) :
    ∃ (s : Map K V) (nodes : List Nat) (ks : List K),
      Map.run (KeyOps.std K) fuel (Map.ctor f l m) (kvs.map Op.insert) = .ok s ∧
      inorder_walk fuel s s.root = .ok nodes ∧ thread_walk fuel s s.first = .ok nodes ∧
      s.first = nodes.head? ∧ s.last = nodes.getLast? ∧ s.keys nodes = ks.map some ∧
      ks.Pairwise (fun a b => a < b) ∧ ∀ k, k ∈ ks ↔ k ∈ kvs.map Prod.fst := by
  obtain ⟨s, t, h1, h2, h3, _, h5, _, h6, h7⟩ :=
    run_inserts kvs (Map.ctor f l m) .nil (TreeOK.ctor f l m) (fun h => absurd rfl h)
      (fun r hr => by simp [Map.ctor] at hr) fuel (by simpa [Map.ctor] using hf)
  have hth := h3 (h6 hne)
  have hf' : s.num_nodes < fuel := by
    have : s.num_nodes ≤ 0 + kvs.length := h5
    omega
  obtain ⟨w1, w2, w3, w4⟩ := walks_agree h2 hth hf'
  obtain ⟨ks, k1, k2, _, k4⟩ := keys_sorted h2.sorted h2.rep.live
  refine ⟨s, t.toList, ks, h1, w1, w2, w3, w4, k1, k2, ?_⟩
  intro k
  rw [k4 k, h7 k]
  simp

end

end

section

variable {K V : Type} [LinearOrder K]

/-! ### Concrete states -/

theorem demo1_tree : TreeOK (demo [.insert (1, 10)]) (.node .nil 0 .nil) := by
  refine ⟨rfl, ⟨rfl, rfl, rfl, rfl, trivial, trivial⟩, List.pairwise_singleton _ _, rfl, ?_⟩
  intro a ha
  simp only [BTree.toList, List.nil_append, List.mem_singleton] at ha
  subst ha
  exact Nat.lt_of_lt_of_eq (by decide : 0 < 1) rfl

theorem demo1_thread : ThreadOK (demo [.insert (1, 10)]) (BTree.node .nil 0 .nil).toList :=
  ⟨rfl, rfl, ⟨rfl, rfl, trivial⟩⟩

theorem demo2_tree :
    TreeOK (demo [.insert (1, 10), .insert (2, 20)]) (.node .nil 0 (.node .nil 1 .nil)) := by
  refine ⟨rfl, ⟨rfl, rfl, rfl, rfl, trivial, ⟨rfl, rfl, rfl, rfl, trivial, trivial⟩⟩, ?_, rfl,
    ?_⟩
  · show List.Pairwise _ [0, 1]
    refine List.pairwise_cons.2 ⟨?_, List.pairwise_singleton _ _⟩
    intro b hb
    simp only [List.mem_singleton] at hb
    subst hb
    exact ⟨(1, 10), (2, 20), rfl, rfl, by decide⟩
  · intro a ha
    simp only [BTree.toList, List.nil_append, List.mem_cons, List.mem_singleton,
      List.not_mem_nil, or_false] at ha
    rcases ha with rfl | rfl
    · exact Nat.lt_of_lt_of_eq (by decide : 0 < 2) rfl
    · exact Nat.lt_of_lt_of_eq (by decide : 1 < 2) rfl

theorem demo3_tree :
    TreeOK (demo [.insert (2, 20), .insert (1, 10), .insert (3, 30)])
      (.node (.node .nil 1 .nil) 0 (.node .nil 2 .nil)) := by
  refine ⟨rfl, ⟨rfl, rfl, rfl, rfl, ⟨rfl, rfl, rfl, rfl, trivial, trivial⟩,
    ⟨rfl, rfl, rfl, rfl, trivial, trivial⟩⟩, ?_, rfl, ?_⟩
  · show List.Pairwise _ [1, 0, 2]
    refine List.pairwise_cons.2 ⟨?_, List.pairwise_cons.2 ⟨?_, List.pairwise_singleton _ _⟩⟩
    · intro b hb
      simp only [List.mem_cons, List.mem_singleton, List.not_mem_nil, or_false] at hb
      rcases hb with rfl | rfl
      · exact ⟨(1, 10), (2, 20), rfl, rfl, by decide⟩
      · exact ⟨(1, 10), (3, 30), rfl, rfl, by decide⟩
    · intro b hb
      simp only [List.mem_singleton] at hb
      subst hb
      exact ⟨(2, 20), (3, 30), rfl, rfl, by decide⟩
  · intro a ha
    simp only [BTree.toList, List.nil_append, List.cons_append, List.mem_cons,
      List.mem_singleton, List.not_mem_nil, or_false] at ha
    rcases ha with rfl | rfl | rfl
    · exact Nat.lt_of_lt_of_eq (by decide : 1 < 3) rfl
    · exact Nat.lt_of_lt_of_eq (by decide : 0 < 3) rfl
    · exact Nat.lt_of_lt_of_eq (by decide : 2 < 3) rfl

theorem demo3_thread :
    ThreadOK (demo [.insert (2, 20), .insert (1, 10), .insert (3, 30)])
      (BTree.node (.node .nil 1 .nil) 0 (.node .nil 2 .nil)).toList :=
  ⟨rfl, rfl, ⟨rfl, rfl, rfl, rfl, rfl, rfl, trivial⟩⟩

theorem demo_reachable (ops : List (Op Nat Nat)) {s : Map Nat Nat}
    (h : Map.run (KeyOps.std Nat) 20 (Map.ctor none none 0) ops = .ok s) : Reachable s :=
  Reachable.run ops (Reachable.ctor none none 0) h

/-! ### The claims -/

/-- C1 (fails on a newly constructed map): `Map()` leaves `first` as it happens
to be.  With no insert at all the in-order walk of the tree is empty, but the
walk along `next` from `first` starts at whatever address `first` holds, which
is no node: the two walks differ, for every such address. -/
theorem C1_fresh_map_thread_walk_faults (a : Nat) (l : Ptr) (m : V) (n : Nat) :
    Map.run (KeyOps.std K) (n + 1) (Map.ctor (some a) l m)
        (([] : List (K × V)).map Op.insert) = .ok (Map.ctor (some a) l m) ∧
      inorder_walk (n + 1) (Map.ctor (some a) l m : Map K V)
        (Map.ctor (some a) l m : Map K V).root = .ok [] ∧
      thread_walk (n + 1) (Map.ctor (some a) l m : Map K V)
        (Map.ctor (some a) l m : Map K V).first = .error .nullDeref := by
  refine ⟨rfl, rfl, ?_⟩
  simp [thread_walk, Map.ctor, Map.node]

/-- C2: on a well-formed state (BST order, parent links, thread) holding
`(k, v)`, `erase k` returns; forward iteration before it yields `ps ++ (k, v) ::
qs` and after it `ps ++ qs`, where no pair of `ps ++ qs` has key `k`; the
in-order walk of the new tree and the walk along `next` from `first` list the
same nodes, which carry exactly these pairs in ascending key order; `first` and
`last` are the first and the last of these nodes, both null iff the map is
empty; the new state is well-formed.  The statement covers the three cases of
`delete_node` alike. -/
theorem C2_erase_removes_exactly_the_pair (s : Map K V) (k : K) (v : V) (fuel : Nat)
    (hwf : s.WF) (hk : s.HasPair k v) (hf : s.num_nodes + 1 < fuel) :
    ∃ (s' : Map K V) (ps qs : List (K × V)) (nodes : List Nat),
      s.erase (KeyOps.std K) fuel k = .ok s' ∧
      s.to_list fuel = .ok (ps ++ (k, v) :: qs) ∧
      s'.to_list fuel = .ok (ps ++ qs) ∧
      (∀ p ∈ ps ++ qs, p.1 ≠ k) ∧
      inorder_walk fuel s' s'.root = .ok nodes ∧
      thread_walk fuel s' s'.first = .ok nodes ∧
      s'.entries nodes = ps ++ qs ∧ s'.pairs nodes = (ps ++ qs).map some ∧
      nodes.Pairwise s'.klt ∧
      s'.first = nodes.head? ∧ s'.last = nodes.getLast? ∧
      ((s'.first = none ∧ s'.last = none) ↔ s'.size = 0) ∧ s'.WF := by
  obtain ⟨t, ht, hth⟩ := hwf
  obtain ⟨x, hx, hcx⟩ := (hasPair_iff ht k v).1 hk
  obtain ⟨s', t', A, B, e1, e2, e3, e4, e5, e6, e7, _⟩ :=
    delete_node_spec ht hth hx hcx (show s.num_nodes < fuel by omega)
  have hnd : (A ++ x :: B).Nodup := e4 ▸ Pairwise_klt_nodup ht.sorted
  have hxAB : x ∉ A ++ B := by
    intro hm
    have := nd_split hnd (A := [x]) (B := A ++ B) (by
      intro w
      simp only [List.count_append, List.count_cons, List.count_nil]
      omega) x (by simp)
    exact this hm
  have hcell : ∀ a ∈ A ++ B, s'.cell a = s.cell a := by
    intro a ha
    have : a ≠ x := by rintro rfl; exact hxAB ha
    simp [e6, upd, this]
  have hsub : ∀ a ∈ A ++ B, a ∈ t.toList := by
    intro a ha
    rw [e4]
    simp only [List.mem_append, List.mem_cons] at ha ⊢
    tauto
  have hlen : t.toList.length = s.num_nodes := ht.count.symm
  have hlen' : t'.toList.length = s'.num_nodes := e2.count.symm
  have h1 : s.to_list fuel = .ok (s.entries A ++ (k, v) :: s.entries B) := by
    rw [to_list_spec hth ht.rep.live (by omega), e4, entries_append, entries_cons hcx]
  have hent : s'.entries (A ++ B) = s.entries A ++ s.entries B := by
    rw [entries_congr hcell, entries_append]
  have h2 : s'.to_list fuel = .ok (s.entries A ++ s.entries B) := by
    rw [to_list_spec e3 e2.rep.live (by omega), e5, hent]
  obtain ⟨w1, w2, w3, w4⟩ := walks_agree e2 e3 (show s'.num_nodes < fuel by omega)
  refine ⟨s', s.entries A, s.entries B, t'.toList, by simp [Map.erase, e1], h1, h2, ?_, w1, w2,
    by rw [e5, hent], ?_, e2.sorted, w3, w4, ?_, ⟨t', e2, e3⟩⟩
  · intro p hp hpk
    rw [← entries_append, mem_entries] at hp
    obtain ⟨a, ha, hca⟩ := hp
    have : a = x := key_inj ht.sorted (hsub a ha) hx hca hcx hpk
    exact hxAB (this ▸ ha)
  · rw [← hent, ← e5]
    have hl := e2.rep.live
    generalize t'.toList = L at hl
    induction L with
    | nil => rfl
    | cons a L ih =>
      obtain ⟨c, hc⟩ := Option.isSome_iff_exists.1 (hl a (by simp))
      have := ih (fun b hb => hl b (by simp [hb]))
      simp only [Map.pairs, Map.entries, List.map_cons, List.filterMap_cons, hc] at this ⊢
      rw [this]
  · rw [w3, w4]
    show _ ↔ s'.num_nodes = 0
    rw [← hlen']
    cases t'.toList with
    | nil => simp
    | cons a L => simp

/-- C3: in every state reached by completed inserts and erases, `find k`
returns; the iterator is the end sentinel iff no entry has key `k`, and
otherwise it stands at the node holding `k` with the snapshot `(k, stored
value)`.  `find` reads the state and returns only the iterator: it writes no
member of the map. -/
theorem C3_find_correct (s : Map K V) (hr : Reachable s) (k : K) (fuel : Nat)
    (hf : s.num_nodes < fuel) :
    ∃ it : Iterator K V, s.find (KeyOps.std K) fuel k = .ok it ∧
      (Except.ok it = s.end ↔ ¬ s.Has k) ∧ (it.target = none ↔ ¬ s.Has k) ∧
      (s.Has k → ∃ a v, it = ⟨some a, some (k, v)⟩ ∧ s.cell a = some (k, v)) ∧
      (∀ v, s.HasPair k v → it.val = some (k, v)) := by
  obtain ⟨t, ht, _⟩ := hr.inv
  rcases classical_key s t k with ⟨x, v, hx, hcx⟩ | habs
  · have hhas : s.Has k := (has_iff ht k).2 ⟨x, hx, by simp [Map.keyOf, hcx]⟩
    refine ⟨⟨some x, some (k, v)⟩, find_present ht hx hcx hf, ?_, ?_, ?_, ?_⟩
    · constructor
      · intro h
        simp [Map.end, Iterator.ctor] at h
      · intro h
        exact absurd hhas h
    · constructor
      · intro h
        simp at h
      · intro h
        exact absurd hhas h
    · intro _
      exact ⟨x, v, rfl, hcx⟩
    · intro v' hv'
      obtain ⟨a, ha, hca⟩ := (hasPair_iff ht k v').1 hv'
      have hax : a = x := key_inj ht.sorted ha hx hca hcx rfl
      subst hax
      rw [hcx] at hca
      simp only [Option.some.injEq, Prod.mk.injEq, true_and] at hca
      subst hca
      rfl
  · have hno : ¬ s.Has k := fun h => by
      obtain ⟨a, ha, hk⟩ := (has_iff ht k).1 h
      exact habs a ha hk
    refine ⟨⟨none, none⟩, find_absent ht habs hf, ?_, ?_, ?_, ?_⟩
    · exact ⟨fun _ => hno, fun _ => rfl⟩
    · exact ⟨fun _ => hno, fun _ => rfl⟩
    · intro h
      exact absurd h hno
    · intro v' hv'
      exact absurd hv'.has hno

/-- C4: after any run of inserts on a newly constructed map, inserting a pair
`(k, v)` whose key was not inserted before returns `inserted = true` with an
iterator whose snapshot is `(k, v)`, and a following `find k` returns an
iterator that is not the end sentinel and whose snapshot is `(k, v)`. -/
theorem C4_insert_then_find (f l : Ptr) (m : V) (kvs : List (K × V)) (k : K) (v : V)
    (fuel : Nat) (hk : k ∉ kvs.map Prod.fst) (hf : kvs.length + 1 < fuel) :
    ∃ (s : Map K V) (it : Iterator K V) (s' : Map K V) (it' : Iterator K V),
      Map.run (KeyOps.std K) fuel (Map.ctor f l m) (kvs.map Op.insert) = .ok s ∧
      s.insert (KeyOps.std K) fuel (k, v) = .ok ((it, true), s') ∧
      it.val = some (k, v) ∧
      s'.find (KeyOps.std K) fuel k = .ok it' ∧ it'.target ≠ none ∧
      Except.ok it' ≠ s'.end ∧ it'.val = some (k, v) := by
  obtain ⟨s, t, h1, h2, h3, h4, h5, _, _, h7⟩ :=
    run_inserts kvs (Map.ctor f l m) .nil (TreeOK.ctor f l m) (fun h => absurd rfl h)
      (fun r hr => by simp [Map.ctor] at hr) fuel (by
        show 0 + kvs.length < fuel
        omega)
  have hn : s.num_nodes ≤ kvs.length := by
    have : s.num_nodes ≤ 0 + kvs.length := h5
    omega
  have habs : ∀ a ∈ t.toList, s.keyOf a ≠ some (k, v).1 := by
    intro a ha hka
    rcases (h7 k).1 ⟨a, ha, hka⟩ with ⟨b, hb, _⟩ | hmem
    · simp at hb
    · exact hk hmem
  obtain ⟨it, b, s1, t1, e1, e2, _, _, _, _, _, _, e9⟩ :=
    insert_step h2 h3 h4 (k, v) (show s.num_nodes < fuel by omega)
  obtain ⟨rfl, rfl, hmem, hc1, hcnt⟩ := e9 habs
  have hfind := find_present e2 hmem hc1 (show s1.num_nodes < fuel by omega)
  refine ⟨s, _, s1, _, h1, e1, rfl, hfind, by simp, ?_, rfl⟩
  simp [Map.end, Iterator.ctor]

/-- C5: on a well-formed state that holds `(k, v0)`, `insert (k, v)` returns
`inserted = false` with an iterator at the node of `k` whose snapshot is `(k,
v0)`.  The new state differs from the old one only by the node allocated at the
start of `insert_node`, which is linked nowhere: size, `root`, `first`, `last`
and all fields of every other address are the same, the same tree shape and
thread are realised, with the same pairs and colours, and forward iteration
yields the same pairs. -/
theorem C5_duplicate_insert_is_noop (s : Map K V) (k : K) (v0 v : V) (fuel : Nat)
    (hwf : s.WF) (hk : s.HasPair k v0) (hf : s.num_nodes + 1 < fuel) :
    ∃ (it : Iterator K V) (s' : Map K V),
      s.insert (KeyOps.std K) fuel (k, v) = .ok ((it, false), s') ∧
      it.val = some (k, v0) ∧ (∃ a, it.target = some a ∧ s.cell a = some (k, v0)) ∧
      s'.size = s.size ∧ s'.to_list fuel = s.to_list fuel ∧
      s'.root = s.root ∧ s'.first = s.first ∧ s'.last = s.last ∧
      (∀ a, a ≠ s.brk → s'.cell a = s.cell a ∧ s'.color a = s.color a ∧
        s'.left a = s.left a ∧ s'.right a = s.right a ∧ s'.parent a = s.parent a ∧
        s'.next a = s.next a ∧ s'.prev a = s.prev a) ∧
      ∃ t, TreeOK s t ∧ ThreadOK s t.toList ∧ TreeOK s' t ∧ ThreadOK s' t.toList ∧
        s'.pairs t.toList = s.pairs t.toList ∧ ∀ a ∈ t.toList, s'.color a = s.color a := by
  obtain ⟨t, ht, hth⟩ := hwf
  obtain ⟨x, hx, hcx⟩ := (hasPair_iff ht k v0).1 hk
  have hn := insert_node_dup ht hx hcx v (show s.num_nodes < fuel by omega)
  have hfresh : ∀ a ∈ t.toList, a ≠ s.brk := by
    intro a ha
    rintro rfl
    exact Nat.lt_irrefl _ (ht.below _ ha)
  have hc1 : (s.new_node k v).cell x = some (k, v0) := by
    simp [Map.new_node, upd, hfresh x hx, hcx]
  have hcell : ∀ a ∈ t.toList, (s.new_node k v).cell a = s.cell a := by
    intro a ha
    simp [Map.new_node, upd, hfresh a ha]
  have ht' := ht.new_node_tree k v
  have hth' := hth.new_node_thread ht k v
  have hlen : t.toList.length = s.num_nodes := ht.count.symm
  refine ⟨⟨some x, some (k, v0)⟩, s.new_node k v, insert_of_node hn hc1, rfl,
    ⟨x, rfl, hcx⟩, rfl, ?_, rfl, rfl, rfl, ?_, t, ht, hth, ht', hth', ?_, ?_⟩
  · rw [to_list_spec hth' ht'.rep.live (by omega), to_list_spec hth ht.rep.live (by omega),
      entries_congr hcell]
  · intro a ha
    simp [Map.new_node, upd, ha]
  · simp only [Map.pairs]
    exact List.map_congr_left hcell
  · intro a ha
    simp [Map.new_node, upd, hfresh a ha]

end

section

variable {K V : Type} [LinearOrder K]

/-- C2 at a concrete input: erasing the root `2`, which has two children, of
the map built by inserting `2`, `1`, `3`. -/
theorem C2_erase_removes_exactly_the_pair_witness :
    (demo [.insert (2, 20), .insert (1, 10), .insert (3, 30)]).WF ∧
    (demo [.insert (2, 20), .insert (1, 10), .insert (3, 30)]).HasPair 2 20 ∧
    ∃ (s' : Map Nat Nat) (ps qs : List (Nat × Nat)),
      (demo [.insert (2, 20), .insert (1, 10), .insert (3, 30)]).erase (KeyOps.std Nat) 10 2
        = .ok s' ∧
      (demo [.insert (2, 20), .insert (1, 10), .insert (3, 30)]).to_list 10
        = .ok (ps ++ (2, 20) :: qs) ∧
      s'.to_list 10 = .ok (ps ++ qs) ∧ (∀ p ∈ ps ++ qs, p.1 ≠ 2) ∧ s'.WF := by
  have hwf : (demo [.insert (2, 20), .insert (1, 10), .insert (3, 30)]).WF :=
    ⟨_, demo3_tree, demo3_thread⟩
  have hp : (demo [.insert (2, 20), .insert (1, 10), .insert (3, 30)]).HasPair 2 20 :=
    ⟨_, demo3_tree, 0, by simp [BTree.toList], rfl⟩
  obtain ⟨s', ps, qs, _, h1, h2, h3, h4, _, _, _, _, _, _, _, _, h13⟩ :=
    C2_erase_removes_exactly_the_pair _ 2 20 10 hwf hp (by decide)
  exact ⟨hwf, hp, s', ps, qs, h1, h2, h3, h4, h13⟩

/-- C3 at a concrete input: `find 1` and `find 7` in the map holding `(1, 10)`
and `(2, 20)`. -/
theorem C3_find_correct_witness :
    Reachable (demo [.insert (1, 10), .insert (2, 20)]) ∧
    (∃ it : Iterator Nat Nat,
      (demo [.insert (1, 10), .insert (2, 20)]).find (KeyOps.std Nat) 5 1 = .ok it ∧
      (it.target = none ↔ ¬ (demo [.insert (1, 10), .insert (2, 20)]).Has 1) ∧
      ((demo [.insert (1, 10), .insert (2, 20)]).HasPair 1 10 → it.val = some (1, 10))) ∧
    (demo [.insert (1, 10), .insert (2, 20)]).find (KeyOps.std Nat) 5 1
      = .ok ⟨some 0, some (1, 10)⟩ ∧
    (demo [.insert (1, 10), .insert (2, 20)]).find (KeyOps.std Nat) 5 7
      = (demo [.insert (1, 10), .insert (2, 20)]).end := by
  have hr : Reachable (demo [.insert (1, 10), .insert (2, 20)]) :=
    demo_reachable [.insert (1, 10), .insert (2, 20)] rfl
  obtain ⟨it, h1, _, h3, _, h5⟩ := C3_find_correct _ hr 1 5 (by decide)
  exact ⟨hr, ⟨it, h1, h3, h5 10⟩, rfl, rfl⟩

/-- C4 at a concrete input: inserting `(2, 20)` after `(1, 10)`, on a map whose
`first` and `last` were left at arbitrary addresses by the constructor. -/
theorem C4_insert_then_find_witness :
    (2 : Nat) ∉ [((1 : Nat), (10 : Nat))].map Prod.fst ∧
    ∃ (s : Map Nat Nat) (it : Iterator Nat Nat) (s' : Map Nat Nat) (it' : Iterator Nat Nat),
      Map.run (KeyOps.std Nat) 5 (Map.ctor (some 7) (some 9) 0)
        ([((1 : Nat), (10 : Nat))].map Op.insert) = .ok s ∧
      s.insert (KeyOps.std Nat) 5 (2, 20) = .ok ((it, true), s') ∧
      it.val = some (2, 20) ∧
      s'.find (KeyOps.std Nat) 5 2 = .ok it' ∧ it'.target ≠ none ∧
      Except.ok it' ≠ s'.end ∧ it'.val = some (2, 20) :=
  ⟨by decide, C4_insert_then_find (some 7) (some 9) 0 [(1, 10)] 2 20 5 (by decide) (by decide)⟩

/-- C5 at a concrete input: inserting `(1, 99)` into the map holding `(1, 10)`. -/
theorem C5_duplicate_insert_is_noop_witness :
    (demo [.insert (1, 10)]).WF ∧ (demo [.insert (1, 10)]).HasPair 1 10 ∧
    ∃ (it : Iterator Nat Nat) (s' : Map Nat Nat),
      (demo [.insert (1, 10)]).insert (KeyOps.std Nat) 5 (1, 99) = .ok ((it, false), s') ∧
      it.val = some (1, 10) ∧ s'.size = (demo [.insert (1, 10)]).size ∧
      s'.to_list 5 = (demo [.insert (1, 10)]).to_list 5 ∧
      (demo [.insert (1, 10)]).to_list 5 = .ok [(1, 10)] := by
  have hwf : (demo [.insert (1, 10)]).WF := ⟨_, demo1_tree, demo1_thread⟩
  have hp : (demo [.insert (1, 10)]).HasPair 1 10 :=
    ⟨_, demo1_tree, 0, by simp [BTree.toList], rfl⟩
  obtain ⟨it, s', h1, h2, _, h4, h5, _⟩ :=
    C5_duplicate_insert_is_noop _ 1 10 99 5 hwf hp (by decide)
  exact ⟨hwf, hp, it, s', h1, h2, h4, h5, rfl⟩

/-- C6: after any run of inserts on a newly constructed map, `size()` is the
number of distinct keys of the run, and `empty()` holds iff `size() == 0`. -/
theorem C6_size_counts_distinct_keys (f l : Ptr) (m : V) (kvs : List (K × V)) (fuel : Nat)
    (hf : kvs.length < fuel) :
    ∃ s : Map K V,
      Map.run (KeyOps.std K) fuel (Map.ctor f l m) (kvs.map Op.insert) = .ok s ∧
      s.size = (kvs.map Prod.fst).dedup.length ∧ (s.empty = true ↔ s.size = 0) := by
  obtain ⟨s, t, h1, h2, _, _, _, _, _, h7⟩ :=
    run_inserts kvs (Map.ctor f l m) .nil (TreeOK.ctor f l m) (fun h => absurd rfl h)
      (fun r hr => by simp [Map.ctor] at hr) fuel (by
        show 0 + kvs.length < fuel
        omega)
  obtain ⟨ks, _, k2, k3, k4⟩ := keys_sorted h2.sorted h2.rep.live
  have hnd : ks.Nodup := k2.imp (fun h => ne_of_lt h)
  have hperm : ks.Perm (kvs.map Prod.fst).dedup := by
    refine (List.perm_ext_iff_of_nodup hnd (List.nodup_dedup _)).2 ?_
    intro k
    rw [k4 k, h7 k, List.mem_dedup]
    simp
  refine ⟨s, h1, ?_, by simp [Map.empty, Map.size]⟩
  show s.num_nodes = _
  rw [h2.count, ← k3, hperm.length_eq]

/-- C6 at a concrete input: three inserts, one of them a duplicate. -/
theorem C6_size_counts_distinct_keys_witness :
    [((1 : Nat), (10 : Nat)), (2, 20), (1, 30)].length < 5 ∧
    ∃ s : Map Nat Nat,
      Map.run (KeyOps.std Nat) 5 (Map.ctor (some 7) (some 9) 0)
        ([((1 : Nat), (10 : Nat)), (2, 20), (1, 30)].map Op.insert) = .ok s ∧
      s.size = ([((1 : Nat), (10 : Nat)), (2, 20), (1, 30)].map Prod.fst).dedup.length ∧
      (s.empty = true ↔ s.size = 0) :=
  ⟨by decide, C6_size_counts_distinct_keys (some 7) (some 9) 0 [(1, 10), (2, 20), (1, 30)] 5
    (by decide)⟩

/-- C7: in every state reached by completed inserts and erases that holds the
key `k`, `erase k` returns; after it `find k` is the end sentinel, no entry has
key `k`, and `size()` is one less. -/
theorem C7_erase_then_find_absent (s : Map K V) (hr : Reachable s) (k : K) (hk : s.Has k)
    (fuel : Nat) (hf : s.num_nodes < fuel) :
    ∃ s' : Map K V, s.erase (KeyOps.std K) fuel k = .ok s' ∧
      s'.find (KeyOps.std K) fuel k = s'.end ∧ ¬ s'.Has k ∧ s'.size + 1 = s.size := by
  obtain ⟨t, ht, hth⟩ := hr.inv
  obtain ⟨a, ha, hka⟩ := (has_iff ht k).1 hk
  simp only [Map.keyOf, Option.map_eq_some'] at hka
  obtain ⟨c, hc, rfl⟩ := hka
  have hca : s.cell a = some (c.1, c.2) := hc
  obtain ⟨s', t', A, B, e1, e2, _, e4, e5, e6, e7, _⟩ :=
    delete_node_spec ht (hth (List.ne_nil_of_mem ha)) ha hca hf
  have hnd : (A ++ a :: B).Nodup := e4 ▸ Pairwise_klt_nodup ht.sorted
  have habs : ∀ b ∈ t'.toList, s'.keyOf b ≠ some c.1 := by
    intro b hb hkb
    rw [e5] at hb
    have hba : b ≠ a := by
      rintro rfl
      have := nd_split hnd (A := [b]) (B := A ++ B) (by
        intro w
        simp only [List.count_append, List.count_cons, List.count_nil]
        omega) b (by simp)
      exact this hb
    have hbt : b ∈ t.toList := by
      rw [e4]
      simp only [List.mem_append, List.mem_cons] at hb ⊢
      tauto
    simp only [Map.keyOf, e6, upd, hba, if_false, Option.map_eq_some'] at hkb
    obtain ⟨cb, hcb, hk'⟩ := hkb
    exact hba (key_inj ht.sorted hbt ha hcb hc hk')
  refine ⟨s', by simp [Map.erase, e1], ?_, ?_, e7⟩
  · rw [find_absent e2 habs (show s'.num_nodes < fuel by omega)]
    rfl
  · intro h
    obtain ⟨b, hb, hkb⟩ := (has_iff e2 c.1).1 h
    exact habs b hb hkb

/-- C7 at a concrete input: erasing `1` from the map holding `(1, 10)` and
`(2, 20)`. -/
theorem C7_erase_then_find_absent_witness :
    Reachable (demo [.insert (1, 10), .insert (2, 20)]) ∧
    (demo [.insert (1, 10), .insert (2, 20)]).Has 1 ∧
    ∃ s' : Map Nat Nat,
      (demo [.insert (1, 10), .insert (2, 20)]).erase (KeyOps.std Nat) 5 1 = .ok s' ∧
      s'.find (KeyOps.std Nat) 5 1 = s'.end ∧ ¬ s'.Has 1 ∧
      s'.size + 1 = (demo [.insert (1, 10), .insert (2, 20)]).size := by
  have hr : Reachable (demo [.insert (1, 10), .insert (2, 20)]) :=
    demo_reachable [.insert (1, 10), .insert (2, 20)] rfl
  have hk : (demo [.insert (1, 10), .insert (2, 20)]).Has 1 :=
    ⟨_, demo2_tree, 0, by simp [BTree.toList], rfl⟩
  exact ⟨hr, hk, C7_erase_then_find_absent _ hr 1 hk 5 (by decide)⟩

/-- C8: in every state satisfying the invariant (every reachable state does,
`Reachable.inv`), `at k` returns a reference through which the value stored for
`k` is read when `k` is present, and fails with `out_of_range` when `k` is
absent.  `at` reads the state and returns only the reference: it writes no
member of the map, so it never inserts. -/
theorem C8_at_value_or_out_of_range (s : Map K V) (hinv : s.Inv) (k : K) (fuel : Nat)
    (hf : s.num_nodes < fuel) :
    (∀ v, s.HasPair k v →
      ∃ a, s.at (KeyOps.std K) fuel k = .ok (.value a) ∧ s.cell a = some (k, v) ∧
        s.read (.value a) = .ok v) ∧
    (¬ s.Has k → s.at (KeyOps.std K) fuel k = .error .outOfRange) := by
  obtain ⟨t, ht, _⟩ := hinv
  constructor
  · intro v hv
    obtain ⟨a, ha, hca⟩ := (hasPair_iff ht k v).1 hv
    exact ⟨a, at_present ht ha hca hf, hca, by simp [Map.read, Map.value, hca]⟩
  · intro hno
    exact at_absent ht (not_has ht hno) hf

/-- C8 at a concrete input: `at 1` and `at 7` on the map holding `(1, 10)`. -/
theorem C8_at_value_or_out_of_range_witness :
    (demo [.insert (1, 10)]).Inv ∧ (demo [.insert (1, 10)]).HasPair 1 10 ∧
    ¬ (demo [.insert (1, 10)]).Has 7 ∧
    (∃ a, (demo [.insert (1, 10)]).at (KeyOps.std Nat) 5 1 = .ok (.value a) ∧
      (demo [.insert (1, 10)]).cell a = some (1, 10) ∧
      (demo [.insert (1, 10)]).read (.value a) = .ok 10) ∧
    (demo [.insert (1, 10)]).at (KeyOps.std Nat) 5 7 = .error .outOfRange := by
  have hinv : (demo [.insert (1, 10)]).Inv := ⟨_, demo1_tree, fun _ => demo1_thread⟩
  have hp : (demo [.insert (1, 10)]).HasPair 1 10 :=
    ⟨_, demo1_tree, 0, by simp [BTree.toList], rfl⟩
  have hno : ¬ (demo [.insert (1, 10)]).Has 7 := by
    intro h
    obtain ⟨a, ha, hk⟩ := (has_iff demo1_tree 7).1 h
    simp only [BTree.toList, List.nil_append, List.mem_singleton] at ha
    subst ha
    have h1 : (demo [.insert (1, 10)]).keyOf 0 = some 1 := rfl
    rw [h1] at hk
    exact absurd hk (by decide)
  exact ⟨hinv, hp, hno,
    (C8_at_value_or_out_of_range _ hinv 1 5 (by decide)).1 10 hp,
    (C8_at_value_or_out_of_range _ hinv 7 5 (by decide)).2 hno⟩

/-- C9 (fails): in every state satisfying the invariant (every reachable state
does, `Reachable.inv`), `m[k]` for an absent key `k` inserts nothing, where the
contract asks for an insertion.  It assigns the default value to the member `mapped`
and returns a reference to that member; nothing else changes, so `size()` is
the same, no entry has key `k`, and `find k` is still the end sentinel. -/
theorem C9_index_on_absent_key_does_not_insert (s : Map K V) (hinv : s.Inv) (k : K)
    (hk : ¬ s.Has k) (dflt : V) (fuel : Nat) (hf : s.num_nodes < fuel) :
    ∃ s' : Map K V, s.index (KeyOps.std K) fuel dflt k = .ok (.mapped, s') ∧
      s' = { s with mapped := dflt } ∧ s'.read .mapped = .ok dflt ∧
      s'.size = s.size ∧ ¬ s'.Has k ∧ s'.find (KeyOps.std K) fuel k = s'.end := by
  obtain ⟨t, ht, _⟩ := hinv
  have habs := not_has ht hk
  have ht' : TreeOK ({ s with mapped := dflt } : Map K V) t :=
    TreeOK.of_shape ht.shape rfl rfl rfl rfl rfl ht.count ht.below
  have habs' : ∀ a ∈ t.toList, ({ s with mapped := dflt } : Map K V).keyOf a ≠ some k := habs
  refine ⟨_, index_absent ht habs hf dflt, rfl, rfl, rfl, ?_, ?_⟩
  · intro h
    obtain ⟨a, ha, hka⟩ := (has_iff ht' k).1 h
    exact habs a ha hka
  · rw [find_absent ht' habs' (show ({ s with mapped := dflt } : Map K V).num_nodes < fuel from hf)]
    rfl

/-- C9 at a concrete input: `m[9]` on the map holding `(1, 10)` leaves the size
at `1` and `find 9` at the end sentinel. -/
theorem C9_index_on_absent_key_does_not_insert_witness :
    (demo [.insert (1, 10)]).Inv ∧ ¬ (demo [.insert (1, 10)]).Has 9 ∧
    (demo [.insert (1, 10)]).size = 1 ∧
    ∃ s' : Map Nat Nat,
      (demo [.insert (1, 10)]).index (KeyOps.std Nat) 5 0 9 = .ok (.mapped, s') ∧
      s'.size = 1 ∧ ¬ s'.Has 9 ∧ s'.find (KeyOps.std Nat) 5 9 = s'.end := by
  have hinv : (demo [.insert (1, 10)]).Inv := ⟨_, demo1_tree, fun _ => demo1_thread⟩
  have hno : ¬ (demo [.insert (1, 10)]).Has 9 := by
    intro h
    obtain ⟨a, ha, hk⟩ := (has_iff demo1_tree 9).1 h
    simp only [BTree.toList, List.nil_append, List.mem_singleton] at ha
    subst ha
    have h1 : (demo [.insert (1, 10)]).keyOf 0 = some 1 := rfl
    rw [h1] at hk
    exact absurd hk (by decide)
  obtain ⟨s', h1, _, _, h4, h5, h6⟩ :=
    C9_index_on_absent_key_does_not_insert _ hinv 9 hno 0 5 (by decide)
  exact ⟨hinv, hno, rfl, s', h1, h4, h5, h6⟩

/-- C10 (fails): after `insert 1`, `insert 2`, `erase 1` the map is well-formed
(one node, key `2`) but its root is red, because `delete_node` does not
recolour; the next `insert 3` hangs a red node under the red root, and the
fix-up loop of `fix_insert` dereferences the grandparent, which is null. -/
theorem C10_insert_after_erase_dereferences_null :
    (∃ s : Map Nat Nat,
      Map.run (KeyOps.std Nat) 20 (Map.ctor none none 0)
        [.insert (1, 0), .insert (2, 0), .erase 1] = .ok s ∧
      s.WF ∧ s.size = 1 ∧ s.root = some 1 ∧ s.cell 1 = some (2, 0) ∧ s.color 1 = red) ∧
    Map.run (KeyOps.std Nat) 20 (Map.ctor none none 0)
      [.insert (1, 0), .insert (2, 0), .erase 1, .insert (3, 0)] = .error .nullDeref := by
  refine ⟨⟨_, rfl, ⟨.node .nil 1 .nil, ?_, ?_⟩, rfl, rfl, rfl, rfl⟩, rfl⟩
  · refine ⟨rfl, ⟨rfl, rfl, rfl, rfl, trivial, trivial⟩, List.pairwise_singleton _ _, rfl, ?_⟩
    intro a ha
    simp only [BTree.toList, List.nil_append, List.mem_singleton] at ha
    subst ha
    exact Nat.lt_of_lt_of_eq (by decide : 1 < 2) rfl
  · exact ⟨rfl, rfl, ⟨rfl, rfl, trivial⟩⟩

end

section

/-!
Model, second part

Iteration in both directions, the comparison operators, `clear`, and the
constructors that fill a map (`src/Map.hpp`, class `Map` and its iterator
classes).
-/

variable {K V : Type}

end

section

variable {K V : Type}

/-! ### Iterators along the thread -/

/-- The copy made by `it++` reads the node that `operator++()` reads next, so
`it++` and `++it` leave the same iterator or fail alike. -/
theorem post_incr_eq (s : Map K V) (it : Iterator K V) : it.post_incr s = it.incr s := by
  obtain ⟨target, val⟩ := it
  cases target with
  | none => simp [Iterator.post_incr, Iterator.copy, Iterator.incr]
  | some a =>
    cases h : s.cell a with
    | none => simp [Iterator.post_incr, Iterator.copy, Iterator.incr, Map.key, Map.node, h]
    | some c =>
      simp [Iterator.post_incr, Iterator.copy, Iterator.incr, Map.key, Map.value, Map.node, h]

theorem incr_at {s : Map K V} {p : Ptr} {x : Nat} {l : List Nat} {it : Iterator K V}
    (hseg : Seg s p (x :: l) none) (hlive : ∀ b ∈ x :: l, (s.cell b).isSome = true)
    (hat : it.At s (x :: l)) : ∃ it', it.incr s = .ok it' ∧ it'.At s l := by
  obtain ⟨target, val⟩ := it
  obtain ⟨h1, h2⟩ := hat
  simp only [List.head?_cons] at h1 h2
  subst h1
  obtain ⟨_, hn, _⟩ := hseg
  simp only [Option.or_none] at hn
  have hx := hlive x (by simp)
  cases l with
  | nil =>
    refine ⟨⟨none, val⟩, ?_, rfl, by simp⟩
    simp only [List.head?_nil] at hn
    simp [Iterator.incr, Map.node, hx, hn]
  | cons b l =>
    simp only [List.head?_cons] at hn
    obtain ⟨kv, hkv⟩ := Option.isSome_iff_exists.1 (hlive b (by simp))
    refine ⟨⟨some b, some kv⟩, ?_, rfl, ?_⟩
    · simp [Iterator.incr, Map.node, Map.key, Map.value, hx, hn, hkv]
    · intro y hy
      simp only [List.head?_cons, Option.some.injEq] at hy
      subst hy
      exact hkv.symm

theorem ctor_at {s : Map K V} {l : List Nat} (hlive : ∀ b ∈ l, (s.cell b).isSome = true) :
    ∃ it, Iterator.ctor s l.head? = .ok it ∧ it.At s l := by
  cases l with
  | nil => exact ⟨⟨none, none⟩, rfl, rfl, by simp⟩
  | cons a l =>
    obtain ⟨kv, hkv⟩ := Option.isSome_iff_exists.1 (hlive a (by simp))
    refine ⟨⟨some a, some kv⟩, ?_, rfl, ?_⟩
    · simp [Iterator.ctor, Map.key, Map.value, hkv]
    · intro y hy
      simp only [List.head?_cons, Option.some.injEq] at hy
      subst hy
      exact hkv.symm

theorem begin_at {s : Map K V} {l : List Nat} (h : ThreadOK s l)
    (hlive : ∀ b ∈ l, (s.cell b).isSome = true) : ∃ it, s.begin = .ok it ∧ it.At s l := by
  have := ctor_at hlive
  rwa [← h.first] at this

theorem deref_at {s : Map K V} {x : Nat} {l : List Nat} {it : Iterator K V} {kv : K × V}
    (hat : it.At s (x :: l)) (hkv : s.cell x = some kv) : it.deref = .ok kv := by
  have := hat.2 x rfl
  simp [Iterator.deref, this, hkv]

/-! ### The comparison loops -/

/-- The loop of `operator==` over two well-threaded node lists, the first at
most as long as the second: it returns, and the result tells whether no
position of the first list holds a value that `!=` finds different from the
value at the same position of the second. -/
theorem eq_loop_spec (vo : ValOps V) {a b : Map K V} :
    ∀ (la lb : List Nat) (pa pb : Ptr) (fuel : Nat) (iter iter2 : Iterator K V),
      Seg a pa la none → Seg b pb lb none →
      (∀ x ∈ la, (a.cell x).isSome = true) → (∀ x ∈ lb, (b.cell x).isSome = true) →
      iter.At a la → iter2.At b lb → la.length ≤ lb.length → la.length < fuel →
      eq_loop vo fuel a b iter iter2 =
        .ok (((a.entries la).zip (b.entries lb)).all fun p => !vo.ne p.1.2 p.2.2) := by
  intro la
  induction la with
  | nil =>
    intro lb pa pb fuel iter iter2 _ _ _ _ hi _ _ hf
    match fuel, hf with
    | n + 1, _ =>
      have : iter.target = none := hi.1
      simp [eq_loop, Map.end, Iterator.ctor, this, Map.entries]
  | cons x la ih =>
    intro lb pa pb fuel iter iter2 hsa hsb hla hlb hi hi2 hlen hf
    match lb, hsb, hlb, hi2, hlen with
    | y :: lb, hsb, hlb, hi2, hlen =>
      match fuel, hf with
      | n + 1, hf =>
        obtain ⟨kx, hkx⟩ := Option.isSome_iff_exists.1 (hla x (by simp))
        obtain ⟨ky, hky⟩ := Option.isSome_iff_exists.1 (hlb y (by simp))
        have ht : iter.target = some x := hi.1
        obtain ⟨i1, e1, a1⟩ := incr_at hsa hla hi
        obtain ⟨i2, e2, a2⟩ := incr_at hsb hlb hi2
        have hrec := ih lb (some x) (some y) n i1 i2 hsa.2.2 hsb.2.2
          (fun z hz => hla z (by simp [hz])) (fun z hz => hlb z (by simp [hz])) a1 a2
          (by simpa using hlen) (by simpa using hf)
        rw [entries_cons hkx, entries_cons hky]
        simp only [eq_loop, Map.end, Iterator.ctor, pure_eq_ok, ok_bind, ht, deref_at hi hkx,
          deref_at hi2 hky, post_incr_eq, e1, e2, hrec, List.zip_cons_cons, List.all_cons]
        cases vo.ne kx.2 ky.2 <;> simp

/-- The loop of the first and third branch of `operator<` over two
well-threaded node lists, the first at most as long as the second, where the
value returned after the loop tells whether the first is shorter: it returns
the lexicographic less-than of the value sequences. -/
theorem lt_loop_spec (vo : ValOps V) {a b : Map K V} (after : Bool) :
    ∀ (la lb : List Nat) (pa pb : Ptr) (fuel : Nat) (iter iter2 : Iterator K V),
      Seg a pa la none → Seg b pb lb none →
      (∀ x ∈ la, (a.cell x).isSome = true) → (∀ x ∈ lb, (b.cell x).isSome = true) →
      iter.At a la → iter2.At b lb → la.length ≤ lb.length →
      (after = true ↔ la.length < lb.length) → la.length < fuel →
      lt_loop vo after fuel a b iter iter2 =
        .ok (lexLt vo.lt ((a.entries la).map Prod.snd) ((b.entries lb).map Prod.snd)) := by
  intro la
  induction la with
  | nil =>
    intro lb pa pb fuel iter iter2 _ _ _ hlb hi _ _ haft hf
    match fuel, hf with
    | n + 1, _ =>
      have : iter.target = none := hi.1
      cases lb with
      | nil =>
        have : after = false := by
          cases after
          · rfl
          · simp at haft
        simp [lt_loop, Map.end, Iterator.ctor, hi.1, Map.entries, lexLt, this]
      | cons y lb =>
        obtain ⟨ky, hky⟩ := Option.isSome_iff_exists.1 (hlb y (by simp))
        have : after = true := haft.2 (by simp)
        rw [entries_cons hky]
        simp [lt_loop, Map.end, Iterator.ctor, hi.1, Map.entries, lexLt, this]
  | cons x la ih =>
    intro lb pa pb fuel iter iter2 hsa hsb hla hlb hi hi2 hlen haft hf
    match lb, hsb, hlb, hi2, hlen, haft with
    | y :: lb, hsb, hlb, hi2, hlen, haft =>
      match fuel, hf with
      | n + 1, hf =>
        obtain ⟨kx, hkx⟩ := Option.isSome_iff_exists.1 (hla x (by simp))
        obtain ⟨ky, hky⟩ := Option.isSome_iff_exists.1 (hlb y (by simp))
        have ht : iter.target = some x := hi.1
        obtain ⟨i1, e1, a1⟩ := incr_at hsa hla hi
        obtain ⟨i2, e2, a2⟩ := incr_at hsb hlb hi2
        have hrec := ih lb (some x) (some y) n i1 i2 hsa.2.2 hsb.2.2
          (fun z hz => hla z (by simp [hz])) (fun z hz => hlb z (by simp [hz])) a1 a2
          (by simpa using hlen) (by simpa using haft) (by simpa using hf)
        rw [entries_cons hkx, entries_cons hky]
        simp only [lt_loop, Map.end, Iterator.ctor, pure_eq_ok, ok_bind, ht, deref_at hi hkx,
          deref_at hi2 hky, post_incr_eq, e1, e2, hrec, List.map_cons, lexLt]
        cases vo.lt kx.2 ky.2 <;> cases vo.lt ky.2 kx.2 <;> simp

/-- The loop of the second branch of `operator<` over two well-threaded node
lists, the second shorter than the first: it returns the lexicographic
less-than of the value sequences. -/
theorem lt_loop2_spec (vo : ValOps V) {a b : Map K V} :
    ∀ (lb la : List Nat) (pa pb : Ptr) (fuel : Nat) (iter iter2 : Iterator K V),
      Seg a pa la none → Seg b pb lb none →
      (∀ x ∈ la, (a.cell x).isSome = true) → (∀ x ∈ lb, (b.cell x).isSome = true) →
      iter.At a la → iter2.At b lb → lb.length < la.length → lb.length < fuel →
      lt_loop2 vo fuel a b iter iter2 =
        .ok (lexLt vo.lt ((a.entries la).map Prod.snd) ((b.entries lb).map Prod.snd)) := by
  intro lb
  induction lb with
  | nil =>
    intro la pa pb fuel iter iter2 _ _ hla _ _ hi2 hlen hf
    match fuel, hf with
    | n + 1, _ =>
      match la, hla, hlen with
      | x :: la, hla, _ =>
        obtain ⟨kx, hkx⟩ := Option.isSome_iff_exists.1 (hla x (by simp))
        rw [entries_cons hkx]
        simp [lt_loop2, Map.end, Iterator.ctor, hi2.1, Map.entries, lexLt]
  | cons y lb ih =>
    intro la pa pb fuel iter iter2 hsa hsb hla hlb hi hi2 hlen hf
    match la, hsa, hla, hi, hlen with
    | x :: la, hsa, hla, hi, hlen =>
      match fuel, hf with
      | n + 1, hf =>
        obtain ⟨kx, hkx⟩ := Option.isSome_iff_exists.1 (hla x (by simp))
        obtain ⟨ky, hky⟩ := Option.isSome_iff_exists.1 (hlb y (by simp))
        have ht : iter2.target = some y := hi2.1
        obtain ⟨i1, e1, a1⟩ := incr_at hsa hla hi
        obtain ⟨i2, e2, a2⟩ := incr_at hsb hlb hi2
        have hrec := ih la (some x) (some y) n i1 i2 hsa.2.2 hsb.2.2
          (fun z hz => hla z (by simp [hz])) (fun z hz => hlb z (by simp [hz])) a1 a2
          (by simpa using hlen) (by simpa using hf)
        rw [entries_cons hkx, entries_cons hky]
        simp only [lt_loop2, Map.end, Iterator.ctor, pure_eq_ok, ok_bind, ht, deref_at hi hkx,
          deref_at hi2 hky, post_incr_eq, e1, e2, hrec, List.map_cons, lexLt]
        cases vo.lt kx.2 ky.2 <;> cases vo.lt ky.2 kx.2 <;> simp

theorem entries_length {s : Map K V} {l : List Nat}
    (hlive : ∀ x ∈ l, (s.cell x).isSome = true) : (s.entries l).length = l.length := by
  induction l with
  | nil => rfl
  | cons x l ih =>
    obtain ⟨kx, hkx⟩ := Option.isSome_iff_exists.1 (hlive x (by simp))
    rw [entries_cons hkx]
    simp [ih fun z hz => hlive z (by simp [hz])]

/-- Model of `operator==` on two well-threaded maps returns; the result tells whether
the sizes agree and no position holds values that `!=` finds different. -/
theorem eq_spec (vo : ValOps V) {a b : Map K V} {la lb : List Nat} (ha : ThreadOK a la)
    (hb : ThreadOK b lb) (hla : ∀ x ∈ la, (a.cell x).isSome = true)
    (hlb : ∀ x ∈ lb, (b.cell x).isSome = true) (hca : a.num_nodes = la.length)
    (hcb : b.num_nodes = lb.length) {fuel : Nat} (hf : a.num_nodes < fuel) :
    Map.eq vo fuel a b = .ok (decide (a.size = b.size) &&
      ((a.entries la).zip (b.entries lb)).all fun p => !vo.ne p.1.2 p.2.2) := by
  obtain ⟨i1, e1, a1⟩ := begin_at ha hla
  obtain ⟨i2, e2, a2⟩ := begin_at hb hlb
  simp only [Map.eq, e1, e2, ok_bind, Map.size]
  by_cases hsz : a.num_nodes = b.num_nodes
  · rw [if_pos hsz, eq_loop_spec vo la lb none none fuel i1 i2 ha.seg hb.seg hla hlb a1 a2
      (by omega) (by omega)]
    simp [hsz]
  · rw [if_neg hsz]
    simp [hsz]

/-- Model of `operator<` on two well-threaded maps returns the lexicographic less-than
of the two value sequences under the `<` of the value type. -/
theorem lt_spec (vo : ValOps V) {a b : Map K V} {la lb : List Nat} (ha : ThreadOK a la)
    (hb : ThreadOK b lb) (hla : ∀ x ∈ la, (a.cell x).isSome = true)
    (hlb : ∀ x ∈ lb, (b.cell x).isSome = true) (hca : a.num_nodes = la.length)
    (hcb : b.num_nodes = lb.length) {fuel : Nat} (hfa : a.num_nodes < fuel)
    (hfb : b.num_nodes < fuel) :
    Map.lt vo fuel a b =
      .ok (lexLt vo.lt ((a.entries la).map Prod.snd) ((b.entries lb).map Prod.snd)) := by
  obtain ⟨i1, e1, a1⟩ := begin_at ha hla
  obtain ⟨i2, e2, a2⟩ := begin_at hb hlb
  simp only [Map.lt, e1, e2, ok_bind, Map.size]
  by_cases h1 : a.num_nodes < b.num_nodes
  · rw [if_pos h1]
    exact lt_loop_spec vo true la lb none none fuel i1 i2 ha.seg hb.seg hla hlb a1 a2
      (by omega) (by simp; omega) (by omega)
  · rw [if_neg h1]
    by_cases h2 : b.num_nodes < a.num_nodes
    · rw [if_pos h2]
      exact lt_loop2_spec vo lb la none none fuel i1 i2 ha.seg hb.seg hla hlb a1 a2
        (by omega) (by omega)
    · rw [if_neg h2]
      exact lt_loop_spec vo false la lb none none fuel i1 i2 ha.seg hb.seg hla hlb a1 a2
        (by omega) (by simp; omega) (by omega)

/-- Over a linearly ordered element type `lexLt` is the lexicographic order of
lists. -/
theorem lexLt_iff {α : Type} [LinearOrder α] (xs ys : List α) :
    lexLt (fun a b => decide (a < b)) xs ys = true ↔ List.Lex (fun a b => a < b) xs ys := by
  induction xs generalizing ys with
  | nil =>
    cases ys with
    | nil => simp [lexLt]
    | cons y ys => simp [lexLt, List.Lex.nil]
  | cons x xs ih =>
    cases ys with
    | nil => simp [lexLt]
    | cons y ys =>
      simp only [lexLt]
      by_cases h1 : x < y
      · simp [h1, List.Lex.rel h1]
      · by_cases h2 : y < x
        · simp only [h1, h2, decide_False, decide_True, Bool.false_eq_true, if_false, if_true,
            false_iff]
          intro h
          cases h with
          | cons h => exact lt_irrefl _ h2
          | rel h => exact h1 h
        · have hxy : x = y := le_antisymm (not_lt.1 h2) (not_lt.1 h1)
          subst hxy
          simp only [h1, decide_False, Bool.false_eq_true, if_false, ih]
          constructor
          · intro h
            exact List.Lex.cons h
          · intro h
            cases h with
            | cons h => exact h
            | rel h => exact absurd h h1

end

section

variable {K V : Type}

/-! ### Reverse iteration -/

theorem rincr_at {s : Map K V} {q : Ptr} {z : Nat} {l : List Nat} {it : ReverseIterator K V}
    (hseg : Seg s none (l ++ [z]) q) (hlive : ∀ b ∈ l ++ [z], (s.cell b).isSome = true)
    (hat : it.At s (l ++ [z])) : ∃ it', it.incr s = .ok it' ∧ it'.At s l := by
  obtain ⟨target, val⟩ := it
  obtain ⟨h1, h2⟩ := hat
  simp only [List.getLast?_append, List.getLast?_singleton, Option.or_some] at h1 h2
  subst h1
  have hp : s.prev z = l.getLast? := by
    have := hseg.mid_prev
    simpa using this
  have hz := hlive z (by simp)
  cases hl : l.getLast? with
  | none =>
    refine ⟨⟨none, val⟩, ?_, hl.symm, by simp [hl]⟩
    simp [ReverseIterator.incr, Map.node, hz, hp, hl]
  | some b =>
    have hb : b ∈ l := List.mem_of_getLast?_eq_some hl
    obtain ⟨kv, hkv⟩ := Option.isSome_iff_exists.1 (hlive b (by simp [hb]))
    refine ⟨⟨some b, some kv⟩, ?_, hl.symm, ?_⟩
    · simp [ReverseIterator.incr, Map.node, Map.key, Map.value, hz, hp, hl, hkv]
    · intro y hy
      rw [hl] at hy
      simp only [Option.some.injEq] at hy
      subst hy
      exact hkv.symm

theorem backward_seg {s : Map K V} (l : List Nat) :
    ∀ (q : Ptr) (fuel : Nat) (it : ReverseIterator K V), Seg s none l q →
      (∀ b ∈ l, (s.cell b).isSome = true) → it.At s l → l.length < fuel →
      Map.backward fuel s it = .ok (s.entries l).reverse := by
  induction l using List.reverseRecOn with
  | nil =>
    intro q fuel it _ _ hat hf
    match fuel, hf with
    | n + 1, _ =>
      have : it.target = none := hat.1
      simp [Map.backward, this, Map.entries]
  | append_singleton l z ih =>
    intro q fuel it hseg hlive hat hf
    match fuel, hf with
    | n + 1, hf =>
      obtain ⟨kz, hkz⟩ := Option.isSome_iff_exists.1 (hlive z (by simp))
      obtain ⟨it', e1, a1⟩ := rincr_at hseg hlive hat
      have ht : it.target = some z := by
        have := hat.1
        simpa using this
      have hv : it.val = some kz := by
        have := hat.2 z (by simp)
        rw [this, hkz]
      have hseg' : Seg s none l (some z) := by
        have := (Seg_append s none q l [z]).1 hseg
        simpa using this.1
      have hrec := ih (some z) n it' hseg' (fun b hb => hlive b (by simp [hb])) a1 (by
        simp only [List.length_append, List.length_singleton] at hf
        omega)
      rw [entries_append, entries_cons hkz]
      simp [Map.backward, ht, ReverseIterator.deref, hv, e1, hrec, Map.entries]

/-- Reverse iteration over a well-threaded map yields the pairs in reverse
thread order. -/
theorem to_list_rev_spec {s : Map K V} {l : List Nat} (h : ThreadOK s l)
    (hlive : ∀ b ∈ l, (s.cell b).isSome = true) {fuel : Nat} (hf : l.length < fuel) :
    s.to_list_rev fuel = .ok (s.entries l).reverse := by
  have hat : ∃ it, s.rbegin = .ok it ∧ it.At s l := by
    cases hl : l.getLast? with
    | none =>
      refine ⟨⟨none, none⟩, ?_, hl.symm, by simp [hl]⟩
      simp [Map.rbegin, h.last, hl, ReverseIterator.ctor]
    | some b =>
      obtain ⟨kv, hkv⟩ := Option.isSome_iff_exists.1 (hlive b (List.mem_of_getLast?_eq_some hl))
      refine ⟨⟨some b, some kv⟩, ?_, hl.symm, ?_⟩
      · simp [Map.rbegin, h.last, hl, ReverseIterator.ctor, Map.key, Map.value, hkv]
      · intro y hy
        rw [hl] at hy
        simp only [Option.some.injEq] at hy
        subst hy
        exact hkv.symm
  obtain ⟨it, e1, a1⟩ := hat
  simp only [Map.to_list_rev, e1, ok_bind]
  exact backward_seg l none fuel it h.seg hlive a1 hf

/-- Along a chain, `next` and `prev` are inverse to each other. -/
theorem next_iff_prev {s : Map K V} {l : List Nat} (h : Seg s none l none) {x y : Nat}
    (hx : x ∈ l) (hy : y ∈ l) : s.next x = some y ↔ s.prev y = some x := by
  constructor
  · intro hn
    obtain ⟨A, B, rfl⟩ := List.append_of_mem hx
    have h1 := h.mid_next
    rw [hn] at h1
    cases B with
    | nil => simp at h1
    | cons b B =>
      simp only [List.head?_cons, Option.or_some, Option.some.injEq] at h1
      subst h1
      have h2 : Seg s none ((A ++ [x]) ++ y :: B) none := by simpa using h
      have := h2.mid_prev
      simpa using this
  · intro hp
    obtain ⟨A, B, rfl⟩ := List.append_of_mem hy
    have h1 := h.mid_prev
    rw [hp] at h1
    cases hA : A.getLast? with
    | none => rw [hA] at h1; simp at h1
    | some a =>
      rw [hA] at h1
      simp only [Option.or_some, Option.some.injEq] at h1
      subst h1
      obtain ⟨A', rfl⟩ : ∃ A', A = A' ++ [x] := by
        have hne : A ≠ [] := by rintro rfl; simp at hA
        refine ⟨A.dropLast, ?_⟩
        have := List.dropLast_append_getLast? x (by simpa using hA)
        exact this.symm
      have h2 : Seg s none (A' ++ x :: y :: B) none := by simpa using h
      have := h2.mid_next
      simpa using this

section

variable [LinearOrder K]

/-! ### States with at least one insert -/

theorem wf_delete_node {s s' : Map K V} (h : s.WF) {fuel : Nat} {k : K} {b : Bool}
    (hrun : delete_node (KeyOps.std K) fuel s k = .ok (b, s')) : s'.WF := by
  obtain ⟨t, ht, hth⟩ := h
  have hbig := delete_node_mono (KeyOps.std K) (s.num_nodes + 1) hrun
  rcases classical_key s t k with ⟨x, v, hx, hcx⟩ | habs
  · obtain ⟨s2, t', A, B, e1, e2, e3, _⟩ :=
      delete_node_spec ht hth hx hcx (show s.num_nodes < fuel + (s.num_nodes + 1) by omega)
    rw [e1] at hbig
    cases hbig
    exact ⟨t', e2, e3⟩
  · have := delete_node_absent ht habs (show s.num_nodes < fuel + (s.num_nodes + 1) by omega)
    rw [this] at hbig
    cases hbig
    exact ⟨t, ht, hth⟩

/-- After at least one insert the state is well-formed, thread included. -/
theorem inserted_wf {s : Map K V} (h : Inserted s) : s.WF := by
  induction h with
  | first hr hrun =>
    obtain ⟨p, hn, _⟩ := insert_inv hrun
    exact hr.inv.insert_node hn
  | insert _ hrun ih =>
    obtain ⟨p, hn, _⟩ := insert_inv hrun
    exact ih.to_inv.insert_node hn
  | erase _ hrun ih =>
    obtain ⟨b, hn⟩ := erase_inv hrun
    exact wf_delete_node ih hn

theorem inserted_reachable {s : Map K V} (h : Inserted s) : Reachable s := by
  induction h with
  | first hr hrun => exact .insert hr hrun
  | insert _ hrun ih => exact .insert ih hrun
  | erase _ hrun ih => exact .erase ih hrun

/-- A non-empty reachable state is well-formed, thread included. -/
theorem reachable_wf {s : Map K V} (h : Reachable s) (hne : s.num_nodes ≠ 0) : s.WF := by
  obtain ⟨t, ht, hth⟩ := h.inv
  refine ⟨t, ht, hth ?_⟩
  intro h0
  rw [ht.count, h0] at hne
  exact hne rfl

/-! ### `clear` -/

theorem root_ptr_mem {t : BTree} {r : Nat} (h : t.ptr = some r) : r ∈ t.toList := by
  cases t with
  | nil => simp at h
  | node l a rr =>
    simp only [BTree.ptr_node, Option.some.injEq] at h
    subst h
    simp

/-- One pass of the loop of `delete_map` on a non-empty well-formed state: the
`delete_node` call removes the root node and the count drops by one. -/
theorem delete_map_pass {s : Map K V} (h : s.WF) {r : Nat} (hr : s.root = some r)
    {fuel : Nat} (hf : s.num_nodes < fuel) (n : Nat) :
    ∃ (k : K) (v : V) (s1 : Map K V), s.cell r = some (k, v) ∧
      delete_node (KeyOps.std K) fuel s k = .ok (true, s1) ∧
      s1.num_nodes + 1 = s.num_nodes ∧ s1.cell r = none ∧ s1.WF ∧ s1.brk = s.brk ∧
      s1.mapped = s.mapped ∧
      delete_map (KeyOps.std K) fuel (n + 1) s = delete_map (KeyOps.std K) fuel n s1 := by
  obtain ⟨t, ht, hth⟩ := h
  have hmem : r ∈ t.toList := root_ptr_mem (ht.root ▸ hr)
  obtain ⟨c, hc⟩ := Option.isSome_iff_exists.1 (ht.rep.live r hmem)
  have hc' : s.cell r = some (c.1, c.2) := hc
  obtain ⟨s1, t', A, B, e1, e2, e3, e4, e5, e6, e7, e8, e9, _⟩ :=
    delete_node_spec ht hth hmem hc' hf
  refine ⟨c.1, c.2, s1, hc', e1, e7, by rw [e6]; simp [upd], ⟨t', e2, e3⟩, e8, e9, ?_⟩
  simp [delete_map, hr, Map.key, hc, e1]

/-- Model of `delete_map` on a well-formed state returns an empty state: no root, no
`first`, no `last`, count zero. -/
theorem delete_map_spec {fuel : Nat} :
    ∀ (n : Nat) (s : Map K V), s.WF → s.num_nodes < fuel → s.num_nodes < n →
      ∃ s' : Map K V, delete_map (KeyOps.std K) fuel n s = .ok s' ∧ s'.root = none ∧
        s'.first = none ∧ s'.last = none ∧ s'.num_nodes = 0 ∧ s'.WF ∧ s'.brk = s.brk ∧
        s'.mapped = s.mapped := by
  intro n
  induction n with
  | zero => intro s _ _ h; omega
  | succ n ih =>
    intro s hwf hf hn
    cases hr : s.root with
    | none =>
      obtain ⟨t, ht, hth⟩ := hwf
      have ht0 : t = .nil := by
        cases t with
        | nil => rfl
        | node l a r =>
          have := ht.root
          rw [hr] at this
          simp at this
      subst ht0
      refine ⟨s, by simp [delete_map, hr], hr, hth.first, hth.last, ?_, ⟨.nil, ht, hth⟩, rfl,
        rfl⟩
      rw [ht.count]
      rfl
    | some r =>
      obtain ⟨k, v, s1, _, _, e3, _, e5, e6, e7, e8⟩ := delete_map_pass hwf hr hf n
      obtain ⟨s', f1, f2, f3, f4, f5, f6, f7, f8⟩ := ih s1 e5 (by omega) (by omega)
      exact ⟨s', by rw [e8]; exact f1, f2, f3, f4, f5, f6, f7.trans e6, f8.trans e7⟩

/-! ### The pairs held after a run of inserts -/

theorem entries_sorted {s : Map K V} {l : List Nat} (h : l.Pairwise s.klt) :
    (s.entries l).Pairwise (fun p q => p.1 < q.1) := by
  induction l with
  | nil => exact List.Pairwise.nil
  | cons a l ih =>
    obtain ⟨h1, h2⟩ := List.pairwise_cons.1 h
    cases hc : s.cell a with
    | none =>
      have : s.entries (a :: l) = s.entries l := by simp [Map.entries, hc]
      rw [this]
      exact ih h2
    | some c =>
      rw [entries_cons hc]
      refine List.pairwise_cons.2 ⟨?_, ih h2⟩
      intro q hq
      obtain ⟨b, hb, hcb⟩ := mem_entries.1 hq
      obtain ⟨ca, cb, ha', hb', hlt⟩ := h1 b hb
      rw [hc] at ha'
      rw [hcb] at hb'
      cases ha'
      cases hb'
      exact hlt

/-- Two lists of pairs in strictly ascending key order with the same members
are equal. -/
theorem sorted_ext {ps qs : List (K × V)} (hp : ps.Pairwise (fun p q => p.1 < q.1))
    (hq : qs.Pairwise (fun p q => p.1 < q.1)) (h : ∀ p, p ∈ ps ↔ p ∈ qs) : ps = qs := by
  have hnp : ps.Nodup := hp.imp (fun {a b} hab heq => by rw [heq] at hab; exact lt_irrefl _ hab)
  have hnq : qs.Nodup := hq.imp (fun {a b} hab heq => by rw [heq] at hab; exact lt_irrefl _ hab)
  have hperm : ps.Perm qs := (List.perm_ext_iff_of_nodup hnp hnq).2 h
  haveI : IsAntisymm (K × V) (fun p q => p.1 < q.1) :=
    ⟨fun a b h1 h2 => absurd h2 (not_lt.2 (le_of_lt h1))⟩
  exact List.eq_of_perm_of_sorted hperm hp hq

/-- One `insert` from a well-formed state with a black root, in terms of the
pairs held: the pair is added iff no pair with its key is held. -/
theorem insert_step_entries {s : Map K V} {t : BTree} (ht : TreeOK s t)
    (hth : t.toList ≠ [] → ThreadOK s t.toList) (hb : s.rootBlack) (kv : K × V) {fuel : Nat}
    (hf : s.num_nodes < fuel) :
    ∃ (it : Iterator K V) (b : Bool) (s1 : Map K V) (t1 : BTree),
      s.insert (KeyOps.std K) fuel kv = .ok ((it, b), s1) ∧ TreeOK s1 t1 ∧
      ThreadOK s1 t1.toList ∧ s1.rootBlack ∧ s1.num_nodes ≤ s.num_nodes + 1 ∧
      t1.toList ≠ [] ∧
      (∀ p, p ∈ s1.entries t1.toList ↔
        (p ∈ s.entries t.toList ∨ (p = kv ∧ ∀ q ∈ s.entries t.toList, q.1 ≠ kv.1))) := by
  obtain ⟨r, s1, hrun, hb1⟩ := insert_node_ok ht hth hb kv.1 kv.2 hf
  rcases insert_node_spec ht hth hrun with
    ⟨x, v0, hx, hcx, rfl, rfl⟩ | ⟨habs, rfl, t', A, B, h1, h2, h3, h4, h5, h6, h7⟩
  · have hne : x ≠ s.brk := by rintro rfl; exact Nat.lt_irrefl _ (ht.below _ hx)
    have hc1 : (s.new_node kv.1 kv.2).cell x = some (kv.1, v0) := by
      simp [Map.new_node, upd, hne, hcx]
    have hcell : ∀ a ∈ t.toList, (s.new_node kv.1 kv.2).cell a = s.cell a := by
      intro a ha
      have : a ≠ s.brk := by rintro rfl; exact Nat.lt_irrefl _ (ht.below _ ha)
      simp [Map.new_node, upd, this]
    refine ⟨_, _, _, t, insert_of_node hrun hc1, ht.new_node_tree _ _,
      (hth (List.ne_nil_of_mem hx)).new_node_thread ht _ _, hb1, ?_, List.ne_nil_of_mem hx, ?_⟩
    · show s.num_nodes ≤ s.num_nodes + 1
      omega
    · intro p
      rw [entries_congr hcell]
      constructor
      · intro h
        exact Or.inl h
      · rintro (h | ⟨_, h⟩)
        · exact h
        · exact absurd rfl (h (kv.1, v0) (mem_entries.2 ⟨x, hx, hcx⟩))
  · have hc1 : s1.cell s.brk = some kv := by
      rw [h5]; simp [upd]
    have hmem : s.brk ∈ t'.toList := by rw [h4]; simp
    have hcell : ∀ a ∈ t.toList, s1.cell a = s.cell a := by
      intro a ha
      have : a ≠ s.brk := by rintro rfl; exact Nat.lt_irrefl _ (ht.below _ ha)
      simp [h5, upd, this]
    have hcnt : s1.num_nodes = s.num_nodes + 1 := by
      rw [h1.count, ht.count, h4, h3]
      simp only [List.length_append, List.length_cons]
      omega
    have hno : ∀ q ∈ s.entries t.toList, q.1 ≠ kv.1 := by
      intro q hq hk
      obtain ⟨a, ha, hca⟩ := mem_entries.1 hq
      exact habs a ha (by simp [Map.keyOf, hca, hk])
    refine ⟨_, _, _, t', insert_of_node hrun hc1, h1, h2, hb1, by omega,
      List.ne_nil_of_mem hmem, ?_⟩
    intro p
    have hA : ∀ a ∈ A, s1.cell a = s.cell a := fun a ha => hcell a (by rw [h3]; simp [ha])
    have hB : ∀ a ∈ B, s1.cell a = s.cell a := fun a ha => hcell a (by rw [h3]; simp [ha])
    rw [h4, h3, entries_append, entries_cons hc1, entries_append, entries_congr hA,
      entries_congr hB]
    simp only [List.mem_append, List.mem_cons]
    constructor
    · rintro (h | rfl | h)
      · exact Or.inl (Or.inl h)
      · refine Or.inr ⟨rfl, ?_⟩
        intro q hq
        exact hno q (by rw [h3, entries_append]; simpa using hq)
      · exact Or.inl (Or.inr h)
    · rintro ((h | h) | ⟨rfl, _⟩)
      · exact Or.inl h
      · exact Or.inr (Or.inr h)
      · exact Or.inr (Or.inl rfl)

/-- A run of inserts from a well-formed state with a black root returns; the
pairs held afterwards are the old ones and, for each key not held before, the
first pair of the run with that key. -/
theorem run_inserts_entries (kvs : List (K × V)) :
    ∀ (s : Map K V) (t : BTree), TreeOK s t → (t.toList ≠ [] → ThreadOK s t.toList) →
      s.rootBlack → ∀ (fuel : Nat), s.num_nodes + kvs.length < fuel →
      ∃ (s' : Map K V) (t' : BTree),
        Map.run (KeyOps.std K) fuel s (kvs.map Op.insert) = .ok s' ∧ TreeOK s' t' ∧
        (t'.toList ≠ [] → ThreadOK s' t'.toList) ∧ s'.rootBlack ∧
        s'.num_nodes ≤ s.num_nodes + kvs.length ∧ (kvs ≠ [] → t'.toList ≠ []) ∧
        (∀ p, p ∈ s'.entries t'.toList ↔
          (p ∈ s.entries t.toList ∨ ((∀ q ∈ s.entries t.toList, q.1 ≠ p.1) ∧
            kvs.find? (fun q => decide (q.1 = p.1)) = some p))) := by
  induction kvs with
  | nil =>
    intro s t ht hth hb fuel _
    exact ⟨s, t, rfl, ht, hth, hb, by simp, fun h => absurd rfl h, by simp⟩
  | cons kv kvs ih =>
    intro s t ht hth hb fuel hf
    simp only [List.length_cons] at hf
    obtain ⟨it, b, s1, t1, e1, e2, e3, e4, e5, e6, e7⟩ :=
      insert_step_entries ht hth hb kv (show s.num_nodes < fuel by omega)
    obtain ⟨s', t', f1, f2, f3, f4, f5, _, f7⟩ :=
      ih s1 t1 e2 (fun _ => e3) e4 fuel (by omega)
    have hkey : ∃ q ∈ s1.entries t1.toList, q.1 = kv.1 := by
      by_cases h : ∃ q ∈ s.entries t.toList, q.1 = kv.1
      · obtain ⟨q, hq, hk⟩ := h
        exact ⟨q, (e7 q).2 (Or.inl hq), hk⟩
      · refine ⟨kv, (e7 kv).2 (Or.inr ⟨rfl, ?_⟩), rfl⟩
        intro q hq hk
        exact h ⟨q, hq, hk⟩
    refine ⟨s', t', ?_, f2, f3, f4, ?_, ?_, ?_⟩
    · simp only [List.map_cons, Map.run, Map.step, e1, ok_bind, pure_eq_ok]
      exact f1
    · simp only [List.length_cons]
      omega
    · intro _ h0
      obtain ⟨q, hq, _⟩ := hkey
      have : q ∈ s'.entries t'.toList := (f7 q).2 (Or.inl hq)
      rw [h0] at this
      simp [Map.entries] at this
    · intro p
      rw [f7 p, e7 p]
      simp only [List.find?_cons]
      constructor
      · rintro ((h | ⟨rfl, h⟩) | ⟨h1, h2⟩)
        · exact Or.inl h
        · right
          refine ⟨h, ?_⟩
          simp
        · right
          have hne : kv.1 ≠ p.1 := by
            intro hk
            obtain ⟨q, hq, hqk⟩ := hkey
            exact h1 q hq (hqk.trans hk)
          refine ⟨fun q hq => h1 q ((e7 q).2 (Or.inl hq)), ?_⟩
          simp [hne, h2]
      · rintro (h | ⟨h1, h2⟩)
        · exact Or.inl (Or.inl h)
        · by_cases hk : kv.1 = p.1
          · simp only [hk, decide_True] at h2
            cases h2
            exact Or.inl (Or.inr ⟨rfl, fun q hq => h1 q hq⟩)
          · simp only [hk, decide_False] at h2
            right
            refine ⟨?_, h2⟩
            intro q hq
            rcases (e7 q).1 hq with h | ⟨rfl, _⟩
            · exact h1 q h
            · exact hk

theorem init_list_loop_eq (o : KeyOps K) (fuel : Nat) (values : List (K × V)) :
    ∀ s : Map K V, init_list_loop o fuel s values = Map.run o fuel s (values.map Op.insert) := by
  induction values with
  | nil => intro s; rfl
  | cons kv values ih =>
    intro s
    simp only [init_list_loop, List.map_cons, Map.run, Map.step]
    cases h : s.insert o fuel kv with
    | error e => simp
    | ok r =>
      obtain ⟨r1, s1⟩ := r
      simp [ih s1]

end

end

section

variable {K V : Type}

/-! ### Helper lemmas for the comparison operators -/

theorem zip_all_iff [DecidableEq V] (xs : List (K × V)) :
    ∀ ys : List (K × V), xs.length = ys.length →
      (((xs.zip ys).all fun p => !decide (p.1.2 ≠ p.2.2)) = true ↔
        xs.map Prod.snd = ys.map Prod.snd) := by
  induction xs with
  | nil =>
    intro ys h
    cases ys with
    | nil => simp
    | cons y ys => simp at h
  | cons x xs ih =>
    intro ys h
    cases ys with
    | nil => simp at h
    | cons y ys =>
      simp only [List.length_cons, Nat.add_right_cancel_iff] at h
      simp only [List.zip_cons_cons, List.all_cons, Bool.and_eq_true, ih ys h, List.map_cons,
        List.cons.injEq]
      simp

theorem map_snd_ext (xs ys : List (K × V)) (n : Nat) (hx : xs.length = n) (hy : ys.length = n) :
    xs.map Prod.snd = ys.map Prod.snd ↔
      ∀ i, i < n → (xs[i]?).map Prod.snd = (ys[i]?).map Prod.snd := by
  constructor
  · intro h i _
    rw [← List.getElem?_map, ← List.getElem?_map, h]
  · intro h
    apply List.ext_getElem?
    intro i
    rw [List.getElem?_map, List.getElem?_map]
    by_cases hi : i < n
    · exact h i hi
    · rw [List.getElem?_eq_none (by omega), List.getElem?_eq_none (by omega)]

section

variable [LinearOrder K]

theorem inserted_run {fuel : Nat} (ops : List (Op K V)) :
    ∀ {s s' : Map K V}, Inserted s → Map.run (KeyOps.std K) fuel s ops = .ok s' →
      Inserted s' := by
  induction ops with
  | nil =>
    intro s s' hr h
    simp only [Map.run, pure_eq_ok, Except.ok.injEq] at h
    subst h
    exact hr
  | cons op ops ih =>
    intro s s' hr h
    simp only [Map.run] at h
    cases hs : s.step (KeyOps.std K) fuel op with
    | error e => rw [hs] at h; simp at h
    | ok s1 =>
      rw [hs] at h
      simp only [ok_bind] at h
      refine ih ?_ h
      cases op with
      | insert kv =>
        obtain ⟨r, hr1⟩ := step_insert_inv hs
        exact Inserted.insert hr hr1
      | erase k => exact Inserted.erase hr hs

/-- A completed run that starts with an insert ends in a state with at least
one insert. -/
theorem inserted_of_run {fuel : Nat} {s s' : Map K V} (hr : Reachable s) (kv : K × V)
    (ops : List (Op K V))
    (h : Map.run (KeyOps.std K) fuel s (.insert kv :: ops) = .ok s') : Inserted s' := by
  simp only [Map.run] at h
  cases hs : s.step (KeyOps.std K) fuel (.insert kv) with
  | error e => rw [hs] at h; simp at h
  | ok s1 =>
    rw [hs] at h
    simp only [ok_bind] at h
    obtain ⟨r, hr1⟩ := step_insert_inv hs
    exact inserted_run ops (Inserted.first hr hr1) h

theorem demo_inserted (kv : Nat × Nat) (ops : List (Op Nat Nat)) {s : Map Nat Nat}
    (h : Map.run (KeyOps.std Nat) 20 (Map.ctor none none 0) (.insert kv :: ops) = .ok s) :
    Inserted s :=
  inserted_of_run (Reachable.ctor none none 0) kv ops h

variable [LinearOrder V]

/-- On two well-formed states `operator<` returns the lexicographic less-than
of the value sequences met by forward iteration. -/
theorem lt_lex {a b : Map K V} (ha : a.WF) (hb : b.WF) {fuel : Nat} (hfa : a.size + 1 < fuel)
    (hfb : b.size + 1 < fuel) :
    ∃ la lb : List (K × V), a.to_list fuel = .ok la ∧ b.to_list fuel = .ok lb ∧
      la.length = a.size ∧ lb.length = b.size ∧
      Map.lt (ValOps.std V) fuel a b =
        .ok (lexLt (fun x y => decide (x < y)) (la.map Prod.snd) (lb.map Prod.snd)) ∧
      (Map.lt (ValOps.std V) fuel a b = .ok true ↔
        List.Lex (fun x y => x < y) (la.map Prod.snd) (lb.map Prod.snd)) := by
  obtain ⟨ta, hta, htha⟩ := ha
  obtain ⟨tb, htb, hthb⟩ := hb
  have hca : a.num_nodes = ta.toList.length := hta.count
  have hcb : b.num_nodes = tb.toList.length := htb.count
  simp only [Map.size] at hfa hfb ⊢
  have h := lt_spec (ValOps.std V) htha hthb hta.rep.live htb.rep.live hca hcb
    (show a.num_nodes < fuel by omega) (show b.num_nodes < fuel by omega)
  refine ⟨a.entries ta.toList, b.entries tb.toList,
    to_list_spec htha hta.rep.live (by omega), to_list_spec hthb htb.rep.live (by omega),
    by rw [entries_length hta.rep.live, hca], by rw [entries_length htb.rep.live, hcb], h, ?_⟩
  rw [h, ← lexLt_iff]
  simp [ValOps.std]

/-- On two well-formed states `operator==` returns; it yields `true` iff the
sizes agree and the value sequences met by forward iteration are the same. -/
theorem eq_values {a b : Map K V} (ha : a.WF) (hb : b.WF) {fuel : Nat}
    (hfa : a.size + 1 < fuel) (hfb : b.size + 1 < fuel) :
    ∃ (la lb : List (K × V)) (r : Bool), a.to_list fuel = .ok la ∧ b.to_list fuel = .ok lb ∧
      la.length = a.size ∧ lb.length = b.size ∧ Map.eq (ValOps.std V) fuel a b = .ok r ∧
      (r = true ↔ a.size = b.size ∧ la.map Prod.snd = lb.map Prod.snd) := by
  obtain ⟨ta, hta, htha⟩ := ha
  obtain ⟨tb, htb, hthb⟩ := hb
  have hca : a.num_nodes = ta.toList.length := hta.count
  have hcb : b.num_nodes = tb.toList.length := htb.count
  simp only [Map.size] at hfa hfb ⊢
  have h := eq_spec (ValOps.std V) htha hthb hta.rep.live htb.rep.live hca hcb
    (show a.num_nodes < fuel by omega)
  have hla : (a.entries ta.toList).length = a.num_nodes := by
    rw [entries_length hta.rep.live, hca]
  have hlb : (b.entries tb.toList).length = b.num_nodes := by
    rw [entries_length htb.rep.live, hcb]
  refine ⟨a.entries ta.toList, b.entries tb.toList, _,
    to_list_spec htha hta.rep.live (by omega), to_list_spec hthb htb.rep.live (by omega),
    hla, hlb, h, ?_⟩
  simp only [Map.size, Bool.and_eq_true, decide_eq_true_eq]
  constructor
  · rintro ⟨h1, h2⟩
    exact ⟨h1, (zip_all_iff _ _ (by rw [hla, hlb, h1])).1 h2⟩
  · rintro ⟨h1, h2⟩
    exact ⟨h1, (zip_all_iff _ _ (by rw [hla, hlb, h1])).2 h2⟩

/-- In a state with at least one insert, reverse iteration yields the reverse
of what forward iteration yields, and `next` and `prev` are inverse to each
other on the nodes of the map. -/
theorem reverse_is_reverse {s : Map K V} (h : s.WF) {fuel : Nat} (hf : s.size + 1 < fuel) :
    ∃ (ps : List (K × V)) (nodes : List Nat), s.to_list fuel = .ok ps ∧
      s.to_list_rev fuel = .ok ps.reverse ∧ thread_walk fuel s s.first = .ok nodes ∧
      thread_walk_back fuel s s.last = .ok nodes.reverse ∧
      ∀ x ∈ nodes, ∀ y ∈ nodes, (s.next x = some y ↔ s.prev y = some x) := by
  obtain ⟨t, ht, hth⟩ := h
  have hc : s.num_nodes = t.toList.length := ht.count
  simp only [Map.size] at hf
  refine ⟨s.entries t.toList, t.toList, to_list_spec hth ht.rep.live (by omega),
    to_list_rev_spec hth ht.rep.live (by omega), (walks_agree ht hth (by omega)).2.1, ?_,
    fun x hx y hy => next_iff_prev hth.seg hx hy⟩
  rw [hth.last]
  have key : ∀ (l : List Nat) (q : Ptr) (n : Nat), Seg s none l q →
      (∀ b ∈ l, (s.cell b).isSome = true) → l.length < n →
      thread_walk_back n s l.getLast? = .ok l.reverse := by
    intro l
    induction l using List.reverseRecOn with
    | nil =>
      intro q n _ _ hn
      match n, hn with
      | n + 1, _ => simp [thread_walk_back]
    | append_singleton l z ih =>
      intro q n hseg hlive hn
      match n, hn with
      | n + 1, hn =>
        have hp : s.prev z = l.getLast? := by
          have := hseg.mid_prev
          simpa using this
        have hseg' : Seg s none l (some z) := by
          have := (Seg_append s none q l [z]).1 hseg
          simpa using this.1
        have hrec := ih (some z) n hseg' (fun b hb => hlive b (by simp [hb])) (by
          simp only [List.length_append, List.length_singleton] at hn
          omega)
        simp [thread_walk_back, Map.node, hlive z (by simp), hp, hrec]
  exact key t.toList none fuel hth.seg ht.rep.live (by omega)

theorem find_key_iff {kvs : List (K × V)} (hnd : (kvs.map Prod.fst).Nodup) (p : K × V) :
    kvs.find? (fun q => decide (q.1 = p.1)) = some p ↔ p ∈ kvs := by
  constructor
  · intro h
    exact List.mem_of_find?_eq_some h
  · intro hp
    cases hf : kvs.find? (fun q => decide (q.1 = p.1)) with
    | none =>
      have := List.find?_eq_none.1 hf p hp
      simp at this
    | some q =>
      have hq : q ∈ kvs := List.mem_of_find?_eq_some hf
      have hk : q.1 = p.1 := by
        have := List.find?_some hf
        simpa using this
      rw [List.inj_on_of_nodup_map hnd hq hp hk]

/-- Inserting a non-empty list of pairs with pairwise distinct keys in two
orders yields maps with the same forward-iteration sequence, which compare
equal under `operator==`. -/
theorem perm_inserts_agree (f l f' l' : Ptr) (m m' : V) (kvs kvs' : List (K × V))
    (hne : kvs ≠ []) (hnd : (kvs.map Prod.fst).Nodup) (hperm : kvs'.Perm kvs) (fuel : Nat)
    (hf : kvs.length + 1 < fuel) :
    ∃ (s s' : Map K V) (ps : List (K × V)),
      Map.run (KeyOps.std K) fuel (Map.ctor f l m) (kvs.map Op.insert) = .ok s ∧
      Map.run (KeyOps.std K) fuel (Map.ctor f' l' m') (kvs'.map Op.insert) = .ok s' ∧
      s.to_list fuel = .ok ps ∧ s'.to_list fuel = .ok ps ∧
      Map.eq (ValOps.std V) fuel s s' = .ok true ∧ (∀ p, p ∈ ps ↔ p ∈ kvs) := by
  have hne' : kvs' ≠ [] := by
    intro h0
    rw [h0] at hperm
    exact hne hperm.symm.eq_nil
  have hnd' : (kvs'.map Prod.fst).Nodup := ((hperm.map Prod.fst).nodup_iff).2 hnd
  have hlen : kvs'.length = kvs.length := hperm.length_eq
  obtain ⟨s, t, h1, h2, h3, _, h5, h6, h7⟩ :=
    run_inserts_entries kvs (Map.ctor f l m) .nil (TreeOK.ctor f l m) (fun h => absurd rfl h)
      (fun r hr => by simp [Map.ctor] at hr) fuel (by
        show 0 + kvs.length < fuel
        omega)
  obtain ⟨s', t', g1, g2, g3, _, g5, g6, g7⟩ :=
    run_inserts_entries kvs' (Map.ctor f' l' m') .nil (TreeOK.ctor f' l' m')
      (fun h => absurd rfl h) (fun r hr => by simp [Map.ctor] at hr) fuel (by
        show 0 + kvs'.length < fuel
        omega)
  have hn : s.num_nodes ≤ kvs.length := by
    have : s.num_nodes ≤ 0 + kvs.length := h5
    omega
  have hn' : s'.num_nodes ≤ kvs.length := by
    have : s'.num_nodes ≤ 0 + kvs'.length := g5
    omega
  have hmem : ∀ p, p ∈ s.entries t.toList ↔ p ∈ kvs := by
    intro p
    rw [h7 p, ← find_key_iff hnd p]
    simp [Map.entries]
  have hmem' : ∀ p, p ∈ s'.entries t'.toList ↔ p ∈ kvs := by
    intro p
    rw [g7 p, ← hperm.mem_iff, ← find_key_iff hnd' p]
    simp [Map.entries]
  have heq : s'.entries t'.toList = s.entries t.toList :=
    sorted_ext (entries_sorted g2.sorted) (entries_sorted h2.sorted)
      (fun p => by rw [hmem' p, hmem p])
  have hwf : s.WF := ⟨t, h2, h3 (h6 hne)⟩
  have hwf' : s'.WF := ⟨t', g2, g3 (g6 hne')⟩
  have hc : s.num_nodes = t.toList.length := h2.count
  have hc' : s'.num_nodes = t'.toList.length := g2.count
  have hsz : s.num_nodes = s'.num_nodes := by
    rw [hc, hc', ← entries_length h2.rep.live, ← entries_length g2.rep.live, heq]
  refine ⟨s, s', s.entries t.toList, h1, g1, to_list_spec (h3 (h6 hne)) h2.rep.live (by omega),
    ?_, ?_, hmem⟩
  · rw [← heq]
    exact to_list_spec (g3 (g6 hne')) g2.rep.live (by omega)
  · rw [eq_spec (ValOps.std V) (h3 (h6 hne)) (g3 (g6 hne')) h2.rep.live g2.rep.live hc hc'
      (show s.num_nodes < fuel by omega), heq]
    have : ((s.entries t.toList).zip (s.entries t.toList)).all
        (fun p => !(ValOps.std V).ne p.1.2 p.2.2) = true := (zip_all_iff _ _ rfl).2 rfl
    rw [this]
    simp [Map.size, hsz]

end

end

section

variable {K V : Type} [LinearOrder K] [LinearOrder V]

/-! ### The claims on comparison, iteration order, `clear` and construction -/

/-- C12: for two maps, each reached by completed operations with at least one
insert, `a == b` returns; the result is `true` iff the sizes agree and at every
position of the ascending key order the value of `a` equals the value of `b`
(equivalently, the two value sequences are the same list); the keys play no
part in the result; `a != b` returns the negation. -/
theorem C12_eq_compares_sizes_and_values (a b : Map K V) (ha : Inserted a) (hb : Inserted b)
    (fuel : Nat) (hfa : a.size + 1 < fuel) (hfb : b.size + 1 < fuel) :
    ∃ (la lb : List (K × V)) (r : Bool),
      a.to_list fuel = .ok la ∧ b.to_list fuel = .ok lb ∧
      la.length = a.size ∧ lb.length = b.size ∧
      Map.eq (ValOps.std V) fuel a b = .ok r ∧
      (r = true ↔ a.size = b.size ∧
        ∀ i, i < a.size → (la[i]?).map Prod.snd = (lb[i]?).map Prod.snd) ∧
      (r = true ↔ a.size = b.size ∧ la.map Prod.snd = lb.map Prod.snd) ∧
      Map.ne (ValOps.std V) fuel a b = .ok (!r) := by
  obtain ⟨la, lb, r, h1, h2, h3, h4, h5, h6⟩ :=
    eq_values (inserted_wf ha) (inserted_wf hb) hfa hfb
  refine ⟨la, lb, r, h1, h2, h3, h4, h5, ?_, h6, by simp [Map.ne, h5]⟩
  rw [h6]
  constructor
  · rintro ⟨e1, e2⟩
    exact ⟨e1, (map_snd_ext la lb a.size h3 (by rw [h4, e1])).1 e2⟩
  · rintro ⟨e1, e2⟩
    exact ⟨e1, (map_snd_ext la lb a.size h3 (by rw [h4, e1])).2 e2⟩

/-- C12 at a concrete input: two maps with different keys and the same values
in ascending key order compare equal. -/
theorem C12_eq_compares_sizes_and_values_witness :
    Inserted (demo [.insert (1, 10), .insert (2, 20)]) ∧
    Inserted (demo [.insert (5, 20), .insert (3, 10)]) ∧
    (∃ (la lb : List (Nat × Nat)) (r : Bool),
      (demo [.insert (1, 10), .insert (2, 20)]).to_list 5 = .ok la ∧
      (demo [.insert (5, 20), .insert (3, 10)]).to_list 5 = .ok lb ∧
      Map.eq (ValOps.std Nat) 5 (demo [.insert (1, 10), .insert (2, 20)])
        (demo [.insert (5, 20), .insert (3, 10)]) = .ok r ∧
      (r = true ↔ (demo [.insert (1, 10), .insert (2, 20)]).size =
          (demo [.insert (5, 20), .insert (3, 10)]).size ∧
        la.map Prod.snd = lb.map Prod.snd) ∧
      Map.ne (ValOps.std Nat) 5 (demo [.insert (1, 10), .insert (2, 20)])
        (demo [.insert (5, 20), .insert (3, 10)]) = .ok (!r)) ∧
    Map.eq (ValOps.std Nat) 5 (demo [.insert (1, 10), .insert (2, 20)])
      (demo [.insert (5, 20), .insert (3, 10)]) = .ok true ∧
    (demo [.insert (1, 10), .insert (2, 20)]).to_list 5 = .ok [(1, 10), (2, 20)] ∧
    (demo [.insert (5, 20), .insert (3, 10)]).to_list 5 = .ok [(3, 10), (5, 20)] := by
  have ha : Inserted (demo [.insert (1, 10), .insert (2, 20)]) :=
    demo_inserted (1, 10) [.insert (2, 20)] rfl
  have hb : Inserted (demo [.insert (5, 20), .insert (3, 10)]) :=
    demo_inserted (5, 20) [.insert (3, 10)] rfl
  obtain ⟨la, lb, r, h1, h2, _, _, h5, _, h7, h8⟩ :=
    C12_eq_compares_sizes_and_values _ _ ha hb 5 (by decide) (by decide)
  exact ⟨ha, hb, ⟨la, lb, r, h1, h2, h5, h7, h8⟩, rfl, rfl, rfl⟩

/-- C13 (fails on a newly constructed map): `operator<` starts with
`this->begin()`, which builds an iterator from `first`; `Map()` leaves `first`
as it happens to be, so on a map without any insert the iterator constructor
reads through an address that is no node, whatever the other operand is. -/
theorem C13_lt_reads_uninitialised_first (vo : ValOps V) (x : Nat) (l : Ptr) (m : V)
    (b : Map K V) (fuel : Nat) :
    Reachable (Map.ctor (some x) l m : Map K V) ∧
    (Map.ctor (some x) l m : Map K V).size = 0 ∧
    Map.lt vo fuel (Map.ctor (some x) l m) b = .error .nullDeref := by
  refine ⟨Reachable.ctor _ _ _, rfl, ?_⟩
  simp [Map.lt, Map.begin, Iterator.ctor, Map.key, Map.ctor]

/-- C15 (fails for the empty list): the empty list of pairs is a permutation of
itself; inserting it leaves both maps as `Map()` built them, with `first` as it
happens to be, and then forward iteration and `operator==` both start with
`begin()`, which reads through an address that is no node. -/
theorem C15_empty_list_iteration_faults (x y : Nat) (l l' : Ptr) (m m' : V) (fuel : Nat) :
    ([] : List (K × V)).Perm [] ∧
    Map.run (KeyOps.std K) fuel (Map.ctor (some x) l m) (([] : List (K × V)).map Op.insert)
      = .ok (Map.ctor (some x) l m) ∧
    Map.run (KeyOps.std K) fuel (Map.ctor (some y) l' m') (([] : List (K × V)).map Op.insert)
      = .ok (Map.ctor (some y) l' m') ∧
    (Map.ctor (some x) l m : Map K V).to_list fuel = .error .nullDeref ∧
    Map.eq (ValOps.std V) fuel (Map.ctor (some x) l m : Map K V) (Map.ctor (some y) l' m')
      = .error .nullDeref := by
  refine ⟨List.Perm.nil, rfl, rfl, ?_, ?_⟩
  · simp [Map.to_list, Map.begin, Iterator.ctor, Map.key, Map.ctor]
  · simp [Map.eq, Map.begin, Iterator.ctor, Map.key, Map.ctor]

/-- C16 (fails on a map without any insert): `Map()` leaves `last` as it
happens to be.  Where `first` happens to be null, forward iteration yields the
empty sequence, while reverse iteration starts at `rbegin()`, which reads
through the address in `last`, no node. -/
theorem C16_reverse_iteration_reads_uninitialised_last (y : Nat) (m : V) (n : Nat) :
    Reachable (Map.ctor none (some y) m : Map K V) ∧
    (Map.ctor none (some y) m : Map K V).to_list (n + 1) = .ok [] ∧
    (Map.ctor none (some y) m : Map K V).to_list_rev (n + 1) = .error .nullDeref := by
  refine ⟨Reachable.ctor _ _ _, ?_, ?_⟩
  · simp [Map.to_list, Map.begin, Iterator.ctor, Map.ctor, Map.forward]
  · simp [Map.to_list_rev, Map.rbegin, ReverseIterator.ctor, Map.key, Map.ctor]

/-- C17: in every state reached by completed inserts and erases, `erase k` for
a key `k` that no entry has returns with `delete_node` reporting `false`, and
the state after it is the state before it: every field of every node (tree
links, colours, thread links), `root`, `first`, `last` and the node count are
unchanged. -/
theorem C17_erase_absent_changes_nothing (s : Map K V) (hr : Reachable s) (k : K)
    (hk : ¬ s.Has k) (fuel : Nat) (hf : s.num_nodes < fuel) :
    delete_node (KeyOps.std K) fuel s k = .ok (false, s) ∧
      s.erase (KeyOps.std K) fuel k = .ok s := by
  obtain ⟨t, ht, _⟩ := hr.inv
  have h := delete_node_absent ht (not_has ht hk) hf
  exact ⟨h, by simp [Map.erase, h]⟩

/-- C17 at a concrete input: `erase 7` on the map holding `(1, 10)` and
`(2, 20)`. -/
theorem C17_erase_absent_changes_nothing_witness :
    Reachable (demo [.insert (1, 10), .insert (2, 20)]) ∧
    ¬ (demo [.insert (1, 10), .insert (2, 20)]).Has 7 ∧
    delete_node (KeyOps.std Nat) 5 (demo [.insert (1, 10), .insert (2, 20)]) 7
      = .ok (false, demo [.insert (1, 10), .insert (2, 20)]) ∧
    (demo [.insert (1, 10), .insert (2, 20)]).erase (KeyOps.std Nat) 5 7
      = .ok (demo [.insert (1, 10), .insert (2, 20)]) := by
  have hr : Reachable (demo [.insert (1, 10), .insert (2, 20)]) :=
    demo_reachable [.insert (1, 10), .insert (2, 20)] rfl
  have hno : ¬ (demo [.insert (1, 10), .insert (2, 20)]).Has 7 := by
    intro h
    obtain ⟨a, ha, hk⟩ := (has_iff demo2_tree 7).1 h
    simp only [BTree.toList, List.nil_append, List.mem_cons, List.mem_singleton,
      List.not_mem_nil, or_false] at ha
    rcases ha with rfl | rfl
    · have h1 : (demo [.insert (1, 10), .insert (2, 20)]).keyOf 0 = some 1 := rfl
      rw [h1] at hk
      exact absurd hk (by decide)
    · have h1 : (demo [.insert (1, 10), .insert (2, 20)]).keyOf 1 = some 2 := rfl
      rw [h1] at hk
      exact absurd hk (by decide)
  obtain ⟨h1, h2⟩ := C17_erase_absent_changes_nothing _ hr 7 hno 5 (by decide)
  exact ⟨hr, hno, h1, h2⟩

/-- C18 (fails on a map without any insert): `Map()` leaves `first` and `last`
as they happen to be.  On such a map the loop of `delete_map` makes no pass,
because `root` is null, so `clear()` returns the map as it was: `first` still
holds its address, and `begin()` reads through it. -/
theorem C18_clear_keeps_uninitialised_first (x : Nat) (l : Ptr) (m : V) (fuel n : Nat) :
    Reachable (Map.ctor (some x) l m : Map K V) ∧
    (Map.ctor (some x) l m : Map K V).clear (KeyOps.std K) fuel (n + 1)
      = .ok (Map.ctor (some x) l m) ∧
    (Map.ctor (some x) l m : Map K V).first = some x ∧
    (Map.ctor (some x) l m : Map K V).last = l ∧
    (Map.ctor (some x) l m : Map K V).begin = .error .nullDeref ∧
    (Map.ctor (some x) l m : Map K V).end = .ok ⟨none, none⟩ := by
  refine ⟨Reachable.ctor _ _ _, rfl, rfl, rfl, ?_, rfl⟩
  simp [Map.begin, Iterator.ctor, Map.key, Map.ctor]

/-- C19: the map constructed from a non-empty initializer list is built;
forward iteration over it yields pairs in strictly ascending key order, so one
entry per key; its keys are the keys of the list; each pair it holds is the
first pair of the list with that key; and `size()` is the number of distinct
keys of the list. -/
theorem C19_initializer_list_keeps_first_pair (f l : Ptr) (m : V) (values : List (K × V))
    (hne : values ≠ []) (fuel : Nat) (hf : values.length + 1 < fuel) :
    ∃ (s : Map K V) (ps : List (K × V)),
      Map.init_list (KeyOps.std K) fuel f l m values = .ok s ∧ s.to_list fuel = .ok ps ∧
      ps.Pairwise (fun p q => p.1 < q.1) ∧
      (∀ k, k ∈ ps.map Prod.fst ↔ k ∈ values.map Prod.fst) ∧
      (∀ p, p ∈ ps ↔ values.find? (fun q => decide (q.1 = p.1)) = some p) ∧
      s.size = (values.map Prod.fst).dedup.length ∧ ps.length = s.size := by
  obtain ⟨s, t, h1, h2, h3, _, h5, h6, h7⟩ :=
    run_inserts_entries values (Map.ctor f l m) .nil (TreeOK.ctor f l m)
      (fun h => absurd rfl h) (fun r hr => by simp [Map.ctor] at hr) fuel (by
        show 0 + values.length < fuel
        omega)
  have hn : s.num_nodes ≤ values.length := by
    have : s.num_nodes ≤ 0 + values.length := h5
    omega
  have hc : s.num_nodes = t.toList.length := h2.count
  have hmem : ∀ p, p ∈ s.entries t.toList ↔
      values.find? (fun q => decide (q.1 = p.1)) = some p := by
    intro p
    rw [h7 p]
    simp [Map.entries]
  have hsorted := entries_sorted h2.sorted
  have hkeys : ∀ k, k ∈ (s.entries t.toList).map Prod.fst ↔ k ∈ values.map Prod.fst := by
    intro k
    simp only [List.mem_map]
    constructor
    · rintro ⟨p, hp, rfl⟩
      exact ⟨p, List.mem_of_find?_eq_some ((hmem p).1 hp), rfl⟩
    · rintro ⟨q, hq, rfl⟩
      cases hfd : values.find? (fun p => decide (p.1 = q.1)) with
      | none =>
        have := List.find?_eq_none.1 hfd q hq
        simp at this
      | some p =>
        have hk : p.1 = q.1 := by
          have := List.find?_some hfd
          simpa using this
        refine ⟨p, (hmem p).2 ?_, hk⟩
        rw [hk]
        exact hfd
  have hlen : (s.entries t.toList).length = s.num_nodes := by
    rw [entries_length h2.rep.live, hc]
  refine ⟨s, s.entries t.toList, ?_, to_list_spec (h3 (h6 hne)) h2.rep.live (by omega),
    hsorted, hkeys, hmem, ?_, hlen⟩
  · rw [Map.init_list, init_list_loop_eq]
    exact h1
  · have hnd : ((s.entries t.toList).map Prod.fst).Nodup := by
      have : ((s.entries t.toList).map Prod.fst).Pairwise (fun a b => a < b) :=
        (List.pairwise_map).2 hsorted
      exact this.imp (fun h => ne_of_lt h)
    have hperm : ((s.entries t.toList).map Prod.fst).Perm (values.map Prod.fst).dedup := by
      refine (List.perm_ext_iff_of_nodup hnd (List.nodup_dedup _)).2 ?_
      intro k
      rw [hkeys k, List.mem_dedup]
    show s.num_nodes = _
    rw [← hlen, ← hperm.length_eq, List.length_map]

/-- C19 at a concrete input: the list `(2, 20), (1, 10), (2, 30)`, on a map
whose `first` and `last` were left at arbitrary addresses by the constructor. -/
theorem C19_initializer_list_keeps_first_pair_witness :
    [((2 : Nat), (20 : Nat)), (1, 10), (2, 30)] ≠ [] ∧
    (∃ (s : Map Nat Nat) (ps : List (Nat × Nat)),
      Map.init_list (KeyOps.std Nat) 5 (some 7) (some 9) 0 [(2, 20), (1, 10), (2, 30)] = .ok s ∧
      s.to_list 5 = .ok ps ∧ ps.Pairwise (fun p q => p.1 < q.1) ∧
      (∀ k, k ∈ ps.map Prod.fst ↔ k ∈ [((2 : Nat), (20 : Nat)), (1, 10), (2, 30)].map Prod.fst) ∧
      (∀ p, p ∈ ps ↔ [((2 : Nat), (20 : Nat)), (1, 10), (2, 30)].find?
        (fun q => decide (q.1 = p.1)) = some p) ∧
      s.size = ([((2 : Nat), (20 : Nat)), (1, 10), (2, 30)].map Prod.fst).dedup.length ∧
      ps.length = s.size) ∧
    (Map.init_list (KeyOps.std Nat) 5 (some 7) (some 9) 0 [(2, 20), (1, 10), (2, 30)]).bind
      (fun s => s.to_list 5) = .ok [(1, 10), (2, 20)] :=
  ⟨by decide, C19_initializer_list_keeps_first_pair (some 7) (some 9) 0
    [(2, 20), (1, 10), (2, 30)] (by decide) 5 (by decide), rfl⟩

/-- C20 (fails): lookup tests the `==` of the key type before its `<`.  With
keys whose `<` compares the tens only, `10` and `11` are equivalent: on the map
holding key `10`, `insert_node` rejects `11` as a duplicate of the node of `10`
(it uses `<` alone), but `find_node`, `find_val` and `delete_node` first test
`*curr->key == key`, which is false, then descend to an absent child: `find 11`
is the end sentinel, `at 11` throws, and `erase 11` removes nothing. -/
theorem C20_lookup_tests_key_equality :
    ∃ s : Map Nat Nat,
      Map.run tensOps 5 (Map.ctor none none 0) [.insert (10, 1)] = .ok s ∧
      (tensOps.lt 10 11 = false ∧ tensOps.lt 11 10 = false) ∧
      (∃ s', insert_node tensOps 5 s 11 2 = .ok ((some 0, false), s')) ∧
      s.cell 0 = some (10, 1) ∧
      s.find tensOps 5 11 = s.end ∧
      s.at tensOps 5 11 = .error .outOfRange ∧
      delete_node tensOps 5 s 11 = .ok (false, s) ∧
      s.find tensOps 5 10 = .ok ⟨some 0, some (10, 1)⟩ :=
  ⟨_, rfl, ⟨rfl, rfl⟩, ⟨_, rfl⟩, rfl, rfl, rfl, rfl, rfl⟩

end

section

/-! ### Red-black colouring of a tree shape -/

theorem black_ne_red : black ≠ red := by decide

theorem notRed_congr {col col' : Nat → Nat} {t : BTree} (h : ∀ a ∈ t.toList, col' a = col a) :
    t.notRed col' ↔ t.notRed col := by
  cases t with
  | nil => exact Iff.rfl
  | node l a r =>
    simp only [BTree.notRed]
    rw [h a (by simp)]

theorem RB_congr {col col' : Nat → Nat} {t : BTree} :
    ∀ {n : Nat}, (∀ a ∈ t.toList, col' a = col a) → RB col t n → RB col' t n := by
  induction t with
  | nil => intro n _ h; exact h
  | node l a r ihl ihr =>
    intro n h hrb
    have hl : ∀ b ∈ l.toList, col' b = col b := fun b hb => h b (by simp [hb])
    have hr : ∀ b ∈ r.toList, col' b = col b := fun b hb => h b (by simp [hb])
    have ha : col' a = col a := h a (by simp)
    rcases hrb with ⟨h1, m, h2, h3, h4⟩ | ⟨h1, h2, h3, h4, h5⟩
    · exact Or.inl ⟨ha.trans h1, m, h2, ihl hl h3, ihr hr h4⟩
    · exact Or.inr ⟨ha.trans h1, (notRed_congr hl).2 h2, (notRed_congr hr).2 h3, ihl hl h4,
        ihr hr h5⟩

theorem parBlack_congr {col col' : Nat → Nat} {c : Ctx}
    (h : ∀ a ∈ c.before ++ c.after, col' a = col a) : c.parBlack col' ↔ c.parBlack col := by
  cases c with
  | top => exact Iff.rfl
  | left a r up =>
    simp only [Ctx.parBlack]
    rw [h a (by simp [Ctx.after])]
  | right l a up =>
    simp only [Ctx.parBlack]
    rw [h a (by simp [Ctx.before])]

theorem CtxRB_congr {col col' : Nat → Nat} {c : Ctx} :
    ∀ {n : Nat}, (∀ a ∈ c.before ++ c.after, col' a = col a) → CtxRB col c n →
      CtxRB col' c n := by
  induction c with
  | top => intro n _ _; trivial
  | left a r up ih =>
    intro n h hc
    have hr : ∀ b ∈ r.toList, col' b = col b := fun b hb => h b (by simp [Ctx.after, hb])
    have hup : ∀ b ∈ up.before ++ up.after, col' b = col b := by
      intro b hb
      refine h b ?_
      simp only [Ctx.before, Ctx.after, List.mem_append, List.mem_cons] at hb ⊢
      tauto
    have ha : col' a = col a := h a (by simp [Ctx.after])
    obtain ⟨h1, h2⟩ := hc
    refine ⟨RB_congr hr h1, ?_⟩
    rcases h2 with ⟨h3, h4⟩ | ⟨h3, h4, h5, h6⟩
    · exact Or.inl ⟨ha.trans h3, ih hup h4⟩
    · exact Or.inr ⟨ha.trans h3, (notRed_congr hr).2 h4, (parBlack_congr hup).2 h5, ih hup h6⟩
  | right l a up ih =>
    intro n h hc
    have hl : ∀ b ∈ l.toList, col' b = col b := fun b hb => h b (by simp [Ctx.before, hb])
    have hup : ∀ b ∈ up.before ++ up.after, col' b = col b := by
      intro b hb
      refine h b ?_
      simp only [Ctx.before, Ctx.after, List.mem_append, List.mem_cons] at hb ⊢
      tauto
    have ha : col' a = col a := h a (by simp [Ctx.before])
    obtain ⟨h1, h2⟩ := hc
    refine ⟨RB_congr hl h1, ?_⟩
    rcases h2 with ⟨h3, h4⟩ | ⟨h3, h4, h5, h6⟩
    · exact Or.inl ⟨ha.trans h3, ih hup h4⟩
    · exact Or.inr ⟨ha.trans h3, (notRed_congr hl).2 h4, (parBlack_congr hup).2 h5, ih hup h6⟩

/-- The root of a coloured tree is black or red. -/
theorem RB.root_color {col : Nat → Nat} {l r : BTree} {a n : Nat}
    (h : RB col (.node l a r) n) : col a = black ∨ col a = red := by
  rcases h with ⟨h1, _⟩ | ⟨h1, _⟩
  · exact Or.inl h1
  · exact Or.inr h1

/-- The parts of a coloured tree with a red root. -/
theorem RB.of_red {col : Nat → Nat} {l r : BTree} {a n : Nat} (h : RB col (.node l a r) n)
    (ha : col a = red) : l.notRed col ∧ r.notRed col ∧ RB col l n ∧ RB col r n := by
  rcases h with ⟨h1, _⟩ | ⟨_, h2⟩
  · rw [ha] at h1
    exact absurd h1.symm black_ne_red
  · exact h2

/-- Filling the hole of a coloured context with a coloured subtree of the
matching black height gives a coloured tree, provided the subtree has no red
root under a red parent. -/
theorem rb_plug {col : Nat → Nat} (c : Ctx) :
    ∀ {X : BTree} {n : Nat}, RB col X n → CtxRB col c n → (X.notRed col ∨ c.parBlack col) →
      ∃ H, RB col (c.plug X) H := by
  induction c with
  | top => intro X n h _ _; exact ⟨n, h⟩
  | left a r up ih =>
    intro X n hX hC hor
    obtain ⟨h1, h2⟩ := hC
    rcases h2 with ⟨h3, h4⟩ | ⟨h3, h4, h5, h6⟩
    · refine ih (X := .node X a r) (n := n + 1) (Or.inl ⟨h3, n, rfl, hX, h1⟩) h4 (Or.inl ?_)
      show col a ≠ red
      rw [h3]
      exact black_ne_red
    · have hnr : X.notRed col := by
        rcases hor with h | h
        · exact h
        · have h' : col a = black := h
          rw [h3] at h'
          exact absurd h'.symm black_ne_red
      exact ih (X := .node X a r) (n := n) (Or.inr ⟨h3, hnr, h4, hX, h1⟩) h6 (Or.inr h5)
  | right l a up ih =>
    intro X n hX hC hor
    obtain ⟨h1, h2⟩ := hC
    rcases h2 with ⟨h3, h4⟩ | ⟨h3, h4, h5, h6⟩
    · refine ih (X := .node l a X) (n := n + 1) (Or.inl ⟨h3, n, rfl, h1, hX⟩) h4 (Or.inl ?_)
      show col a ≠ red
      rw [h3]
      exact black_ne_red
    · have hnr : X.notRed col := by
        rcases hor with h | h
        · exact h
        · have h' : col a = black := h
          rw [h3] at h'
          exact absurd h'.symm black_ne_red
      exact ih (X := .node l a X) (n := n) (Or.inr ⟨h3, h4, hnr, h1, hX⟩) h6 (Or.inr h5)

/-- A coloured tree seen at one of its subtrees: the subtree and the context
around it are coloured, with matching black heights. -/
theorem rb_unplug {col : Nat → Nat} (c : Ctx) :
    ∀ {X : BTree} {H : Nat}, RB col (c.plug X) H →
      ∃ n, RB col X n ∧ CtxRB col c n ∧ (X.notRed col ∨ c.parBlack col) := by
  induction c with
  | top => intro X H h; exact ⟨H, h, trivial, Or.inr trivial⟩
  | left a r up ih =>
    intro X H h
    obtain ⟨n, h1, h2, h3⟩ := ih (X := .node X a r) h
    rcases h1 with ⟨e1, m, e2, e3, e4⟩ | ⟨e1, e2, e3, e4, e5⟩
    · subst e2
      exact ⟨m, e3, ⟨e4, Or.inl ⟨e1, h2⟩⟩, Or.inr e1⟩
    · have hpb : up.parBlack col := by
        rcases h3 with h | h
        · exact absurd e1 h
        · exact h
      exact ⟨n, e4, ⟨e5, Or.inr ⟨e1, e3, hpb, h2⟩⟩, Or.inl e2⟩
  | right l a up ih =>
    intro X H h
    obtain ⟨n, h1, h2, h3⟩ := ih (X := .node l a X) h
    rcases h1 with ⟨e1, m, e2, e3, e4⟩ | ⟨e1, e2, e3, e4, e5⟩
    · subst e2
      exact ⟨m, e4, ⟨e3, Or.inl ⟨e1, h2⟩⟩, Or.inr e1⟩
    · have hpb : up.parBlack col := by
        rcases h3 with h | h
        · exact absurd e1 h
        · exact h
      exact ⟨n, e5, ⟨e4, Or.inr ⟨e1, e2, hpb, h2⟩⟩, Or.inl e3⟩

/-- A coloured tree has no red node with a red child. -/
theorem RB.noRedRed {col : Nat → Nat} {t : BTree} : ∀ {n : Nat}, RB col t n → t.noRedRed col := by
  induction t with
  | nil => intro n _; trivial
  | node l a r ihl ihr =>
    intro n h
    rcases h with ⟨h1, m, _, h3, h4⟩ | ⟨_, h2, h3, h4, h5⟩
    · refine ⟨?_, ihl h3, ihr h4⟩
      intro hr
      rw [hr] at h1
      exact absurd h1.symm black_ne_red
    · exact ⟨fun _ => ⟨h2, h3⟩, ihl h4, ihr h5⟩

/-- In a coloured tree every path from the root to an absent child has the
same number of black nodes. -/
theorem RB.blackCounts {col : Nat → Nat} {t : BTree} :
    ∀ {n : Nat}, RB col t n → ∀ k ∈ t.blackCounts col, k = n := by
  induction t with
  | nil =>
    intro n h k hk
    simp only [BTree.blackCounts, List.mem_singleton] at hk
    rw [hk]
    exact h.symm
  | node l a r ihl ihr =>
    intro n h k hk
    simp only [BTree.blackCounts, List.mem_map, List.mem_append] at hk
    obtain ⟨j, hj, rfl⟩ := hk
    rcases h with ⟨h1, m, h2, h3, h4⟩ | ⟨h1, _, _, h4, h5⟩
    · have : j = m := by
        rcases hj with hj | hj
        · exact ihl h3 j hj
        · exact ihr h4 j hj
      simp [h1, this, h2]
    · have hnb : col a ≠ black := by
        rw [h1]
        exact fun h => black_ne_red h.symm
      have : j = n := by
        rcases hj with hj | hj
        · exact ihl h4 j hj
        · exact ihr h5 j hj
      simp [hnb, this]

/-- A black node over two coloured subtrees of the same black height. -/
theorem rb_black {col : Nat → Nat} {l r : BTree} {a n : Nat} (ha : col a = black)
    (hl : RB col l n) (hr : RB col r n) : RB col (.node l a r) (n + 1) :=
  Or.inl ⟨ha, n, rfl, hl, hr⟩

/-- A red node over two coloured subtrees of the same black height without
red roots. -/
theorem rb_red {col : Nat → Nat} {l r : BTree} {a n : Nat} (ha : col a = red)
    (hl : RB col l n) (hr : RB col r n) (nl : l.notRed col) (nr : r.notRed col) :
    RB col (.node l a r) n :=
  Or.inr ⟨ha, nl, nr, hl, hr⟩

/-- Blackening the root of a coloured tree. -/
theorem rb_blacken {col : Nat → Nat} {l r : BTree} {a n : Nat} (h : RB col (.node l a r) n)
    (ha : a ∉ l.toList ++ r.toList) : ∃ n', RB (upd col a black) (.node l a r) n' := by
  have hl : ∀ b ∈ l.toList, upd col a black b = col b := by
    intro b hb
    have : b ≠ a := by rintro rfl; exact ha (by simp [hb])
    simp [upd, this]
  have hr : ∀ b ∈ r.toList, upd col a black b = col b := by
    intro b hb
    have : b ≠ a := by rintro rfl; exact ha (by simp [hb])
    simp [upd, this]
  have hc : upd col a black a = black := by simp [upd]
  rcases h with ⟨_, m, _, h3, h4⟩ | ⟨_, _, _, h4, h5⟩
  · exact ⟨m + 1, rb_black hc (RB_congr hl h3) (RB_congr hr h4)⟩
  · exact ⟨n + 1, rb_black hc (RB_congr hl h4) (RB_congr hr h5)⟩

end

section

variable {K V : Type}

/-! ### The colour changes of the fix-up loop -/

/-- The recolouring case: parent and uncle become black, the grandparent red. -/
theorem rb_recolor_step {col : Nat → Nat} {T1 T2 T3 T4 : BTree} {a b c n : Nat} {up : Ctx}
    (h1 : RB col T1 n) (h2 : RB col T2 n) (h3 : RB col T3 n) (h4 : RB col T4 n)
    (hup : CtxRB col up (n + 1))
    (hnd : (up.before ++ (BTree.node (.node T1 a T2) b (.node T3 c T4)).toList ++
      up.after).Nodup)
    (q1 q2 : Nat) (hq : (q1 = a ∧ q2 = c) ∨ (q1 = c ∧ q2 = a)) :
    RB (upd (upd (upd col q1 black) q2 black) b red)
        (.node (.node T1 a T2) b (.node T3 c T4)) (n + 1) ∧
      CtxRB (upd (upd (upd col q1 black) q2 black) b red) up (n + 1) := by
  have hab : a ≠ b := by
    intro e
    have := nd_split hnd (A := [a]) (B := [b]) (by
      intro z
      simp only [BTree.toList_node, List.count_append, List.count_cons, List.count_nil]
      omega) a (by simp)
    exact this (by simp [e])
  have hcb : c ≠ b := by
    intro e
    have := nd_split hnd (A := [c]) (B := [b]) (by
      intro z
      simp only [BTree.toList_node, List.count_append, List.count_cons, List.count_nil]
      omega) c (by simp)
    exact this (by simp [e])
  have hac : a ≠ c := by
    intro e
    have := nd_split hnd (A := [a]) (B := [c]) (by
      intro z
      simp only [BTree.toList_node, List.count_append, List.count_cons, List.count_nil]
      omega) a (by simp)
    exact this (by simp [e])
  have hrest : ∀ y ∈ T1.toList ++ T2.toList ++ T3.toList ++ T4.toList ++ up.before ++ up.after,
      y ∉ [a, b, c] :=
    nd_split hnd (by
      intro z
      simp only [BTree.toList_node, List.count_append, List.count_cons, List.count_nil]
      omega)
  have hsame : ∀ y ∈ T1.toList ++ T2.toList ++ T3.toList ++ T4.toList ++ up.before ++ up.after,
      upd (upd (upd col q1 black) q2 black) b red y = col y := by
    intro y hy
    have := hrest y hy
    simp only [List.mem_cons, List.mem_singleton, List.not_mem_nil, or_false, not_or] at this
    rcases hq with ⟨rfl, rfl⟩ | ⟨rfl, rfl⟩ <;> simp [upd, this.1, this.2.1, this.2.2]
  have ca : upd (upd (upd col q1 black) q2 black) b red a = black := by
    rcases hq with ⟨rfl, rfl⟩ | ⟨rfl, rfl⟩ <;> simp [upd, hab, hac]
  have cc : upd (upd (upd col q1 black) q2 black) b red c = black := by
    rcases hq with ⟨rfl, rfl⟩ | ⟨rfl, rfl⟩ <;> simp [upd, hcb, hac, Ne.symm hac]
  have cb : upd (upd (upd col q1 black) q2 black) b red b = red := by simp [upd]
  have g1 := @RB_congr col _ T1 n
    (fun y hy => hsame y (by simp [hy])) h1
  have g2 := @RB_congr col _ T2 n
    (fun y hy => hsame y (by simp [hy])) h2
  have g3 := @RB_congr col _ T3 n
    (fun y hy => hsame y (by simp [hy])) h3
  have g4 := @RB_congr col _ T4 n
    (fun y hy => hsame y (by simp [hy])) h4
  refine ⟨rb_red cb (rb_black ca g1 g2) (rb_black cc g3 g4) ?_ ?_, ?_⟩
  · show _ ≠ red
    rw [ca]
    exact black_ne_red
  · show _ ≠ red
    rw [cc]
    exact black_ne_red
  · exact CtxRB_congr (fun y hy => hsame y (by
      simp only [List.mem_append] at hy ⊢
      tauto)) hup

/-- The rotation cases: the new root of the subtree takes the colour of the
grandparent `g` (black), and `g` takes its colour (red). -/
theorem rb_rotate_step {col : Nat → Nat} {T1 T2 T3 T4 : BTree} {a b c n : Nat} {up : Ctx}
    (h1 : RB col T1 n) (h2 : RB col T2 n) (h3 : RB col T3 n) (h4 : RB col T4 n)
    (n1 : T1.notRed col) (n2 : T2.notRed col) (n3 : T3.notRed col) (n4 : T4.notRed col)
    (hup : CtxRB col up (n + 1))
    (hnd : (up.before ++ (BTree.node (.node T1 a T2) b (.node T3 c T4)).toList ++
      up.after).Nodup)
    (g : Nat) (hg : g = a ∨ g = c) (hcb : col b = red) (hcg : col g = black)
    (hred : ∀ y, (y = a ∨ y = c) → y ≠ g → col y = red) :
    RB (upd (upd col g (col b)) b (col g))
        (.node (.node T1 a T2) b (.node T3 c T4)) (n + 1) ∧
      CtxRB (upd (upd col g (col b)) b (col g)) up (n + 1) := by
  have hab : a ≠ b := by
    intro e
    have := nd_split hnd (A := [a]) (B := [b]) (by
      intro z
      simp only [BTree.toList_node, List.count_append, List.count_cons, List.count_nil]
      omega) a (by simp)
    exact this (by simp [e])
  have hcb' : c ≠ b := by
    intro e
    have := nd_split hnd (A := [c]) (B := [b]) (by
      intro z
      simp only [BTree.toList_node, List.count_append, List.count_cons, List.count_nil]
      omega) c (by simp)
    exact this (by simp [e])
  have hac : a ≠ c := by
    intro e
    have := nd_split hnd (A := [a]) (B := [c]) (by
      intro z
      simp only [BTree.toList_node, List.count_append, List.count_cons, List.count_nil]
      omega) a (by simp)
    exact this (by simp [e])
  have hrest : ∀ y ∈ T1.toList ++ T2.toList ++ T3.toList ++ T4.toList ++ up.before ++ up.after,
      y ∉ [a, b, c] :=
    nd_split hnd (by
      intro z
      simp only [BTree.toList_node, List.count_append, List.count_cons, List.count_nil]
      omega)
  have hgb : g ≠ b := by
    rcases hg with rfl | rfl
    · exact hab
    · exact hcb'
  have hsame : ∀ y ∈ T1.toList ++ T2.toList ++ T3.toList ++ T4.toList ++ up.before ++ up.after,
      upd (upd col g (col b)) b (col g) y = col y := by
    intro y hy
    have := hrest y hy
    simp only [List.mem_cons, List.mem_singleton, List.not_mem_nil, or_false, not_or] at this
    have hyg : y ≠ g := by
      rcases hg with rfl | rfl
      · exact this.1
      · exact this.2.2
    simp [upd, this.2.1, hyg]
  have cb : upd (upd col g (col b)) b (col g) b = black := by simp [upd, hcg]
  have ca : upd (upd col g (col b)) b (col g) a = red := by
    by_cases e : a = g
    · subst e
      simp [upd, hab, hcb]
    · simp [upd, hab, e, hred a (Or.inl rfl) e]
  have cc : upd (upd col g (col b)) b (col g) c = red := by
    by_cases e : c = g
    · subst e
      simp [upd, hcb', hcb]
    · simp [upd, hcb', e, hred c (Or.inr rfl) e]
  have g1 := @RB_congr col _ T1 n
    (fun y hy => hsame y (by simp [hy])) h1
  have g2 := @RB_congr col _ T2 n
    (fun y hy => hsame y (by simp [hy])) h2
  have g3 := @RB_congr col _ T3 n
    (fun y hy => hsame y (by simp [hy])) h3
  have g4 := @RB_congr col _ T4 n
    (fun y hy => hsame y (by simp [hy])) h4
  have m1 := (@notRed_congr col _ T1 (fun y hy => hsame y (by simp [hy]))).2 n1
  have m2 := (@notRed_congr col _ T2 (fun y hy => hsame y (by simp [hy]))).2 n2
  have m3 := (@notRed_congr col _ T3 (fun y hy => hsame y (by simp [hy]))).2 n3
  have m4 := (@notRed_congr col _ T4 (fun y hy => hsame y (by simp [hy]))).2 n4
  refine ⟨rb_black cb (rb_red ca g1 g2 m1 m2) (rb_red cc g3 g4 m3 m4), ?_⟩
  exact CtxRB_congr (fun y hy => hsame y (by
    simp only [List.mem_append] at hy ⊢
    tauto)) hup

theorem notRed_of_redPtr {s : Map K V} {U : BTree} (h : redPtr s U.ptr = false) :
    U.notRed s.color := by
  cases U with
  | nil => trivial
  | node Ul u Ur =>
    show s.color u ≠ red
    simpa [redPtr] using h

/-- What a coloured context says above a red parent: the sibling is coloured
and not red, the grandparent is black, and the context above the parent is
coloured for a black node. -/
theorem CtxRB.above_red_left {col : Nat → Nat} {p n : Nat} {B : BTree} {c' : Ctx}
    (h : CtxRB col (.left p B c') n) (hp : col p = red) :
    RB col B n ∧ B.notRed col ∧ c'.parBlack col ∧ CtxRB col c' n := by
  obtain ⟨h1, h2⟩ := h
  rcases h2 with ⟨h3, _⟩ | ⟨_, h4, h5, h6⟩
  · rw [hp] at h3
    exact absurd h3.symm black_ne_red
  · exact ⟨h1, h4, h5, h6⟩

theorem CtxRB.above_red_right {col : Nat → Nat} {p n : Nat} {A : BTree} {c' : Ctx}
    (h : CtxRB col (.right A p c') n) (hp : col p = red) :
    RB col A n ∧ A.notRed col ∧ c'.parBlack col ∧ CtxRB col c' n := by
  obtain ⟨h1, h2⟩ := h
  rcases h2 with ⟨h3, _⟩ | ⟨_, h4, h5, h6⟩
  · rw [hp] at h3
    exact absurd h3.symm black_ne_red
  · exact ⟨h1, h4, h5, h6⟩

theorem CtxRB.above_black_left {col : Nat → Nat} {g n : Nat} {U : BTree} {up : Ctx}
    (h : CtxRB col (.left g U up) n) (hg : col g = black) :
    RB col U n ∧ CtxRB col up (n + 1) := by
  obtain ⟨h1, h2⟩ := h
  rcases h2 with ⟨_, h4⟩ | ⟨h3, _⟩
  · exact ⟨h1, h4⟩
  · rw [hg] at h3
    exact absurd h3 black_ne_red

theorem CtxRB.above_black_right {col : Nat → Nat} {g n : Nat} {U : BTree} {up : Ctx}
    (h : CtxRB col (.right U g up) n) (hg : col g = black) :
    RB col U n ∧ CtxRB col up (n + 1) := by
  obtain ⟨h1, h2⟩ := h
  rcases h2 with ⟨_, h4⟩ | ⟨h3, _⟩
  · exact ⟨h1, h4⟩
  · rw [hg] at h3
    exact absurd h3 black_ne_red

section

variable [LinearOrder K]

/-- The final test of the loop body keeps the colouring: the new `node` is
blackened only where it is the root of the whole tree. -/
theorem rootFix_rb {s1 : Map K V} {up : Ctx} {l1 r1 : BTree} {y n1 : Nat}
    (hsh : Shape s1 up (.node l1 y r1)) (hX : RB s1.color (.node l1 y r1) n1)
    (hC : CtxRB s1.color up n1) :
    ∃ n2, RB (rootFix s1 up y).color (.node l1 y r1) n2 ∧
      CtxRB (rootFix s1 up y).color up n2 := by
  cases up with
  | top =>
    have hy : y ∉ l1.toList ++ r1.toList := by
      have hnd := hsh.nodup
      have := nd_split hnd (A := [y]) (B := l1.toList ++ r1.toList) (by
        intro z
        simp only [Ctx.before, Ctx.after, BTree.toList_node, List.count_append,
          List.count_cons, List.count_nil]
        omega) y (by simp)
      exact this
    obtain ⟨n2, h2⟩ := rb_blacken hX hy
    exact ⟨n2, h2, trivial⟩
  | left a R up' => exact ⟨n1, hX, hC⟩
  | right L a up' => exact ⟨n1, hX, hC⟩

/-- One pass of the fix-up loop at a red node with a red parent and a
grandparent: the body returns, the new `node` is the root of the subtree two
levels up, and that subtree and the context around it are coloured again. -/
theorem fix_body_rb {s : Map K V} {c : Ctx} {l r : BTree} {x p n : Nat}
    (h : Shape s c (.node l x r)) (hd : 2 ≤ c.depth) (hp : c.par = some p)
    (hx : s.color x = red) (hpr : s.color p = red)
    (hX : RB s.color (.node l x r) n) (hC : CtxRB s.color c n) :
    ∃ s2 up l1 x1 r1 n1, fix_body (KeyOps.std K) s (some x) = .ok (s2, some x1) ∧
      Shape s2 up (.node l1 x1 r1) ∧ up.depth + 2 = c.depth ∧
      RB s2.color (.node l1 x1 r1) n1 ∧ CtxRB s2.color up n1 := by
  have hxl : (s.cell x).isSome = true := h.sub.1
  have hxP : s.parent x = c.par := h.sub.2.2.2.1
  obtain ⟨nl, nr, hl, hr⟩ := hX.of_red hx
  have finish : ∀ {s1 : Map K V} {up : Ctx} {l1 r1 : BTree} {y : Nat},
      fix_cases (KeyOps.std K) s (some x) = .ok (s1, some y) → Shape s1 up (.node l1 y r1) →
      up.depth + 2 = c.depth →
      RB s1.color (.node l1 y r1) (n + 1) ∧ CtxRB s1.color up (n + 1) →
      ∃ s2 up l1 x1 r1 n1, fix_body (KeyOps.std K) s (some x) = .ok (s2, some x1) ∧
        Shape s2 up (.node l1 x1 r1) ∧ up.depth + 2 = c.depth ∧
        RB s2.color (.node l1 x1 r1) n1 ∧ CtxRB s2.color up n1 := by
    intro s1 up l1 r1 y he hsh hdep hrb
    obtain ⟨n2, g1, g2⟩ := rootFix_rb hsh hrb.1 hrb.2
    exact ⟨_, up, l1, y, r1, n2, fix_body_of_cases he hsh, rootFix_shape hsh y, hdep, g1, g2⟩
  cases c with
  | top => simp [Ctx.depth] at hd
  | left p' B c' =>
    simp only [Ctx.par, Option.some.injEq] at hp
    subst hp
    obtain ⟨hB, nB, hpb, hC'⟩ := hC.above_red_left hpr
    cases c' with
    | top => simp [Ctx.depth] at hd
    | left g U up =>
      have hg : s.color g = black := hpb
      obtain ⟨hU, hup⟩ := hC'.above_black_left hg
      have h2 := shape_up_left.1 (shape_up_left.1 h)
      by_cases hred : redPtr s U.ptr = true
      · obtain ⟨Ul, u, Ur, rfl, hu⟩ := redPtr_true hred
        obtain ⟨_, _, hUl, hUr⟩ := hU.of_red hu
        refine finish (fix_cases_left_red h2 hxl hxP hu) (h2.recolor _) (by simp [Ctx.depth]) ?_
        exact rb_recolor_step hX hB hUl hUr hup h2.nodup p' u (Or.inl ⟨rfl, rfl⟩)
      · obtain ⟨s1, he, hsh, _, hcol⟩ := fix_cases_LL h2 (by simpa using hred)
        refine finish he hsh (by simp [Ctx.depth]) ?_
        rw [hcol]
        exact rb_rotate_step hl hr hB hU nl nr nB (notRed_of_redPtr (by simpa using hred)) hup
          hsh.nodup g (Or.inr rfl) hpr hg (by
            rintro y (rfl | rfl) hy
            · exact hx
            · exact absurd rfl hy)
    | right U g up =>
      have hg : s.color g = black := hpb
      obtain ⟨hU, hup⟩ := hC'.above_black_right hg
      have h2 := shape_up_right.1 (shape_up_left.1 h)
      by_cases hred : redPtr s U.ptr = true
      · obtain ⟨Ul, u, Ur, rfl, hu⟩ := redPtr_true hred
        obtain ⟨_, _, hUl, hUr⟩ := hU.of_red hu
        refine finish (fix_cases_right_red h2 hxl hxP hu) (h2.recolor _) (by simp [Ctx.depth]) ?_
        exact rb_recolor_step hUl hUr hX hB hup h2.nodup p' u (Or.inr ⟨rfl, rfl⟩)
      · obtain ⟨s1, he, hsh, _, hcol⟩ := fix_cases_RL h2 (by simpa using hred)
        refine finish he hsh (by simp [Ctx.depth]) ?_
        rw [hcol]
        exact rb_rotate_step hU hl hr hB (notRed_of_redPtr (by simpa using hred)) nl nr nB hup
          hsh.nodup g (Or.inl rfl) hx hg (by
            rintro y (rfl | rfl) hy
            · exact absurd rfl hy
            · exact hpr)
  | right A p' c' =>
    simp only [Ctx.par, Option.some.injEq] at hp
    subst hp
    obtain ⟨hA, nA, hpb, hC'⟩ := hC.above_red_right hpr
    cases c' with
    | top => simp [Ctx.depth] at hd
    | left g U up =>
      have hg : s.color g = black := hpb
      obtain ⟨hU, hup⟩ := hC'.above_black_left hg
      have h2 := shape_up_left.1 (shape_up_right.1 h)
      by_cases hred : redPtr s U.ptr = true
      · obtain ⟨Ul, u, Ur, rfl, hu⟩ := redPtr_true hred
        obtain ⟨_, _, hUl, hUr⟩ := hU.of_red hu
        refine finish (fix_cases_left_red h2 hxl hxP hu) (h2.recolor _) (by simp [Ctx.depth]) ?_
        exact rb_recolor_step hA hX hUl hUr hup h2.nodup p' u (Or.inl ⟨rfl, rfl⟩)
      · obtain ⟨s1, he, hsh, _, hcol⟩ := fix_cases_LR h2 (by simpa using hred)
        refine finish he hsh (by simp [Ctx.depth]) ?_
        rw [hcol]
        exact rb_rotate_step hA hl hr hU nA nl nr (notRed_of_redPtr (by simpa using hred)) hup
          hsh.nodup g (Or.inr rfl) hx hg (by
            rintro y (rfl | rfl) hy
            · exact hpr
            · exact absurd rfl hy)
    | right U g up =>
      have hg : s.color g = black := hpb
      obtain ⟨hU, hup⟩ := hC'.above_black_right hg
      have h2 := shape_up_right.1 (shape_up_right.1 h)
      by_cases hred : redPtr s U.ptr = true
      · obtain ⟨Ul, u, Ur, rfl, hu⟩ := redPtr_true hred
        obtain ⟨_, _, hUl, hUr⟩ := hU.of_red hu
        refine finish (fix_cases_right_red h2 hxl hxP hu) (h2.recolor _) (by simp [Ctx.depth]) ?_
        exact rb_recolor_step hUl hUr hA hX hup h2.nodup p' u (Or.inr ⟨rfl, rfl⟩)
      · obtain ⟨s1, he, hsh, _, hcol⟩ := fix_cases_RR h2 (by simpa using hred)
        refine finish he hsh (by simp [Ctx.depth]) ?_
        rw [hcol]
        exact rb_rotate_step hU hA hl hr (notRed_of_redPtr (by simpa using hred)) nA nl nr hup
          hsh.nodup g (Or.inl rfl) hpr hg (by
            rintro y (rfl | rfl) hy
            · exact absurd rfl hy
            · exact hx)

/-- Whenever `fix_insert` returns from a state in which the subtree at `node`
and the context around it are coloured, the whole tree is coloured. -/
theorem fix_insert_rb (fuel : Nat) {s : Map K V} {c : Ctx} {l r : BTree} {x n : Nat}
    (h : Shape s c (.node l x r)) (hX : RB s.color (.node l x r) n) (hC : CtxRB s.color c n)
    {s' : Map K V} (hrun : fix_insert (KeyOps.std K) fuel s (some x) = .ok s') :
    ∃ t H, Shape s' .top t ∧ RB s'.color t H := by
  induction fuel generalizing s c l r x n with
  | zero => simp [fix_insert] at hrun
  | succ m ih =>
    rw [fix_insert_succ] at hrun
    rcases Nat.eq_zero_or_pos c.depth with h0 | hpos
    · have hc := Ctx.depth_eq_zero h0
      subst hc
      rw [fix_cond_top h] at hrun
      simp only [ok_bind, Bool.false_eq_true, if_false, pure_eq_ok, Except.ok.injEq] at hrun
      subst hrun
      exact ⟨_, n, h, hX⟩
    · obtain ⟨p, hp⟩ := Ctx.par_of_depth hpos
      rw [fix_cond_sub h hp] at hrun
      simp only [ok_bind] at hrun
      split at hrun
      · rename_i hcond
        simp only [Bool.and_eq_true, beq_iff_eq, bne_iff_ne, ne_eq] at hcond
        have hx : s.color x = red := by
          rcases hX.root_color with hb | hr
          · exact absurd hb hcond.1
          · exact hr
        rcases Nat.lt_or_ge c.depth 2 with h1 | h2
        · rw [fix_body_no_grandparent h (by omega)] at hrun
          simp at hrun
        · obtain ⟨s2, up, l1, x1, r1, n1, he, hsh, _, g1, g2⟩ :=
            fix_body_rb h h2 hp hx hcond.2 hX hC
          rw [he] at hrun
          simp only [ok_bind] at hrun
          exact ih hsh g1 g2 hrun
      · rename_i hcond
        simp only [pure_eq_ok, Except.ok.injEq] at hrun
        subst hrun
        simp only [Bool.and_eq_true, beq_iff_eq, bne_iff_ne, ne_eq, not_and, not_not] at hcond
        have hor : (BTree.node l x r).notRed s.color ∨ c.parBlack s.color := by
          by_cases hxb : s.color x = black
          · left
            show s.color x ≠ red
            rw [hxb]
            exact black_ne_red
          · right
            have hpn : s.color p ≠ red := hcond hxb
            cases c with
            | top => trivial
            | left a R up =>
              simp only [Ctx.par, Option.some.injEq] at hp
              subst hp
              rcases hC.2 with ⟨e, _⟩ | ⟨e, _⟩
              · exact e
              · exact absurd e hpn
            | right L a up =>
              simp only [Ctx.par, Option.some.injEq] at hp
              subst hp
              rcases hC.2 with ⟨e, _⟩ | ⟨e, _⟩
              · exact e
              · exact absurd e hpn
        obtain ⟨H, hH⟩ := rb_plug c hX hC hor
        exact ⟨_, H, shape_plug.1 h, hH⟩

end

end

section

variable {K V : Type} [LinearOrder K]

/-! ### Inserts keep the tree coloured -/

/-- Model of `insert_node` on a well-formed state with a coloured tree leaves a
well-formed state with a coloured tree, whenever it returns. -/
theorem insert_node_rb {s : Map K V} {t : BTree} (ht : TreeOK s t)
    (hth : t.toList ≠ [] → ThreadOK s t.toList) {H : Nat} (hrb : RB s.color t H) {k : K} {v : V}
    {fuel : Nat} {r : Ptr × Bool} {s' : Map K V}
    (hrun : insert_node (KeyOps.std K) fuel s k v = .ok (r, s')) :
    ∃ t' H', TreeOK s' t' ∧ RB s'.color t' H' := by
  have hT : ∃ t', TreeOK s' t' := by
    rcases insert_node_spec ht hth hrun with ⟨x, v0, hx, _, _, rfl⟩ | ⟨_, _, t', _, _, h1, _⟩
    · exact ⟨t, ht.new_node_tree k v⟩
    · exact ⟨t', h1⟩
  obtain ⟨t', ht'⟩ := hT
  suffices hs : ∃ t'' H', s'.root = t''.ptr ∧ Rep s' t'' none ∧ RB s'.color t'' H' by
    obtain ⟨t'', H', e1, e2, e3⟩ := hs
    have : t' = t'' := ht'.rep.unique_rep e2 (ht'.root.symm.trans e1)
    subst this
    exact ⟨t', H', ht', e3⟩
  have hfresh : s.brk ∉ t.toList := fun hm => Nat.lt_irrefl _ (ht.below _ hm)
  have hoff := new_node_off s k v
  have hsh0 : Shape (s.new_node k v) .top t := by
    refine ht.shape.off_shape rfl hoff ?_
    intro x hx
    simp only [Ctx.before, Ctx.after, List.nil_append, List.append_nil] at hx
    simp only [List.mem_singleton]
    rintro rfl
    exact hfresh hx
  have hcol0 : ∀ x ∈ t.toList, (s.new_node k v).color x = s.color x := by
    intro x hx
    have : x ≠ s.brk := by rintro rfl; exact hfresh hx
    simp [Map.new_node, upd, this]
  have hrb0 : RB (s.new_node k v).color t H := RB_congr hcol0 hrb
  cases t with
  | nil =>
    have hroot : (s.new_node k v).root = none := ht.root
    simp only [insert_node, hroot, pure_eq_ok, Except.ok.injEq, Prod.mk.injEq] at hrun
    obtain ⟨rfl, rfl⟩ := hrun
    refine ⟨.node .nil s.brk .nil, 1, rfl, ?_, ?_⟩
    · simp [Rep, Map.new_node, upd]
    · exact Or.inl ⟨by simp [upd], 0, rfl, rfl, rfl⟩
  | node l x rr =>
    have hroot : (s.new_node k v).root = some x := ht.root
    simp only [insert_node, hroot] at hrun
    cases hs : insert_search (KeyOps.std K) fuel (s.new_node k v) k (some x) none with
    | error e => rw [hs] at hrun; simp at hrun
    | ok res =>
      rw [hs] at hrun
      simp only [ok_bind] at hrun
      have hbig := insert_search_mono (KeyOps.std K) ((BTree.node l x rr).height + 1) fuel _ _ _ hs
      rcases insert_search_spec (s := s.new_node k v) (k := k) (.node l x rr) .top
          (fuel + ((BTree.node l x rr).height + 1)) hsh0 (by simp [Ctx.before])
          (by simp [Ctx.after]) (by omega) with
        ⟨y, cy, e1, e2, e3, e4⟩ | ⟨d, e1, e2, e3, e4, e5, _, e7⟩
      · have e1' : insert_search (KeyOps.std K) (fuel + ((BTree.node l x rr).height + 1))
            (s.new_node k v) k (some x) none = .ok (.inl y) := e1
        rw [e1'] at hbig
        cases hbig
        simp only [pure_eq_ok, Except.ok.injEq, Prod.mk.injEq] at hrun
        obtain ⟨rfl, rfl⟩ := hrun
        exact ⟨_, H, hsh0.ctx, hsh0.sub, hrb0⟩
      · have e1' : insert_search (KeyOps.std K) (fuel + ((BTree.node l x rr).height + 1))
            (s.new_node k v) k (some x) none = .ok (.inr d.par) := e1
        rw [e1'] at hbig
        cases hbig
        simp only [Ctx.before, Ctx.after, List.nil_append, List.append_nil] at e3
        have hthr : ThreadOK (s.new_node k v) (d.before ++ d.after) := by
          rw [e3]
          have h0 := hth (by simp)
          refine h0.congr ?_ ?_ rfl rfl
          · intro y hy
            have : y ≠ s.brk := by rintro rfl; exact hfresh hy
            simp [Map.new_node, upd, this]
          · intro y hy
            have : y ≠ s.brk := by rintro rfl; exact hfresh hy
            simp [Map.new_node, upd, this]
        obtain ⟨s1, hl1, hsh1, _, _, hcol1, _⟩ :=
          insert_link_spec (a := s.brk) (v := v) e2 (e2.not_top_of_root hroot) e4 e5
            (by rw [e3]; exact hfresh) (by simp [Map.new_node, upd])
            (by simp [Map.new_node, upd]) (by simp [Map.new_node, upd]) hthr
        dsimp only at hrun
        rw [hl1] at hrun
        simp only [ok_bind] at hrun
        cases hfx : fix_insert (KeyOps.std K) fuel s1 (some s.brk) with
        | error e => rw [hfx] at hrun; simp at hrun
        | ok s2 =>
          rw [hfx] at hrun
          simp only [ok_bind, pure_eq_ok, Except.ok.injEq, Prod.mk.injEq] at hrun
          obtain ⟨rfl, rfl⟩ := hrun
          have hplug : d.plug .nil = .node l x rr := by
            have h1 : Shape (s.new_node k v) .top (d.plug .nil) := shape_plug.1 e2
            exact h1.sub.unique_rep hsh0.sub (h1.ctx.symm.trans hsh0.ctx)
          obtain ⟨n, hn1, hn2, _⟩ := rb_unplug d (X := .nil) (hplug ▸ hrb0)
          have hn0 : n = 0 := hn1
          subst hn0
          have hX1 : RB s1.color (.node .nil s.brk .nil) 0 := by
            rw [hcol1]
            exact Or.inr ⟨by simp [Map.new_node, upd], trivial, trivial, rfl, rfl⟩
          have hC1 : CtxRB s1.color d 0 := by
            rw [hcol1]
            exact hn2
          obtain ⟨t'', H', hsh2, hrb2⟩ := fix_insert_rb fuel hsh1 hX1 hC1 hfx
          exact ⟨t'', H', hsh2.ctx, hsh2.sub.frame Fix.rfl Fix.rfl Fix.rfl Fix.rfl, hrb2⟩

/-- A completed run of inserts from a well-formed state with a coloured tree
ends in a well-formed state with a coloured tree. -/
theorem run_inserts_rb (kvs : List (K × V)) :
    ∀ (s : Map K V) (t : BTree) (H : Nat), TreeOK s t → (t.toList ≠ [] → ThreadOK s t.toList) →
      RB s.color t H → ∀ (fuel : Nat) (s' : Map K V),
      Map.run (KeyOps.std K) fuel s (kvs.map Op.insert) = .ok s' →
      ∃ t' H', TreeOK s' t' ∧ RB s'.color t' H' := by
  induction kvs with
  | nil =>
    intro s t H ht _ hrb fuel s' hrun
    simp only [List.map_nil, Map.run, pure_eq_ok, Except.ok.injEq] at hrun
    subst hrun
    exact ⟨t, H, ht, hrb⟩
  | cons kv kvs ih =>
    intro s t H ht hth hrb fuel s' hrun
    simp only [List.map_cons, Map.run] at hrun
    cases hs : s.step (KeyOps.std K) fuel (.insert kv) with
    | error e => rw [hs] at hrun; simp at hrun
    | ok s1 =>
      rw [hs] at hrun
      simp only [ok_bind] at hrun
      obtain ⟨r, hr1⟩ := step_insert_inv hs
      obtain ⟨p, hn, _⟩ := insert_inv hr1
      obtain ⟨t1, H1, ht1, hrb1⟩ := insert_node_rb ht hth hrb hn
      have hwf : s1.WF := Map.Inv.insert_node ⟨t, ht, hth⟩ hn
      obtain ⟨t1', ht1', hth1⟩ := hwf
      have : t1 = t1' := ht1.unique ht1'
      subst this
      exact ih s1 t1 H1 ht1 (fun _ => hth1) hrb1 fuel s' hrun

/-- A red node of a coloured tree realised by the links has no red child: the
nodes its `left` and `right` fields point to, if any, are not red. -/
theorem noRedRed_links {s : Map K V} {t : BTree} {par : Ptr} (hrep : Rep s t par)
    (h : t.noRedRed s.color) :
    ∀ a ∈ t.toList, s.color a = red →
      redPtr s (s.left a) = false ∧ redPtr s (s.right a) = false := by
  induction t generalizing par with
  | nil => intro a ha; simp at ha
  | node l b r ihl ihr =>
    obtain ⟨_, h2, h3, _, h5, h6⟩ := hrep
    obtain ⟨g1, g2, g3⟩ := h
    intro a ha hc
    simp only [BTree.toList_node, List.mem_append, List.mem_cons] at ha
    rcases ha with ha | rfl | ha
    · exact ihl h5 g2 a ha hc
    · obtain ⟨k1, k2⟩ := g1 hc
      rw [h2, h3]
      constructor
      · cases l with
        | nil => rfl
        | node ll la lr =>
          have : s.color la ≠ red := k1
          simp [redPtr, this]
      · cases r with
        | nil => rfl
        | node rl ra rr =>
          have : s.color ra ≠ red := k2
          simp [redPtr, this]
    · exact ihr h6 g3 a ha hc

/-- C11: every run of inserts on a newly constructed map returns, and the
links of the resulting state realise a tree (BST order, parent links, node
count) that satisfies the red-black colouring invariants: the root is black; no
red node has a red child, both in the tree shape and read through the `left`
and `right` fields; and all paths from the root to an absent child contain the
same number of black nodes. -/
theorem C11_inserts_keep_red_black_colouring (f l : Ptr) (m : V) (kvs : List (K × V))
    (fuel : Nat) (hf : kvs.length < fuel) :
    ∃ (s : Map K V) (t : BTree),
      Map.run (KeyOps.std K) fuel (Map.ctor f l m) (kvs.map Op.insert) = .ok s ∧
      TreeOK s t ∧ inorder_walk fuel s s.root = .ok t.toList ∧
      (∀ r, s.root = some r → s.color r = black) ∧
      t.noRedRed s.color ∧
      (∀ a ∈ t.toList, s.color a = red →
        redPtr s (s.left a) = false ∧ redPtr s (s.right a) = false) ∧
      (∀ a ∈ t.toList, s.color a = black ∨ s.color a = red) ∧
      (∀ n ∈ t.blackCounts s.color, ∀ n' ∈ t.blackCounts s.color, n = n') := by
  obtain ⟨s, t, h1, h2, _, h4, h5, _⟩ :=
    run_inserts kvs (Map.ctor f l m) .nil (TreeOK.ctor f l m) (fun h => absurd rfl h)
      (fun r hr => by simp [Map.ctor] at hr) fuel (by
        show 0 + kvs.length < fuel
        omega)
  obtain ⟨t', H, ht', hrb⟩ :=
    run_inserts_rb kvs (Map.ctor f l m) .nil 0 (TreeOK.ctor f l m) (fun h => absurd rfl h)
      (show RB _ .nil 0 from rfl) fuel s h1
  have : t = t' := h2.unique ht'
  subst this
  have hn : s.num_nodes < fuel := by
    have : s.num_nodes ≤ 0 + kvs.length := h5
    omega
  have hwalk : inorder_walk fuel s s.root = .ok t.toList := by
    rw [h2.root]
    exact inorder_walk_spec t none fuel h2.rep (h2.height_lt hn)
  have hcolors : ∀ (u : BTree) (n : Nat), RB s.color u n →
      ∀ a ∈ u.toList, s.color a = black ∨ s.color a = red := by
    intro u
    induction u with
    | nil => intro n _ a ha; simp at ha
    | node ul ua ur ihl ihr =>
      intro n hu a ha
      simp only [BTree.toList_node, List.mem_append, List.mem_cons] at ha
      rcases ha with ha | rfl | ha
      · rcases hu with ⟨_, m, _, e3, _⟩ | ⟨_, _, _, e4, _⟩
        · exact ihl m e3 a ha
        · exact ihl n e4 a ha
      · exact hu.root_color
      · rcases hu with ⟨_, m, _, _, e4⟩ | ⟨_, _, _, _, e5⟩
        · exact ihr m e4 a ha
        · exact ihr n e5 a ha
  refine ⟨s, t, h1, h2, hwalk, h4, hrb.noRedRed, noRedRed_links h2.rep hrb.noRedRed,
    hcolors t H hrb, ?_⟩
  intro n hn n' hn'
  rw [hrb.blackCounts n hn, hrb.blackCounts n' hn']

/-- C11 at a concrete input: five inserts in descending key order, which pass
through recolouring and rotation. -/
theorem C11_inserts_keep_red_black_colouring_witness :
    [((5 : Nat), (0 : Nat)), (4, 0), (3, 0), (2, 0), (1, 0)].length < 10 ∧
    ∃ (s : Map Nat Nat) (t : BTree),
      Map.run (KeyOps.std Nat) 10 (Map.ctor (some 7) (some 9) 0)
        ([((5 : Nat), (0 : Nat)), (4, 0), (3, 0), (2, 0), (1, 0)].map Op.insert) = .ok s ∧
      TreeOK s t ∧ inorder_walk 10 s s.root = .ok t.toList ∧
      (∀ r, s.root = some r → s.color r = black) ∧
      t.noRedRed s.color ∧
      (∀ n ∈ t.blackCounts s.color, ∀ n' ∈ t.blackCounts s.color, n = n') := by
  obtain ⟨s, t, h1, h2, h3, h4, h5, _, _, h8⟩ :=
    C11_inserts_keep_red_black_colouring (some 7) (some 9) (0 : Nat)
      [((5 : Nat), (0 : Nat)), (4, 0), (3, 0), (2, 0), (1, 0)] 10 (by decide)
  exact ⟨by decide, s, t, h1, h2, h3, h4, h5, h8⟩

end

section

variable {K V : Type}

/-! ### Which nodes an operation writes -/

theorem Frame.rfl_frame (D : List Nat) (s : Map K V) : Frame D s s :=
  fun _ _ => ⟨rfl, rfl, rfl, rfl, rfl, rfl, rfl⟩

theorem Frame.trans_frame {D : List Nat} {s1 s2 s3 : Map K V} (h1 : Frame D s1 s2)
    (h2 : Frame D s2 s3) : Frame D s1 s3 := by
  intro x hx
  obtain ⟨a1, a2, a3, a4, a5, a6, a7⟩ := h1 x hx
  obtain ⟨b1, b2, b3, b4, b5, b6, b7⟩ := h2 x hx
  exact ⟨b1.trans a1, b2.trans a2, b3.trans a3, b4.trans a4, b5.trans a5, b6.trans a6,
    b7.trans a7⟩

theorem Frame.mono_frame {D D' : List Nat} {s s' : Map K V} (h : Frame D s s')
    (hD : ∀ x ∈ D, x ∈ D') : Frame D' s s' :=
  fun x hx => h x fun hxD => hx (hD x hxD)

theorem new_node_frame (s : Map K V) (k : K) (v : V) : Frame [s.brk] s (s.new_node k v) := by
  intro x hx
  simp only [List.mem_singleton] at hx
  simp [Map.new_node, upd, hx]

/-- The `next` of a node of a chain that ends in `nullptr` is a node of the
chain. -/
theorem Seg.next_mem {s : Map K V} {p : Ptr} {l : List Nat} (h : Seg s p l none) {x y : Nat}
    (hx : x ∈ l) (hn : s.next x = some y) : y ∈ l := by
  obtain ⟨A, B, rfl⟩ := List.append_of_mem hx
  have h1 := h.mid_next
  rw [hn] at h1
  cases B with
  | nil => simp at h1
  | cons b B =>
    simp only [List.head?_cons, Option.or_some, Option.some.injEq] at h1
    subst h1
    simp

/-- The `prev` of a node of a chain that starts from `nullptr` is a node of the
chain. -/
theorem Seg.prev_mem {s : Map K V} {q : Ptr} {l : List Nat} (h : Seg s none l q) {x y : Nat}
    (hx : x ∈ l) (hp : s.prev x = some y) : y ∈ l := by
  obtain ⟨A, B, rfl⟩ := List.append_of_mem hx
  have h1 := h.mid_prev
  rw [hp] at h1
  cases hA : A.getLast? with
  | none => rw [hA] at h1; simp at h1
  | some a =>
    rw [hA] at h1
    simp only [Option.or_some, Option.some.injEq] at h1
    subst h1
    have := List.mem_of_getLast?_eq_some hA
    simp [this]

/-- Model of `insert_link` writes the new node, its parent, and the thread neighbour of
the parent on the side of the new node. -/
theorem insert_link_frame (o : KeyOps K) {s s' : Map K V} {key : K} {a cp : Nat}
    (h : insert_link o s key (some a) (some cp) = .ok s') :
    ∀ y, y ≠ a → y ≠ cp → s.prev cp ≠ some y → s.next cp ≠ some y →
      s'.cell y = s.cell y ∧ s'.color y = s.color y ∧ s'.parent y = s.parent y ∧
      s'.left y = s.left y ∧ s'.right y = s.right y ∧ s'.next y = s.next y ∧
      s'.prev y = s.prev y := by
  intro y hya hyc hyp hyn
  simp only [insert_link] at h
  cases hcp : s.node (some cp) with
  | error e => rw [hcp] at h; simp at h
  | ok cp' =>
    have hcp' : cp' = cp := by
      simp only [Map.node] at hcp
      split at hcp
      · cases hcp; rfl
      · cases hcp
    subst hcp'
    rw [hcp] at h
    simp only [ok_bind] at h
    cases hk : s.key (some cp') with
    | error e => rw [hk] at h; simp at h
    | ok kcp =>
      rw [hk] at h
      simp only [ok_bind] at h
      cases ha : s.node (some a) with
      | error e => rw [ha] at h; simp at h
      | ok a' =>
        have ha' : a' = a := by
          simp only [Map.node] at ha
          split at ha
          · cases ha; rfl
          · cases ha
        subst ha'
        rw [ha] at h
        simp only [ok_bind] at h
        split at h
        · -- left of the parent
          have hsc : upd s.prev a' (s.prev cp') cp' = s.prev cp' := by
            simp only [upd]
            split <;> rfl
          simp only [hsc] at h
          cases hq : s.prev cp' with
          | none =>
            rw [hq] at h
            simp only [pure_eq_ok, Except.ok.injEq] at h
            subst h
            simp [upd, hya, hyc]
          | some q =>
            rw [hq] at h
            have hyq : y ≠ q := fun e => hyp (by rw [hq, e])
            simp only [Map.node] at h
            split at h
            · simp only [ok_bind, pure_eq_ok, Except.ok.injEq] at h
              subst h
              simp [upd, hya, hyc, hyq]
            · simp at h
        · split at h
          · -- right of the parent
            have hsc : upd s.next a' (s.next cp') cp' = s.next cp' := by
              simp only [upd]
              split <;> rfl
            simp only [hsc] at h
            cases hq : s.next cp' with
            | none =>
              rw [hq] at h
              simp only [pure_eq_ok, Except.ok.injEq] at h
              subst h
              simp [upd, hya, hyc]
            | some q =>
              rw [hq] at h
              have hyq : y ≠ q := fun e => hyn (by rw [hq, e])
              simp only [Map.node] at h
              split at h
              · simp only [ok_bind, pure_eq_ok, Except.ok.injEq] at h
                subst h
                simp [upd, hya, hyc, hyq]
              · simp at h
          · simp only [pure_eq_ok, Except.ok.injEq] at h
            subst h
            exact ⟨rfl, rfl, rfl, rfl, rfl, rfl, rfl⟩

/-- Model of `delete_unthread` writes only thread fields of the two thread neighbours of
the node. -/
theorem delete_unthread_frame {s s' : Map K V} {c : Nat} (h : delete_unthread s c = .ok s') :
    ∀ y, s.next c ≠ some y → s.prev c ≠ some y →
      s'.next y = s.next y ∧ s'.prev y = s.prev y := by
  intro y hyn hyp
  simp only [delete_unthread] at h
  split at h
  · simp only [pure_eq_ok, Except.ok.injEq] at h
    subst h
    exact ⟨rfl, rfl⟩
  · split at h
    · cases hn : s.node (s.next c) with
      | error e => rw [hn] at h; simp at h
      | ok n =>
        rw [hn] at h
        simp only [ok_bind, pure_eq_ok, Except.ok.injEq] at h
        subst h
        have hnn : s.next c = some n := by
          simp only [Map.node] at hn
          split at hn
          · cases hn
          · split at hn
            · cases hn; assumption
            · cases hn
        have hyn' : y ≠ n := fun e => hyn (by rw [hnn, e])
        simp [upd, hyn']
    · split at h
      · cases hp : s.node (s.prev c) with
        | error e => rw [hp] at h; simp at h
        | ok p =>
          rw [hp] at h
          simp only [ok_bind, pure_eq_ok, Except.ok.injEq] at h
          subst h
          have hpp : s.prev c = some p := by
            simp only [Map.node] at hp
            split at hp
            · cases hp
            · split at hp
              · cases hp; assumption
              · cases hp
          have hyp' : y ≠ p := fun e => hyp (by rw [hpp, e])
          simp [upd, hyp']
      · cases hn : s.node (s.next c) with
        | error e => rw [hn] at h; simp at h
        | ok n =>
          rw [hn] at h
          simp only [ok_bind] at h
          have hnn : s.next c = some n := by
            simp only [Map.node] at hn
            split at hn
            · cases hn
            · split at hn
              · cases hn; assumption
              · cases hn
          have hcell : ∀ q, ({ s with prev := upd s.prev n (s.prev c) } : Map K V).node q =
              s.node q := fun q => rfl
          have hprev : ({ s with prev := upd s.prev n (s.prev c) } : Map K V).prev c =
              upd s.prev n (s.prev c) c := rfl
          cases hp : s.node (upd s.prev n (s.prev c) c) with
          | error e =>
            rw [hcell, hp] at h
            simp at h
          | ok p =>
            rw [hcell, hp] at h
            simp only [ok_bind, pure_eq_ok, Except.ok.injEq] at h
            subst h
            have hpp : upd s.prev n (s.prev c) c = some p := by
              simp only [Map.node] at hp
              split at hp
              · cases hp
              · split at hp
                · cases hp; assumption
                · cases hp
            have hpp' : s.prev c = some p := by
              simp only [upd] at hpp
              split at hpp <;> exact hpp
            have hyn' : y ≠ n := fun e => hyn (by rw [hnn, e])
            have hyp' : y ≠ p := fun e => hyp (by rw [hpp', e])
            simp [upd, hyn', hyp']

section

variable [LinearOrder K]

theorem rootFix_off (s : Map K V) (up : Ctx) (x : Nat) (D : List Nat) :
    Off D s (rootFix s up x) := by
  cases up <;> exact fun _ _ => ⟨rfl, rfl, rfl, rfl⟩

/-- Whenever `fix_insert` returns, the links and colours of all nodes outside
the tree are the same as before. -/
theorem fix_insert_frame (fuel : Nat) {s : Map K V} {c : Ctx} {l r : BTree} {x : Nat}
    (h : Shape s c (.node l x r)) {s' : Map K V}
    (hrun : fix_insert (KeyOps.std K) fuel s (some x) = .ok s') :
    Off (c.before ++ (BTree.node l x r).toList ++ c.after) s s' ∧
      ∀ y, y ∉ c.before ++ (BTree.node l x r).toList ++ c.after → s'.color y = s.color y := by
  induction fuel generalizing s c l r x with
  | zero => simp [fix_insert] at hrun
  | succ n ih =>
    have hdone : s' = s → Off (c.before ++ (BTree.node l x r).toList ++ c.after) s s' ∧
        ∀ y, y ∉ c.before ++ (BTree.node l x r).toList ++ c.after →
          s'.color y = s.color y := by
      rintro rfl
      exact ⟨Off.refl_off _ _, fun _ _ => rfl⟩
    rw [fix_insert_succ] at hrun
    rcases Nat.eq_zero_or_pos c.depth with h0 | hpos
    · have hc := Ctx.depth_eq_zero h0
      subst hc
      rw [fix_cond_top h] at hrun
      simp only [ok_bind, Bool.false_eq_true, if_false, pure_eq_ok, Except.ok.injEq] at hrun
      exact hdone hrun.symm
    · obtain ⟨p, hp⟩ := Ctx.par_of_depth hpos
      rw [fix_cond_sub h hp] at hrun
      simp only [ok_bind] at hrun
      split at hrun
      · rcases Nat.lt_or_ge c.depth 2 with h1 | h2
        · rw [fix_body_no_grandparent h (by omega)] at hrun
          simp at hrun
        · obtain ⟨s1, up, l1, x1, r1, he, hsh, _, hlist, _, hcol, _, hoff⟩ :=
            fix_cases_step_off h h2
          rw [fix_body_of_cases he hsh] at hrun
          simp only [ok_bind] at hrun
          obtain ⟨g1, g2⟩ := ih (rootFix_shape hsh x1) hrun
          rw [hlist] at g1 g2
          refine ⟨Off.trans_off (Off.trans_off hoff (rootFix_off _ _ _ _)) g1, ?_⟩
          intro y hy
          have hy1 : y ∉ (BTree.node l1 x1 r1).toList := by
            intro hm
            apply hy
            rw [← hlist]
            simp only [List.mem_append] at hm ⊢
            tauto
          have hyx : y ≠ x1 := by
            rintro rfl
            exact hy1 (by simp)
          rw [g2 y hy, rootFix_color_ne _ _ hyx, hcol y hy1]
      · simp only [pure_eq_ok, Except.ok.injEq] at hrun
        exact hdone hrun.symm

/-- Model of `insert_node` writes only nodes of its own tree and the node it allocates;
the nodes of the new tree are those of the old one and, at most, the new
node. -/
theorem insert_node_frame {s : Map K V} {t : BTree} (ht : TreeOK s t)
    (hth : t.toList ≠ [] → ThreadOK s t.toList) {k : K} {v : V} {fuel : Nat}
    {r : Ptr × Bool} {s' : Map K V}
    (hrun : insert_node (KeyOps.std K) fuel s k v = .ok (r, s')) :
    Frame (s.brk :: t.toList) s s' ∧ s'.brk = s.brk + 1 := by
  have hfresh : s.brk ∉ t.toList := fun hm => Nat.lt_irrefl _ (ht.below _ hm)
  have hoff := new_node_off s k v
  have hfr0 : Frame (s.brk :: t.toList) s (s.new_node k v) :=
    (new_node_frame s k v).mono_frame (by simp)
  have hsh0 : Shape (s.new_node k v) .top t := by
    refine ht.shape.off_shape rfl hoff ?_
    intro x hx
    simp only [Ctx.before, Ctx.after, List.nil_append, List.append_nil] at hx
    simp only [List.mem_singleton]
    rintro rfl
    exact hfresh hx
  cases t with
  | nil =>
    have hroot : (s.new_node k v).root = none := ht.root
    simp only [insert_node, hroot, pure_eq_ok, Except.ok.injEq, Prod.mk.injEq] at hrun
    obtain ⟨rfl, rfl⟩ := hrun
    refine ⟨?_, rfl⟩
    intro x hx
    simp only [BTree.toList_nil, List.mem_singleton] at hx
    simp [Map.new_node, upd, hx]
  | node l x rr =>
    have hroot : (s.new_node k v).root = some x := ht.root
    simp only [insert_node, hroot] at hrun
    cases hs : insert_search (KeyOps.std K) fuel (s.new_node k v) k (some x) none with
    | error e => rw [hs] at hrun; simp at hrun
    | ok res =>
      rw [hs] at hrun
      simp only [ok_bind] at hrun
      have hbig := insert_search_mono (KeyOps.std K) ((BTree.node l x rr).height + 1) fuel _ _ _ hs
      rcases insert_search_spec (s := s.new_node k v) (k := k) (.node l x rr) .top
          (fuel + ((BTree.node l x rr).height + 1)) hsh0 (by simp [Ctx.before])
          (by simp [Ctx.after]) (by omega) with
        ⟨y, cy, e1, e2, e3, e4⟩ | ⟨d, e1, e2, e3, e4, e5, _, e7⟩
      · have e1' : insert_search (KeyOps.std K) (fuel + ((BTree.node l x rr).height + 1))
            (s.new_node k v) k (some x) none = .ok (.inl y) := e1
        rw [e1'] at hbig
        cases hbig
        simp only [pure_eq_ok, Except.ok.injEq, Prod.mk.injEq] at hrun
        obtain ⟨rfl, rfl⟩ := hrun
        exact ⟨hfr0, rfl⟩
      · have e1' : insert_search (KeyOps.std K) (fuel + ((BTree.node l x rr).height + 1))
            (s.new_node k v) k (some x) none = .ok (.inr d.par) := e1
        rw [e1'] at hbig
        cases hbig
        simp only [Ctx.before, Ctx.after, List.nil_append, List.append_nil] at e3
        have hthr : ThreadOK (s.new_node k v) (d.before ++ d.after) := by
          rw [e3]
          have h0 := hth (by simp)
          refine h0.congr ?_ ?_ rfl rfl
          · intro y hy
            have : y ≠ s.brk := by rintro rfl; exact hfresh hy
            simp [Map.new_node, upd, this]
          · intro y hy
            have : y ≠ s.brk := by rintro rfl; exact hfresh hy
            simp [Map.new_node, upd, this]
        obtain ⟨cp, hcp⟩ := e2.not_top_of_root hroot
        have hcpm : cp ∈ d.before ++ d.after := Ctx.par_mem hcp
        obtain ⟨s1, hl1, hsh1, _, _, _, hb1, _⟩ :=
          insert_link_spec (a := s.brk) (v := v) e2 ⟨cp, hcp⟩ e4 e5
            (by rw [e3]; exact hfresh) (by simp [Map.new_node, upd])
            (by simp [Map.new_node, upd]) (by simp [Map.new_node, upd]) hthr
        dsimp only at hrun
        rw [hl1] at hrun
        simp only [ok_bind] at hrun
        cases hfx : fix_insert (KeyOps.std K) fuel s1 (some s.brk) with
        | error e => rw [hfx] at hrun; simp at hrun
        | ok s2 =>
          rw [hfx] at hrun
          simp only [ok_bind, pure_eq_ok, Except.ok.injEq, Prod.mk.injEq] at hrun
          obtain ⟨rfl, rfl⟩ := hrun
          obtain ⟨_, _, _, hsd⟩ := fix_insert_inv fuel hsh1 hfx
          obtain ⟨hoff2, hcol2⟩ := fix_insert_frame fuel hsh1 hfx
          have hlf := insert_link_frame (KeyOps.std K) (hcp ▸ hl1)
          have hL : ∀ y, y ∉ s.brk :: (BTree.node l x rr).toList →
              y ∉ d.before ++ (BTree.node .nil s.brk .nil).toList ++ d.after := by
            intro y hy hm
            apply hy
            rw [← e3]
            simp only [BTree.toList_node, BTree.toList_nil, List.nil_append, List.mem_append,
              List.mem_cons, List.not_mem_nil, or_false] at hm ⊢
            tauto
          refine ⟨?_, ?_⟩
          · intro y hy
            have hy' := hL y hy
            have hya : y ≠ s.brk := fun e => hy (by simp [e])
            have hyt : y ∉ d.before ++ d.after := by
              rw [e3]
              intro hm
              exact hy (List.mem_cons_of_mem _ hm)
            have hyc : y ≠ cp := by
              rintro rfl
              exact hyt hcpm
            have hyp : (s.new_node k v).prev cp ≠ some y := fun e =>
              hyt (hthr.seg.prev_mem hcpm e)
            have hyn : (s.new_node k v).next cp ≠ some y := fun e =>
              hyt (hthr.seg.next_mem hcpm e)
            obtain ⟨a1, a2, a3, a4, a5, a6, a7⟩ := hfr0 y hy
            obtain ⟨b1, b2, b3, b4, b5, b6, b7⟩ := hlf y hya hyc hyp hyn
            obtain ⟨c1, c2, c3, c4⟩ := hoff2 y hy'
            have c5 := hcol2 y hy'
            refine ⟨?_, ?_, ?_, ?_, ?_, ?_, ?_⟩
            · show s2.cell y = _
              rw [c1, b1, a1]
            · show s2.color y = _
              rw [c5, b2, a2]
            · show s2.parent y = _
              rw [c4, b3, a3]
            · show s2.left y = _
              rw [c2, b4, a4]
            · show s2.right y = _
              rw [c3, b5, a5]
            · show s2.next y = _
              rw [hsd.next, b6, a6]
            · show s2.prev y = _
              rw [hsd.prev, b7, a7]
          · show s2.brk = _
            rw [hsd.brk, hb1]
            rfl

/-- Model of `delete_node` for a key that is present writes only nodes of its own
tree. -/
theorem delete_node_frame {s : Map K V} {t : BTree} (ht : TreeOK s t)
    (hth : ThreadOK s t.toList) {k : K} {x : Nat} {v : V} (hx : x ∈ t.toList)
    (hcx : s.cell x = some (k, v)) {fuel : Nat} (hf : s.num_nodes < fuel) :
    ∃ s' : Map K V, delete_node (KeyOps.std K) fuel s k = .ok (true, s') ∧
      Frame t.toList s s' := by
  have hcount := ht.count
  rcases delete_search_spec (s := s) (k := k) t .top fuel false ht.shape (ht.height_lt hf)
      (by simp) with ⟨d, l, y, r, v', lf', e1, e2, e3, e4, e5, e6⟩ | ⟨p, lf', _, e7⟩
  · have hyx : y = x := key_inj ht.sorted e6 hx e3 hcx rfl
    subst hyx
    simp only [Ctx.before, Ctx.after, List.nil_append, List.append_nil, BTree.toList_node] at e4
    have hlist : t.toList = (d.before ++ l.toList) ++ y :: (r.toList ++ d.after) := by
      rw [← e4]; simp
    have hlf : l.height < fuel := by
      have h1 := l.height_le_length
      have h2 : l.toList.length < t.toList.length := by
        rw [hlist]
        simp only [List.length_append, List.length_cons]
        omega
      omega
    obtain ⟨s1, X, u1, u2, u3, u4, u5⟩ := delete_unlink_off e2 e5 hlf
    have hsh1 : Shape s1 .top (d.plug X) := shape_plug.1 u2
    have hpl : (d.plug X).toList = (d.before ++ l.toList) ++ (r.toList ++ d.after) := by
      rw [Ctx.toList_plug, u3]; simp
    have hth1 : ThreadOK s1 ((d.before ++ l.toList) ++ y :: (r.toList ++ d.after)) := by
      rw [← hlist]
      exact hth.congr (fun _ _ => congrFun u4.next _) (fun _ _ => congrFun u4.prev _) u4.first
        u4.last
    have hnd : ((d.before ++ l.toList) ++ y :: (r.toList ++ d.after)).Nodup := by
      rw [← hlist]
      exact Pairwise_klt_nodup ht.sorted
    have hlive1 : ∀ a ∈ (d.before ++ l.toList) ++ y :: (r.toList ++ d.after),
        (s1.cell a).isSome = true := by
      intro a ha
      rw [u4.cell]
      exact ht.rep.live a (by rw [hlist]; exact ha)
    have hroot1 : s1.root = none ↔ (d.before ++ l.toList) ++ (r.toList ++ d.after) = [] := by
      rw [← hpl, BTree.toList_eq_nil, ← BTree.ptr_eq_none]
      have : s1.root = (d.plug X).ptr := hsh1.ctx
      rw [this]
    obtain ⟨s2, w1, w2, w3⟩ := delete_unthread_spec hth1 hnd hlive1 hroot1
    have hyl : (s2.cell y).isSome = true := by
      rw [w3.cell]
      exact hlive1 y (by simp)
    have hym : y ∈ (d.before ++ l.toList) ++ y :: (r.toList ++ d.after) := by simp
    have hw := delete_unthread_frame w1
    refine ⟨{ s2 with cell := upd s2.cell y none, num_nodes := s2.num_nodes - 1 }, ?_, ?_⟩
    · have hs : delete_search (KeyOps.std K) fuel s k s.root none false =
          .ok (some y, d.par, lf') := by
        rw [ht.root]; exact e1
      simp only [delete_node, hs, ok_bind, u1, w1, Map.node_live hyl]
      rfl
    · intro a ha
      have ha1 : a ∉ d.before ++ (BTree.node l y r).toList ++ d.after := by
        intro hm
        apply ha
        rw [hlist]
        simp only [BTree.toList_node, List.mem_append, List.mem_cons] at hm ⊢
        tauto
      have ha2 : a ∉ (d.before ++ l.toList) ++ y :: (r.toList ++ d.after) := by
        rw [← hlist]
        exact ha
      have hay : a ≠ y := by
        rintro rfl
        exact ha2 hym
      obtain ⟨c1, c2, c3, c4⟩ := u5 a ha1
      obtain ⟨d1, d2⟩ := hw a (fun e => ha2 (hth1.seg.next_mem hym e))
        (fun e => ha2 (hth1.seg.prev_mem hym e))
      refine ⟨?_, ?_, ?_, ?_, ?_, ?_, ?_⟩
      · show upd s2.cell y none a = _
        simp only [upd, hay, if_false]
        rw [w3.cell, c1]
      · show s2.color a = _
        rw [w3.color, u4.color]
      · show s2.parent a = _
        rw [w3.parent, c4]
      · show s2.left a = _
        rw [w3.left, c2]
      · show s2.right a = _
        rw [w3.right, c3]
      · show s2.next a = _
        rw [d1, u4.next]
      · show s2.prev a = _
        rw [d2, u4.prev]
  · exact absurd (by simp [Map.keyOf, hcx]) (e7 x hx)

/-- A completed `insert_node` on a well-formed state: the new state is
well-formed, all nodes outside the old tree other than the one allocated are
untouched, and the nodes of the new tree are old ones or the new one. -/
theorem insert_node_own {s : Map K V} {t : BTree} (ht : TreeOK s t)
    (hth : t.toList ≠ [] → ThreadOK s t.toList) {k : K} {v : V} {fuel : Nat}
    {r : Ptr × Bool} {s' : Map K V}
    (hrun : insert_node (KeyOps.std K) fuel s k v = .ok (r, s')) :
    ∃ t', TreeOK s' t' ∧ ThreadOK s' t'.toList ∧ (∀ a ∈ t'.toList, a ∈ s.brk :: t.toList) ∧
      s'.brk = s.brk + 1 ∧ Frame (s.brk :: t.toList) s s' := by
  obtain ⟨hfr, hb⟩ := insert_node_frame ht hth hrun
  rcases insert_node_spec ht hth hrun with
    ⟨x, v0, hx, _, _, rfl⟩ | ⟨_, _, t', A, B, h1, h2, h3, h4, _⟩
  · exact ⟨t, ht.new_node_tree k v, (hth (List.ne_nil_of_mem hx)).new_node_thread ht k v,
      fun a ha => by simp [ha], hb, hfr⟩
  · refine ⟨t', h1, h2, ?_, hb, hfr⟩
    intro a ha
    rw [h4] at ha
    rw [h3]
    simp only [List.mem_append, List.mem_cons] at ha ⊢
    tauto

/-- A completed `delete_node` on a well-formed state: the new state is
well-formed up to the thread of an empty map, all nodes outside the old tree
are untouched, and the nodes of the new tree are old ones. -/
theorem delete_node_own {s : Map K V} {t : BTree} (ht : TreeOK s t)
    (hth : t.toList ≠ [] → ThreadOK s t.toList) {k : K} {fuel : Nat} {b : Bool}
    {s' : Map K V} (hrun : delete_node (KeyOps.std K) fuel s k = .ok (b, s')) :
    ∃ t', TreeOK s' t' ∧ (t'.toList ≠ [] → ThreadOK s' t'.toList) ∧
      (∀ a ∈ t'.toList, a ∈ t.toList) ∧ s'.brk = s.brk ∧ Frame t.toList s s' := by
  have hbig := delete_node_mono (KeyOps.std K) (s.num_nodes + 1) hrun
  rcases classical_key s t k with ⟨x, v, hx, hcx⟩ | habs
  · have hth' := hth (List.ne_nil_of_mem hx)
    obtain ⟨s2, t', A, B, e1, e2, e3, e4, e5, _, _, e8, _⟩ :=
      delete_node_spec ht hth' hx hcx (show s.num_nodes < fuel + (s.num_nodes + 1) by omega)
    obtain ⟨s3, f1, f2⟩ :=
      delete_node_frame ht hth' hx hcx (show s.num_nodes < fuel + (s.num_nodes + 1) by omega)
    rw [e1] at hbig f1
    cases hbig
    cases f1
    refine ⟨t', e2, fun _ => e3, ?_, e8, f2⟩
    intro a ha
    rw [e5] at ha
    rw [e4]
    simp only [List.mem_append, List.mem_cons] at ha ⊢
    tauto
  · have := delete_node_absent ht habs (show s.num_nodes < fuel + (s.num_nodes + 1) by omega)
    rw [this] at hbig
    cases hbig
    exact ⟨t, ht, hth, fun _ ha => ha, rfl, Frame.rfl_frame _ _⟩

end

end

section

variable {K V : Type}

/-! ### Copy construction -/

theorem SameBelow.refl_below (b : Nat) (s : Map K V) : SameBelow b s s :=
  fun _ _ => ⟨rfl, rfl, rfl, rfl, rfl, rfl, rfl⟩

theorem SameBelow.step {b : Nat} {m s s' : Map K V} {D : List Nat} (h : SameBelow b m s)
    (hf : Frame D s s') (hD : ∀ a ∈ D, b ≤ a) : SameBelow b m s' := by
  intro x hx
  have hxD : x ∉ D := fun hm => absurd (hD x hm) (by omega)
  obtain ⟨a1, a2, a3, a4, a5, a6, a7⟩ := h x hx
  obtain ⟨b1, b2, b3, b4, b5, b6, b7⟩ := hf x hxD
  exact ⟨b1.trans a1, b2.trans a2, b3.trans a3, b4.trans a4, b5.trans a5, b6.trans a6,
    b7.trans a7⟩

theorem copy_at {s : Map K V} {l : List Nat} {it : Iterator K V}
    (hlive : ∀ b ∈ l, (s.cell b).isSome = true) (hat : it.At s l) :
    ∃ it', Iterator.copy s it = .ok it' ∧ it'.At s l := by
  obtain ⟨target, val⟩ := it
  obtain ⟨h1, h2⟩ := hat
  simp only at h1
  subst h1
  cases l with
  | nil => exact ⟨⟨none, none⟩, rfl, rfl, by simp⟩
  | cons a l =>
    obtain ⟨kv, hkv⟩ := Option.isSome_iff_exists.1 (hlive a (by simp))
    refine ⟨⟨some a, some kv⟩, ?_, rfl, ?_⟩
    · simp [Iterator.copy, Map.key, Map.value, Map.node, hkv]
    · intro y hy
      simp only [List.head?_cons, Option.some.injEq] at hy
      subst hy
      exact hkv.symm

section

variable [LinearOrder K]

/-- An object whose nodes all lie below `m.brk` is the same map in every store
that agrees with its own below `m.brk`. -/
theorem within_ok {m S : Map K V} {tm : BTree} (hm : TreeOK m tm)
    (hth : ThreadOK m tm.toList) (hs : SameBelow m.brk m S) (hb : m.brk ≤ S.brk) :
    TreeOK (m.within S) tm ∧ ThreadOK (m.within S) tm.toList ∧
      (m.within S).entries tm.toList = m.entries tm.toList := by
  have hlt := hm.below
  refine ⟨⟨hm.root, ?_, ?_, hm.count, ?_⟩, ?_, ?_⟩
  · exact hm.rep.frame (fun a ha => (hs a (hlt a ha)).1)
      (fun a ha => (hs a (hlt a ha)).2.2.2.1) (fun a ha => (hs a (hlt a ha)).2.2.2.2.1)
      (fun a ha => (hs a (hlt a ha)).2.2.1)
  · exact pairwise_klt_congr (fun x hx => (hs x (hlt x hx)).1) hm.sorted
  · intro a ha
    exact lt_of_lt_of_le (hlt a ha) hb
  · exact hth.congr (fun x hx => (hs x (hlt x hx)).2.2.2.2.2.1)
      (fun x hx => (hs x (hlt x hx)).2.2.2.2.2.2) rfl rfl
  · exact entries_congr (fun a ha => (hs a (hlt a ha)).1)

/-- One `insert_node` from a well-formed state with a black root: it returns,
the pair is added iff no pair with its key is held, and only nodes of the tree
and the allocated node are written. -/
theorem insert_node_step {s : Map K V} {t : BTree} (ht : TreeOK s t)
    (hth : t.toList ≠ [] → ThreadOK s t.toList) (hb : s.rootBlack) (kv : K × V) {fuel : Nat}
    (hf : s.num_nodes < fuel) :
    ∃ (r : Ptr × Bool) (s1 : Map K V) (t1 : BTree),
      insert_node (KeyOps.std K) fuel s kv.1 kv.2 = .ok (r, s1) ∧ TreeOK s1 t1 ∧
      ThreadOK s1 t1.toList ∧ s1.rootBlack ∧
      (∀ p, p ∈ s1.entries t1.toList ↔
        (p ∈ s.entries t.toList ∨ (p = kv ∧ ∀ q ∈ s.entries t.toList, q.1 ≠ kv.1))) ∧
      (∀ a ∈ t1.toList, a ∈ s.brk :: t.toList) ∧ s1.brk = s.brk + 1 ∧
      Frame (s.brk :: t.toList) s s1 := by
  obtain ⟨it, b, s1, t1, h1, h2, h3, h4, _, _, h7⟩ := insert_step_entries ht hth hb kv hf
  obtain ⟨p, hp, _⟩ := insert_inv h1
  obtain ⟨t', g1, _, g3, g4, g5⟩ := insert_node_own ht hth hp
  have htt : t' = t1 := g1.unique h2
  subst htt
  exact ⟨_, s1, t', hp, h2, h3, h4, h7, g3, g4, g5⟩

/-- The loop of the range insert, run over the thread of a well-formed map `m`
into a map `S` of the same store whose nodes were all allocated after those of
`m`: it returns, the nodes of `m` are not written, and the pairs held at the end
are those of `m`. -/
theorem insert_range_loop_spec {m : Map K V} {tm : BTree} (hm : TreeOK m tm)
    (hthm : ThreadOK m tm.toList) {fuel : Nat} (hf : m.num_nodes < fuel)
    (re : Iterator K V) (hre : re.target = none) :
    ∀ (rest done : List Nat) (n : Nat) (S : Map K V) (t : BTree) (it : Iterator K V),
      tm.toList = done ++ rest → rest.length < n →
      TreeOK S t → (t.toList ≠ [] → ThreadOK S t.toList) → S.rootBlack →
      (∀ a ∈ t.toList, m.brk ≤ a) → m.brk ≤ S.brk → SameBelow m.brk m S →
      S.entries t.toList = m.entries done → it.At S rest →
      ∃ (S' : Map K V) (t' : BTree),
        insert_range_loop (KeyOps.std K) fuel n S it re = .ok S' ∧
        TreeOK S' t' ∧ (t'.toList ≠ [] → ThreadOK S' t'.toList) ∧ S'.rootBlack ∧
        (∀ a ∈ t'.toList, m.brk ≤ a) ∧ m.brk ≤ S'.brk ∧ SameBelow m.brk m S' ∧
        S'.entries t'.toList = m.entries tm.toList := by
  intro rest
  induction rest with
  | nil =>
    intro done n S t it hl hn ht hth hb hown hbrk hsame hent hat
    match n, hn with
    | n + 1, _ =>
      have h0 : it.target = none := hat.1
      refine ⟨S, t, ?_, ht, hth, hb, hown, hbrk, hsame, ?_⟩
      · simp [insert_range_loop, h0, hre]
      · rw [hent, hl]
        simp
  | cons x rest ih =>
    intro done n S t it hl hn ht hth hb hown hbrk hsame hent hat
    match n, hn with
    | n + 1, hn =>
      have hsub : ∀ a ∈ x :: rest, a ∈ tm.toList := by
        intro a ha
        rw [hl]
        exact List.mem_append_right _ ha
      have hxm : x ∈ tm.toList := hsub x (by simp)
      obtain ⟨kv, hkv⟩ := Option.isSome_iff_exists.1 (hm.rep.live x hxm)
      have hSx : S.cell x = some kv := by
        rw [(hsame x (hm.below x hxm)).1]
        exact hkv
      have h0 : it.target = some x := hat.1
      have hlen : S.num_nodes ≤ done.length := by
        rw [ht.count, ← entries_length ht.rep.live, hent]
        exact List.length_filterMap_le _ _
      have hdl : done.length < tm.toList.length := by
        rw [hl]
        simp
      have hfuel : S.num_nodes < fuel := by
        have := hm.count
        omega
      obtain ⟨r, S1, t1, e1, e2, e3, e4, e5, e6, e7, e8⟩ := insert_node_step ht hth hb kv hfuel
      have hD : ∀ a ∈ S.brk :: t.toList, m.brk ≤ a := by
        intro a ha
        rcases List.mem_cons.1 ha with rfl | ha
        · exact hbrk
        · exact hown a ha
      have hsame1 : SameBelow m.brk m S1 := hsame.step e8 hD
      have hseg : Seg S1 (done.getLast?.or none) (x :: rest) none := by
        have h1 : Seg m none (done ++ x :: rest) none := hl ▸ hthm.seg
        have h2 := ((Seg_append m none none done (x :: rest)).1 h1).2
        exact h2.frame_seg (fun a ha => (hsame1 a (hm.below a (hsub a ha))).2.2.2.2.2.1)
          (fun a ha => (hsame1 a (hm.below a (hsub a ha))).2.2.2.2.2.2)
      have hlive1 : ∀ b ∈ x :: rest, (S1.cell b).isSome = true := by
        intro b hb'
        rw [(hsame1 b (hm.below b (hsub b hb'))).1]
        exact hm.rep.live b (hsub b hb')
      have hat1 : it.At S1 (x :: rest) := by
        refine ⟨hat.1, ?_⟩
        intro y hy
        simp only [List.head?_cons, Option.some.injEq] at hy
        subst hy
        rw [hat.2 x rfl, (hsame1 x (hm.below x hxm)).1, (hsame x (hm.below x hxm)).1]
      obtain ⟨it', i1, i2⟩ := incr_at hseg hlive1 hat1
      have hmx : m.entries (done ++ [x]) = m.entries done ++ [kv] := by
        rw [entries_append, entries_cons hkv]
        simp [Map.entries]
      have hsorted_m : (m.entries (done ++ [x])).Pairwise (fun p q => p.1 < q.1) := by
        apply entries_sorted
        have hs1 : (done ++ [x]).Sublist tm.toList := by
          rw [hl]
          exact List.Sublist.append_left (by simp) done
        exact hm.sorted.sublist hs1
      have hno : ∀ q ∈ m.entries done, q.1 ≠ kv.1 := by
        intro q hq
        rw [hmx] at hsorted_m
        exact ne_of_lt ((List.pairwise_append.1 hsorted_m).2.2 q hq kv (by simp))
      have hent1 : S1.entries t1.toList = m.entries (done ++ [x]) := by
        apply sorted_ext (entries_sorted e2.sorted) hsorted_m
        intro p
        rw [e5, hent, hmx]
        simp only [List.mem_append, List.mem_singleton]
        constructor
        · rintro (h | ⟨h, _⟩)
          · exact Or.inl h
          · exact Or.inr h
        · rintro (h | h)
          · exact Or.inl h
          · exact Or.inr ⟨h, hno⟩
      obtain ⟨S', t', f1, f2⟩ := ih (done ++ [x]) n S1 t1 it' (by rw [hl]; simp)
        (by simpa using hn) e2 (fun _ => e3) e4 (fun a ha => hD a (e6 a ha)) (by omega) hsame1
        hent1 i2
      refine ⟨S', t', ?_, f2⟩
      simp only [insert_range_loop, h0, hre, deref_at hat hSx, e1, post_incr_eq, i1, ok_bind]
      simpa using f1

/-- The copy constructor on a well-formed map returns a well-formed map with a
black root that holds the pairs of the source, built of nodes allocated after
those of the source; the nodes of the source are not written. -/
theorem copy_ctor_spec {m : Map K V} {tm : BTree} (hm : TreeOK m tm)
    (hthm : ThreadOK m tm.toList) (f l : Ptr) (d : V) {fuel n : Nat}
    (hf : m.num_nodes < fuel) (hn : m.num_nodes < n) :
    ∃ (c : Map K V) (t : BTree),
      Map.copy_ctor (KeyOps.std K) fuel n f l d m = .ok c ∧
      TreeOK c t ∧ (t.toList ≠ [] → ThreadOK c t.toList) ∧ c.rootBlack ∧
      (∀ a ∈ t.toList, m.brk ≤ a) ∧ m.brk ≤ c.brk ∧ SameBelow m.brk m c ∧
      c.entries t.toList = m.entries tm.toList := by
  obtain ⟨it, b1, b2⟩ := begin_at hthm hm.rep.live
  obtain ⟨c0, hc0⟩ : ∃ c0 : Map K V, c0 =
      { m with root := none, num_nodes := 0, first := f, last := l, mapped := d } := ⟨_, rfl⟩
  have hlive0 : ∀ b ∈ tm.toList, (c0.cell b).isSome = true := by
    subst hc0
    exact hm.rep.live
  have hat0 : it.At c0 tm.toList := by
    subst hc0
    exact b2
  obtain ⟨it1, c1, c2⟩ := copy_at hlive0 hat0
  obtain ⟨it2, c3, c4⟩ := copy_at hlive0 c2
  have ht0 : TreeOK c0 .nil := by
    subst hc0
    exact ⟨rfl, trivial, List.Pairwise.nil, rfl, by simp⟩
  have hbrk0 : c0.brk = m.brk := by
    subst hc0
    rfl
  have hsame0 : SameBelow m.brk m c0 := by
    subst hc0
    exact SameBelow.refl_below _ _
  have hroot0 : c0.rootBlack := by
    subst hc0
    intro r hr
    cases hr
  obtain ⟨S', t', g1, g2⟩ := insert_range_loop_spec hm hthm hf ⟨none, none⟩ rfl tm.toList []
    n c0 .nil it2 (by simp) (by rw [← hm.count]; exact hn) ht0 (fun h => absurd rfl h)
    hroot0 (by simp) (le_of_eq hbrk0.symm) hsame0 (by simp [Map.entries]) c4
  refine ⟨S', t', ?_, g2⟩
  subst hc0
  simp only [Map.copy_ctor, b1, Map.end, Iterator.ctor, ok_bind, pure_eq_ok, Map.insert_range,
    c1, c3]
  exact g1

/-- Operations on a map whose nodes were all allocated at or after the address
`b` write no node below `b`. -/
theorem run_below {m : Map K V} (ops : List (Op K V)) :
    ∀ (S : Map K V) (t : BTree) (fuel : Nat) (S' : Map K V),
      TreeOK S t → (t.toList ≠ [] → ThreadOK S t.toList) → (∀ a ∈ t.toList, m.brk ≤ a) →
      m.brk ≤ S.brk → SameBelow m.brk m S →
      Map.run (KeyOps.std K) fuel S ops = .ok S' → m.brk ≤ S'.brk ∧ SameBelow m.brk m S' := by
  induction ops with
  | nil =>
    intro S t fuel S' ht hth hown hbrk hsame hrun
    simp only [Map.run, pure_eq_ok, Except.ok.injEq] at hrun
    subst hrun
    exact ⟨hbrk, hsame⟩
  | cons op ops ih =>
    intro S t fuel S' ht hth hown hbrk hsame hrun
    simp only [Map.run] at hrun
    cases hstep : S.step (KeyOps.std K) fuel op with
    | error e => rw [hstep] at hrun; simp at hrun
    | ok S1 =>
      rw [hstep] at hrun
      simp only [ok_bind] at hrun
      have hD : ∀ a ∈ S.brk :: t.toList, m.brk ≤ a := by
        intro a ha
        rcases List.mem_cons.1 ha with rfl | ha
        · exact hbrk
        · exact hown a ha
      cases op with
      | insert kv =>
        obtain ⟨r, hi⟩ := step_insert_inv hstep
        obtain ⟨p, hp, _⟩ := insert_inv hi
        obtain ⟨t1, g1, g2, g3, g4, g5⟩ := insert_node_own ht hth hp
        exact ih S1 t1 fuel S' g1 (fun _ => g2) (fun a ha => hD a (g3 a ha)) (by omega)
          (hsame.step g5 hD) hrun
      | erase k =>
        obtain ⟨b, hb⟩ := erase_inv hstep
        obtain ⟨t1, g1, g2, g3, g4, g5⟩ := delete_node_own ht hth hb
        exact ih S1 t1 fuel S' g1 g2 (fun a ha => hown a (g3 a ha)) (by omega)
          (hsame.step g5 hown) hrun

theorem zip_self_all [LinearOrder V] (ps : List (K × V)) :
    ((ps.zip ps).all fun p => !(ValOps.std V).ne p.1.2 p.2.2) = true := by
  induction ps with
  | nil => rfl
  | cons p ps ih =>
    simp only [List.zip_cons_cons, List.all_cons, ih, Bool.and_true]
    simp [ValOps.std]

end

end

section

variable {K V : Type}

/-- C14: let `m` be a non-empty map reached by completed operations.  The copy
constructor `Map(const Map&)` applied to `m` returns a map `c`, built in the
store of `m` out of newly allocated nodes; forward iteration over `c` and over
`m` yields the same sequence `ps` of pairs, in strictly ascending key order;
`c.size() = m.size()`; `c == m` returns `true`; `m`, seen in the store after
the construction, still iterates to `ps`.  Every `insert` and every `erase` on
`c` returns, and after it, as after any sequence of operations on `c` that
completes, `m` seen in the store of the result iterates to `ps` and has its
size. -/
theorem C14_copy_is_equal_and_independent [LinearOrder K] [LinearOrder V] (m : Map K V)
    (hr : Reachable m) (hne : m.size ≠ 0) (f l : Ptr) (d : V) (fuel n : Nat)
    (hf : m.size + 1 < fuel) (hn : m.size < n) :
    ∃ (c : Map K V) (ps : List (K × V)),
      Map.copy_ctor (KeyOps.std K) fuel n f l d m = .ok c ∧
      m.to_list fuel = .ok ps ∧ c.to_list fuel = .ok ps ∧
      ps.Pairwise (fun p q => p.1 < q.1) ∧
      c.size = m.size ∧
      Map.eq (ValOps.std V) fuel c (m.within c) = .ok true ∧
      (m.within c).to_list fuel = .ok ps ∧
      (∀ kv : K × V, ∃ (r : Iterator K V × Bool) (c' : Map K V),
        c.insert (KeyOps.std K) fuel kv = .ok (r, c') ∧
          (m.within c').to_list fuel = .ok ps ∧ (m.within c').size = m.size) ∧
      (∀ k : K, ∃ c' : Map K V, c.erase (KeyOps.std K) fuel k = .ok c' ∧
          (m.within c').to_list fuel = .ok ps ∧ (m.within c').size = m.size) ∧
      ∀ (ops : List (Op K V)) (fuel' : Nat) (c' : Map K V),
        Map.run (KeyOps.std K) fuel' c ops = .ok c' →
          (m.within c').to_list fuel = .ok ps ∧ (m.within c').size = m.size := by
  simp only [Map.size] at hne hf hn ⊢
  obtain ⟨tm, hm, hthm⟩ := reachable_wf hr hne
  obtain ⟨c, t, h1, h2, h3, h4, h5, h6, h7, h8⟩ :=
    copy_ctor_spec hm hthm f l d (show m.num_nodes < fuel by omega) hn
  have hlm : (m.entries tm.toList).length = m.num_nodes := by
    rw [entries_length hm.rep.live, hm.count]
  have hlc : (c.entries t.toList).length = c.num_nodes := by
    rw [entries_length h2.rep.live, h2.count]
  have hsize : c.num_nodes = m.num_nodes := by
    rw [← hlc, h8, hlm]
  have htne : t.toList ≠ [] := by
    intro h0
    have := h2.count
    rw [h0] at this
    simp only [List.length_nil] at this
    omega
  have hthc := h3 htne
  have hseen : ∀ c' : Map K V, m.brk ≤ c'.brk → SameBelow m.brk m c' →
      (m.within c').to_list fuel = .ok (m.entries tm.toList) ∧
        (m.within c').num_nodes = m.num_nodes := by
    intro c' hb hs
    obtain ⟨w1, w2, w3⟩ := within_ok hm hthm hs hb
    refine ⟨?_, rfl⟩
    rw [← w3]
    exact to_list_spec w2 w1.rep.live (by rw [← hm.count]; exact hf)
  have hrun : ∀ (ops : List (Op K V)) (fuel' : Nat) (c' : Map K V),
      Map.run (KeyOps.std K) fuel' c ops = .ok c' →
        (m.within c').to_list fuel = .ok (m.entries tm.toList) ∧
          (m.within c').num_nodes = m.num_nodes := by
    intro ops fuel' c' hrun
    obtain ⟨g1, g2⟩ := run_below ops c t fuel' c' h2 h3 h5 h6 h7 hrun
    exact hseen c' g1 g2
  obtain ⟨w1, w2, w3⟩ := within_ok hm hthm h7 h6
  refine ⟨c, m.entries tm.toList, h1, ?_, ?_, entries_sorted hm.sorted, hsize, ?_,
    (hseen c h6 h7).1, ?_, ?_, hrun⟩
  · exact to_list_spec hthm hm.rep.live (by rw [← hm.count]; exact hf)
  · rw [← h8]
    exact to_list_spec hthc h2.rep.live (by rw [← h2.count, hsize]; exact hf)
  · have h := eq_spec (ValOps.std V) hthc w2 h2.rep.live w1.rep.live h2.count w1.count
      (show c.num_nodes < fuel by omega)
    rw [h, h8, w3, zip_self_all]
    have : c.size = (m.within c).size := hsize
    simp [this]
  · intro kv
    obtain ⟨it, b, c', t', e1, _⟩ := insert_step_entries h2 h3 h4 kv
      (show c.num_nodes < fuel by omega)
    refine ⟨(it, b), c', e1, hrun [.insert kv] fuel c' ?_⟩
    simp [Map.run, Map.step, e1]
  · intro k
    have hex : ∃ (b : Bool) (c' : Map K V),
        delete_node (KeyOps.std K) fuel c k = .ok (b, c') := by
      rcases classical_key c t k with ⟨x, v, hx, hcx⟩ | habs
      · obtain ⟨c', _, _, _, e1, _⟩ := delete_node_spec h2 hthc hx hcx
          (show c.num_nodes < fuel by omega)
        exact ⟨true, c', e1⟩
      · exact ⟨false, c, delete_node_absent h2 habs (show c.num_nodes < fuel by omega)⟩
    obtain ⟨b, c', e1⟩ := hex
    have he : c.erase (KeyOps.std K) fuel k = .ok c' := by
      simp [Map.erase, e1]
    refine ⟨c', he, hrun [.erase k] fuel c' ?_⟩
    simp [Map.run, Map.step, he]

/-- C14 at a concrete input: the copy of the map holding `(1, 10)` and
`(2, 20)`. -/
theorem C14_copy_is_equal_and_independent_witness :
    Reachable (demo [.insert (1, 10), .insert (2, 20)]) ∧
    (demo [.insert (1, 10), .insert (2, 20)]).size ≠ 0 ∧
    ∃ (c : Map Nat Nat) (ps : List (Nat × Nat)),
      Map.copy_ctor (KeyOps.std Nat) 5 5 none none 0 (demo [.insert (1, 10), .insert (2, 20)])
        = .ok c ∧
      (demo [.insert (1, 10), .insert (2, 20)]).to_list 5 = .ok ps ∧
      c.to_list 5 = .ok ps ∧
      ps.Pairwise (fun p q => p.1 < q.1) ∧
      c.size = (demo [.insert (1, 10), .insert (2, 20)]).size ∧
      Map.eq (ValOps.std Nat) 5 c ((demo [.insert (1, 10), .insert (2, 20)]).within c)
        = .ok true ∧
      ((demo [.insert (1, 10), .insert (2, 20)]).within c).to_list 5 = .ok ps ∧
      (∀ kv : Nat × Nat, ∃ (r : Iterator Nat Nat × Bool) (c' : Map Nat Nat),
        c.insert (KeyOps.std Nat) 5 kv = .ok (r, c') ∧
          ((demo [.insert (1, 10), .insert (2, 20)]).within c').to_list 5 = .ok ps ∧
          ((demo [.insert (1, 10), .insert (2, 20)]).within c').size
            = (demo [.insert (1, 10), .insert (2, 20)]).size) ∧
      (∀ k : Nat, ∃ c' : Map Nat Nat, c.erase (KeyOps.std Nat) 5 k = .ok c' ∧
          ((demo [.insert (1, 10), .insert (2, 20)]).within c').to_list 5 = .ok ps ∧
          ((demo [.insert (1, 10), .insert (2, 20)]).within c').size
            = (demo [.insert (1, 10), .insert (2, 20)]).size) ∧
      ∀ (ops : List (Op Nat Nat)) (fuel' : Nat) (c' : Map Nat Nat),
        Map.run (KeyOps.std Nat) fuel' c ops = .ok c' →
          ((demo [.insert (1, 10), .insert (2, 20)]).within c').to_list 5 = .ok ps ∧
          ((demo [.insert (1, 10), .insert (2, 20)]).within c').size
            = (demo [.insert (1, 10), .insert (2, 20)]).size := by
  have hr : Reachable (demo [.insert (1, 10), .insert (2, 20)]) :=
    demo_reachable [.insert (1, 10), .insert (2, 20)] rfl
  exact ⟨hr, by decide,
    C14_copy_is_equal_and_independent _ hr (by decide) none none 0 5 5 (by decide) (by decide)⟩

end

section

/-!
Model, third part

Stepping a reverse iterator backwards, writing through a dereferenced iterator,
and the height of the pointer structure (`src/Map.hpp`, classes `Iterator`,
`ConstIterator`, `ReverseIterator`).
-/

variable {K V : Type}

end

section

variable {K V : Type}

/-! ### Height of a coloured tree -/

/-- The height walk of a well-formed tree returns the height of its shape. -/
theorem height_walk_spec {s : Map K V} (t : BTree) :
    ∀ (p : Ptr) (fuel : Nat), Rep s t p → t.height < fuel →
      height_walk fuel s t.ptr = .ok t.height := by
  induction t with
  | nil =>
    intro p fuel _ hf
    cases fuel with
    | zero => simp at hf
    | succ n => simp [height_walk, BTree.height]
  | node l a r ihl ihr =>
    intro p fuel h hf
    cases fuel with
    | zero => simp at hf
    | succ n =>
      obtain ⟨h1, h2, h3, _, h5, h6⟩ := h
      simp only [BTree.height] at hf
      have el := ihl (some a) n h5 (by omega)
      have er := ihr (some a) n h6 (by omega)
      simp [height_walk, Map.node, h1, h2, h3, el, er, BTree.height]

/-- A tree coloured with black height `n` has at least `2 ^ n - 1` nodes. -/
theorem rb_size {col : Nat → Nat} (t : BTree) :
    ∀ n, RB col t n → 2 ^ n ≤ t.toList.length + 1 := by
  induction t with
  | nil =>
    intro n h
    have : n = 0 := h
    subst this
    simp
  | node l a r ihl ihr =>
    intro n h
    simp only [BTree.toList_node, List.length_append, List.length_cons]
    rcases h with ⟨_, m, rfl, hl, hr⟩ | ⟨_, _, _, hl, _⟩
    · have e1 := ihl m hl
      have e2 := ihr m hr
      rw [pow_succ]
      omega
    · have e1 := ihl n hl
      omega

/-- A tree coloured with black height `n` has height at most `2 * n + 1`, and
at most `2 * n` when its root is not red. -/
theorem rb_height {col : Nat → Nat} (t : BTree) :
    ∀ n, RB col t n → t.height ≤ 2 * n + 1 ∧ (t.notRed col → t.height ≤ 2 * n) := by
  induction t with
  | nil =>
    intro n _
    simp [BTree.height]
  | node l a r ihl ihr =>
    intro n h
    simp only [BTree.height]
    rcases h with ⟨_, m, rfl, hl, hr⟩ | ⟨hred, nl, nr, hl, hr⟩
    · have e1 := (ihl m hl).1
      have e2 := (ihr m hr).1
      constructor
      · omega
      · intro _
        omega
    · have e1 := (ihl n hl).2 nl
      have e2 := (ihr n hr).2 nr
      constructor
      · omega
      · intro hn
        exact absurd hred hn

/-- A coloured tree whose root is not red has height at most twice the binary
logarithm of its number of nodes plus one. -/
theorem rb_height_log {col : Nat → Nat} {t : BTree} {n : Nat} (h : RB col t n)
    (hroot : t.notRed col) :
    t.height ≤ 2 * Nat.log 2 (t.toList.length + 1) ∧
      2 ^ ((t.height + 1) / 2) ≤ t.toList.length + 1 ∧
      (t.height : ℝ) ≤ 2 * Real.logb 2 ((t.toList.length : ℝ) + 1) := by
  have h1 := rb_size t n h
  have h2 := (rb_height t n h).2 hroot
  have h3 : n ≤ Nat.log 2 (t.toList.length + 1) := Nat.le_log_of_pow_le (by decide) h1
  have h4 : (t.height + 1) / 2 ≤ n := by omega
  refine ⟨by omega, le_trans (Nat.pow_le_pow_right (by decide) h4) h1, ?_⟩
  have h5 : ((2 : ℝ) ^ n) ≤ (t.toList.length : ℝ) + 1 := by
    have : ((2 ^ n : ℕ) : ℝ) ≤ ((t.toList.length + 1 : ℕ) : ℝ) := Nat.cast_le.2 h1
    simpa using this
  have h6 : (n : ℝ) ≤ Real.logb 2 ((t.toList.length : ℝ) + 1) := by
    rw [Real.le_logb_iff_rpow_le (by norm_num) (by positivity)]
    simpa using h5
  have h7 : (t.height : ℝ) ≤ 2 * (n : ℝ) := by
    have : ((t.height : ℕ) : ℝ) ≤ ((2 * n : ℕ) : ℝ) := Nat.cast_le.2 h2
    simpa using this
  linarith

/-! ### Trichotomy of the comparison operators -/

/-- Over a linearly ordered element type exactly one of `xs < ys`, `xs = ys`,
`ys < xs` holds for `lexLt`. -/
theorem lexLt_trichotomy {α : Type} [LinearOrder α] (xs : List α) :
    ∀ ys : List α,
      (lexLt (fun a b => decide (a < b)) xs ys = true ∧ xs ≠ ys ∧
        lexLt (fun a b => decide (a < b)) ys xs = false) ∨
      (lexLt (fun a b => decide (a < b)) xs ys = false ∧ xs = ys ∧
        lexLt (fun a b => decide (a < b)) ys xs = false) ∨
      (lexLt (fun a b => decide (a < b)) xs ys = false ∧ xs ≠ ys ∧
        lexLt (fun a b => decide (a < b)) ys xs = true) := by
  induction xs with
  | nil =>
    intro ys
    cases ys with
    | nil => right; left; simp [lexLt]
    | cons y ys => left; simp [lexLt]
  | cons x xs ih =>
    intro ys
    cases ys with
    | nil => right; right; simp [lexLt]
    | cons y ys =>
      rcases lt_trichotomy x y with h | h | h
      · left
        have h' : ¬ y < x := not_lt.2 (le_of_lt h)
        have hne : x ≠ y := ne_of_lt h
        simp [lexLt, h, h', hne]
      · subst h
        have := ih ys
        simpa [lexLt] using this
      · right; right
        have h' : ¬ x < y := not_lt.2 (le_of_lt h)
        have hne : x ≠ y := ne_of_gt h
        simp [lexLt, h, h', hne]

section

variable [LinearOrder K] [LinearOrder V]

/-- On two well-formed maps `a < b`, `a == b` and `b < a` all return, and
exactly one of them returns `true`. -/
theorem lt_eq_trichotomy {a b : Map K V} (ha : a.WF) (hb : b.WF) {fuel : Nat}
    (hfa : a.size + 1 < fuel) (hfb : b.size + 1 < fuel) :
    ∃ r1 r2 r3 : Bool, Map.lt (ValOps.std V) fuel a b = .ok r1 ∧
      Map.eq (ValOps.std V) fuel a b = .ok r2 ∧ Map.lt (ValOps.std V) fuel b a = .ok r3 ∧
      ((r1 = true ∧ r2 = false ∧ r3 = false) ∨ (r1 = false ∧ r2 = true ∧ r3 = false) ∨
        (r1 = false ∧ r2 = false ∧ r3 = true)) := by
  obtain ⟨la, lb, e1, e2, e3, e4, e5, _⟩ := lt_lex ha hb hfa hfb
  obtain ⟨lb', la', f1, f2, _, _, f5, _⟩ := lt_lex hb ha hfb hfa
  obtain ⟨la'', lb'', r, g1, g2, _, _, g5, g6⟩ := eq_values ha hb hfa hfb
  rw [e2] at f1
  rw [e1] at f2 g1
  rw [e2] at g2
  cases f1
  cases f2
  cases g1
  cases g2
  refine ⟨_, r, _, e5, g5, f5, ?_⟩
  have hlen : la.map Prod.snd = lb.map Prod.snd → a.size = b.size := by
    intro h
    have := congrArg List.length h
    simp only [List.length_map] at this
    omega
  rcases lexLt_trichotomy (la.map Prod.snd) (lb.map Prod.snd) with
    ⟨h1, h2, h3⟩ | ⟨h1, h2, h3⟩ | ⟨h1, h2, h3⟩
  · refine Or.inl ⟨h1, ?_, h3⟩
    exact Bool.eq_false_iff.2 fun hr => h2 (g6.1 hr).2
  · refine Or.inr (Or.inl ⟨h1, ?_, h3⟩)
    exact g6.2 ⟨hlen h2, h2⟩
  · refine Or.inr (Or.inr ⟨h1, ?_, h3⟩)
    exact Bool.eq_false_iff.2 fun hr => h2 (g6.1 hr).2

end

section

variable [LinearOrder K]

/-- A completed `delete_node` writes no colour. -/
theorem delete_node_color {s s' : Map K V} (h : s.Inv) {fuel : Nat} {k : K} {b : Bool}
    (hrun : delete_node (KeyOps.std K) fuel s k = .ok (b, s')) : s'.color = s.color := by
  obtain ⟨t, ht, hth⟩ := h
  have hbig := delete_node_mono (KeyOps.std K) (s.num_nodes + 1) hrun
  rcases classical_key s t k with ⟨x, v, hx, hcx⟩ | habs
  · obtain ⟨s2, t', A, B, e1, _, _, _, _, _, _, _, _, e10⟩ :=
      delete_node_spec ht (hth (List.ne_nil_of_mem hx)) hx hcx
        (show s.num_nodes < fuel + (s.num_nodes + 1) by omega)
    rw [e1] at hbig
    cases hbig
    exact e10
  · have := delete_node_absent ht habs (show s.num_nodes < fuel + (s.num_nodes + 1) by omega)
    rw [this] at hbig
    cases hbig
    rfl

end

/-! ### Stepping back from a sentinel -/

theorem decr_end {s : Map K V} {z : Nat} {kz : K × V} (hlast : s.last = some z)
    (hz : s.cell z = some kz) (val : Option (K × V)) :
    Iterator.decr s ⟨none, val⟩ = .ok ⟨some z, some kz⟩ := by
  simp [Iterator.decr, hlast, Map.key, Map.value, Map.node, hz]

theorem rdecr_rend {s : Map K V} {a : Nat} {ka : K × V} (hfirst : s.first = some a)
    (ha : s.cell a = some ka) (val : Option (K × V)) :
    ReverseIterator.decr s ⟨none, val⟩ = .ok ⟨some a, some ka⟩ := by
  simp [ReverseIterator.decr, hfirst, Map.key, Map.value, Map.node, ha]

theorem entries_getLast {s : Map K V} {l : List Nat} {z : Nat} {kz : K × V}
    (hl : l.getLast? = some z) (hz : s.cell z = some kz) :
    ∃ ps, s.entries l = ps ++ [kz] := by
  obtain ⟨l', rfl⟩ := List.getLast?_eq_some_iff.1 hl
  refine ⟨s.entries l', ?_⟩
  rw [entries_append, entries_cons hz]
  simp [Map.entries]

theorem entries_head {s : Map K V} {l : List Nat} {a : Nat} {ka : K × V}
    (hl : l.head? = some a) (ha : s.cell a = some ka) :
    ∃ ps, s.entries l = ka :: ps := by
  cases l with
  | nil => simp at hl
  | cons b l =>
    simp only [List.head?_cons, Option.some.injEq] at hl
    subst hl
    exact ⟨s.entries l, entries_cons ha l⟩

end

section

variable {K V : Type}

/-- Stepping a forward iterator past the last node sets `target` to null and
leaves the pair it holds as it was, so dereferencing still yields that pair. -/
theorem incr_past_last_keeps_val {s : Map K V} {a : Nat} {kv : K × V}
    (hlive : (s.cell a).isSome = true) (hnext : s.next a = none) :
    Iterator.incr s ⟨some a, some kv⟩ = .ok ⟨none, some kv⟩ ∧
      Iterator.deref (⟨none, some kv⟩ : Iterator K V) = .ok kv := by
  simp [Iterator.incr, Map.node, hlive, hnext, Iterator.deref]

/-- C21 (fails): `operator*` returns `*val` without any test, and `operator++`
leaves `val` alone when it reaches the end.  On the map holding only `(1, 10)`,
the forward iterator stepped from `begin()` past the last element stands at the
`end()` sentinel and dereferencing it yields the pair `(1, 10)`; the same for
the reverse iterator stepped from `rbegin()` to `rend()`.  An iterator obtained
from `end()` or `rend()` has `val` null, and dereferencing reads through the
null pointer, which is no assertion failure. -/
theorem C21_deref_past_the_end_yields_stale_pair :
    ∃ (s : Map Nat Nat) (it it' e : Iterator Nat Nat) (rit rit' re : ReverseIterator Nat Nat),
      Map.run (KeyOps.std Nat) 5 (Map.ctor none none 0) [.insert (1, 10)] = .ok s ∧
      s.begin = .ok it ∧ it.incr s = .ok it' ∧ s.end = .ok e ∧ it'.target = e.target ∧
      it'.deref = .ok (1, 10) ∧
      s.rbegin = .ok rit ∧ rit.incr s = .ok rit' ∧ s.rend = .ok re ∧
      rit'.target = re.target ∧ rit'.deref = .ok (1, 10) ∧
      e.deref = .error .nullDeref ∧ re.deref = .error .nullDeref ∧
      Fault.nullDeref ≠ Fault.assertFail :=
  ⟨_, _, _, _, _, _, _, rfl, rfl, rfl, rfl, rfl, rfl, rfl, rfl, rfl, rfl, rfl, rfl, rfl,
    by decide⟩

section

variable [LinearOrder K]

/-- C22: in every non-empty state reached by completed operations, `--` on a
forward (or const) iterator at the end sentinel, whatever pair it still holds,
leaves it at `last` holding the pair stored there, which is the last pair of
forward iteration and has the greatest key; `--` on a reverse iterator at the
rend sentinel leaves it at `first` holding the pair stored there, which is the
first pair of forward iteration and has the least key. -/
theorem C22_decrement_from_sentinel (s : Map K V) (hr : Reachable s) (hne : s.size ≠ 0)
    (fuel : Nat) (hf : s.size + 1 < fuel) :
    ∃ (ps : List (K × V)) (z a : Nat) (kz ka : K × V),
      s.to_list fuel = .ok ps ∧ ps.Pairwise (fun p q => p.1 < q.1) ∧
      s.last = some z ∧ s.first = some a ∧ s.cell z = some kz ∧ s.cell a = some ka ∧
      ps.getLast? = some kz ∧ ps.head? = some ka ∧
      (∀ p ∈ ps, p.1 ≤ kz.1) ∧ (∀ p ∈ ps, ka.1 ≤ p.1) ∧
      (∀ val, Iterator.decr s ⟨none, val⟩ = .ok ⟨some z, some kz⟩) ∧
      (∀ val, ReverseIterator.decr s ⟨none, val⟩ = .ok ⟨some a, some ka⟩) ∧
      (∃ e, s.end = .ok e ∧ e.decr s = .ok ⟨some z, some kz⟩) ∧
      (∃ e, s.rend = .ok e ∧ e.decr s = .ok ⟨some a, some ka⟩) := by
  simp only [Map.size] at hne hf
  obtain ⟨t, ht, hth⟩ := reachable_wf hr hne
  have hlne : t.toList ≠ [] := by
    intro h0
    have := ht.count
    rw [h0] at this
    simp only [List.length_nil] at this
    omega
  obtain ⟨z, hz⟩ : ∃ z, t.toList.getLast? = some z := by
    cases h : t.toList.getLast? with
    | none => exact absurd (List.getLast?_eq_none_iff.1 h) hlne
    | some z => exact ⟨z, rfl⟩
  obtain ⟨a, ha⟩ : ∃ a, t.toList.head? = some a := by
    cases h : t.toList with
    | nil => exact absurd h hlne
    | cons a l => exact ⟨a, rfl⟩
  have hzm : z ∈ t.toList := List.mem_of_getLast?_eq_some hz
  have ham : a ∈ t.toList := by
    cases h : t.toList with
    | nil => exact absurd h hlne
    | cons b l =>
      rw [h] at ha
      simp only [List.head?_cons, Option.some.injEq] at ha
      subst ha
      simp
  obtain ⟨kz, hkz⟩ := Option.isSome_iff_exists.1 (ht.rep.live z hzm)
  obtain ⟨ka, hka⟩ := Option.isSome_iff_exists.1 (ht.rep.live a ham)
  obtain ⟨pz, hpz⟩ := entries_getLast hz hkz
  obtain ⟨pa, hpa⟩ := entries_head ha hka
  have hsorted := entries_sorted ht.sorted
  have hlast : s.last = some z := hth.last.trans hz
  have hfirst : s.first = some a := hth.first.trans ha
  refine ⟨s.entries t.toList, z, a, kz, ka,
    to_list_spec hth ht.rep.live (by rw [← ht.count]; exact hf), hsorted, hlast, hfirst, hkz,
    hka, ?_, ?_, ?_, ?_, decr_end hlast hkz, rdecr_rend hfirst hka,
    ⟨⟨none, none⟩, rfl, decr_end hlast hkz none⟩, ⟨⟨none, none⟩, rfl, rdecr_rend hfirst hka none⟩⟩
  · rw [hpz]
    simp
  · rw [hpa]
    simp
  · intro p hp
    rw [hpz] at hp hsorted
    rcases List.mem_append.1 hp with h | h
    · exact le_of_lt ((List.pairwise_append.1 hsorted).2.2 p h kz (by simp))
    · simp only [List.mem_singleton] at h
      subst h
      exact le_refl _
  · intro p hp
    rw [hpa] at hp hsorted
    rcases List.mem_cons.1 hp with h | h
    · subst h
      exact le_refl _
    · exact le_of_lt ((List.pairwise_cons.1 hsorted).1 p h)

/-- C22 at a concrete input: the map holding `(1, 10)` and `(2, 20)`. -/
theorem C22_decrement_from_sentinel_witness :
    Reachable (demo [.insert (1, 10), .insert (2, 20)]) ∧
    (demo [.insert (1, 10), .insert (2, 20)]).size ≠ 0 ∧
    (∃ (ps : List (Nat × Nat)) (z a : Nat) (kz ka : Nat × Nat),
      (demo [.insert (1, 10), .insert (2, 20)]).to_list 5 = .ok ps ∧
      ps.getLast? = some kz ∧ ps.head? = some ka ∧
      (∀ val, Iterator.decr (demo [.insert (1, 10), .insert (2, 20)]) ⟨none, val⟩
        = .ok ⟨some z, some kz⟩) ∧
      (∀ val, ReverseIterator.decr (demo [.insert (1, 10), .insert (2, 20)]) ⟨none, val⟩
        = .ok ⟨some a, some ka⟩)) ∧
    Iterator.decr (demo [.insert (1, 10), .insert (2, 20)]) ⟨none, none⟩
      = .ok ⟨some 1, some (2, 20)⟩ ∧
    ReverseIterator.decr (demo [.insert (1, 10), .insert (2, 20)]) ⟨none, none⟩
      = .ok ⟨some 0, some (1, 10)⟩ := by
  have hr : Reachable (demo [.insert (1, 10), .insert (2, 20)]) :=
    demo_reachable [.insert (1, 10), .insert (2, 20)] rfl
  obtain ⟨ps, z, a, kz, ka, h1, _, _, _, _, _, h7, h8, _, _, h11, h12, _⟩ :=
    C22_decrement_from_sentinel _ hr (by decide) 5 (by decide)
  exact ⟨hr, by decide, ⟨ps, z, a, kz, ka, h1, h7, h8, h11, h12⟩, rfl, rfl⟩

/-- C23: in every state reached by completed operations that holds `(k, v)`,
`find k` returns an iterator at the node of `k` whose own pair is `(k, v)`, and
`at k` returns the reference to the value stored in that node.  Dereferencing
the iterator reads only the iterator's own pair, so it yields `(k, v)` also
after a value `w` was assigned through the reference (the node then stores
`(k, w)`, which an iterator newly arriving at the node reads), after `erase k`
(the node is then gone), and after any completed sequence of operations.
Assigning `w` to the second member of the dereferenced pair changes the
iterator's pair to `(k, w)` and no state of the map: the node still stores
`v`. -/
theorem C23_iterator_holds_snapshot (s : Map K V) (hr : Reachable s) (k : K) (v : V)
    (hkv : s.HasPair k v) (fuel : Nat) (hf : s.num_nodes < fuel) :
    ∃ (it : Iterator K V) (a : Nat),
      s.find (KeyOps.std K) fuel k = .ok it ∧ it.target = some a ∧ it.deref = .ok (k, v) ∧
      s.at (KeyOps.std K) fuel k = .ok (.value a) ∧ s.read (.value a) = .ok v ∧
      (∀ w : V, ∃ s' : Map K V, s.write (.value a) w = .ok s' ∧ s'.read (.value a) = .ok w ∧
        Iterator.ctor s' (some a) = .ok ⟨some a, some (k, w)⟩ ∧ it.deref = .ok (k, v)) ∧
      (∃ s' : Map K V, s.erase (KeyOps.std K) fuel k = .ok s' ∧ s'.cell a = none ∧
        it.deref = .ok (k, v)) ∧
      (∀ (ops : List (Op K V)) (fuel' : Nat) (s' : Map K V),
        Map.run (KeyOps.std K) fuel' s ops = .ok s' → it.deref = .ok (k, v)) ∧
      (∀ w : V, ∃ it' : Iterator K V, it.assign w = .ok it' ∧ it'.deref = .ok (k, w) ∧
        it'.target = it.target ∧ s.read (.value a) = .ok v) := by
  obtain ⟨t, ht, hth⟩ := hr.inv
  obtain ⟨a, ha, hca⟩ := (hasPair_iff ht k v).1 hkv
  have hread : s.read (.value a) = .ok v := by
    simp [Map.read, Map.value, hca]
  refine ⟨⟨some a, some (k, v)⟩, a, find_present ht ha hca hf, rfl, rfl,
    at_present ht ha hca hf, hread, ?_, ?_, fun _ _ _ _ => rfl, ?_⟩
  · intro w
    refine ⟨{ s with cell := upd s.cell a (some (k, w)) }, ?_, ?_, ?_, rfl⟩
    · simp [Map.write, hca]
    · simp [Map.read, Map.value, upd]
    · simp [Iterator.ctor, Map.key, Map.value, upd]
  · obtain ⟨s', t', A, B, e1, _, _, _, _, e6, _⟩ :=
      delete_node_spec ht (hth (List.ne_nil_of_mem ha)) ha hca hf
    refine ⟨s', by simp [Map.erase, e1], ?_, rfl⟩
    rw [e6]
    simp [upd]
  · intro w
    exact ⟨⟨some a, some (k, w)⟩, rfl, rfl, rfl, hread⟩

/-- C23 at a concrete input: the iterator from `find 1` on the map holding
`(1, 10)` and `(2, 20)`. -/
theorem C23_iterator_holds_snapshot_witness :
    Reachable (demo [.insert (1, 10), .insert (2, 20)]) ∧
    (demo [.insert (1, 10), .insert (2, 20)]).HasPair 1 10 ∧
    ∃ (it : Iterator Nat Nat) (a : Nat),
      (demo [.insert (1, 10), .insert (2, 20)]).find (KeyOps.std Nat) 5 1 = .ok it ∧
      it.target = some a ∧ it.deref = .ok (1, 10) ∧
      (∀ w : Nat, ∃ s' : Map Nat Nat,
        (demo [.insert (1, 10), .insert (2, 20)]).write (.value a) w = .ok s' ∧
        s'.read (.value a) = .ok w ∧ it.deref = .ok (1, 10)) ∧
      (∃ s' : Map Nat Nat,
        (demo [.insert (1, 10), .insert (2, 20)]).erase (KeyOps.std Nat) 5 1 = .ok s' ∧
        s'.cell a = none ∧ it.deref = .ok (1, 10)) ∧
      (∀ w : Nat, ∃ it' : Iterator Nat Nat, it.assign w = .ok it' ∧ it'.deref = .ok (1, w) ∧
        (demo [.insert (1, 10), .insert (2, 20)]).read (.value a) = .ok 10) := by
  have hr : Reachable (demo [.insert (1, 10), .insert (2, 20)]) :=
    demo_reachable [.insert (1, 10), .insert (2, 20)] rfl
  have hp : (demo [.insert (1, 10), .insert (2, 20)]).HasPair 1 10 :=
    ⟨_, demo2_tree, 0, by simp [BTree.toList], rfl⟩
  obtain ⟨it, a, h1, h2, h3, _, _, h6, h7, _, h9⟩ :=
    C23_iterator_holds_snapshot _ hr 1 10 hp 5 (by decide)
  refine ⟨hr, hp, it, a, h1, h2, h3, ?_, h7, ?_⟩
  · intro w
    obtain ⟨s', e1, e2, _, e4⟩ := h6 w
    exact ⟨s', e1, e2, e4⟩
  · intro w
    obtain ⟨it', e1, e2, _, e4⟩ := h9 w
    exact ⟨it', e1, e2, e4⟩

/-- Every completed `erase` in a state reached by completed operations leaves
the colour of every node as it was. -/
theorem erase_keeps_colours {s s' : Map K V} (hr : Reachable s) {fuel : Nat} {k : K}
    (hrun : s.erase (KeyOps.std K) fuel k = .ok s') : s'.color = s.color := by
  obtain ⟨b, hb⟩ := erase_inv hrun
  exact delete_node_color hr.inv hb

end

/-- C24: `insert 1, insert 2, erase 1` on an empty map ends with the single
node of key `2` as a red root, so the root is not black; and
`insert 2, insert 1, insert 3, insert 4, erase 1` ends in the tree with the
black root `2`, no left child, the black right child `3` and its red right
child `4`, where the path from the root to its absent left child has one black
node and the other three paths have two. -/
theorem C24_erase_breaks_red_black_colouring :
    ∃ s s3 : Map Nat Nat,
      Map.run (KeyOps.std Nat) 5 (Map.ctor none none 0)
        [.insert (1, 0), .insert (2, 0), .erase 1] = .ok s ∧
      s.root = some 1 ∧ s.cell 1 = some (2, 0) ∧ s.color 1 = red ∧ ¬ s.rootBlack ∧
      Map.run (KeyOps.std Nat) 6 (Map.ctor none none 0)
        [.insert (2, 0), .insert (1, 0), .insert (3, 0), .insert (4, 0), .erase 1] = .ok s3 ∧
      s3.root = some 0 ∧
      Rep s3 (.node .nil 0 (.node .nil 2 (.node .nil 3 .nil))) none ∧
      s3.color 0 = black ∧ s3.color 2 = black ∧ s3.color 3 = red ∧
      (BTree.node .nil 0 (.node .nil 2 (.node .nil 3 .nil))).blackCounts s3.color
        = [1, 2, 2, 2] := by
  refine ⟨_, _, rfl, rfl, rfl, rfl, ?_, rfl, rfl, ?_, rfl, rfl, rfl, rfl⟩
  · intro h
    exact absurd (h 1 rfl) (by decide)
  · exact ⟨rfl, rfl, rfl, rfl, trivial, ⟨rfl, rfl, rfl, rfl, trivial,
      ⟨rfl, rfl, rfl, rfl, trivial, trivial⟩⟩⟩

section

variable [LinearOrder K]

/-- C25 (fails): `Map()` sets `root = nullptr` and `num_nodes = 0` only;
`first` and `last` hold whatever the memory held.  Where they hold addresses
`x` and `y`, they are not absent, `begin()` and `rbegin()` read through them
(no node is there) instead of equalling `end()` and `rend()`, and `operator==`
and the copy constructor, which start with `begin()`, do the same. -/
theorem C25_default_constructor_leaves_first_last_unset (x y : Nat) (m d : V)
    (vo : ValOps V) (b : Map K V) (fuel n : Nat) (f l : Ptr) :
    (Map.ctor (some x) (some y) m : Map K V).root = none ∧
    (Map.ctor (some x) (some y) m : Map K V).size = 0 ∧
    (Map.ctor (some x) (some y) m : Map K V).first = some x ∧
    (Map.ctor (some x) (some y) m : Map K V).last = some y ∧
    (Map.ctor (some x) (some y) m : Map K V).begin = .error .nullDeref ∧
    (Map.ctor (some x) (some y) m : Map K V).end = .ok ⟨none, none⟩ ∧
    (Map.ctor (some x) (some y) m : Map K V).rbegin = .error .nullDeref ∧
    (Map.ctor (some x) (some y) m : Map K V).rend = .ok ⟨none, none⟩ ∧
    Map.eq vo fuel (Map.ctor (some x) (some y) m) b = .error .nullDeref ∧
    Map.copy_ctor (KeyOps.std K) fuel n f l d (Map.ctor (some x) (some y) m)
      = .error .nullDeref := by
  refine ⟨rfl, rfl, rfl, rfl, ?_, rfl, ?_, rfl, ?_, ?_⟩
  · simp [Map.begin, Iterator.ctor, Map.key, Map.ctor]
  · simp [Map.rbegin, ReverseIterator.ctor, Map.key, Map.ctor]
  · simp [Map.eq, Map.begin, Iterator.ctor, Map.key, Map.ctor]
  · simp [Map.copy_ctor, Map.begin, Iterator.ctor, Map.key, Map.ctor]

/-- C26: every run of inserts on a newly constructed map returns, and in the
state reached the height of the tree (the number of nodes on the longest path
from the root down to an absent child, which the height walk over the `left`
and `right` links returns) is at most twice the binary logarithm of
`size() + 1`; with the logarithm rounded down, in the form
`2 ^ ((height + 1) / 2) ≤ size() + 1`, and with the real logarithm. -/
theorem C26_insert_only_height_is_logarithmic (f l : Ptr) (m : V) (kvs : List (K × V))
    (fuel : Nat) (hf : kvs.length < fuel) :
    ∃ (s : Map K V) (t : BTree),
      Map.run (KeyOps.std K) fuel (Map.ctor f l m) (kvs.map Op.insert) = .ok s ∧
      TreeOK s t ∧ height_walk fuel s s.root = .ok t.height ∧
      t.height ≤ 2 * Nat.log 2 (s.size + 1) ∧
      2 ^ ((t.height + 1) / 2) ≤ s.size + 1 ∧
      (t.height : ℝ) ≤ 2 * Real.logb 2 ((s.size : ℝ) + 1) := by
  obtain ⟨s, t, h1, h2, _, h4, h5, _⟩ :=
    run_inserts kvs (Map.ctor f l m) .nil (TreeOK.ctor f l m) (fun h => absurd rfl h)
      (fun r hr => by simp [Map.ctor] at hr) fuel (by
        show 0 + kvs.length < fuel
        omega)
  obtain ⟨t', H, ht', hrb⟩ :=
    run_inserts_rb kvs (Map.ctor f l m) .nil 0 (TreeOK.ctor f l m) (fun h => absurd rfl h)
      (show RB _ .nil 0 from rfl) fuel s h1
  have : t = t' := h2.unique ht'
  subst this
  have hn : s.num_nodes < fuel := by
    have : s.num_nodes ≤ 0 + kvs.length := h5
    omega
  have hwalk : height_walk fuel s s.root = .ok t.height := by
    rw [h2.root]
    exact height_walk_spec t none fuel h2.rep (h2.height_lt hn)
  have hroot : t.notRed s.color := by
    cases t with
    | nil => trivial
    | node tl a tr =>
      have hb : s.color a = black := h4 a h2.root
      show s.color a ≠ red
      rw [hb]
      exact black_ne_red
  obtain ⟨g1, g2, g3⟩ := rb_height_log hrb hroot
  have hsz : s.size = t.toList.length := h2.count
  refine ⟨s, t, h1, h2, hwalk, ?_, ?_, ?_⟩
  · rw [hsz]
    exact g1
  · rw [hsz]
    exact g2
  · rw [hsz]
    exact g3

/-- C26 at a concrete input: seven keys inserted in ascending order. -/
theorem C26_insert_only_height_is_logarithmic_witness :
    [((1 : Nat), (0 : Nat)), (2, 0), (3, 0), (4, 0), (5, 0), (6, 0), (7, 0)].length < 10 ∧
    ∃ (s : Map Nat Nat) (t : BTree),
      Map.run (KeyOps.std Nat) 10 (Map.ctor (some 7) (some 9) 0)
        ([((1 : Nat), (0 : Nat)), (2, 0), (3, 0), (4, 0), (5, 0), (6, 0), (7, 0)].map
          Op.insert) = .ok s ∧
      TreeOK s t ∧ height_walk 10 s s.root = .ok t.height ∧
      t.height ≤ 2 * Nat.log 2 (s.size + 1) ∧
      2 ^ ((t.height + 1) / 2) ≤ s.size + 1 ∧
      (t.height : ℝ) ≤ 2 * Real.logb 2 ((s.size : ℝ) + 1) :=
  ⟨by decide, C26_insert_only_height_is_logarithmic (some 7) (some 9) (0 : Nat)
    [((1 : Nat), (0 : Nat)), (2, 0), (3, 0), (4, 0), (5, 0), (6, 0), (7, 0)] 10 (by decide)⟩

end

/-- C27: the maps built by inserting `(1, 10), (2, 20)` and by inserting
`(3, 10), (4, 20)` hold different keys, and `operator==` on them returns
`true`. -/
theorem C27_eq_true_for_different_key_sets :
    ∃ a b : Map Nat Nat,
      Map.run (KeyOps.std Nat) 5 (Map.ctor none none 0) [.insert (1, 10), .insert (2, 20)]
        = .ok a ∧
      Map.run (KeyOps.std Nat) 5 (Map.ctor none none 0) [.insert (3, 10), .insert (4, 20)]
        = .ok b ∧
      a.to_list 5 = .ok [(1, 10), (2, 20)] ∧ b.to_list 5 = .ok [(3, 10), (4, 20)] ∧
      Map.eq (ValOps.std Nat) 5 a b = .ok true ∧ Map.eq (ValOps.std Nat) 5 b a = .ok true ∧
      Map.ne (ValOps.std Nat) 5 a b = .ok false :=
  ⟨_, _, rfl, rfl, rfl, rfl, rfl, rfl, rfl⟩

/-- C28 (fails on a newly constructed map): `operator<` and `operator==` start
with `begin()`, which reads through `first`; on a map without any insert
`first` is as `Map()` left it, so where it holds an address none of `a < a`,
`a == a` returns: `a < a` is not `false`, and none of the three comparisons
holds. -/
theorem C28_comparisons_of_fresh_map_fault [LinearOrder K] [LinearOrder V] (x : Nat)
    (l : Ptr) (m : V) (fuel : Nat) :
    Reachable (Map.ctor (some x) l m : Map K V) ∧
    Map.lt (ValOps.std V) fuel (Map.ctor (some x) l m : Map K V) (Map.ctor (some x) l m)
      = .error .nullDeref ∧
    Map.eq (ValOps.std V) fuel (Map.ctor (some x) l m : Map K V) (Map.ctor (some x) l m)
      = .error .nullDeref := by
  refine ⟨Reachable.ctor _ _ _, ?_, ?_⟩
  · simp [Map.lt, Map.begin, Iterator.ctor, Map.key, Map.ctor]
  · simp [Map.eq, Map.begin, Iterator.ctor, Map.key, Map.ctor]

end

end kanec1994
